import Mathlib

/-!
# GROUP-BY aggregation executors of `tikv/aggregate.go`

A shallow embedding of the hash aggregation executor (`hashAggExec`) and of the
stream aggregation executor (`streamAggExec`, row API and batch API), followed by
theorems about them.

Modelling conventions.

* The executors are Go structs mutated in place.  Every method becomes a function
  from the struct value to a result paired with the new struct value.
* The upstream executor `e.src` is kept as a separate piece of state: the list of
  results its future pulls will give.  Once the list is used up every pull gives
  "no more data" (`nil` in the row form, an empty batch in the batch form).
* The collaborators that live in other packages (expression evaluation, the value
  codec, datum comparison, column decoding, the aggregate functions, the chunk
  library) are parameters: records of functions.
* Go slices and maps hold values here.  The one place where the code depends on
  two slices sharing a backing array (`nextGroupByRow` and `tmpGroupByRow`) is
  modelled explicitly, see `aliasView`.
* An index that is out of range, or a write to a nil map, is a run-time panic in Go;
  it is a `Failure` of its own here.
-/

namespace tikv

/-- Byte string (`[]byte`); a row in the row form is a `List Bytes` (`[][]byte`). -/
abbrev Bytes := List Nat

/-- The ways a call can fail: an error returned by a collaborator (the executors only
wrap it with `errors.Trace` and hand it upward), a Go run-time panic, or the fuel of a
loop of the model running out. -/
inductive Failure (Err : Type) where
  | err (e : Err)
  | indexOutOfRange
  | nilMap
  | outOfFuel
  deriving DecidableEq, Repr

/-- What the executors use of `evalContext` and of the statement context `sc` in it:
`decodeRelatedColumnVals` (decodes the related columns of a stored row into the row
buffer `e.row`; it overwrites every column the expressions read, so the buffer after a
successful call is a function of the stored row), `codec.EncodeValue(sc, nil, d)` and
`d.CompareDatum(sc, &d2)`. -/
structure evalContext (Datum Row Err : Type) where
  decodeRelatedColumnVals : List Nat → List Bytes → Except Err Row
  EncodeValue : Datum → Except Err Bytes
  CompareDatum : Datum → Datum → Except Err Int

/-- An `expression.Expression`: only `Eval` is used. -/
structure Expression (Datum Row Err : Type) where
  Eval : Row → Except Err Datum

/-- An `aggregation.Aggregation` (row API).  `Update` mutates the context it is given;
here it returns the new context. -/
structure Aggregation (Datum Row Ctx Err : Type) where
  CreateContext : Ctx
  Update : Ctx → Row → Except Err Ctx
  GetPartialResult : Ctx → List Datum

/-- The upstream executor in row form: the results of its future `Next` calls. -/
abbrev RowSrc (Err : Type) := List (Except Err (List Bytes))

section RowCommon

variable {Datum Row Ctx Err : Type}

/-- The inner loop `for _, result := range partialResults` shared by `hashAggExec.Next`
and `streamAggExec.getPartialResult`: encode every result and append it to `value`. -/
def encodeResults (ec : evalContext Datum Row Err) :
    List Datum → List Bytes → Except (Failure Err) (List Bytes)
  | [], value => .ok value
  | result :: rest, value =>
    match ec.EncodeValue result with
    | .error err => .error (.err err)
    | .ok data => encodeResults ec rest (value ++ [data])

/-- The loop `for i, agg := range e.aggExprs { err = agg.Update(aggCtxs[i], sc, e.row) }`
of `hashAggExec.aggregate` and `streamAggExec.Next`.  The contexts are mutated in place,
so the contexts updated before a failure stay updated. -/
def updateLoop (row : Row) :
    List (Aggregation Datum Row Ctx Err) → Nat → List Ctx → Option (Failure Err) × List Ctx
  | [], _, aggCtxs => (none, aggCtxs)
  | agg :: rest, i, aggCtxs =>
    match aggCtxs[i]? with
    | none => (some .indexOutOfRange, aggCtxs)
    | some c =>
      match agg.Update c row with
      | .error err => (some (.err err), aggCtxs)
      | .ok c' => updateLoop row rest (i + 1) (aggCtxs.set i c')

end RowCommon

/-! ## Hash aggregation executor -/

/-- The struct `hashAggExec` (without `src`, which is passed alongside, and `tps`).
`aggCtxsMap` is `none` while the Go map is nil.  `groups` is the key set of the Go map
`groups`, which the constructor allocates; `len(e.groups)` is its length. -/
structure hashAggExec (Datum Row Ctx Err : Type) where
  evalCtx : evalContext Datum Row Err
  aggExprs : List (Aggregation Datum Row Ctx Err)
  aggCtxsMap : Option (Bytes → Option (List Ctx))
  groupByExprs : List (Expression Datum Row Err)
  relatedColOffsets : List Nat
  row : Row
  groups : List Bytes
  groupKeys : List Bytes
  groupKeyRows : List (List Bytes)
  executed : Bool
  currGroupIdx : Nat
  count : Nat

namespace hashAggExec

variable {Datum Row Ctx Err : Type}

/-- Modelled from the spec: the constructor of the executor is not in `aggregate.go`.
The GroupTable is created empty once per invocation: every mutable field has its zero
value and `groups` is an allocated empty map. -/
def new (evalCtx : evalContext Datum Row Err) (aggExprs : List (Aggregation Datum Row Ctx Err))
    (groupByExprs : List (Expression Datum Row Err)) (relatedColOffsets : List Nat) (row : Row) :
    hashAggExec Datum Row Ctx Err :=
  { evalCtx := evalCtx, aggExprs := aggExprs, aggCtxsMap := none, groupByExprs := groupByExprs,
    relatedColOffsets := relatedColOffsets, row := row, groups := [], groupKeys := [],
    groupKeyRows := [], executed := false, currGroupIdx := 0, count := 0 }

/-- The first loop of `getGroupKey`: evaluate and encode every group-by expression. -/
def getGroupKeyLoop (ec : evalContext Datum Row Err) (r : Row) :
    List (Expression Datum Row Err) → List Bytes → Except (Failure Err) (List Bytes)
  | [], row => .ok row
  | item :: rest, row =>
    match item.Eval r with
    | .error err => .error (.err err)
    | .ok v =>
      match ec.EncodeValue v with
      | .error err => .error (.err err)
      | .ok b => getGroupKeyLoop ec r rest (row ++ [b])

/-- `getGroupKey`: the concatenated key and the list of encoded values; both are nil
(empty) when there is no group-by expression. -/
def getGroupKey (e : hashAggExec Datum Row Ctx Err) : Except (Failure Err) (Bytes × List Bytes) :=
  if e.groupByExprs.length = 0 then .ok ([], [])
  else
    match getGroupKeyLoop e.evalCtx e.row e.groupByExprs [] with
    | .error f => .error f
    | .ok row => .ok (row.foldl (fun buf col => buf ++ col) [], row)

/-- `getContexts`: the contexts of a group, created and stored on first use. -/
def getContexts (e : hashAggExec Datum Row Ctx Err) (groupKey : Bytes) :
    Except (Failure Err) (List Ctx) × hashAggExec Datum Row Ctx Err :=
  match e.aggCtxsMap with
  | none =>
    (.error .nilMap, e)
  | some m =>
    match m groupKey with
    | some aggCtxs => (.ok aggCtxs, e)
    | none =>
      let aggCtxs := e.aggExprs.map (fun agg => agg.CreateContext)
      (.ok aggCtxs,
        { e with aggCtxsMap := some (fun k => if k = groupKey then some aggCtxs else m k) })

/-- `aggregate`: update the aggregate functions with one stored row. -/
def aggregate (e : hashAggExec Datum Row Ctx Err) (value : List Bytes) :
    Option (Failure Err) × hashAggExec Datum Row Ctx Err :=
  match e.evalCtx.decodeRelatedColumnVals e.relatedColOffsets value with
  | .error err => (some (.err err), e)
  | .ok row =>
    let e1 := { e with row := row }
    match e1.getGroupKey with
    | .error f => (some f, e1)
    | .ok (gk, gbyKeyRow) =>
      let e2 :=
        if gk ∈ e1.groups then e1
        else { e1 with groups := e1.groups ++ [gk], groupKeys := e1.groupKeys ++ [gk],
                       groupKeyRows := e1.groupKeyRows ++ [gbyKeyRow] }
      match e2.getContexts gk with
      | (.error f, e3) => (some f, e3)
      | (.ok aggCtxs, e3) =>
        let (res, aggCtxs') := updateLoop e3.row e3.aggExprs 0 aggCtxs
        (res, { e3 with aggCtxsMap :=
                  e3.aggCtxsMap.map (fun m k => if k = gk then some aggCtxs' else m k) })

/-- `innerNext`: pull one row from the source and aggregate it; `false` at the end. -/
def innerNext (e : hashAggExec Datum Row Ctx Err) (src : RowSrc Err) :
    Except (Failure Err) Bool × hashAggExec Datum Row Ctx Err × RowSrc Err :=
  match src with
  | [] => (.ok false, e, [])
  | .error err :: rest => (.error (.err err), e, rest)
  | .ok values :: rest =>
    match e.aggregate values with
    | (some f, e') => (.error f, e', rest)
    | (none, e') => (.ok true, e', rest)

/-- The loop `for { hasMore, err := e.innerNext(ctx) ... }` of `Next`, by recursion on the
source: each round is one `innerNext` (see `fetchAll_eq_innerNext`). -/
def fetchAll (e : hashAggExec Datum Row Ctx Err) :
    RowSrc Err → Option (Failure Err) × hashAggExec Datum Row Ctx Err × RowSrc Err
  | [] => (none, e, [])
  | .error err :: rest => (some (.err err), e, rest)
  | .ok values :: rest =>
    match e.aggregate values with
    | (some f, e') => (some f, e', rest)
    | (none, e') => fetchAll e' rest

/-- The loop `for i, agg := range e.aggExprs` of `Next`. -/
def partialsLoop (ec : evalContext Datum Row Err) (aggCtxs : List Ctx) :
    List (Aggregation Datum Row Ctx Err) → Nat → List Bytes → Except (Failure Err) (List Bytes)
  | [], _, value => .ok value
  | agg :: rest, i, value =>
    match aggCtxs[i]? with
    | none => .error .indexOutOfRange
    | some c =>
      match encodeResults ec (agg.GetPartialResult c) value with
      | .error f => .error f
      | .ok value' => partialsLoop ec aggCtxs rest (i + 1) value'

/-- The second half of `Next`, from `if e.currGroupIdx >= len(e.groups)` on: the record of
the group at the cursor, or `.ok none` ("no more data", the return `nil, nil`). -/
def nextGroup (e : hashAggExec Datum Row Ctx Err) (src : RowSrc Err) :
    Except (Failure Err) (Option (List Bytes)) × hashAggExec Datum Row Ctx Err × RowSrc Err :=
  if e.currGroupIdx ≥ e.groups.length then (.ok none, e, src)
  else
    match e.groupKeys[e.currGroupIdx]? with
    | none => (.error .indexOutOfRange, e, src)
    | some gk =>
      match e.getContexts gk with
      | (.error f, e3) => (.error f, e3, src)
      | (.ok aggCtxs, e3) =>
        match partialsLoop e3.evalCtx aggCtxs e3.aggExprs 0 [] with
        | .error f => (.error f, e3, src)
        | .ok value =>
          match e3.groupKeyRows[e3.currGroupIdx]? with
          | none => (.error .indexOutOfRange, e3, src)
          | some gkr =>
            (.ok (some (value ++ gkr)), { e3 with currGroupIdx := e3.currGroupIdx + 1 }, src)

/-- `Next`: on the first call read the whole input, then return one record per call. -/
def Next (e : hashAggExec Datum Row Ctx Err) (src : RowSrc Err) :
    Except (Failure Err) (Option (List Bytes)) × hashAggExec Datum Row Ctx Err × RowSrc Err :=
  let e0 := { e with count := e.count + 1 }
  let e1 := if e0.aggCtxsMap.isNone then { e0 with aggCtxsMap := some (fun _ => none) } else e0
  if !e1.executed then
    match e1.fetchAll src with
    | (some f, e2, src') => (.error f, e2, src')
    | (none, e2, src') => nextGroup { e2 with executed := true } src'
  else nextGroup e1 src

/-- The results of `n` successive calls of `Next`. -/
def pulls : Nat → hashAggExec Datum Row Ctx Err → RowSrc Err →
    List (Except (Failure Err) (Option (List Bytes)))
  | 0, _, _ => []
  | n + 1, e, src =>
    match e.Next src with
    | (r, e', src') => r :: pulls n e' src'

end hashAggExec

/-! ## Stream aggregation executor -/

/-- An `aggfuncs.AggFunc` (batch API).  `UpdatePartialResult` and `ResetPartialResult`
mutate the partial result they are given; here they return the new one.
`AppendFinalResult2Chunk(sctx, pr, chk)` computes the final value of `pr` and appends it to
the column `ordinal` of `chk`. -/
structure AggFunc (Datum Row PR Err : Type) where
  AllocPartialResult : PR
  ResetPartialResult : PR → PR
  UpdatePartialResult : List Row → PR → Except Err PR
  FinalResult : PR → Except Err Datum
  ordinal : Nat

/-- A `chunk.Chunk`, as far as the executor uses it: the values appended since the last
`Reset`, each with the index of its column, in the order of appending; the number of
columns; the number of virtual rows. -/
structure Chunk (Datum : Type) where
  numCols : Nat
  cells : List (Nat × Datum)
  numVirtualRows : Nat

namespace Chunk

variable {Datum : Type}

/-- The values of column `i`. -/
def column (c : Chunk Datum) (i : Nat) : List Datum :=
  (c.cells.filter (fun cell => cell.1 = i)).map (fun cell => cell.2)

/-- `NumRows`: the virtual row count of a chunk without columns, else the length of the
first column. -/
def NumRows (c : Chunk Datum) : Nat :=
  if c.numCols = 0 then c.numVirtualRows else (c.column 0).length

/-- `Reset`. -/
def Reset (c : Chunk Datum) : Chunk Datum :=
  { c with cells := [], numVirtualRows := 0 }

/-- `AppendDatum(colIdx, d)`: append `d` to the column `colIdx`.  The result is `none`
when the chunk has no column `colIdx`: the Go code then panics with an index out of range
on `c.columns[colIdx]`. -/
def AppendDatum (c : Chunk Datum) (colIdx : Nat) (d : Datum) : Option (Chunk Datum) :=
  if colIdx < c.numCols then some { c with cells := c.cells ++ [(colIdx, d)] } else none

/-- `SetNumVirtualRows`. -/
def SetNumVirtualRows (c : Chunk Datum) (n : Nat) : Chunk Datum :=
  { c with numVirtualRows := n }

end Chunk

/-- The upstream executor in batch form: the batches its future `nextChunk` calls will
put into `childResult`.  Once the list is used up every call gives an empty batch. -/
abbrev ChunkSrc (Row Err : Type) := List (Except Err (List Row))

/-- The struct `streamAggExec` (without `src`, `seCtx` and `tps`).  `nextGroupByRow` is
`none` while the Go slice is nil.  `childResult` holds the rows of the child chunk.
`inputIter` holds the rows of `childResult` from `inputRow` to the end, so that
`inputRow = inputIter.End()` exactly when it is empty, and `inputIter.Next()` drops its
head. -/
structure streamAggExec (Datum Row Ctx PR Err : Type) where
  evalCtx : evalContext Datum Row Err
  aggExprs : List (Aggregation Datum Row Ctx Err)
  aggCtxs : List Ctx
  groupByExprs : List (Expression Datum Row Err)
  relatedColOffsets : List Nat
  row : Row
  tmpGroupByRow : List Datum
  currGroupByRow : List Datum
  nextGroupByRow : Option (List Datum)
  currGroupByValues : List Bytes
  executed : Bool
  hasData : Bool
  count : Nat
  newAggFuncs : List (AggFunc Datum Row PR Err)
  partialResults : List PR
  groupRows : List Row
  childResult : Option (List Row)
  isChildReturnEmpty : Bool
  inputIter : List Row

/-- What `nextGroupByRow` holds after `tmpGroupByRow` has been cut to length zero and
refilled with `tmp`.  `meetNewGroup` assigns `e.nextGroupByRow = e.tmpGroupByRow` without a
copy, so from then on both slices share one backing array and every
`append(e.tmpGroupByRow, d)` overwrites the matching entry of `nextGroupByRow`. -/
def aliasView {Datum : Type} (next : Option (List Datum)) (tmp : List Datum) :
    Option (List Datum) :=
  next.map (fun old => tmp ++ old.drop tmp.length)

/-- The loop `for i, item := range e.groupByExprs` of `meetNewGroup` and of
`meetNewGroupChunk`: `r` is the row the expressions are evaluated on, `other` the slice
the values are compared with (`e.nextGroupByRow`, `e.currGroupByRow`), `tmp` the contents of
`e.tmpGroupByRow`.  Entry `i` of `other` is read before entry `i` of `tmpGroupByRow` is
written. -/
def compareLoop {Datum Row Err : Type} (ec : evalContext Datum Row Err) (r : Row)
    (other : List Datum) :
    List (Expression Datum Row Err) → Nat → Bool → List Datum →
      Except (Failure Err) Bool × List Datum
  | [], _, matched, tmp => (.ok matched, tmp)
  | item :: rest, i, matched, tmp =>
    match item.Eval r with
    | .error err => (.error (.err err), tmp)
    | .ok d =>
      if matched then
        match other[i]? with
        | none => (.error .indexOutOfRange, tmp)
        | some d2 =>
          match ec.CompareDatum d d2 with
          | .error err => (.error (.err err), tmp)
          | .ok c => compareLoop ec r other rest (i + 1) (c == 0) (tmp ++ [d])
      else compareLoop ec r other rest (i + 1) matched (tmp ++ [d])

namespace streamAggExec

variable {Datum Row Ctx PR Err : Type}

/-- Modelled from the spec: the constructor of the executor is not in `aggregate.go`.
The GroupState is created once per invocation: one freshly created context per aggregate
function, every other mutable field at its zero value. -/
def new (evalCtx : evalContext Datum Row Err) (aggExprs : List (Aggregation Datum Row Ctx Err))
    (groupByExprs : List (Expression Datum Row Err)) (relatedColOffsets : List Nat) (row : Row)
    (newAggFuncs : List (AggFunc Datum Row PR Err)) : streamAggExec Datum Row Ctx PR Err :=
  { evalCtx := evalCtx, aggExprs := aggExprs,
    aggCtxs := aggExprs.map (fun agg => agg.CreateContext),
    groupByExprs := groupByExprs, relatedColOffsets := relatedColOffsets, row := row,
    tmpGroupByRow := [], currGroupByRow := [], nextGroupByRow := none, currGroupByValues := [],
    executed := false, hasData := false, count := 0, newAggFuncs := newAggFuncs,
    partialResults := [], groupRows := [], childResult := none, isChildReturnEmpty := false,
    inputIter := [] }

/-- The loop `for i, agg := range e.aggExprs` of `getPartialResult`: encode the partial
results of every context, then replace the context by a fresh one. -/
def getPartialResultLoop (ec : evalContext Datum Row Err) :
    List (Aggregation Datum Row Ctx Err) → Nat → List Ctx → List Bytes →
      Except (Failure Err) (List Bytes) × List Ctx
  | [], _, aggCtxs, value => (.ok value, aggCtxs)
  | agg :: rest, i, aggCtxs, value =>
    match aggCtxs[i]? with
    | none => (.error .indexOutOfRange, aggCtxs)
    | some c =>
      match encodeResults ec (agg.GetPartialResult c) value with
      | .error f => (.error f, aggCtxs)
      | .ok value' => getPartialResultLoop ec rest (i + 1) (aggCtxs.set i agg.CreateContext) value'

/-- The loop `for _, d := range e.currGroupByRow` of `getPartialResult`, filling
`e.currGroupByValues`. -/
def encodeGroupByRow (ec : evalContext Datum Row Err) :
    List Datum → List Bytes → Option (Failure Err) × List Bytes
  | [], vals => (none, vals)
  | d :: rest, vals =>
    match ec.EncodeValue d with
    | .error err => (some (.err err), vals)
    | .ok buf => encodeGroupByRow ec rest (vals ++ [buf])

/-- `getPartialResult`: the record of the current group; resets the contexts and makes
the next group the current one. -/
def getPartialResult (e : streamAggExec Datum Row Ctx PR Err) :
    Except (Failure Err) (List Bytes) × streamAggExec Datum Row Ctx PR Err :=
  match getPartialResultLoop e.evalCtx e.aggExprs 0 e.aggCtxs [] with
  | (.error f, aggCtxs) => (.error f, { e with aggCtxs := aggCtxs })
  | (.ok value, aggCtxs) =>
    let e1 := { e with aggCtxs := aggCtxs }
    match encodeGroupByRow e1.evalCtx e1.currGroupByRow [] with
    | (some f, vals) => (.error f, { e1 with currGroupByValues := vals })
    | (none, vals) =>
      (.ok (value ++ vals),
        { e1 with currGroupByValues := vals, currGroupByRow := e1.nextGroupByRow.getD [] })

/-- `meetNewGroup`: whether the row in `e.row` starts a new group. -/
def meetNewGroup (e : streamAggExec Datum Row Ctx PR Err) (_row : List Bytes) :
    Except (Failure Err) Bool × streamAggExec Datum Row Ctx PR Err :=
  if e.groupByExprs.length = 0 then (.ok false, e)
  else
    let firstGroup := e.nextGroupByRow.isNone
    match compareLoop e.evalCtx e.row (e.nextGroupByRow.getD []) e.groupByExprs 0 (!firstGroup) []
    with
    | (.error f, tmp) =>
      (.error f, { e with tmpGroupByRow := tmp, nextGroupByRow := aliasView e.nextGroupByRow tmp })
    | (.ok matched, tmp) =>
      let e1 := { e with tmpGroupByRow := tmp, nextGroupByRow := aliasView e.nextGroupByRow tmp }
      let e2 := if firstGroup then { e1 with currGroupByRow := tmp } else e1
      if matched then (.ok false, e2)
      else (.ok (!firstGroup), { e2 with nextGroupByRow := some tmp })

/-- The loop `for { values, err := e.src.Next(ctx) ... }` of `Next`, by recursion on the
source: each round pulls one row. -/
def nextLoop (e : streamAggExec Datum Row Ctx PR Err) :
    RowSrc Err →
      Except (Failure Err) (Option (List Bytes)) × streamAggExec Datum Row Ctx PR Err × RowSrc Err
  | [] =>
    let e1 := { e with executed := true }
    if !e1.hasData && e1.groupByExprs.length > 0 then (.ok none, e1, [])
    else
      match e1.getPartialResult with
      | (.error f, e2) => (.error f, e2, [])
      | (.ok value, e2) => (.ok (some value), e2, [])
  | .error err :: rest => (.error (.err err), e, rest)
  | .ok values :: rest =>
    let e1 := { e with hasData := true }
    match e1.evalCtx.decodeRelatedColumnVals e1.relatedColOffsets values with
    | .error err => (.error (.err err), e1, rest)
    | .ok row =>
      let e2 := { e1 with row := row }
      match e2.meetNewGroup values with
      | (.error f, e3) => (.error f, e3, rest)
      | (.ok newGroup, e3) =>
        let got : Except (Failure Err) (List Bytes) × streamAggExec Datum Row Ctx PR Err :=
          if newGroup then e3.getPartialResult else (.ok [], e3)
        match got with
        | (.error f, e4) => (.error f, e4, rest)
        | (.ok retRow, e4) =>
          match updateLoop e4.row e4.aggExprs 0 e4.aggCtxs with
          | (some f, aggCtxs) => (.error f, { e4 with aggCtxs := aggCtxs }, rest)
          | (none, aggCtxs) =>
            let e5 := { e4 with aggCtxs := aggCtxs }
            if newGroup then (.ok (some retRow), e5, rest)
            else nextLoop e5 rest

/-- `Next` (row API): `.ok none` is the return `nil, nil` ("no more data"). -/
def Next (e : streamAggExec Datum Row Ctx PR Err) (src : RowSrc Err) :
    Except (Failure Err) (Option (List Bytes)) × streamAggExec Datum Row Ctx PR Err × RowSrc Err :=
  let e0 := { e with count := e.count + 1 }
  if e0.executed then (.ok none, e0, src)
  else e0.nextLoop src

/-- The results of `n` successive calls of `Next`. -/
def pulls : Nat → streamAggExec Datum Row Ctx PR Err → RowSrc Err →
    List (Except (Failure Err) (Option (List Bytes)))
  | 0, _, _ => []
  | n + 1, e, src =>
    match e.Next src with
    | (r, e', src') => r :: pulls n e' src'

/-! ### Batch API -/

/-- `open`: allocate the child chunk and one partial result per aggregate function. -/
def «open» (e : streamAggExec Datum Row Ctx PR Err) : streamAggExec Datum Row Ctx PR Err :=
  { e with childResult := some [], executed := false, isChildReturnEmpty := true, inputIter := [],
           partialResults := e.newAggFuncs.map (fun newAggFunc => newAggFunc.AllocPartialResult) }

/-- The loop `for i, newAggFunc := range e.newAggFuncs` of `consumeGroupRows`. -/
def consumeGroupRowsLoop (groupRows : List Row) :
    List (AggFunc Datum Row PR Err) → Nat → List PR → Option (Failure Err) × List PR
  | [], _, prs => (none, prs)
  | newAggFunc :: rest, i, prs =>
    match prs[i]? with
    | none => (some .indexOutOfRange, prs)
    | some pr =>
      match newAggFunc.UpdatePartialResult groupRows pr with
      | .error err => (some (.err err), prs)
      | .ok pr' => consumeGroupRowsLoop groupRows rest (i + 1) (prs.set i pr')

/-- `consumeGroupRows`: feed the buffered rows of the current group to the aggregate
functions and empty the buffer. -/
def consumeGroupRows (e : streamAggExec Datum Row Ctx PR Err) :
    Option (Failure Err) × streamAggExec Datum Row Ctx PR Err :=
  if e.groupRows.length = 0 then (none, e)
  else
    match consumeGroupRowsLoop e.groupRows e.newAggFuncs 0 e.partialResults with
    | (some f, prs) => (some f, { e with partialResults := prs })
    | (none, prs) => (none, { e with partialResults := prs, groupRows := [] })

/-- The loop `for i := range e.currGroupByRow { chk.AppendDatum(i, &e.currGroupByRow[i]) }`
of `appendResult2Chunk`.  The values appended before a panic stay in the chunk. -/
def appendGroupByLoop : List Datum → Nat → Chunk Datum → Option (Failure Err) × Chunk Datum
  | [], _, chk => (none, chk)
  | d :: rest, i, chk =>
    match chk.AppendDatum i d with
    | none => (some .indexOutOfRange, chk)
    | some chk1 => appendGroupByLoop rest (i + 1) chk1

/-- The loop `for i, newAggFunc := range e.newAggFuncs` of `appendResult2Chunk`: append
the final result to the column of the aggregate function, then reset the partial
result. -/
def appendFinalLoop :
    List (AggFunc Datum Row PR Err) → Nat → List PR → Chunk Datum →
      Option (Failure Err) × List PR × Chunk Datum
  | [], _, prs, chk => (none, prs, chk)
  | newAggFunc :: rest, i, prs, chk =>
    match prs[i]? with
    | none => (some .indexOutOfRange, prs, chk)
    | some pr =>
      match newAggFunc.FinalResult pr with
      | .error err => (some (.err err), prs, chk)
      | .ok d =>
        match chk.AppendDatum newAggFunc.ordinal d with
        | none => (some .indexOutOfRange, prs, chk)
        | some chk1 =>
          appendFinalLoop rest (i + 1) (prs.set i (newAggFunc.ResetPartialResult pr)) chk1

/-- `appendResult2Chunk`: append `e.currGroupByRow` and the final result of every aggregate
function to the chunk, and reset the partial results. -/
def appendResult2Chunk (e : streamAggExec Datum Row Ctx PR Err) (chk : Chunk Datum) :
    Option (Failure Err) × streamAggExec Datum Row Ctx PR Err × Chunk Datum :=
  match appendGroupByLoop e.currGroupByRow 0 chk with
  | (some f, chk1) => (some f, e, chk1)
  | (none, chk1) =>
    match appendFinalLoop e.newAggFuncs 0 e.partialResults chk1 with
    | (some f, prs, chk2) => (some f, { e with partialResults := prs }, chk2)
    | (none, prs, chk2) =>
      let chk3 :=
        if e.currGroupByRow.length + e.newAggFuncs.length = 0 then
          chk2.SetNumVirtualRows (chk2.NumRows + 1)
        else chk2
      (none, { e with partialResults := prs }, chk3)

/-- `meetNewGroupChunk`: whether `row` starts a new group. -/
def meetNewGroupChunk (e : streamAggExec Datum Row Ctx PR Err) (row : Row) :
    Except (Failure Err) Bool × streamAggExec Datum Row Ctx PR Err :=
  if e.groupByExprs.length = 0 then (.ok false, e)
  else
    let firstGroup := decide (e.currGroupByRow.length = 0)
    match compareLoop e.evalCtx row e.currGroupByRow e.groupByExprs 0 (!firstGroup) [] with
    | (.error f, tmp) =>
      (.error f, { e with tmpGroupByRow := tmp, nextGroupByRow := aliasView e.nextGroupByRow tmp })
    | (.ok matched, tmp) =>
      let e1 := { e with tmpGroupByRow := tmp, nextGroupByRow := aliasView e.nextGroupByRow tmp }
      if matched then (.ok false, e1)
      else (.ok (!firstGroup), { e1 with currGroupByRow := tmp })

/-- `fetchChildIfNecessary`: when the current input batch is used up, consume the buffered
rows and pull the next batch; an empty batch ends the execution. -/
def fetchChildIfNecessary (e : streamAggExec Datum Row Ctx PR Err) (src : ChunkSrc Row Err)
    (chk : Chunk Datum) :
    Option (Failure Err) × streamAggExec Datum Row Ctx PR Err × ChunkSrc Row Err × Chunk Datum :=
  match e.inputIter with
  | _ :: _ => (none, e, src, chk)
  | [] =>
    match e.consumeGroupRows with
    | (some f, e1) => (some f, e1, src, chk)
    | (none, e1) =>
      match src with
      | .error err :: rest => (some (.err err), e1, rest, chk)
      | src =>
        let batch : List Row := match src with
          | .ok b :: _ => b
          | _ => []
        let rest := src.tail
        let e2 := { e1 with childResult := some batch }
        if batch.length = 0 then
          let appended : Option (Failure Err) × streamAggExec Datum Row Ctx PR Err × Chunk Datum :=
            if !e2.isChildReturnEmpty then e2.appendResult2Chunk chk else (none, e2, chk)
          match appended with
          | (err, e3, chk') => (err, { e3 with executed := true }, rest, chk')
        else (none, { e2 with isChildReturnEmpty := false, inputIter := batch }, rest, chk)

/-- The loop `for ; e.inputRow != e.inputIter.End(); e.inputRow = e.inputIter.Next()` of
`consumeOneGroup`, by recursion on the rows left in the input batch.  The result is
`.ok true` when the loop left the function through `return nil` at a group boundary and
`.ok false` when it ran to the end of the batch. -/
def consumeRows (e : streamAggExec Datum Row Ctx PR Err) (chk : Chunk Datum) :
    List Row → Except (Failure Err) Bool × streamAggExec Datum Row Ctx PR Err × Chunk Datum
  | [] => (.ok false, { e with inputIter := [] }, chk)
  | inputRow :: rest =>
    match e.meetNewGroupChunk inputRow with
    | (.error f, e1) => (.error f, { e1 with inputIter := inputRow :: rest }, chk)
    | (.ok meetNewGroup, e1) =>
      let flushed : Option (Failure Err) × streamAggExec Datum Row Ctx PR Err × Chunk Datum :=
        if meetNewGroup then
          match e1.consumeGroupRows with
          | (some f, e2) => (some f, e2, chk)
          | (none, e2) => e2.appendResult2Chunk chk
        else (none, e1, chk)
      match flushed with
      | (some f, e3, chk') => (.error f, { e3 with inputIter := inputRow :: rest }, chk')
      | (none, e3, chk') =>
        let e4 := { e3 with groupRows := e3.groupRows ++ [inputRow] }
        if meetNewGroup then (.ok true, { e4 with inputIter := rest }, chk')
        else consumeRows e4 chk' rest

/-- The loop `for !e.executed` of `consumeOneGroup`, with fuel. -/
def consumeOneGroupLoop :
    Nat → streamAggExec Datum Row Ctx PR Err → ChunkSrc Row Err → Chunk Datum →
      Option (Failure Err) × streamAggExec Datum Row Ctx PR Err × ChunkSrc Row Err × Chunk Datum
  | 0, e, src, chk => (some .outOfFuel, e, src, chk)
  | fuel + 1, e, src, chk =>
    if e.executed then (none, e, src, chk)
    else
      match e.fetchChildIfNecessary src chk with
      | (some f, e1, src1, chk1) => (some f, e1, src1, chk1)
      | (none, e1, src1, chk1) =>
        match e1.consumeRows chk1 e1.inputIter with
        | (.error f, e2, chk2) => (some f, e2, src1, chk2)
        | (.ok true, e2, chk2) => (none, e2, src1, chk2)
        | (.ok false, e2, chk2) => consumeOneGroupLoop fuel e2 src1 chk2

/-- `consumeOneGroup`: read input until one group is complete or the input ends.  Every
round of the loop after the first pulls a batch, so `len(src) + 3` rounds are enough
(see `consumeOneGroup_fuel`). -/
def consumeOneGroup (e : streamAggExec Datum Row Ctx PR Err) (src : ChunkSrc Row Err)
    (chk : Chunk Datum) :
    Option (Failure Err) × streamAggExec Datum Row Ctx PR Err × ChunkSrc Row Err × Chunk Datum :=
  consumeOneGroupLoop (src.length + 3) e src chk

/-- The number of rows the source will still deliver. -/
def srcRows : ChunkSrc Row Err → Nat
  | [] => 0
  | .ok b :: rest => b.length + srcRows rest
  | .error _ :: rest => srcRows rest

/-- The loop `for !e.executed && chk.NumRows() < chunkMaxRows` of `nextChunk`, with fuel. -/
def nextChunkLoop (chunkMaxRows : Nat) :
    Nat → streamAggExec Datum Row Ctx PR Err → ChunkSrc Row Err → Chunk Datum →
      Option (Failure Err) × streamAggExec Datum Row Ctx PR Err × ChunkSrc Row Err × Chunk Datum
  | 0, e, src, chk => (some .outOfFuel, e, src, chk)
  | fuel + 1, e, src, chk =>
    if !e.executed && decide (chk.NumRows < chunkMaxRows) then
      let e1 :=
        if e.childResult.isNone then
          { e with childResult := some [], isChildReturnEmpty := true, inputIter := [] }
        else e
      match e1.consumeOneGroup src chk with
      | (some f, e2, src2, chk2) => (some f, { e2 with executed := true }, src2, chk2)
      | (none, e2, src2, chk2) => nextChunkLoop chunkMaxRows fuel e2 src2 chk2
    else (none, e, src, chk)

/-- `nextChunk` (batch API); the package constant `chunkMaxRows` is a parameter.  Every
round of the loop but the last two takes at least one row out of the input, so the
number of rows left plus two rounds are enough (see `nextChunk_fuel`). -/
def nextChunk (chunkMaxRows : Nat) (e : streamAggExec Datum Row Ctx PR Err)
    (src : ChunkSrc Row Err) (chk : Chunk Datum) :
    Option (Failure Err) × streamAggExec Datum Row Ctx PR Err × ChunkSrc Row Err × Chunk Datum :=
  nextChunkLoop chunkMaxRows (e.inputIter.length + srcRows src + 2) e src chk.Reset

/-- The results and output batches of `n` successive calls of `nextChunk`, each call
being handed the chunk the previous one has filled. -/
def nextChunks (chunkMaxRows : Nat) :
    Nat → streamAggExec Datum Row Ctx PR Err → ChunkSrc Row Err → Chunk Datum →
      List (Option (Failure Err) × Chunk Datum)
  | 0, _, _, _ => []
  | n + 1, e, src, chk =>
    match e.nextChunk chunkMaxRows src chk with
    | (r, e', src', chk') => (r, chk') :: nextChunks chunkMaxRows n e' src' chk'

end streamAggExec

/-! ## Specification-level definitions -/

/-- Total functions that the collaborators are compared with: what decoding, the
evaluation of a group-by expression, encoding and an aggregate update give when they do
not fail. -/
structure PureFns (Datum Row Ctx Err : Type) where
  dec : List Bytes → Row
  ev : Expression Datum Row Err → Row → Datum
  enc : Datum → Bytes
  upd : Aggregation Datum Row Ctx Err → Ctx → Row → Ctx

/-- No collaborator of the row API fails on the stored rows `input`: decoding, the
evaluation of every group-by expression and every aggregate update succeed on each of
them, and the codec encodes every value. -/
structure RowOk {Datum Row Ctx Err : Type} (P : PureFns Datum Row Ctx Err)
    (ec : evalContext Datum Row Err) (offs : List Nat)
    (exprs : List (Expression Datum Row Err)) (aggs : List (Aggregation Datum Row Ctx Err))
    (input : List (List Bytes)) : Prop where
  decode : ∀ v ∈ input, ec.decodeRelatedColumnVals offs v = .ok (P.dec v)
  eval : ∀ v ∈ input, ∀ ex ∈ exprs, ex.Eval (P.dec v) = .ok (P.ev ex (P.dec v))
  encode : ∀ d, ec.EncodeValue d = .ok (P.enc d)
  update : ∀ v ∈ input, ∀ agg ∈ aggs, ∀ c, agg.Update c (P.dec v) = .ok (P.upd agg c (P.dec v))

section SpecRow

variable {Datum Row Ctx Err : Type}

/-- The encoded group-by values of a row, one per group-by expression. -/
def encsOf (P : PureFns Datum Row Ctx Err) (exprs : List (Expression Datum Row Err)) (r : Row) :
    List Bytes :=
  exprs.map (fun ex => P.enc (P.ev ex r))

/-- The group key of a row: its encoded group-by values, concatenated. -/
def keyOf (P : PureFns Datum Row Ctx Err) (exprs : List (Expression Datum Row Err)) (r : Row) :
    Bytes :=
  (encsOf P exprs r).flatten

/-- Contexts created fresh, one per aggregate function, and updated with the rows `rs`
in order. -/
def ctxsOf (P : PureFns Datum Row Ctx Err) (aggs : List (Aggregation Datum Row Ctx Err))
    (rs : List Row) : List Ctx :=
  aggs.map (fun agg => rs.foldl (P.upd agg) agg.CreateContext)

/-- The flat list of the encoded partial results of every aggregate function, in
aggregate order, for the given contexts. -/
def encodePartials (P : PureFns Datum Row Ctx Err) (aggs : List (Aggregation Datum Row Ctx Err))
    (ctxs : List Ctx) : List Bytes :=
  (List.zipWith (fun agg c => (agg.GetPartialResult c).map P.enc) aggs ctxs).flatten

/-- The encoded partial results of fresh contexts updated with the rows `rs` in order. -/
def partialsOf (P : PureFns Datum Row Ctx Err) (aggs : List (Aggregation Datum Row Ctx Err))
    (rs : List Row) : List Bytes :=
  encodePartials P aggs (ctxsOf P aggs rs)

/-- The first row of every distinct key, in order of first occurrence. -/
def firstRows {κ : Type} [DecidableEq κ] (key : Row → κ) : List Row → List Row
  | [] => []
  | r :: rs => r :: (firstRows key rs).filter (fun r2 => key r2 ≠ key r)

/-- The record of the group of `r0` among `rows`: the encoded partial results of fresh
contexts updated with the rows having the key of `r0`, in input order, followed by the
encoded group-by values of `r0`. -/
def hashRecord (P : PureFns Datum Row Ctx Err) (exprs : List (Expression Datum Row Err))
    (aggs : List (Aggregation Datum Row Ctx Err)) (rows : List Row) (r0 : Row) : List Bytes :=
  partialsOf P aggs (rows.filter (fun r => keyOf P exprs r = keyOf P exprs r0)) ++ encsOf P exprs r0

/-- The records of all groups of `rows`, in order of first occurrence of their keys. -/
def hashRecords (P : PureFns Datum Row Ctx Err) (exprs : List (Expression Datum Row Err))
    (aggs : List (Aggregation Datum Row Ctx Err)) (rows : List Row) : List (List Bytes) :=
  (firstRows (keyOf P exprs) rows).map (hashRecord P exprs aggs rows)

/-- The contents of `aggCtxsMap` after the rows `done` have been aggregated. -/
def ctxMapOf (P : PureFns Datum Row Ctx Err) (exprs : List (Expression Datum Row Err))
    (aggs : List (Aggregation Datum Row Ctx Err)) (done : List Row) : Bytes → Option (List Ctx) :=
  fun k =>
    if k ∈ done.map (keyOf P exprs) then
      some (ctxsOf P aggs (done.filter (fun r => keyOf P exprs r = k)))
    else none

/-- The hash executor after the rows `done` have been aggregated. -/
def hashAfter (P : PureFns Datum Row Ctx Err) (ec : evalContext Datum Row Err)
    (offs : List Nat) (exprs : List (Expression Datum Row Err))
    (aggs : List (Aggregation Datum Row Ctx Err)) (done : List Row) (row : Row)
    (executed : Bool) (idx count : Nat) : hashAggExec Datum Row Ctx Err :=
  { evalCtx := ec, aggExprs := aggs, aggCtxsMap := some (ctxMapOf P exprs aggs done),
    groupByExprs := exprs, relatedColOffsets := offs, row := row,
    groups := (firstRows (keyOf P exprs) done).map (keyOf P exprs),
    groupKeys := (firstRows (keyOf P exprs) done).map (keyOf P exprs),
    groupKeyRows := (firstRows (keyOf P exprs) done).map (encsOf P exprs),
    executed := executed, currGroupIdx := idx, count := count }

end SpecRow

/-- The records among the results of successive pulls. -/
def recordsOf {Err : Type} : List (Except (Failure Err) (Option (List Bytes))) → List (List Bytes)
  | [] => []
  | .ok (some rec) :: rest => rec :: recordsOf rest
  | _ :: rest => recordsOf rest

/-! ### A concrete instance

Values are natural numbers, a row is the list of its column values, a stored row holds
each column value as a one-byte string, and an error is a string. -/

namespace Demo

/-- Decoding takes the byte of every column, the codec writes a number as one byte, and
comparison is by difference. -/
def ec : evalContext Nat (List Nat) String :=
  { decodeRelatedColumnVals := fun _ v => .ok (v.map (fun b => b.headD 0)),
    EncodeValue := fun d => .ok [d],
    CompareDatum := fun a b => .ok (Int.ofNat a - Int.ofNat b) }

/-- The expression that reads column `i`. -/
def col (i : Nat) : Expression Nat (List Nat) String :=
  { Eval := fun r => .ok (r.getD i 0) }

/-- The aggregate `count(*)`. -/
def count : Aggregation Nat (List Nat) Nat String :=
  { CreateContext := 0, Update := fun c _ => .ok (c + 1), GetPartialResult := fun c => [c] }

/-- The aggregate `sum` of column 1. -/
def sum : Aggregation Nat (List Nat) Nat String :=
  { CreateContext := 0, Update := fun c r => .ok (c + r.getD 1 0), GetPartialResult := fun c => [c] }

/-- The total functions the collaborators of this instance agree with. -/
def fns : PureFns Nat (List Nat) Nat String :=
  { dec := fun v => v.map (fun b => b.headD 0),
    ev := fun ex r => match ex.Eval r with
      | .ok d => d
      | .error _ => 0,
    enc := fun d => [d],
    upd := fun agg c r => match agg.Update c r with
      | .ok c2 => c2
      | .error _ => c }

/-- Stored rows with the keys `a, a, b, b, b, c` (1, 1, 2, 2, 2, 3) in column 0 and a
number in column 1. -/
def stored : List (List Bytes) :=
  [[[1], [10]], [[1], [20]], [[2], [5]], [[2], [6]], [[2], [7]], [[3], [1]]]

end Demo

section SpecStream

variable {Datum Row Ctx PR Err : Type}

/-- The group-by values of a row, one per group-by expression. -/
def gvalsOf (P : PureFns Datum Row Ctx Err) (exprs : List (Expression Datum Row Err)) (r : Row) :
    List Datum :=
  exprs.map (fun ex => P.ev ex r)

/-- Column-wise comparison of two lists of group-by values: every pair compares to 0. -/
def keysMatch (cmp : Datum → Datum → Int) : List Datum → List Datum → Bool
  | a :: as, b :: bs => (cmp a b == 0) && keysMatch cmp as bs
  | _, _ => true

/-- The group-by values of row `r` compare equal to those of row `r2`. -/
def sameGroup (P : PureFns Datum Row Ctx Err) (cmp : Datum → Datum → Int)
    (exprs : List (Expression Datum Row Err)) (r r2 : Row) : Bool :=
  keysMatch cmp (gvalsOf P exprs r) (gvalsOf P exprs r2)

/-- The rows `runs.flatten` consist of the maximal runs `runs` of rows whose group-by
values compare equal: no run is empty, the rows of one run compare equal to each other,
and the rows of two neighbouring runs do not compare equal. -/
def IsRuns (same : Row → Row → Bool) (runs : List (List Row)) : Prop :=
  (∀ run ∈ runs, run ≠ [] ∧ ∀ a ∈ run, ∀ b ∈ run, same a b = true) ∧
  List.Chain' (fun run1 run2 => ∀ a ∈ run1, ∀ b ∈ run2, same b a = false) runs

/-- The record of the row API for a run: the encoded partial results of fresh contexts
updated with the rows of the run in order, followed by the encoded group-by values of the
first row of the run (there are none for an empty run). -/
def streamRecord (P : PureFns Datum Row Ctx Err) (exprs : List (Expression Datum Row Err))
    (aggs : List (Aggregation Datum Row Ctx Err)) : List Row → List Bytes
  | [] => partialsOf P aggs []
  | r :: rs => partialsOf P aggs (r :: rs) ++ encsOf P exprs r

/-- The stream executor of the row API with the given values in the fields the row API
writes; the fields of the batch API are as `new` leaves them. -/
def streamRowState (ec : evalContext Datum Row Err) (offs : List Nat)
    (exprs : List (Expression Datum Row Err)) (aggs : List (Aggregation Datum Row Ctx Err))
    (newAggFuncs : List (AggFunc Datum Row PR Err)) (aggCtxs : List Ctx) (row : Row)
    (tmp curr : List Datum) (next : Option (List Datum)) (vals : List Bytes)
    (executed hasData : Bool) (count : Nat) : streamAggExec Datum Row Ctx PR Err :=
  { evalCtx := ec, aggExprs := aggs, aggCtxs := aggCtxs, groupByExprs := exprs,
    relatedColOffsets := offs, row := row, tmpGroupByRow := tmp, currGroupByRow := curr,
    nextGroupByRow := next, currGroupByValues := vals, executed := executed, hasData := hasData,
    count := count, newAggFuncs := newAggFuncs, partialResults := [], groupRows := [],
    childResult := none, isChildReturnEmpty := false, inputIter := [] }

/-- The stream executor of the row API in the middle of a run: `cur` are the rows of the
run aggregated so far, `first` is the first row of the run and `prev` the last row read. -/
def streamMid (P : PureFns Datum Row Ctx Err) (ec : evalContext Datum Row Err) (offs : List Nat)
    (exprs : List (Expression Datum Row Err)) (aggs : List (Aggregation Datum Row Ctx Err))
    (newAggFuncs : List (AggFunc Datum Row PR Err)) (cur : List Row) (first prev : Row)
    (vals : List Bytes) (count : Nat) : streamAggExec Datum Row Ctx PR Err :=
  streamRowState ec offs exprs aggs newAggFuncs (ctxsOf P aggs cur) prev (gvalsOf P exprs prev)
    (gvalsOf P exprs first) (some (gvalsOf P exprs prev)) vals false true count

end SpecStream

namespace Demo

/-- Comparison by difference, as a total function. -/
def cmp (a b : Nat) : Int := Int.ofNat a - Int.ofNat b

/-- The stored rows of `stored`, split into their three runs. -/
def storedRuns : List (List (List Bytes)) :=
  [[[[1], [10]], [[1], [20]]], [[[2], [5]], [[2], [6]], [[2], [7]]], [[[3], [1]]]]

end Demo

section SpecHashOutput

variable {Datum Row Ctx Err : Type}

/-- All records the hash executor returns for the source `src`: the records among the
results of `len(src) + 1` successive pulls (there is at most one record per row, so the
last of these pulls is past the last record). -/
def hashOutput (e : hashAggExec Datum Row Ctx Err) (src : RowSrc Err) : List (List Bytes) :=
  recordsOf (hashAggExec.pulls (src.length + 1) e src)

/-- The value codec is self-delimiting: no encoded value is a proper initial segment of
another encoded value. -/
def SelfDelimiting (enc : Datum → Bytes) : Prop :=
  ∀ a b, enc a <+: enc b → enc a = enc b

/-- The list of encoded group-by values of every row of `rows` is the GroupKeyRow (the
trailing `len(exprs)` columns) of exactly one of the records `recs`. -/
def EveryRowInOneRecord (P : PureFns Datum Row Ctx Err) (exprs : List (Expression Datum Row Err))
    (recs : List (List Bytes)) (rows : List Row) : Prop :=
  ∀ r ∈ rows, ∃! i : Nat, ∃ rec, recs[i]? = some rec ∧
    rec.drop (rec.length - exprs.length) = encsOf P exprs r

/-- Two lists of records hold the same set of records. -/
def SameRecordSet (recs1 recs2 : List (List Bytes)) : Prop :=
  ∀ rec, rec ∈ recs1 ↔ rec ∈ recs2

end SpecHashOutput

/-! ### A second concrete instance

Values are byte strings and the codec writes a value as it is, without a length or an end
mark, so it is not self-delimiting. -/

namespace Raw

/-- A stored row is decoded into the list of its columns; the codec is the identity. -/
def ec : evalContext Bytes (List Bytes) String :=
  { decodeRelatedColumnVals := fun _ v => .ok v,
    EncodeValue := fun d => .ok d,
    CompareDatum := fun a b => .ok (if a = b then 0 else 1) }

/-- The expression that reads column `i`. -/
def col (i : Nat) : Expression Bytes (List Bytes) String :=
  { Eval := fun r => .ok (r.getD i []) }

/-- The aggregate `count(*)`, its result written as one byte. -/
def count : Aggregation Bytes (List Bytes) Nat String :=
  { CreateContext := 0, Update := fun c _ => .ok (c + 1), GetPartialResult := fun c => [[c]] }

/-- The total functions the collaborators of this instance agree with. -/
def fns : PureFns Bytes (List Bytes) Nat String :=
  { dec := fun v => v,
    ev := fun ex r => match ex.Eval r with
      | .ok d => d
      | .error _ => [],
    enc := fun d => d,
    upd := fun agg c r => match agg.Update c r with
      | .ok c2 => c2
      | .error _ => c }

/-- Two stored rows whose group-by values `("\x01", "\x02\x03")` and `("\x01\x02", "\x03")`
differ and have the same concatenation. -/
def stored : List (List Bytes) :=
  [[[1], [2, 3]], [[1, 2], [3]]]

end Raw

namespace Demo

/-- An aggregate that depends on the order of the rows: the value of column 1 in the last
row it was updated with. -/
def last : Aggregation Nat (List Nat) Nat String :=
  { CreateContext := 0, Update := fun _ r => .ok (r.getD 1 0), GetPartialResult := fun c => [c] }

end Demo

/-- The aggregate functions do not depend on the order of the rows `rows`: two updates
with rows of `rows` give the same context in either order. -/
def OrderInsensitive {Datum Row Ctx Err : Type} (P : PureFns Datum Row Ctx Err)
    (aggs : List (Aggregation Datum Row Ctx Err)) (rows : List Row) : Prop :=
  ∀ agg ∈ aggs, ∀ r1 ∈ rows, ∀ r2 ∈ rows, ∀ c,
    P.upd agg (P.upd agg c r1) r2 = P.upd agg (P.upd agg c r2) r1

namespace Demo

/-- Two stored rows of one group. -/
def pair : List (List Bytes) := [[[1], [10]], [[1], [20]]]

/-- The rows of `pair` in the other order. -/
def pairSwapped : List (List Bytes) := [[[1], [20]], [[1], [10]]]

end Demo

/-! ### Batch API of the stream executor -/

/-- Total functions that the aggregate functions of the batch API are compared with: what
`UpdatePartialResult` and `AppendFinalResult2Chunk` compute when they do not fail. -/
structure PureAggFns (Datum Row PR Err : Type) where
  upd : AggFunc Datum Row PR Err → List Row → PR → PR
  fin : AggFunc Datum Row PR Err → PR → Datum

/-- No collaborator of the batch API fails on the rows `rows`: the evaluation of every
group-by expression succeeds on each of them, datum comparison succeeds, and every
aggregate function accepts every list of rows of `rows` and gives a final result. -/
structure ChunkOk {Datum Row Ctx PR Err : Type} (P : PureFns Datum Row Ctx Err)
    (Q : PureAggFns Datum Row PR Err) (cmp : Datum → Datum → Int)
    (ec : evalContext Datum Row Err) (exprs : List (Expression Datum Row Err))
    (newAggFuncs : List (AggFunc Datum Row PR Err)) (rows : List Row) : Prop where
  eval : ∀ r ∈ rows, ∀ ex ∈ exprs, ex.Eval r = .ok (P.ev ex r)
  compare : ∀ a b, ec.CompareDatum a b = .ok (cmp a b)
  update : ∀ f ∈ newAggFuncs, ∀ rs pr, (∀ r ∈ rs, r ∈ rows) →
    f.UpdatePartialResult rs pr = .ok (Q.upd f rs pr)
  final : ∀ f ∈ newAggFuncs, ∀ pr, f.FinalResult pr = .ok (Q.fin f pr)

section SpecBatch

variable {Datum Row Ctx PR Err : Type}

/-- The partial results after the rows `rs` have been fed to every aggregate function in
one call (`consumeGroupRows`); nothing happens when there are no rows. -/
def flushRows (Q : PureAggFns Datum Row PR Err) (newAggFuncs : List (AggFunc Datum Row PR Err))
    (rs : List Row) (prs : List PR) : List PR :=
  if rs.length = 0 then prs else List.zipWith (fun f pr => Q.upd f rs pr) newAggFuncs prs

/-- The partial results after the segments `segs` have been fed one after the other. -/
def flushSegs (Q : PureAggFns Datum Row PR Err) (newAggFuncs : List (AggFunc Datum Row PR Err))
    (segs : List (List Row)) (prs : List PR) : List PR :=
  segs.foldl (fun prs seg => flushRows Q newAggFuncs seg prs) prs

/-- The final results of the partial results, one per aggregate function. -/
def finalsOf (Q : PureAggFns Datum Row PR Err) (newAggFuncs : List (AggFunc Datum Row PR Err))
    (prs : List PR) : List Datum :=
  List.zipWith (fun f pr => Q.fin f pr) newAggFuncs prs

/-- The partial results after `ResetPartialResult`. -/
def resetAll (newAggFuncs : List (AggFunc Datum Row PR Err)) (prs : List PR) : List PR :=
  List.zipWith (fun f pr => f.ResetPartialResult pr) newAggFuncs prs

/-- The partial results `open` allocates. -/
def allocAll (newAggFuncs : List (AggFunc Datum Row PR Err)) : List PR :=
  newAggFuncs.map (fun f => f.AllocPartialResult)

/-- The output batch has a column for every group-by value and for the final result of
every aggregate function, so that no `AppendDatum` of `appendResult2Chunk` is out of
range. -/
def ChunkFits (exprs : List (Expression Datum Row Err))
    (newAggFuncs : List (AggFunc Datum Row PR Err)) (chk : Chunk Datum) : Prop :=
  exprs.length ≤ chk.numCols ∧ ∀ f ∈ newAggFuncs, f.ordinal < chk.numCols

/-- The output batch after `Reset`, written out: the columns stay, no cell and no virtual
row is left. -/
def clearedChunk (chk : Chunk Datum) : Chunk Datum :=
  { numCols := chk.numCols, cells := [], numVirtualRows := 0 }

/-- The cells `appendResult2Chunk` appends for one record: the group-by values `key` in
the columns `0, 1, ...`, then the final result of every aggregate function in the column
of its ordinal. -/
def recordCells (newAggFuncs : List (AggFunc Datum Row PR Err)) (rec : List Datum × List Datum) :
    List (Nat × Datum) :=
  rec.1.enum ++ List.zipWith (fun f d => (f.ordinal, d)) newAggFuncs rec.2

/-- The output batch after `appendResult2Chunk` has appended the record `rec` (group-by
values and final results): its cells are appended, and a chunk that gets no cell gets one
more virtual row. -/
def appendRecord (newAggFuncs : List (AggFunc Datum Row PR Err)) (chk : Chunk Datum)
    (rec : List Datum × List Datum) : Chunk Datum :=
  if rec.1.length + newAggFuncs.length = 0 then
    { chk with cells := chk.cells ++ recordCells newAggFuncs rec,
               numVirtualRows := Chunk.NumRows
                 { chk with cells := chk.cells ++ recordCells newAggFuncs rec } + 1 }
  else { chk with cells := chk.cells ++ recordCells newAggFuncs rec }

/-- What the batch API keeps of the input read so far: the last group-by values evaluated
(`tmpGroupByRow`), the group-by values of the current group (`currGroupByRow`), the
partial results, and the buffered rows of the current group (`groupRows`). -/
structure BatchAbs (Datum Row PR : Type) where
  tmp : List Datum
  curr : List Datum
  prs : List PR
  buf : List Row

/-- One round of the loop over the rows of the input batch in `consumeOneGroup`: the record
appended to the output batch (group-by values and final results), if the row starts a new
group, and the new state. -/
def absStep (P : PureFns Datum Row Ctx Err) (Q : PureAggFns Datum Row PR Err)
    (cmp : Datum → Datum → Int) (exprs : List (Expression Datum Row Err))
    (newAggFuncs : List (AggFunc Datum Row PR Err)) (s : BatchAbs Datum Row PR) (r : Row) :
    Option (List Datum × List Datum) × BatchAbs Datum Row PR :=
  if exprs.length = 0 then (none, { s with buf := s.buf ++ [r] })
  else if s.curr.length = 0 then
    (none, { s with tmp := gvalsOf P exprs r, curr := gvalsOf P exprs r, buf := s.buf ++ [r] })
  else if keysMatch cmp (gvalsOf P exprs r) s.curr then
    (none, { s with tmp := gvalsOf P exprs r, buf := s.buf ++ [r] })
  else
    (some (gvalsOf P exprs r, finalsOf Q newAggFuncs (flushRows Q newAggFuncs s.buf s.prs)),
      { tmp := gvalsOf P exprs r, curr := gvalsOf P exprs r,
        prs := resetAll newAggFuncs (flushRows Q newAggFuncs s.buf s.prs), buf := [r] })

/-- The rounds of that loop up to the first row that starts a new group: the record
appended for the group that has ended together with the rows left in the batch, or `none`
when the batch is used up. -/
def absUntil (P : PureFns Datum Row Ctx Err) (Q : PureAggFns Datum Row PR Err)
    (cmp : Datum → Datum → Int) (exprs : List (Expression Datum Row Err))
    (newAggFuncs : List (AggFunc Datum Row PR Err)) (s : BatchAbs Datum Row PR) :
    List Row → Option ((List Datum × List Datum) × List Row) × BatchAbs Datum Row PR
  | [] => (none, s)
  | r :: rest =>
    match absStep P Q cmp exprs newAggFuncs s r with
    | (some rec, s2) => (some (rec, rest), s2)
    | (none, s2) => absUntil P Q cmp exprs newAggFuncs s2 rest

/-- All rounds of that loop over the rows of one batch: the records appended and the new
state. -/
def absRows (P : PureFns Datum Row Ctx Err) (Q : PureAggFns Datum Row PR Err)
    (cmp : Datum → Datum → Int) (exprs : List (Expression Datum Row Err))
    (newAggFuncs : List (AggFunc Datum Row PR Err)) (s : BatchAbs Datum Row PR) :
    List Row → List (List Datum × List Datum) × BatchAbs Datum Row PR
  | [] => ([], s)
  | r :: rest =>
    match absStep P Q cmp exprs newAggFuncs s r with
    | (some rec, s2) =>
      (rec :: (absRows P Q cmp exprs newAggFuncs s2 rest).1,
        (absRows P Q cmp exprs newAggFuncs s2 rest).2)
    | (none, s2) => absRows P Q cmp exprs newAggFuncs s2 rest

/-- The record appended for the last group when the input ends; `seen` tells whether any
row has been read. -/
def absEnd (Q : PureAggFns Datum Row PR Err) (newAggFuncs : List (AggFunc Datum Row PR Err))
    (s : BatchAbs Datum Row PR) (seen : Bool) : List (List Datum × List Datum) :=
  if seen then [(s.curr, finalsOf Q newAggFuncs (flushRows Q newAggFuncs s.buf s.prs))]
  else []

/-- The records appended from the moment the current input batch is used up until the
input ends; the last argument lists the batches the source still delivers. -/
def absRun (P : PureFns Datum Row Ctx Err) (Q : PureAggFns Datum Row PR Err)
    (cmp : Datum → Datum → Int) (exprs : List (Expression Datum Row Err))
    (newAggFuncs : List (AggFunc Datum Row PR Err)) :
    BatchAbs Datum Row PR → Bool → List (List Row) → List (List Datum × List Datum)
  | s, seen, [] => absEnd Q newAggFuncs s seen
  | s, seen, [] :: _ => absEnd Q newAggFuncs s seen
  | s, _, (r :: b) :: bs =>
    (absRows P Q cmp exprs newAggFuncs
        { s with prs := flushRows Q newAggFuncs s.buf s.prs, buf := [] } (r :: b)).1 ++
      absRun P Q cmp exprs newAggFuncs
        (absRows P Q cmp exprs newAggFuncs
          { s with prs := flushRows Q newAggFuncs s.buf s.prs, buf := [] } (r :: b)).2 true bs

/-- The stream executor of the batch API with the given values in the fields the batch
API writes; the fields of the row API are as `new` leaves them. -/
def batchSt (ec : evalContext Datum Row Err) (offs : List Nat)
    (exprs : List (Expression Datum Row Err)) (aggs : List (Aggregation Datum Row Ctx Err))
    (newAggFuncs : List (AggFunc Datum Row PR Err)) (row : Row) (s : BatchAbs Datum Row PR)
    (child : Option (List Row)) (isChildReturnEmpty executed : Bool) (iter : List Row) :
    streamAggExec Datum Row Ctx PR Err :=
  { evalCtx := ec, aggExprs := aggs, aggCtxs := aggs.map (fun agg => agg.CreateContext),
    groupByExprs := exprs, relatedColOffsets := offs, row := row, tmpGroupByRow := s.tmp,
    currGroupByRow := s.curr, nextGroupByRow := none, currGroupByValues := [],
    executed := executed, hasData := false, count := 0, newAggFuncs := newAggFuncs,
    partialResults := s.prs, groupRows := s.buf, childResult := child,
    isChildReturnEmpty := isChildReturnEmpty, inputIter := iter }

/-- The cells of the output batches of `n` successive calls of `nextChunk`, concatenated. -/
def batchOutput (chunkMaxRows : Nat) (n : Nat) (e : streamAggExec Datum Row Ctx PR Err)
    (src : ChunkSrc Row Err) (chk : Chunk Datum) : List (Nat × Datum) :=
  ((streamAggExec.nextChunks chunkMaxRows n e src chk).map (fun res => res.2.cells)).flatten

end SpecBatch

/-- What stays true of the state of the batch API: there is one partial result per
aggregate function, `currGroupByRow` is empty or holds one value per group-by expression,
and the buffered rows are rows of the input `rows`. -/
structure BatchInv {Datum Row PR Err : Type} (exprs : List (Expression Datum Row Err))
    (newAggFuncs : List (AggFunc Datum Row PR Err)) (rows : List Row)
    (s : BatchAbs Datum Row PR) : Prop where
  prs : s.prs.length = newAggFuncs.length
  curr : s.curr.length = 0 ∨ s.curr.length = exprs.length
  buf : ∀ r ∈ s.buf, r ∈ rows

section SpecBatchPending

variable {Datum Row Ctx PR Err : Type}

/-- The records the batch API has still to append: none once the execution is finished,
else the records of the rows left in the current input batch followed by those of the
batches the source still delivers. -/
def pendingOf (P : PureFns Datum Row Ctx Err) (Q : PureAggFns Datum Row PR Err)
    (cmp : Datum → Datum → Int) (exprs : List (Expression Datum Row Err))
    (newAggFuncs : List (AggFunc Datum Row PR Err)) (s : BatchAbs Datum Row PR)
    (isChildReturnEmpty executed : Bool) (iter : List Row) (batches : List (List Row)) :
    List (List Datum × List Datum) :=
  if executed then []
  else
    (absRows P Q cmp exprs newAggFuncs s iter).1 ++
      absRun P Q cmp exprs newAggFuncs (absRows P Q cmp exprs newAggFuncs s iter).2
        (!isChildReturnEmpty) batches

/-- The number of rows in the batches. -/
def totalRows (batches : List (List Row)) : Nat :=
  (batches.map List.length).sum

/-- What stays true of the batch API between two steps: the invariant of the state, the
rows still to be read are rows of `rows`, and rows are left in the current input batch
only after a non-empty batch has been pulled. -/
structure BatchWf (exprs : List (Expression Datum Row Err))
    (newAggFuncs : List (AggFunc Datum Row PR Err)) (rows : List Row)
    (s : BatchAbs Datum Row PR) (isChildReturnEmpty : Bool) (iter : List Row)
    (batches : List (List Row)) : Prop where
  inv : BatchInv exprs newAggFuncs rows s
  iterRows : ∀ r ∈ iter, r ∈ rows
  batchRows : ∀ b ∈ batches, ∀ r ∈ b, r ∈ rows
  seen : iter ≠ [] → isChildReturnEmpty = false

end SpecBatchPending

section SpecBatchAdvance

variable {Datum Row Ctx PR Err : Type}

/-- The result `res` of a step of the batch API that began with the output batch `chk`,
the records `pending` still to append and `measure` rows still to read: the step does not
fail, it appends the first records of `pending` to the output batch and leaves the others
to be appended, and it either finishes the execution or appends at least one record and
takes at least one row out of the input. -/
def Advances (P : PureFns Datum Row Ctx Err) (Q : PureAggFns Datum Row PR Err)
    (cmp : Datum → Datum → Int) (ec : evalContext Datum Row Err) (offs : List Nat)
    (exprs : List (Expression Datum Row Err)) (aggs : List (Aggregation Datum Row Ctx Err))
    (newAggFuncs : List (AggFunc Datum Row PR Err)) (row : Row) (rows : List Row)
    (pending : List (List Datum × List Datum)) (measure : Nat) (chk : Chunk Datum)
    (res : Option (Failure Err) × streamAggExec Datum Row Ctx PR Err × ChunkSrc Row Err ×
      Chunk Datum) : Prop :=
  ∃ (emitted : List (List Datum × List Datum)) (s2 : BatchAbs Datum Row PR) (c2 : List Row)
    (isE2 ex2 : Bool) (iter2 : List Row) (batches2 : List (List Row)),
    res = (none, batchSt ec offs exprs aggs newAggFuncs row s2 (some c2) isE2 ex2 iter2,
      batches2.map .ok, emitted.foldl (appendRecord newAggFuncs) chk) ∧
    pending = emitted ++ pendingOf P Q cmp exprs newAggFuncs s2 isE2 ex2 iter2 batches2 ∧
    BatchWf exprs newAggFuncs rows s2 isE2 iter2 batches2 ∧
    (ex2 = true ∨ (1 ≤ emitted.length ∧ iter2.length + totalRows batches2 + 1 ≤ measure))

end SpecBatchAdvance

/-- The state of the batch API after `open`: nothing read, freshly allocated partial
results. -/
def batchInit {Datum Row PR Err : Type} (newAggFuncs : List (AggFunc Datum Row PR Err)) :
    BatchAbs Datum Row PR :=
  { tmp := [], curr := [], prs := allocAll newAggFuncs, buf := [] }

/-- The final results of the records of the batch API, one list per run: `segss` lists,
for every run, the segments in which its rows are fed to the aggregate functions, and
`prs` are the partial results the first run starts with.  The partial results of a run are
fed its segments one after the other, they give the final results of the run, and they
are reset for the next run. -/
def finalsFrom {Datum Row PR Err : Type} (Q : PureAggFns Datum Row PR Err)
    (newAggFuncs : List (AggFunc Datum Row PR Err)) :
    List (List (List Row)) → List PR → List (List Datum)
  | [], _ => []
  | segs :: rest, prs =>
    finalsOf Q newAggFuncs (flushSegs Q newAggFuncs segs prs) ::
      finalsFrom Q newAggFuncs rest (resetAll newAggFuncs (flushSegs Q newAggFuncs segs prs))

namespace Demo

/-- The aggregate `count(*)` of the batch API; its result goes to column 1. -/
def countF : AggFunc Nat (List Nat) Nat String :=
  { AllocPartialResult := 0, ResetPartialResult := fun _ => 0,
    UpdatePartialResult := fun rs pr => .ok (pr + rs.length),
    FinalResult := fun pr => .ok pr, ordinal := 1 }

/-- The aggregate `sum` of column 1 of the batch API; its result goes to column 2. -/
def sumF : AggFunc Nat (List Nat) Nat String :=
  { AllocPartialResult := 0, ResetPartialResult := fun _ => 0,
    UpdatePartialResult := fun rs pr => .ok (pr + (rs.map (fun r => r.getD 1 0)).sum),
    FinalResult := fun pr => .ok pr, ordinal := 2 }

/-- The total functions the aggregate functions of the batch API agree with. -/
def aggFns : PureAggFns Nat (List Nat) Nat String :=
  { upd := fun f rs pr => match f.UpdatePartialResult rs pr with
      | .ok p => p
      | .error _ => pr,
    fin := fun f pr => match f.FinalResult pr with
      | .ok d => d
      | .error _ => 0 }

/-- The rows of `stored`, decoded, in their three runs. -/
def rowRuns : List (List (List Nat)) :=
  [[[1, 10], [1, 20]], [[2, 5], [2, 6], [2, 7]], [[3, 1]]]

/-- The rows of `stored`, decoded, as the source delivers them in three batches; the
second run spans all three batches. -/
def batches : List (List (List Nat)) :=
  [[[1, 10], [1, 20], [2, 5]], [[2, 6]], [[2, 7], [3, 1]]]

/-- An empty output batch with three columns. -/
def chunk : Chunk Nat := { numCols := 3, cells := [], numVirtualRows := 0 }

end Demo

/-! ### Success and failure of the collaborators, call by call -/

section SpecCalls

variable {Datum Row Ctx Err : Type}

/-- Every expression of `exprs` evaluates on `row` and the codec encodes its value;
`vals` lists the encoded values, one per expression, in expression order. -/
def KeyOk (ec : evalContext Datum Row Err) (row : Row) (exprs : List (Expression Datum Row Err))
    (vals : List Bytes) : Prop :=
  List.Forall₂ (fun ex b => ∃ d, ex.Eval row = .ok d ∧ ec.EncodeValue d = .ok b) exprs vals

/-- Going through `exprs` in order on `row`, the first call that fails is the evaluation of
an expression or the encoding of its value, and it fails with `err`. -/
def KeyFails (ec : evalContext Datum Row Err) (row : Row) (exprs : List (Expression Datum Row Err))
    (err : Err) : Prop :=
  ∃ (pre : List (Expression Datum Row Err)) (ex : Expression Datum Row Err)
    (post : List (Expression Datum Row Err)) (vals : List Bytes),
    exprs = pre ++ ex :: post ∧ KeyOk ec row pre vals ∧
    (ex.Eval row = .error err ∨ ∃ d, ex.Eval row = .ok d ∧ ec.EncodeValue d = .error err)

end SpecCalls

namespace Demo

/-- An expression whose evaluation fails on every row. -/
def failing : Expression Nat (List Nat) String :=
  { Eval := fun _ => .error "eval" }

/-- Stored rows with the keys `a, b, a` (1, 2, 1) in column 0: two distinct keys, not
arranged in two runs. -/
def unsorted : List (List Bytes) :=
  [[[1], [10]], [[2], [5]], [[1], [20]]]

end Demo

/-- The failure is an error that a collaborator has returned, not a run-time panic and not
the fuel of the model running out. -/
def Failure.isErr {Err : Type} : Failure Err → Bool
  | .err _ => true
  | _ => false

/-- The state invariant of the hash executor: `groupKeys` and `groupKeyRows` are as long
as the set `groups`, `groupKeys` has no duplicates and holds exactly the members of
`groups`, every registered key has an entry in `aggCtxsMap`, every entry holds one context
per aggregate function, no key is registered while the map is nil, and the cursor is at
most `len(groupKeys)`. -/
structure HashInv {Datum Row Ctx Err : Type} (e : hashAggExec Datum Row Ctx Err) : Prop where
  keysLen : e.groupKeys.length = e.groups.length
  rowsLen : e.groupKeyRows.length = e.groups.length
  nodup : e.groupKeys.Nodup
  members : ∀ k, k ∈ e.groupKeys ↔ k ∈ e.groups
  entry : ∀ m, e.aggCtxsMap = some m → ∀ k ∈ e.groups, ∃ aggCtxs, m k = some aggCtxs
  size : ∀ m, e.aggCtxsMap = some m → ∀ k aggCtxs, m k = some aggCtxs →
    aggCtxs.length = e.aggExprs.length
  noMap : e.aggCtxsMap = none → e.groups = []
  cursor : e.currGroupIdx ≤ e.groupKeys.length

/-- The hash executor and its source after `n` successive calls of `Next`. -/
def hashAggExec.after {Datum Row Ctx Err : Type} :
    Nat → hashAggExec Datum Row Ctx Err → RowSrc Err → hashAggExec Datum Row Ctx Err × RowSrc Err
  | 0, e, src => (e, src)
  | n + 1, e, src => hashAggExec.after n (e.Next src).2.1 (e.Next src).2.2

section SpecBatchSteps

variable {Datum Row Ctx PR Err : Type}

/-- The output batch `chk2` is `chk`, or `chk` with one record appended: group-by values
and the final results of the aggregate functions (of the first of them only, when one of
them has failed). -/
def AtMostOneRecord (newAggFuncs : List (AggFunc Datum Row PR Err)) (chk chk2 : Chunk Datum) :
    Prop :=
  chk2 = chk ∨ ∃ key ds : List Datum, ds.length ≤ newAggFuncs.length ∧
    chk2 = appendRecord newAggFuncs chk (key, ds)

end SpecBatchSteps

section SpecBatchStep

variable {Datum Row Ctx PR Err : Type}

/-- What one call of `consumeOneGroup` guarantees, in any state `e`, for any source `src`
and output batch `chk`, where `res` is its result: the group-by expressions and the
aggregate functions stay; the model's loop has not run out of fuel; at most one record has
been appended; and if the call has neither failed nor finished the execution, there are
group-by expressions, the output batch has columns, one record with one group-by value
per expression has been appended, and at least one row has been taken out of the
input. -/
def StepSpec (e : streamAggExec Datum Row Ctx PR Err) (src : ChunkSrc Row Err)
    (chk : Chunk Datum)
    (res : Option (Failure Err) × streamAggExec Datum Row Ctx PR Err × ChunkSrc Row Err ×
      Chunk Datum) : Prop :=
  res.2.1.groupByExprs = e.groupByExprs ∧ res.2.1.newAggFuncs = e.newAggFuncs ∧
  res.1 ≠ some .outOfFuel ∧
  AtMostOneRecord e.newAggFuncs chk res.2.2.2 ∧
  (res.1 = none → res.2.1.executed = false →
    e.groupByExprs.length ≠ 0 ∧
    res.2.1.inputIter.length + streamAggExec.srcRows res.2.2.1 <
      e.inputIter.length + streamAggExec.srcRows src ∧
    chk.numCols ≠ 0 ∧
    ∃ key ds : List Datum, key.length = e.groupByExprs.length ∧
      ds.length ≤ e.newAggFuncs.length ∧
      res.2.2.2 = appendRecord e.newAggFuncs chk (key, ds))

end SpecBatchStep

section SpecBatchEnd

variable {Datum Row Ctx PR Err : Type}

/-- The records appended at group boundaries while the batches are read one after the
other, and the state in which the end of the input is met. -/
def absBatches (P : PureFns Datum Row Ctx Err) (Q : PureAggFns Datum Row PR Err)
    (cmp : Datum → Datum → Int) (exprs : List (Expression Datum Row Err))
    (newAggFuncs : List (AggFunc Datum Row PR Err)) :
    BatchAbs Datum Row PR → List (List Row) → List (List Datum × List Datum) × BatchAbs Datum Row PR
  | s, [] => ([], s)
  | s, b :: bs =>
    ((absRows P Q cmp exprs newAggFuncs
        { s with prs := flushRows Q newAggFuncs s.buf s.prs, buf := [] } b).1 ++
      (absBatches P Q cmp exprs newAggFuncs
        (absRows P Q cmp exprs newAggFuncs
          { s with prs := flushRows Q newAggFuncs s.buf s.prs, buf := [] } b).2 bs).1,
     (absBatches P Q cmp exprs newAggFuncs
        (absRows P Q cmp exprs newAggFuncs
          { s with prs := flushRows Q newAggFuncs s.buf s.prs, buf := [] } b).2 bs).2)

/-- The source delivers no row: it is at its end, or its next batch is empty. -/
def FirstBatchEmpty (src : ChunkSrc Row Err) : Prop :=
  src = [] ∨ ∃ rest, src = .ok [] :: rest

end SpecBatchEnd

section SpecFailures

variable {Datum Row Ctx Err : Type}

end SpecFailures

section SpecStreamFailures

variable {Datum Row Ctx PR Err : Type}

end SpecStreamFailures

namespace Demo

end Demo

/-! ## Lemmas and theorems -/

section ListLemmas

variable {α κ : Type} [DecidableEq κ]

theorem foldl_append_eq_flatten (l : List (List α)) (init : List α) :
    l.foldl (fun buf col => buf ++ col) init = init ++ l.flatten := by
  induction l generalizing init with
  | nil => simp
  | cons x xs ih => simp [ih, List.append_assoc]

theorem firstRows_subset (key : α → κ) (l : List α) : ∀ r ∈ firstRows key l, r ∈ l := by
  induction l with
  | nil => simp [firstRows]
  | cons x xs ih =>
    intro r hr
    simp only [firstRows, List.mem_cons, List.mem_filter] at hr
    rcases hr with rfl | ⟨h, _⟩
    · simp
    · exact List.mem_cons_of_mem _ (ih r h)

theorem mem_map_firstRows (key : α → κ) (l : List α) (k : κ) :
    k ∈ (firstRows key l).map key ↔ k ∈ l.map key := by
  induction l with
  | nil => simp [firstRows]
  | cons x xs ih =>
    simp only [firstRows, List.map_cons, List.mem_cons]
    constructor
    · rintro (h | h)
      · exact Or.inl h
      · right
        obtain ⟨r, hr, rfl⟩ := List.mem_map.1 h
        exact ih.1 (List.mem_map.2 ⟨r, (List.mem_filter.1 hr).1, rfl⟩)
    · rintro (h | h)
      · exact Or.inl h
      · by_cases hk : k = key x
        · exact Or.inl hk
        · right
          obtain ⟨r, hr, rfl⟩ := List.mem_map.1 (ih.2 h)
          exact List.mem_map.2 ⟨r, List.mem_filter.2 ⟨hr, by simpa using hk⟩, rfl⟩

theorem firstRows_append_singleton (key : α → κ) (l : List α) (r : α) :
    firstRows key (l ++ [r]) =
      if key r ∈ l.map key then firstRows key l else firstRows key l ++ [r] := by
  induction l with
  | nil => simp [firstRows]
  | cons x xs ih =>
    rw [List.cons_append, firstRows, ih]
    by_cases h1 : key r ∈ xs.map key
    · simp [h1, firstRows]
    · rw [if_neg h1]
      by_cases h2 : key r = key x
      · simp [h2, List.filter_append, firstRows]
      · have h3 : ¬ ∃ a ∈ xs, key a = key r := by simpa using h1
        simp [h2, h3, List.filter_append, firstRows]

theorem nodup_map_firstRows (key : α → κ) (l : List α) : ((firstRows key l).map key).Nodup := by
  induction l with
  | nil => simp [firstRows]
  | cons x xs ih =>
    simp only [firstRows, List.map_cons, List.nodup_cons]
    constructor
    · intro h
      obtain ⟨r, hr, hk⟩ := List.mem_map.1 h
      have := (List.mem_filter.1 hr).2
      simp [hk] at this
    · exact (ih.sublist ((List.filter_sublist _).map key))

theorem length_firstRows (key : α → κ) (l : List α) :
    (firstRows key l).length = (l.map key).dedup.length := by
  have h : ((firstRows key l).map key).Perm (l.map key).dedup := by
    rw [List.perm_ext_iff_of_nodup (nodup_map_firstRows key l) (List.nodup_dedup _)]
    intro k
    rw [mem_map_firstRows, List.mem_dedup]
  simpa using h.length_eq

end ListLemmas
section LoopLemmas

variable {Datum Row Ctx Err : Type}

theorem getElem?_length_append {α : Type} (pre : List α) (c : α) (cs : List α) :
    (pre ++ c :: cs)[pre.length]? = some c := by
  rw [List.getElem?_append_right (le_refl _)]
  simp

theorem set_length_append {α : Type} (pre : List α) (c : α) (cs : List α) (d : α) :
    (pre ++ c :: cs).set pre.length d = pre ++ d :: cs := by
  rw [List.set_append]
  simp

theorem encodeResults_ok (ec : evalContext Datum Row Err) (enc : Datum → Bytes)
    (henc : ∀ d, ec.EncodeValue d = .ok (enc d)) (ds : List Datum) (value : List Bytes) :
    encodeResults ec ds value = .ok (value ++ ds.map enc) := by
  induction ds generalizing value with
  | nil => simp [encodeResults]
  | cons d ds ih => simp [encodeResults, henc, ih]

theorem updateLoop_ok (r : Row) (upd : Aggregation Datum Row Ctx Err → Ctx → Row → Ctx)
    (aggs : List (Aggregation Datum Row Ctx Err))
    (h : ∀ agg ∈ aggs, ∀ c, agg.Update c r = .ok (upd agg c r))
    (pre cs : List Ctx) (hlen : cs.length = aggs.length) :
    updateLoop r aggs pre.length (pre ++ cs) =
      (none, pre ++ List.zipWith (fun agg c => upd agg c r) aggs cs) := by
  induction aggs generalizing pre cs with
  | nil =>
    cases cs with
    | nil => simp [updateLoop]
    | cons c cs => simp at hlen
  | cons agg aggs ih =>
    cases cs with
    | nil => simp at hlen
    | cons c cs =>
      have h1 := h agg (List.mem_cons_self _ _) c
      have h2 := ih (fun a ha => h a (List.mem_cons_of_mem _ ha)) (pre ++ [upd agg c r]) cs
        (by simpa using hlen)
      simp only [List.length_append, List.length_singleton, List.append_assoc,
        List.singleton_append] at h2
      have hget := getElem?_length_append pre c cs
      have hset := set_length_append pre c cs (upd agg c r)
      simp only [updateLoop, hget, h1, hset, h2, List.zipWith_cons_cons]

theorem partialsLoop_ok (ec : evalContext Datum Row Err) (enc : Datum → Bytes)
    (henc : ∀ d, ec.EncodeValue d = .ok (enc d))
    (aggs : List (Aggregation Datum Row Ctx Err)) (pre cs : List Ctx)
    (hlen : cs.length = aggs.length) (value : List Bytes) :
    hashAggExec.partialsLoop ec (pre ++ cs) aggs pre.length value =
      .ok (value ++
        (List.zipWith (fun agg c => (agg.GetPartialResult c).map enc) aggs cs).flatten) := by
  induction aggs generalizing pre cs value with
  | nil =>
    cases cs with
    | nil => simp [hashAggExec.partialsLoop]
    | cons c cs => simp at hlen
  | cons agg aggs ih =>
    cases cs with
    | nil => simp at hlen
    | cons c cs =>
      have h2 := ih (pre ++ [c]) cs (by simpa using hlen)
      simp only [List.length_append, List.length_singleton, List.append_assoc,
        List.singleton_append] at h2
      have hget := getElem?_length_append pre c cs
      simp only [hashAggExec.partialsLoop, hget, encodeResults_ok ec enc henc, h2,
        List.zipWith_cons_cons, List.flatten_cons, List.append_assoc]

theorem getGroupKeyLoop_ok (ec : evalContext Datum Row Err) (enc : Datum → Bytes)
    (henc : ∀ d, ec.EncodeValue d = .ok (enc d)) (r : Row)
    (ev : Expression Datum Row Err → Row → Datum)
    (exprs : List (Expression Datum Row Err))
    (hev : ∀ ex ∈ exprs, ex.Eval r = .ok (ev ex r)) (acc : List Bytes) :
    hashAggExec.getGroupKeyLoop ec r exprs acc = .ok (acc ++ exprs.map (fun ex => enc (ev ex r))) := by
  induction exprs generalizing acc with
  | nil => simp [hashAggExec.getGroupKeyLoop]
  | cons ex exprs ih =>
    have h1 := hev ex (List.mem_cons_self _ _)
    simp [hashAggExec.getGroupKeyLoop, h1, henc,
      ih (fun a ha => hev a (List.mem_cons_of_mem _ ha))]

end LoopLemmas

section HashLemmas

variable {Datum Row Ctx Err : Type}

theorem RowOk.tail {P : PureFns Datum Row Ctx Err} {ec : evalContext Datum Row Err}
    {offs : List Nat} {exprs : List (Expression Datum Row Err)}
    {aggs : List (Aggregation Datum Row Ctx Err)} {v : List Bytes} {input : List (List Bytes)}
    (h : RowOk P ec offs exprs aggs (v :: input)) : RowOk P ec offs exprs aggs input :=
  ⟨fun w hw => h.decode w (List.mem_cons_of_mem _ hw),
   fun w hw => h.eval w (List.mem_cons_of_mem _ hw), h.encode,
   fun w hw => h.update w (List.mem_cons_of_mem _ hw)⟩

theorem getGroupKey_ok (P : PureFns Datum Row Ctx Err) (e : hashAggExec Datum Row Ctx Err)
    (henc : ∀ d, e.evalCtx.EncodeValue d = .ok (P.enc d))
    (hev : ∀ ex ∈ e.groupByExprs, ex.Eval e.row = .ok (P.ev ex e.row)) :
    e.getGroupKey = .ok (keyOf P e.groupByExprs e.row, encsOf P e.groupByExprs e.row) := by
  unfold hashAggExec.getGroupKey
  by_cases h0 : e.groupByExprs.length = 0
  · have : e.groupByExprs = [] := List.length_eq_zero.1 h0
    simp [this, keyOf, encsOf]
  · simp only [h0, if_false]
    rw [getGroupKeyLoop_ok e.evalCtx P.enc henc e.row P.ev e.groupByExprs hev]
    simp [foldl_append_eq_flatten, keyOf, encsOf]

theorem zipWith_upd_ctxsOf (P : PureFns Datum Row Ctx Err)
    (aggs : List (Aggregation Datum Row Ctx Err)) (rs : List Row) (r : Row) :
    List.zipWith (fun agg c => P.upd agg c r) aggs (ctxsOf P aggs rs) = ctxsOf P aggs (rs ++ [r]) := by
  unfold ctxsOf
  rw [List.zipWith_map_right]
  induction aggs with
  | nil => simp
  | cons a as ih => simp [List.foldl_append, ih]

theorem updateLoop_ok_zero (r : Row) (upd : Aggregation Datum Row Ctx Err → Ctx → Row → Ctx)
    (aggs : List (Aggregation Datum Row Ctx Err))
    (h : ∀ agg ∈ aggs, ∀ c, agg.Update c r = .ok (upd agg c r))
    (cs : List Ctx) (hlen : cs.length = aggs.length) :
    updateLoop r aggs 0 cs = (none, List.zipWith (fun agg c => upd agg c r) aggs cs) := by
  simpa using updateLoop_ok r upd aggs h [] cs hlen

theorem length_ctxsOf (P : PureFns Datum Row Ctx Err)
    (aggs : List (Aggregation Datum Row Ctx Err)) (rs : List Row) :
    (ctxsOf P aggs rs).length = aggs.length := by
  simp [ctxsOf]

theorem ctxMapOf_snoc (P : PureFns Datum Row Ctx Err) (exprs : List (Expression Datum Row Err))
    (aggs : List (Aggregation Datum Row Ctx Err)) (done : List Row) (r : Row) :
    (fun k => if k = keyOf P exprs r then
        some (ctxsOf P aggs (done.filter (fun r2 => keyOf P exprs r2 = keyOf P exprs r) ++ [r]))
      else ctxMapOf P exprs aggs done k) = ctxMapOf P exprs aggs (done ++ [r]) := by
  funext k
  unfold ctxMapOf
  by_cases hk : k = keyOf P exprs r
  · subst hk
    simp [List.filter_append]
  · have hk2 : ¬ keyOf P exprs r = k := fun h => hk h.symm
    simp [hk, hk2, List.filter_append]

theorem aggregate_hashAfter (P : PureFns Datum Row Ctx Err) (ec : evalContext Datum Row Err)
    (offs : List Nat) (exprs : List (Expression Datum Row Err))
    (aggs : List (Aggregation Datum Row Ctx Err)) (done : List Row) (row : Row)
    (executed : Bool) (idx count : Nat) (v : List Bytes)
    (hdec : ec.decodeRelatedColumnVals offs v = .ok (P.dec v))
    (henc : ∀ d, ec.EncodeValue d = .ok (P.enc d))
    (hev : ∀ ex ∈ exprs, ex.Eval (P.dec v) = .ok (P.ev ex (P.dec v)))
    (hupd : ∀ agg ∈ aggs, ∀ c, agg.Update c (P.dec v) = .ok (P.upd agg c (P.dec v))) :
    (hashAfter P ec offs exprs aggs done row executed idx count).aggregate v =
      (none, hashAfter P ec offs exprs aggs (done ++ [P.dec v]) (P.dec v) executed idx count) := by
  have hk := getGroupKey_ok P (hashAfter P ec offs exprs aggs done (P.dec v) executed idx count)
    henc hev
  simp only [hashAfter] at hk
  simp only [hashAggExec.aggregate, hashAfter, hdec, hk]
  by_cases hmem : keyOf P exprs (P.dec v) ∈ done.map (keyOf P exprs)
  · have hmem2 := (mem_map_firstRows (keyOf P exprs) done _).2 hmem
    rw [if_pos hmem2]
    have hm : ctxMapOf P exprs aggs done (keyOf P exprs (P.dec v)) =
        some (ctxsOf P aggs (done.filter (fun r2 => keyOf P exprs r2 = keyOf P exprs (P.dec v)))) := by
      simp only [ctxMapOf, if_pos hmem]
    simp only [hashAggExec.getContexts, hm,
      updateLoop_ok_zero (P.dec v) P.upd aggs hupd _ (length_ctxsOf P aggs _),
      zipWith_upd_ctxsOf, Option.map_some', ctxMapOf_snoc, firstRows_append_singleton, if_pos hmem]
  · have hmem2 : keyOf P exprs (P.dec v) ∉ (firstRows (keyOf P exprs) done).map (keyOf P exprs) :=
      fun h => hmem ((mem_map_firstRows (keyOf P exprs) done _).1 h)
    rw [if_neg hmem2]
    have hm : ctxMapOf P exprs aggs done (keyOf P exprs (P.dec v)) = none := by
      simp only [ctxMapOf, if_neg hmem]
    have hf : done.filter (fun r2 => keyOf P exprs r2 = keyOf P exprs (P.dec v)) = [] := by
      rw [List.filter_eq_nil_iff]
      intro a ha h
      exact hmem (List.mem_map.2 ⟨a, ha, by simpa using h⟩)
    have hfresh : aggs.map (fun agg => agg.CreateContext) = ctxsOf P aggs [] := by
      simp [ctxsOf]
    have hsnoc := ctxMapOf_snoc P exprs aggs done (P.dec v)
    rw [hf] at hsnoc
    simp only [hashAggExec.getContexts, hm, hfresh,
      updateLoop_ok_zero (P.dec v) P.upd aggs hupd _ (length_ctxsOf P aggs _),
      zipWith_upd_ctxsOf, Option.map_some', firstRows_append_singleton, if_neg hmem,
      List.map_append, List.map_cons, List.map_nil]
    congr 2
    rw [← hsnoc]
    congr 1
    funext k
    by_cases hkk : k = keyOf P exprs (P.dec v)
    · simp [hkk]
    · simp [hkk]

end HashLemmas
section HashNext

variable {Datum Row Ctx Err : Type}

/-- The row buffer after the stored rows `vs` have been decoded one after the other. -/
theorem fetchAll_hashAfter (P : PureFns Datum Row Ctx Err) (ec : evalContext Datum Row Err)
    (offs : List Nat) (exprs : List (Expression Datum Row Err))
    (aggs : List (Aggregation Datum Row Ctx Err)) (vs : List (List Bytes))
    (hok : RowOk P ec offs exprs aggs vs) (done : List Row) (row : Row)
    (executed : Bool) (idx count : Nat) :
    ∃ row2, (hashAfter P ec offs exprs aggs done row executed idx count).fetchAll (vs.map .ok) =
      (none, hashAfter P ec offs exprs aggs (done ++ vs.map P.dec) row2 executed idx count, []) := by
  induction vs generalizing done row with
  | nil => exact ⟨row, by simp [hashAggExec.fetchAll]⟩
  | cons v vs ih =>
    obtain ⟨row2, h2⟩ := ih hok.tail (done ++ [P.dec v]) (P.dec v)
    refine ⟨row2, ?_⟩
    have hstep := aggregate_hashAfter P ec offs exprs aggs done row executed idx count v
      (hok.decode v (List.mem_cons_self _ _)) hok.encode (hok.eval v (List.mem_cons_self _ _))
      (hok.update v (List.mem_cons_self _ _))
    simp only [List.map_cons, hashAggExec.fetchAll, hstep, h2, List.append_assoc,
      List.singleton_append]

theorem ctxMapOf_nil (P : PureFns Datum Row Ctx Err) (exprs : List (Expression Datum Row Err))
    (aggs : List (Aggregation Datum Row Ctx Err)) :
    ctxMapOf P exprs aggs [] = fun _ => none := by
  funext k
  simp [ctxMapOf]

theorem nextGroup_hashAfter (P : PureFns Datum Row Ctx Err) (ec : evalContext Datum Row Err)
    (offs : List Nat) (exprs : List (Expression Datum Row Err))
    (aggs : List (Aggregation Datum Row Ctx Err))
    (henc : ∀ d, ec.EncodeValue d = .ok (P.enc d)) (done : List Row) (row : Row)
    (executed : Bool) (idx count : Nat) (src : RowSrc Err) :
    (hashAfter P ec offs exprs aggs done row executed idx count).nextGroup src =
      (.ok ((hashRecords P exprs aggs done)[idx]?),
       hashAfter P ec offs exprs aggs done row executed
         (if idx < (hashRecords P exprs aggs done).length then idx + 1 else idx) count, src) := by
  by_cases hlt : idx < (firstRows (keyOf P exprs) done).length
  · have hr : (firstRows (keyOf P exprs) done)[idx]? = some ((firstRows (keyOf P exprs) done)[idx]) :=
      List.getElem?_eq_getElem hlt
    have hmem : keyOf P exprs ((firstRows (keyOf P exprs) done)[idx]) ∈ done.map (keyOf P exprs) :=
      List.mem_map.2 ⟨_, firstRows_subset _ _ _ (List.getElem_mem hlt), rfl⟩
    have hm : ctxMapOf P exprs aggs done (keyOf P exprs ((firstRows (keyOf P exprs) done)[idx])) =
        some (ctxsOf P aggs (done.filter (fun r2 =>
          keyOf P exprs r2 = keyOf P exprs ((firstRows (keyOf P exprs) done)[idx])))) := by
      simp only [ctxMapOf, if_pos hmem]
    have hpl := fun cs hl => partialsLoop_ok ec P.enc henc aggs [] cs hl []
    simp only [List.nil_append, List.length_nil] at hpl
    have hge : ¬ (idx ≥ (firstRows (keyOf P exprs) done).length) := by omega
    simp [hashAggExec.nextGroup, hashAfter, hashRecords, hlt, hr, hge, hashAggExec.getContexts, hm,
      hpl _ (length_ctxsOf P aggs _), hashRecord, partialsOf, encodePartials]
  · have hge : idx ≥ (firstRows (keyOf P exprs) done).length := by omega
    have hnone : (firstRows (keyOf P exprs) done)[idx]? = none := List.getElem?_eq_none hge
    simp [hashAggExec.nextGroup, hashAfter, hashRecords, hlt, hge, hnone]

theorem Next_hashAfter_executed (P : PureFns Datum Row Ctx Err) (ec : evalContext Datum Row Err)
    (offs : List Nat) (exprs : List (Expression Datum Row Err))
    (aggs : List (Aggregation Datum Row Ctx Err))
    (henc : ∀ d, ec.EncodeValue d = .ok (P.enc d)) (done : List Row) (row : Row)
    (idx count : Nat) (src : RowSrc Err) :
    (hashAfter P ec offs exprs aggs done row true idx count).Next src =
      (.ok ((hashRecords P exprs aggs done)[idx]?),
       hashAfter P ec offs exprs aggs done row true
         (if idx < (hashRecords P exprs aggs done).length then idx + 1 else idx) (count + 1), src) := by
  rw [← nextGroup_hashAfter P ec offs exprs aggs henc]
  simp [hashAggExec.Next, hashAfter]

theorem Next_new (P : PureFns Datum Row Ctx Err) (ec : evalContext Datum Row Err)
    (offs : List Nat) (exprs : List (Expression Datum Row Err))
    (aggs : List (Aggregation Datum Row Ctx Err)) (vs : List (List Bytes))
    (hok : RowOk P ec offs exprs aggs vs) (row : Row) :
    ∃ row2, (hashAggExec.new ec aggs exprs offs row).Next (vs.map .ok) =
      (.ok ((hashRecords P exprs aggs (vs.map P.dec))[0]?),
       hashAfter P ec offs exprs aggs (vs.map P.dec) row2 true
         (if 0 < (hashRecords P exprs aggs (vs.map P.dec)).length then 1 else 0) 1, []) := by
  obtain ⟨row2, h2⟩ := fetchAll_hashAfter P ec offs exprs aggs vs hok [] row false 0 1
  refine ⟨row2, ?_⟩
  have hnew : ({
      evalCtx := ec, aggExprs := aggs, groupByExprs := exprs,
      relatedColOffsets := offs, row := row, groups := [], groupKeys := [], groupKeyRows := [],
      executed := false, currGroupIdx := 0, count := 1, aggCtxsMap := some (fun _ => none) } :
        hashAggExec Datum Row Ctx Err) = hashAfter P ec offs exprs aggs [] row false 0 1 := by
    simp [hashAfter, ctxMapOf_nil, firstRows]
  have hex : ({ hashAfter P ec offs exprs aggs (vs.map P.dec) row2 false 0 1 with
      executed := true } : hashAggExec Datum Row Ctx Err) =
      hashAfter P ec offs exprs aggs (vs.map P.dec) row2 true 0 1 := rfl
  have hng := nextGroup_hashAfter P ec offs exprs aggs hok.encode (vs.map P.dec) row2 true 0 1 []
  simp only [Nat.zero_add] at hng
  rw [← hng, ← hex]
  simp only [hashAggExec.Next, hashAggExec.new, Option.isNone_none, if_true, Bool.not_false,
    hnew, h2, List.nil_append]
  simp [hashAfter]

theorem pulls_hashAfter (P : PureFns Datum Row Ctx Err) (ec : evalContext Datum Row Err)
    (offs : List Nat) (exprs : List (Expression Datum Row Err))
    (aggs : List (Aggregation Datum Row Ctx Err))
    (henc : ∀ d, ec.EncodeValue d = .ok (P.enc d)) (done : List Row) (row : Row) (n : Nat)
    (idx count : Nat) (src : RowSrc Err) :
    hashAggExec.pulls n (hashAfter P ec offs exprs aggs done row true idx count) src =
      (List.range n).map (fun i => .ok ((hashRecords P exprs aggs done)[idx + i]?)) := by
  induction n generalizing idx count with
  | zero => simp [hashAggExec.pulls]
  | succ n ih =>
    rw [hashAggExec.pulls, Next_hashAfter_executed P ec offs exprs aggs henc]
    simp only [List.range_succ_eq_map, List.map_cons, List.map_map, Nat.add_zero]
    by_cases hlt : idx < (hashRecords P exprs aggs done).length
    · simp only [hlt, if_true, ih]
      congr 1
      apply List.map_congr_left
      intro i _
      simp [Nat.add_comm, Nat.add_left_comm]
    · simp only [hlt, if_false, ih]
      congr 1
      apply List.map_congr_left
      intro i _
      have h1 : (hashRecords P exprs aggs done).length ≤ idx + i := by omega
      have h2 : (hashRecords P exprs aggs done).length ≤ idx + (i + 1) := by omega
      simp [List.getElem?_eq_none h1, List.getElem?_eq_none h2]

end HashNext
section HashClaims

variable {Datum Row Ctx Err : Type}

theorem pulls_new (P : PureFns Datum Row Ctx Err) (ec : evalContext Datum Row Err)
    (offs : List Nat) (exprs : List (Expression Datum Row Err))
    (aggs : List (Aggregation Datum Row Ctx Err)) (vs : List (List Bytes))
    (hok : RowOk P ec offs exprs aggs vs) (row : Row) (n : Nat) :
    hashAggExec.pulls n (hashAggExec.new ec aggs exprs offs row) (vs.map .ok) =
      (List.range n).map (fun i => .ok ((hashRecords P exprs aggs (vs.map P.dec))[i]?)) := by
  cases n with
  | zero => simp [hashAggExec.pulls]
  | succ n =>
    obtain ⟨row2, h2⟩ := Next_new P ec offs exprs aggs vs hok row
    rw [hashAggExec.pulls, h2]
    simp only [pulls_hashAfter P ec offs exprs aggs hok.encode, List.range_succ_eq_map,
      List.map_cons, List.map_map]
    congr 1
    apply List.map_congr_left
    intro i _
    by_cases hlt : 0 < (hashRecords P exprs aggs (vs.map P.dec)).length
    · simp [hlt, Nat.add_comm]
    · have h1 : (hashRecords P exprs aggs (vs.map P.dec)).length ≤ i := by omega
      have h3 : (hashRecords P exprs aggs (vs.map P.dec)).length ≤ i + 1 := by omega
      simp [hlt, List.getElem?_eq_none h1, List.getElem?_eq_none h3]

theorem length_encsOf (P : PureFns Datum Row Ctx Err) (exprs : List (Expression Datum Row Err))
    (r : Row) : (encsOf P exprs r).length = exprs.length := by
  simp [encsOf]

theorem nodup_hashRecords (P : PureFns Datum Row Ctx Err)
    (exprs : List (Expression Datum Row Err)) (aggs : List (Aggregation Datum Row Ctx Err))
    (rows : List Row) : (hashRecords P exprs aggs rows).Nodup := by
  have hk := nodup_map_firstRows (keyOf P exprs) rows
  unfold hashRecords
  refine List.Nodup.map_on ?_ (List.Nodup.of_map _ hk)
  intro x hx y hy hxy
  have hencs : encsOf P exprs x = encsOf P exprs y :=
    List.append_inj_right' hxy (by simp [length_encsOf])
  exact List.inj_on_of_nodup_map hk hx hy (by simp [keyOf, hencs])

end HashClaims
section DemoLemmas

theorem Demo.rowOk_stored (exprs : List (Expression Nat (List Nat) String))
    (aggs : List (Aggregation Nat (List Nat) Nat String))
    (hex : ∀ ex ∈ exprs, ∃ i, ex = Demo.col i)
    (hagg : ∀ agg ∈ aggs, agg = Demo.count ∨ agg = Demo.sum ∨ agg = Demo.last)
    (input : List (List Bytes)) :
    RowOk Demo.fns Demo.ec [0, 1] exprs aggs input := by
  refine ⟨fun v _ => rfl, ?_, fun d => rfl, ?_⟩
  · intro v _ ex h
    obtain ⟨i, rfl⟩ := hex ex h
    rfl
  · intro v _ agg h c
    rcases hagg agg h with rfl | rfl | rfl <;> rfl

end DemoLemmas

section HashTheorems

variable {Datum Row Ctx Err : Type}

/-- Claim C2.  Hash engine: when no collaborator fails on the input, there is a list of
`d` pairwise distinct records, `d` being the number of distinct group keys among the input
rows, such that pull number `i` (from 0) returns record `i` for `i < d` and "no more
data" for every `i ≥ d`. -/
theorem C2_hash_one_record_per_distinct_key (P : PureFns Datum Row Ctx Err)
    (ec : evalContext Datum Row Err) (offs : List Nat) (exprs : List (Expression Datum Row Err))
    (aggs : List (Aggregation Datum Row Ctx Err)) (input : List (List Bytes))
    (hok : RowOk P ec offs exprs aggs input) (row : Row) :
    ∃ recs : List (List Bytes),
      recs.length = (input.map (fun v => keyOf P exprs (P.dec v))).toFinset.card ∧
      recs.Nodup ∧
      ∀ n, hashAggExec.pulls n (hashAggExec.new ec aggs exprs offs row) (input.map .ok) =
        (List.range n).map (fun i => .ok recs[i]?) := by
  refine ⟨hashRecords P exprs aggs (input.map P.dec), ?_, nodup_hashRecords P exprs aggs _,
    fun n => pulls_new P ec offs exprs aggs input hok row n⟩
  rw [List.card_toFinset]
  simp only [hashRecords, List.length_map, length_firstRows, List.map_map]
  rfl

/-- Witness of C2 on the stored rows of `Demo` (keys `a, a, b, b, b, c`), grouped by
column 0 with `count` and `sum`. -/
theorem C2_hash_one_record_per_distinct_key_witness :
    RowOk Demo.fns Demo.ec [0, 1] [Demo.col 0] [Demo.count, Demo.sum] Demo.stored ∧
    ∃ recs : List (List Bytes),
      recs.length =
        (Demo.stored.map (fun v => keyOf Demo.fns [Demo.col 0] (Demo.fns.dec v))).toFinset.card ∧
      recs.Nodup ∧
      ∀ n, hashAggExec.pulls n
          (hashAggExec.new Demo.ec [Demo.count, Demo.sum] [Demo.col 0] [0, 1] ([] : List Nat))
          (Demo.stored.map .ok) =
        (List.range n).map (fun i => .ok recs[i]?) :=
  ⟨Demo.rowOk_stored _ _ (by simp) (by simp) _,
   C2_hash_one_record_per_distinct_key Demo.fns Demo.ec [0, 1] [Demo.col 0] [Demo.count, Demo.sum]
     Demo.stored (Demo.rowOk_stored _ _ (by simp) (by simp) _) []⟩

/-- Claim C3.  Hash engine: when no collaborator fails on the input, pull number `i` (from
0) returns record `i` of `hashRecords`, and "no more data" when there is no such record.
`hashRecords` lists, for the first row `r0` of every distinct group key in order of first
occurrence, the encoded partial results of every aggregate function, in aggregate order,
of contexts created fresh and updated with exactly the input rows having the key of `r0`,
in input order, followed by the encoded group-by values of `r0`. -/
theorem C3_hash_records_in_first_seen_order (P : PureFns Datum Row Ctx Err)
    (ec : evalContext Datum Row Err) (offs : List Nat) (exprs : List (Expression Datum Row Err))
    (aggs : List (Aggregation Datum Row Ctx Err)) (input : List (List Bytes))
    (hok : RowOk P ec offs exprs aggs input) (row : Row) (n : Nat) :
    hashAggExec.pulls n (hashAggExec.new ec aggs exprs offs row) (input.map .ok) =
      (List.range n).map (fun i => .ok ((hashRecords P exprs aggs (input.map P.dec))[i]?)) :=
  pulls_new P ec offs exprs aggs input hok row n

/-- Witness of C3 on the stored rows of `Demo`: the records are `(2, 30, a)`, `(3, 18, b)`,
`(1, 1, c)`, then "no more data". -/
theorem C3_hash_records_in_first_seen_order_witness :
    RowOk Demo.fns Demo.ec [0, 1] [Demo.col 0] [Demo.count, Demo.sum] Demo.stored ∧
    hashAggExec.pulls 5
        (hashAggExec.new Demo.ec [Demo.count, Demo.sum] [Demo.col 0] [0, 1] ([] : List Nat))
        (Demo.stored.map .ok) =
      [.ok (some [[2], [30], [1]]), .ok (some [[3], [18], [2]]), .ok (some [[1], [1], [3]]),
       .ok none, .ok none] :=
  ⟨Demo.rowOk_stored _ _ (by simp) (by simp) _,
   (C3_hash_records_in_first_seen_order Demo.fns Demo.ec [0, 1] [Demo.col 0]
     [Demo.count, Demo.sum] Demo.stored (Demo.rowOk_stored _ _ (by simp) (by simp) _) [] 5).trans
     (by rfl)⟩

end HashTheorems

section StreamRowLemmas

variable {Datum Row Ctx PR Err : Type}

theorem compareLoop_unmatched (ec : evalContext Datum Row Err) (r : Row)
    (ev : Expression Datum Row Err → Row → Datum) (other : List Datum)
    (exprs : List (Expression Datum Row Err))
    (hev : ∀ ex ∈ exprs, ex.Eval r = .ok (ev ex r)) (i : Nat) (tmp : List Datum) :
    compareLoop ec r other exprs i false tmp = (.ok false, tmp ++ exprs.map (fun ex => ev ex r)) := by
  induction exprs generalizing i tmp with
  | nil => simp [compareLoop]
  | cons ex exprs ih =>
    simp [compareLoop, hev ex (List.mem_cons_self _ _),
      ih (fun a ha => hev a (List.mem_cons_of_mem _ ha))]

theorem compareLoop_matched (ec : evalContext Datum Row Err) (r : Row)
    (ev : Expression Datum Row Err → Row → Datum) (cmp : Datum → Datum → Int)
    (hcmp : ∀ a b, ec.CompareDatum a b = .ok (cmp a b))
    (exprs : List (Expression Datum Row Err))
    (hev : ∀ ex ∈ exprs, ex.Eval r = .ok (ev ex r)) (pre oth : List Datum)
    (hlen : oth.length = exprs.length) (tmp : List Datum) :
    compareLoop ec r (pre ++ oth) exprs pre.length true tmp =
      (.ok (keysMatch cmp (exprs.map (fun ex => ev ex r)) oth),
       tmp ++ exprs.map (fun ex => ev ex r)) := by
  induction exprs generalizing pre oth tmp with
  | nil => simp [compareLoop, keysMatch]
  | cons ex exprs ih =>
    cases oth with
    | nil => simp at hlen
    | cons d2 oth =>
      have hev2 := fun a ha => hev a (List.mem_cons_of_mem ex ha)
      have h2 := ih hev2 (pre ++ [d2]) oth (by simpa using hlen) (tmp ++ [ev ex r])
      simp only [List.length_append, List.length_singleton, List.append_assoc,
        List.singleton_append] at h2
      simp only [compareLoop, hev ex (List.mem_cons_self _ _), getElem?_length_append, hcmp,
        if_true, List.map_cons, keysMatch]
      by_cases hc : cmp (ev ex r) d2 = 0
      · simp [hc, h2]
      · have hc2 : (cmp (ev ex r) d2 == 0) = false := by simpa using hc
        simp [hc2, compareLoop_unmatched ec r ev _ exprs hev2]

theorem getPartialResultLoop_ok (ec : evalContext Datum Row Err) (enc : Datum → Bytes)
    (henc : ∀ d, ec.EncodeValue d = .ok (enc d))
    (aggs : List (Aggregation Datum Row Ctx Err)) (pre cs : List Ctx)
    (hlen : cs.length = aggs.length) (value : List Bytes) :
    streamAggExec.getPartialResultLoop ec aggs pre.length (pre ++ cs) value =
      (.ok (value ++
        (List.zipWith (fun agg c => (agg.GetPartialResult c).map enc) aggs cs).flatten),
       pre ++ aggs.map (fun agg => agg.CreateContext)) := by
  induction aggs generalizing pre cs value with
  | nil =>
    cases cs with
    | nil => simp [streamAggExec.getPartialResultLoop]
    | cons c cs => simp at hlen
  | cons agg aggs ih =>
    cases cs with
    | nil => simp at hlen
    | cons c cs =>
      have h2 := ih (pre ++ [agg.CreateContext]) cs (by simpa using hlen)
      simp only [List.length_append, List.length_singleton, List.append_assoc,
        List.singleton_append] at h2
      simp only [streamAggExec.getPartialResultLoop, getElem?_length_append,
        encodeResults_ok ec enc henc, set_length_append, h2, List.zipWith_cons_cons,
        List.flatten_cons, List.append_assoc, List.map_cons]

theorem encodeGroupByRow_ok (ec : evalContext Datum Row Err) (enc : Datum → Bytes)
    (henc : ∀ d, ec.EncodeValue d = .ok (enc d)) (ds : List Datum) (vals : List Bytes) :
    streamAggExec.encodeGroupByRow ec ds vals = (none, vals ++ ds.map enc) := by
  induction ds generalizing vals with
  | nil => simp [streamAggExec.encodeGroupByRow]
  | cons d ds ih => simp [streamAggExec.encodeGroupByRow, henc, ih]

theorem map_enc_gvalsOf (P : PureFns Datum Row Ctx Err) (exprs : List (Expression Datum Row Err))
    (r : Row) : (gvalsOf P exprs r).map P.enc = encsOf P exprs r := by
  simp [gvalsOf, encsOf]

theorem length_gvalsOf (P : PureFns Datum Row Ctx Err) (exprs : List (Expression Datum Row Err))
    (r : Row) : (gvalsOf P exprs r).length = exprs.length := by
  simp [gvalsOf]

theorem ctxsOf_nil (P : PureFns Datum Row Ctx Err) (aggs : List (Aggregation Datum Row Ctx Err)) :
    ctxsOf P aggs [] = aggs.map (fun agg => agg.CreateContext) := by
  simp [ctxsOf]

/-- `getPartialResult` on a state whose contexts hold the rows `cur`. -/
theorem getPartialResult_rowState (P : PureFns Datum Row Ctx Err)
    (ec : evalContext Datum Row Err) (offs : List Nat) (exprs : List (Expression Datum Row Err))
    (aggs : List (Aggregation Datum Row Ctx Err)) (newAggFuncs : List (AggFunc Datum Row PR Err))
    (henc : ∀ d, ec.EncodeValue d = .ok (P.enc d)) (cur : List Row) (row : Row)
    (tmp curr : List Datum) (next : Option (List Datum)) (vals : List Bytes)
    (executed hasData : Bool) (count : Nat) :
    (streamRowState ec offs exprs aggs newAggFuncs (ctxsOf P aggs cur) row tmp curr next vals
        executed hasData count).getPartialResult =
      (.ok (partialsOf P aggs cur ++ curr.map P.enc),
       streamRowState ec offs exprs aggs newAggFuncs (ctxsOf P aggs []) row tmp (next.getD []) next
         (curr.map P.enc) executed hasData count) := by
  have h1 := getPartialResultLoop_ok ec P.enc henc aggs [] (ctxsOf P aggs cur)
    (length_ctxsOf P aggs cur) []
  simp only [List.nil_append, List.length_nil] at h1
  simp [streamAggExec.getPartialResult, streamRowState, h1, encodeGroupByRow_ok ec P.enc henc,
    partialsOf, encodePartials, ctxsOf_nil]

end StreamRowLemmas
section StreamRowSteps

variable {Datum Row Ctx PR Err : Type}

theorem meetNewGroup_next (P : PureFns Datum Row Ctx Err) (cmp : Datum → Datum → Int)
    (ec : evalContext Datum Row Err) (offs : List Nat) (exprs : List (Expression Datum Row Err))
    (aggs : List (Aggregation Datum Row Ctx Err)) (newAggFuncs : List (AggFunc Datum Row PR Err))
    (hne : exprs.length ≠ 0) (hcmp : ∀ a b, ec.CompareDatum a b = .ok (cmp a b))
    (r prev : Row) (hev : ∀ ex ∈ exprs, ex.Eval r = .ok (P.ev ex r))
    (aggCtxs : List Ctx) (tmp curr : List Datum) (vals : List Bytes) (executed hasData : Bool)
    (count : Nat) (v : List Bytes) :
    (streamRowState ec offs exprs aggs newAggFuncs aggCtxs r tmp curr
        (some (gvalsOf P exprs prev)) vals executed hasData count).meetNewGroup v =
      (.ok (!sameGroup P cmp exprs r prev),
       streamRowState ec offs exprs aggs newAggFuncs aggCtxs r (gvalsOf P exprs r) curr
         (some (gvalsOf P exprs r)) vals executed hasData count) := by
  have h1 := compareLoop_matched ec r P.ev cmp hcmp exprs hev [] (gvalsOf P exprs prev)
    (length_gvalsOf P exprs prev) []
  simp only [List.nil_append, List.length_nil] at h1
  have hal : aliasView (some (gvalsOf P exprs prev)) (gvalsOf P exprs r) =
      some (gvalsOf P exprs r) := by
    simp [aliasView, length_gvalsOf]
  have h1b : compareLoop ec r (gvalsOf P exprs prev) exprs 0 true [] =
      (.ok (sameGroup P cmp exprs r prev), gvalsOf P exprs r) := h1
  simp only [streamAggExec.meetNewGroup, streamRowState, hne, if_false, Option.isNone_some,
    Bool.not_false, Option.getD_some, h1b, hal]
  cases sameGroup P cmp exprs r prev <;> simp

theorem meetNewGroup_first (P : PureFns Datum Row Ctx Err)
    (ec : evalContext Datum Row Err) (offs : List Nat) (exprs : List (Expression Datum Row Err))
    (aggs : List (Aggregation Datum Row Ctx Err)) (newAggFuncs : List (AggFunc Datum Row PR Err))
    (hne : exprs.length ≠ 0)
    (r : Row) (hev : ∀ ex ∈ exprs, ex.Eval r = .ok (P.ev ex r))
    (aggCtxs : List Ctx) (tmp curr : List Datum) (vals : List Bytes) (executed hasData : Bool)
    (count : Nat) (v : List Bytes) :
    (streamRowState ec offs exprs aggs newAggFuncs aggCtxs r tmp curr none vals executed hasData
        count).meetNewGroup v =
      (.ok false,
       streamRowState ec offs exprs aggs newAggFuncs aggCtxs r (gvalsOf P exprs r)
         (gvalsOf P exprs r) (some (gvalsOf P exprs r)) vals executed hasData count) := by
  have h1 := compareLoop_unmatched ec r P.ev [] exprs hev 0 []
  simp only [List.nil_append] at h1
  have h1b : compareLoop ec r [] exprs 0 false [] = (.ok false, gvalsOf P exprs r) := h1
  simp [streamAggExec.meetNewGroup, streamRowState, hne, h1b, aliasView]

/-- One round of the loop of `Next` on a row that continues the current run. -/
theorem nextLoop_same (P : PureFns Datum Row Ctx Err) (cmp : Datum → Datum → Int)
    (ec : evalContext Datum Row Err) (offs : List Nat) (exprs : List (Expression Datum Row Err))
    (aggs : List (Aggregation Datum Row Ctx Err)) (newAggFuncs : List (AggFunc Datum Row PR Err))
    (hne : exprs.length ≠ 0) (hcmp : ∀ a b, ec.CompareDatum a b = .ok (cmp a b))
    (v : List Bytes) (hok : RowOk P ec offs exprs aggs [v])
    (cur : List Row) (first prev : Row) (vals : List Bytes) (count : Nat) (rest : RowSrc Err)
    (hsame : sameGroup P cmp exprs (P.dec v) prev = true) :
    (streamMid P ec offs exprs aggs newAggFuncs cur first prev vals count).nextLoop
        (.ok v :: rest) =
      (streamMid P ec offs exprs aggs newAggFuncs (cur ++ [P.dec v]) first (P.dec v) vals
        count).nextLoop rest := by
  have hdec := hok.decode v (List.mem_singleton_self _)
  have hev := hok.eval v (List.mem_singleton_self _)
  have hupd := hok.update v (List.mem_singleton_self _)
  have hm := fun tmp => meetNewGroup_next P cmp ec offs exprs aggs newAggFuncs hne hcmp (P.dec v) prev
    hev (ctxsOf P aggs cur) tmp (gvalsOf P exprs first) vals false true count v
  simp only [streamRowState] at hm
  simp only [streamAggExec.nextLoop, streamMid, streamRowState, hdec, hm, hsame, Bool.not_true,
    Bool.false_eq_true, if_false,
    updateLoop_ok_zero (P.dec v) P.upd aggs hupd (ctxsOf P aggs cur) (length_ctxsOf P aggs _),
    zipWith_upd_ctxsOf]

/-- One round of the loop of `Next` on a row that starts a new run: the record of the run
that has ended is returned. -/
theorem nextLoop_boundary (P : PureFns Datum Row Ctx Err) (cmp : Datum → Datum → Int)
    (ec : evalContext Datum Row Err) (offs : List Nat) (exprs : List (Expression Datum Row Err))
    (aggs : List (Aggregation Datum Row Ctx Err)) (newAggFuncs : List (AggFunc Datum Row PR Err))
    (hne : exprs.length ≠ 0) (hcmp : ∀ a b, ec.CompareDatum a b = .ok (cmp a b))
    (v : List Bytes) (hok : RowOk P ec offs exprs aggs [v])
    (cur : List Row) (first prev : Row) (vals : List Bytes) (count : Nat) (rest : RowSrc Err)
    (hdiff : sameGroup P cmp exprs (P.dec v) prev = false) :
    (streamMid P ec offs exprs aggs newAggFuncs cur first prev vals count).nextLoop
        (.ok v :: rest) =
      (.ok (some (partialsOf P aggs cur ++ encsOf P exprs first)),
       streamMid P ec offs exprs aggs newAggFuncs [P.dec v] (P.dec v) (P.dec v)
         (encsOf P exprs first) count, rest) := by
  have hdec := hok.decode v (List.mem_singleton_self _)
  have hev := hok.eval v (List.mem_singleton_self _)
  have hupd := hok.update v (List.mem_singleton_self _)
  have hm := fun tmp => meetNewGroup_next P cmp ec offs exprs aggs newAggFuncs hne hcmp (P.dec v) prev
    hev (ctxsOf P aggs cur) tmp (gvalsOf P exprs first) vals false true count v
  have hg := getPartialResult_rowState P ec offs exprs aggs newAggFuncs hok.encode cur (P.dec v)
    (gvalsOf P exprs (P.dec v)) (gvalsOf P exprs first) (some (gvalsOf P exprs (P.dec v))) vals
    false true count
  simp only [streamRowState] at hm hg
  have hz := zipWith_upd_ctxsOf P aggs [] (P.dec v)
  simp only [List.nil_append] at hz
  simp only [streamAggExec.nextLoop, streamMid, streamRowState, hdec, hm, hdiff, Bool.not_false,
    if_true, hg, updateLoop_ok_zero (P.dec v) P.upd aggs hupd (ctxsOf P aggs []) (length_ctxsOf P aggs _),
    hz, map_enc_gvalsOf, Option.getD_some]

/-- The round of the loop of `Next` that finds the source at its end: the record of the
last run is returned and the execution is marked as finished. -/
theorem nextLoop_end (P : PureFns Datum Row Ctx Err)
    (ec : evalContext Datum Row Err) (offs : List Nat) (exprs : List (Expression Datum Row Err))
    (aggs : List (Aggregation Datum Row Ctx Err)) (newAggFuncs : List (AggFunc Datum Row PR Err))
    (henc : ∀ d, ec.EncodeValue d = .ok (P.enc d))
    (cur : List Row) (first prev : Row) (vals : List Bytes) (count : Nat) :
    (streamMid P ec offs exprs aggs newAggFuncs cur first prev vals count).nextLoop [] =
      (.ok (some (partialsOf P aggs cur ++ encsOf P exprs first)),
       streamRowState ec offs exprs aggs newAggFuncs (ctxsOf P aggs []) prev (gvalsOf P exprs prev)
         (gvalsOf P exprs prev) (some (gvalsOf P exprs prev)) (encsOf P exprs first) true true
         count, []) := by
  have hg := getPartialResult_rowState P ec offs exprs aggs newAggFuncs henc cur prev
    (gvalsOf P exprs prev) (gvalsOf P exprs first) (some (gvalsOf P exprs prev)) vals
    true true count
  simp only [streamRowState] at hg
  simp only [streamAggExec.nextLoop, streamMid, streamRowState, Bool.not_true, Bool.false_and,
    hg, map_enc_gvalsOf]
  rfl

/-- The first round of the loop of `Next`: the first row opens the first run. -/
theorem nextLoop_first (P : PureFns Datum Row Ctx Err)
    (ec : evalContext Datum Row Err) (offs : List Nat) (exprs : List (Expression Datum Row Err))
    (aggs : List (Aggregation Datum Row Ctx Err)) (newAggFuncs : List (AggFunc Datum Row PR Err))
    (hne : exprs.length ≠ 0)
    (v : List Bytes) (hok : RowOk P ec offs exprs aggs [v]) (row : Row) (count : Nat)
    (rest : RowSrc Err) :
    (streamRowState ec offs exprs aggs newAggFuncs (ctxsOf P aggs []) row [] [] none [] false
        false count).nextLoop (.ok v :: rest) =
      (streamMid P ec offs exprs aggs newAggFuncs [P.dec v] (P.dec v) (P.dec v) [] count).nextLoop
        rest := by
  have hdec := hok.decode v (List.mem_singleton_self _)
  have hev := hok.eval v (List.mem_singleton_self _)
  have hupd := hok.update v (List.mem_singleton_self _)
  have hm := meetNewGroup_first P ec offs exprs aggs newAggFuncs hne (P.dec v)
    hev (ctxsOf P aggs []) [] [] [] false true count v
  simp only [streamRowState] at hm
  have hz := zipWith_upd_ctxsOf P aggs [] (P.dec v)
  simp only [List.nil_append] at hz
  simp only [streamAggExec.nextLoop, streamMid, streamRowState, hdec, hm,
    Bool.false_eq_true, if_false,
    updateLoop_ok_zero (P.dec v) P.upd aggs hupd (ctxsOf P aggs []) (length_ctxsOf P aggs _), hz]

end StreamRowSteps
section StreamRowRuns

variable {Datum Row Ctx PR Err : Type}

theorem map_range_getElem?_cons {α β : Type} (f : Option α → β) (x : α) (xs : List α) (n : Nat) :
    (List.range (n + 1)).map (fun i => f ((x :: xs)[i]?)) =
      f (some x) :: (List.range n).map (fun i => f (xs[i]?)) := by
  simp [List.range_succ_eq_map, Function.comp_def]

theorem map_range_getElem?_nil {α β : Type} (f : Option α → β) (n : Nat) :
    (List.range n).map (fun i => f (([] : List α)[i]?)) = List.replicate n (f none) := by
  induction n with
  | zero => rfl
  | succ n ih => simp [List.range_succ, List.replicate_succ', ih]

theorem RowOk.mono {P : PureFns Datum Row Ctx Err} {ec : evalContext Datum Row Err}
    {offs : List Nat} {exprs : List (Expression Datum Row Err)}
    {aggs : List (Aggregation Datum Row Ctx Err)} {input input2 : List (List Bytes)}
    (h : RowOk P ec offs exprs aggs input) (hsub : ∀ v ∈ input2, v ∈ input) :
    RowOk P ec offs exprs aggs input2 :=
  ⟨fun w hw => h.decode w (hsub w hw), fun w hw => h.eval w (hsub w hw), h.encode,
   fun w hw => h.update w (hsub w hw)⟩

theorem stream_pulls_executed (e : streamAggExec Datum Row Ctx PR Err) (h : e.executed = true)
    (n : Nat) (src : RowSrc Err) :
    streamAggExec.pulls n e src = List.replicate n (.ok none) := by
  induction n generalizing e with
  | zero => rfl
  | succ n ih =>
    simp only [streamAggExec.pulls, streamAggExec.Next, h, if_true, List.replicate_succ]
    rw [ih _ rfl]

theorem IsRuns.rest {same : Row → Row → Bool} {run : List Row} {runs : List (List Row)}
    (h : IsRuns same (run :: runs)) : IsRuns same runs :=
  ⟨fun r hr => h.1 r (List.mem_cons_of_mem _ hr), h.2.tail⟩

/-- From the middle of a run to the end of the input: the pull that is under way returns
the record of the current run, and the later pulls return the records of the runs that
follow, then "no more data". -/
theorem nextLoop_runs (P : PureFns Datum Row Ctx Err) (cmp : Datum → Datum → Int)
    (ec : evalContext Datum Row Err) (offs : List Nat) (exprs : List (Expression Datum Row Err))
    (aggs : List (Aggregation Datum Row Ctx Err)) (newAggFuncs : List (AggFunc Datum Row PR Err))
    (hne : exprs.length ≠ 0) (hcmp : ∀ a b, ec.CompareDatum a b = .ok (cmp a b))
    (runs : List (List (List Bytes))) :
    ∀ (vs : List (List Bytes)) (first : Row) (ct : List Row) (prev : Row) (vals : List Bytes)
      (count : Nat),
      RowOk P ec offs exprs aggs (vs ++ runs.flatten) →
      (∀ b ∈ vs.map P.dec, ∀ a ∈ prev :: vs.map P.dec, sameGroup P cmp exprs b a = true) →
      IsRuns (sameGroup P cmp exprs) (runs.map (List.map P.dec)) →
      (∀ run2 ∈ runs.head?, ∀ a ∈ prev :: vs.map P.dec, ∀ b ∈ run2.map P.dec,
        sameGroup P cmp exprs b a = false) →
      ∃ (e2 : streamAggExec Datum Row Ctx PR Err) (src2 : RowSrc Err),
        (streamMid P ec offs exprs aggs newAggFuncs (first :: ct) first prev vals count).nextLoop
            ((vs ++ runs.flatten).map .ok) =
          (.ok (some (streamRecord P exprs aggs (first :: ct ++ vs.map P.dec))), e2, src2) ∧
        ∀ n, streamAggExec.pulls n e2 src2 =
          (List.range n).map (fun i =>
            .ok (((runs.map (List.map P.dec)).map (streamRecord P exprs aggs))[i]?)) := by
  induction runs with
  | nil =>
    intro vs
    induction vs with
    | nil =>
      intro first ct prev vals count hok _ _ _
      have hend := nextLoop_end P ec offs exprs aggs newAggFuncs hok.encode (first :: ct) first
        prev vals count
      refine ⟨_, _, (by simpa [streamRecord] using hend), ?_⟩
      intro n
      rw [stream_pulls_executed _ rfl]
      simp [map_range_getElem?_nil]
    | cons v vs ih =>
      intro first ct prev vals count hok h1 h2 h3
      have hs := h1 (P.dec v) (by simp) prev (by simp)
      have hstep := nextLoop_same P cmp ec offs exprs aggs newAggFuncs hne hcmp v
        (hok.mono (by intro w hw; simp at hw ⊢; tauto)) (first :: ct) first prev vals count
        (((vs ++ ([] : List (List (List Bytes))).flatten).map .ok)) hs
      obtain ⟨e2, src2, h4, h5⟩ := ih first (ct ++ [P.dec v]) (P.dec v) vals count
        (hok.mono (by intro w hw; simp at hw ⊢; tauto)) (fun b hb a ha => h1 b (by simp [hb]) a (by
          simp only [List.map_cons, List.mem_cons] at ha ⊢
          tauto)) h2 (by simp)
      refine ⟨e2, src2, ?_, h5⟩
      simp only [List.cons_append, List.map_cons] at hstep ⊢
      rw [hstep, h4]
      simp
  | cons run2 runs ihr =>
    intro vs
    induction vs with
    | nil =>
      intro first ct prev vals count hok _ h2 h3
      obtain ⟨hne2, hall2⟩ := h2.1 (run2.map P.dec) (by simp)
      cases run2 with
      | nil => simp at hne2
      | cons v2 vs2 =>
        have hd := h3 (v2 :: vs2) (by simp) prev (by simp) (P.dec v2) (by simp)
        have hstep := nextLoop_boundary P cmp ec offs exprs aggs newAggFuncs hne hcmp v2
          (hok.mono (by intro w hw; simp at hw ⊢; tauto)) (first :: ct) first prev vals count
          ((vs2 ++ runs.flatten).map .ok) hd
        refine ⟨_, _, (by simp only [List.map_nil, List.append_nil]; exact hstep), ?_⟩
        · intro n
          cases n with
          | zero => rfl
          | succ n =>
            have h2t : IsRuns (sameGroup P cmp exprs) (runs.map (List.map P.dec)) := by
              have := h2.rest
              simpa using this
            obtain ⟨e3, src3, h4, h5⟩ := ihr vs2 (P.dec v2) [] (P.dec v2) (encsOf P exprs first)
              (count + 1) (hok.mono (by intro w hw; simp at hw ⊢; tauto))
              (fun b hb a ha => hall2 b (by simp [hb]) a (by simpa using ha)) h2t
              (by
                intro run3 hr3 a ha b hb
                have hch := h2.2
                cases runs with
                | nil => simp at hr3
                | cons r3 rs3 =>
                  simp only [List.head?_cons, Option.mem_def, Option.some.injEq] at hr3
                  subst hr3
                  simp only [List.map_cons, List.chain'_cons] at hch
                  exact hch.1 a (by simpa using ha) b hb)
            have hnext : (streamMid P ec offs exprs aggs newAggFuncs [P.dec v2] (P.dec v2)
                (P.dec v2) (encsOf P exprs first) count).Next ((vs2 ++ runs.flatten).map .ok) =
                (streamMid P ec offs exprs aggs newAggFuncs [P.dec v2] (P.dec v2)
                (P.dec v2) (encsOf P exprs first) (count + 1)).nextLoop
                  ((vs2 ++ runs.flatten).map .ok) := by
              simp [streamAggExec.Next, streamMid, streamRowState]
            rw [streamAggExec.pulls, hnext, h4]
            simp only [h5, List.map_cons, map_range_getElem?_cons, List.nil_append,
              List.cons_append]
    | cons v vs ih =>
      intro first ct prev vals count hok h1 h2 h3
      have hs := h1 (P.dec v) (by simp) prev (by simp)
      have hstep := nextLoop_same P cmp ec offs exprs aggs newAggFuncs hne hcmp v
        (hok.mono (by intro w hw; simp at hw ⊢; tauto)) (first :: ct) first prev vals count
        (((vs ++ (run2 :: runs).flatten).map .ok)) hs
      obtain ⟨e2, src2, h4, h5⟩ := ih first (ct ++ [P.dec v]) (P.dec v) vals count
        (hok.mono (by intro w hw; simp at hw ⊢; tauto)) (fun b hb a ha => h1 b (by simp [hb]) a (by
          simp only [List.map_cons, List.mem_cons] at ha ⊢
          tauto)) h2 (fun run3 hr3 a ha b hb => h3 run3 hr3 a (by
          simp only [List.map_cons, List.mem_cons] at ha ⊢
          tauto) b hb)
      refine ⟨e2, src2, ?_, h5⟩
      simp only [List.cons_append, List.map_cons] at hstep ⊢
      rw [hstep, h4]
      simp

end StreamRowRuns
section StreamRowTop

variable {Datum Row Ctx PR Err : Type}

theorem new_eq_rowState (P : PureFns Datum Row Ctx Err) (ec : evalContext Datum Row Err)
    (offs : List Nat) (exprs : List (Expression Datum Row Err))
    (aggs : List (Aggregation Datum Row Ctx Err)) (newAggFuncs : List (AggFunc Datum Row PR Err))
    (row : Row) :
    streamAggExec.new ec aggs exprs offs row newAggFuncs =
      streamRowState ec offs exprs aggs newAggFuncs (ctxsOf P aggs []) row [] [] none [] false
        false 0 := by
  simp [streamAggExec.new, streamRowState, ctxsOf_nil]

/-- Row API with at least one group-by expression, on an input made of the runs `runs`:
pull number `i` returns the record of run `i`, and "no more data" when there is none. -/
theorem stream_pulls_runs (P : PureFns Datum Row Ctx Err) (cmp : Datum → Datum → Int)
    (ec : evalContext Datum Row Err) (offs : List Nat) (exprs : List (Expression Datum Row Err))
    (aggs : List (Aggregation Datum Row Ctx Err)) (newAggFuncs : List (AggFunc Datum Row PR Err))
    (hne : exprs.length ≠ 0) (hcmp : ∀ a b, ec.CompareDatum a b = .ok (cmp a b))
    (runs : List (List (List Bytes))) (hok : RowOk P ec offs exprs aggs runs.flatten)
    (hruns : IsRuns (sameGroup P cmp exprs) (runs.map (List.map P.dec))) (row : Row) (n : Nat) :
    streamAggExec.pulls n (streamAggExec.new ec aggs exprs offs row newAggFuncs)
        (runs.flatten.map .ok) =
      (List.range n).map (fun i =>
        .ok (((runs.map (List.map P.dec)).map (streamRecord P exprs aggs))[i]?)) := by
  rw [new_eq_rowState P]
  cases runs with
  | nil =>
    cases n with
    | zero => rfl
    | succ n =>
      have hpos : 0 < exprs.length := Nat.pos_of_ne_zero hne
      simp only [streamAggExec.pulls, streamAggExec.Next, streamRowState, List.flatten_nil,
        List.map_nil, streamAggExec.nextLoop, Bool.false_eq_true, if_false, Bool.not_false,
        Bool.true_and, gt_iff_lt, hpos, decide_True, if_true]
      rw [stream_pulls_executed _ rfl]
      simp [map_range_getElem?_nil, List.range_succ_eq_map, Function.comp_def]
  | cons run runs =>
    obtain ⟨hne1, hall1⟩ := hruns.1 (run.map P.dec) (by simp)
    cases run with
    | nil => simp at hne1
    | cons v vs =>
      cases n with
      | zero => rfl
      | succ n =>
        have hfirst := nextLoop_first P ec offs exprs aggs newAggFuncs hne v
          (hok.mono (by intro w hw; simp at hw ⊢; tauto)) row 1
          ((vs ++ runs.flatten).map .ok)
        obtain ⟨e2, src2, h4, h5⟩ := nextLoop_runs P cmp ec offs exprs aggs newAggFuncs hne hcmp
          runs vs (P.dec v) [] (P.dec v) [] 1
          (hok.mono (by intro w hw; simp at hw ⊢; tauto))
          (fun b hb a ha => hall1 b (by simp [hb]) a (by simpa using ha))
          (by simpa using hruns.rest)
          (by
            intro run3 hr3 a ha b hb
            have hch := hruns.2
            cases runs with
            | nil => simp at hr3
            | cons r3 rs3 =>
              simp only [List.head?_cons, Option.mem_def, Option.some.injEq] at hr3
              subst hr3
              simp only [List.map_cons, List.chain'_cons] at hch
              exact hch.1 a (by simpa using ha) b hb)
        have hnext : (streamRowState ec offs exprs aggs newAggFuncs (ctxsOf P aggs []) row [] [] none
            [] false false 0).Next (((v :: vs) :: runs).flatten.map .ok) =
            (streamRowState ec offs exprs aggs newAggFuncs (ctxsOf P aggs []) row [] [] none
            [] false false 1).nextLoop (.ok v :: (vs ++ runs.flatten).map .ok) := by
          simp [streamAggExec.Next, streamRowState]
        rw [streamAggExec.pulls, hnext, hfirst, h4]
        simp only [h5, List.map_cons, map_range_getElem?_cons, List.nil_append, List.cons_append]

/-- The loop of `Next` without group-by expressions: every row is aggregated and one
record is returned at the end of the input. -/
theorem nextLoop_global (P : PureFns Datum Row Ctx Err)
    (ec : evalContext Datum Row Err) (offs : List Nat)
    (aggs : List (Aggregation Datum Row Ctx Err)) (newAggFuncs : List (AggFunc Datum Row PR Err))
    (vs : List (List Bytes)) (hok : RowOk P ec offs [] aggs vs) (cur : List Row) (row : Row)
    (vals : List Bytes) (hasData : Bool) (count : Nat) :
    ∃ e2 : streamAggExec Datum Row Ctx PR Err, e2.executed = true ∧
      (streamRowState ec offs [] aggs newAggFuncs (ctxsOf P aggs cur) row [] [] none vals false
          hasData count).nextLoop (vs.map .ok) =
        (.ok (some (partialsOf P aggs (cur ++ vs.map P.dec))), e2, []) := by
  induction vs generalizing cur row hasData with
  | nil =>
    have hg := getPartialResult_rowState P ec offs [] aggs newAggFuncs hok.encode cur row [] []
      none vals true hasData count
    simp only [streamRowState] at hg
    refine ⟨_, ?_, (by
      simp only [List.map_nil, streamAggExec.nextLoop, streamRowState, List.length_nil,
        gt_iff_lt, Nat.lt_irrefl, decide_False, Bool.and_false, Bool.false_eq_true, if_false, hg,
        List.append_nil]
      rfl)⟩
    rfl
  | cons v vs ih =>
    have hdec := hok.decode v (List.mem_cons_self _ _)
    have hupd := hok.update v (List.mem_cons_self _ _)
    obtain ⟨e2, he2, h2⟩ := ih hok.tail (cur ++ [P.dec v]) (P.dec v) true
    refine ⟨e2, he2, ?_⟩
    simp only [streamRowState] at h2
    simp only [List.map_cons, streamAggExec.nextLoop, streamRowState, hdec,
      streamAggExec.meetNewGroup, List.length_nil, if_true, Bool.false_eq_true, if_false,
      updateLoop_ok_zero (P.dec v) P.upd aggs hupd (ctxsOf P aggs cur) (length_ctxsOf P aggs _),
      zipWith_upd_ctxsOf, h2, List.append_assoc, List.singleton_append]

/-- Row API without group-by expressions: the first pull returns the record of all rows,
every later pull "no more data". -/
theorem stream_pulls_global (P : PureFns Datum Row Ctx Err)
    (ec : evalContext Datum Row Err) (offs : List Nat)
    (aggs : List (Aggregation Datum Row Ctx Err)) (newAggFuncs : List (AggFunc Datum Row PR Err))
    (vs : List (List Bytes)) (hok : RowOk P ec offs [] aggs vs) (row : Row) (n : Nat) :
    streamAggExec.pulls n (streamAggExec.new ec aggs [] offs row newAggFuncs) (vs.map .ok) =
      (List.range n).map (fun i => .ok ([partialsOf P aggs (vs.map P.dec)][i]?)) := by
  rw [new_eq_rowState P]
  cases n with
  | zero => rfl
  | succ n =>
    obtain ⟨e2, he2, h2⟩ := nextLoop_global P ec offs aggs newAggFuncs vs hok [] row [] false 1
    have hnext : (streamRowState ec offs [] aggs newAggFuncs (ctxsOf P aggs []) row [] [] none
        [] false false 0).Next (vs.map .ok) =
        (streamRowState ec offs [] aggs newAggFuncs (ctxsOf P aggs []) row [] [] none
        [] false false 1).nextLoop (vs.map .ok) := by
      simp [streamAggExec.Next, streamRowState]
    rw [streamAggExec.pulls, hnext, h2]
    simp only [stream_pulls_executed e2 he2, List.nil_append, map_range_getElem?_cons,
      map_range_getElem?_nil]

end StreamRowTop

section StreamRowTheorems

variable {Datum Row Ctx PR Err : Type}

theorem Demo.isRuns_storedRuns :
    IsRuns (sameGroup Demo.fns Demo.cmp [Demo.col 0])
      (Demo.storedRuns.map (List.map Demo.fns.dec)) := by
  refine ⟨by decide, ?_⟩
  simp only [Demo.storedRuns, List.map_cons, List.map_nil, List.chain'_cons, List.chain'_singleton,
    and_true]
  decide

/-- Claim C1.  Stream engine, row API, with at least one group-by expression: when the
input consists of the maximal runs `runs` and no collaborator fails on it, there is a list
of exactly `k = len(runs)` records such that pull number `i` (from 0) returns record `i`
for `i < k` and "no more data" for every `i ≥ k`, and record `j` ends with the encoded
group-by values of the first row of run `j`. -/
theorem C1_stream_row_one_record_per_run (P : PureFns Datum Row Ctx Err)
    (cmp : Datum → Datum → Int) (ec : evalContext Datum Row Err) (offs : List Nat)
    (exprs : List (Expression Datum Row Err)) (aggs : List (Aggregation Datum Row Ctx Err))
    (newAggFuncs : List (AggFunc Datum Row PR Err)) (hne : 0 < exprs.length)
    (hcmp : ∀ a b, ec.CompareDatum a b = .ok (cmp a b))
    (runs : List (List (List Bytes))) (hok : RowOk P ec offs exprs aggs runs.flatten)
    (hruns : IsRuns (sameGroup P cmp exprs) (runs.map (List.map P.dec))) (row : Row) :
    ∃ recs : List (List Bytes),
      recs.length = runs.length ∧
      (∀ n, streamAggExec.pulls n (streamAggExec.new ec aggs exprs offs row newAggFuncs)
          (runs.flatten.map .ok) = (List.range n).map (fun i => .ok recs[i]?)) ∧
      ∀ (j : Nat) v vs, runs[j]? = some (v :: vs) →
        ∃ aggPart, recs[j]? = some (aggPart ++ encsOf P exprs (P.dec v)) := by
  refine ⟨(runs.map (List.map P.dec)).map (streamRecord P exprs aggs), by simp,
    fun n => stream_pulls_runs P cmp ec offs exprs aggs newAggFuncs (Nat.pos_iff_ne_zero.1 hne) hcmp
      runs hok hruns row n, ?_⟩
  intro j v vs hj
  refine ⟨partialsOf P aggs (P.dec v :: vs.map P.dec), ?_⟩
  simp [List.getElem?_map, hj, streamRecord]

/-- Witness of C1 on the stored rows of `Demo`, which form three runs. -/
theorem C1_stream_row_one_record_per_run_witness :
    0 < [Demo.col 0].length ∧
    (∀ a b, Demo.ec.CompareDatum a b = .ok (Demo.cmp a b)) ∧
    RowOk Demo.fns Demo.ec [0, 1] [Demo.col 0] [Demo.count, Demo.sum] Demo.storedRuns.flatten ∧
    IsRuns (sameGroup Demo.fns Demo.cmp [Demo.col 0])
      (Demo.storedRuns.map (List.map Demo.fns.dec)) ∧
    ∃ recs : List (List Bytes),
      recs.length = Demo.storedRuns.length ∧
      (∀ n, streamAggExec.pulls n
          (streamAggExec.new Demo.ec [Demo.count, Demo.sum] [Demo.col 0] [0, 1] ([] : List Nat)
            ([] : List (AggFunc Nat (List Nat) Nat String)))
          (Demo.storedRuns.flatten.map .ok) = (List.range n).map (fun i => .ok recs[i]?)) ∧
      ∀ (j : Nat) v vs, Demo.storedRuns[j]? = some (v :: vs) →
        ∃ aggPart, recs[j]? = some (aggPart ++ encsOf Demo.fns [Demo.col 0] (Demo.fns.dec v)) :=
  ⟨by decide, fun _ _ => rfl, Demo.rowOk_stored _ _ (by simp) (by simp) _, Demo.isRuns_storedRuns,
   C1_stream_row_one_record_per_run Demo.fns Demo.cmp Demo.ec [0, 1] [Demo.col 0]
     [Demo.count, Demo.sum] [] (by decide) (fun _ _ => rfl) Demo.storedRuns
     (Demo.rowOk_stored _ _ (by simp) (by simp) _) Demo.isRuns_storedRuns []⟩

theorem isRuns_no_exprs (P : PureFns Datum Row Ctx Err) (cmp : Datum → Datum → Int)
    (runs : List (List Row)) (h : IsRuns (sameGroup P cmp []) runs) : runs.length ≤ 1 := by
  cases runs with
  | nil => simp
  | cons r0 rs =>
    cases rs with
    | nil => simp
    | cons r1 rs =>
      exfalso
      have h0 := (h.1 r0 (by simp)).1
      have h1 := (h.1 r1 (by simp)).1
      have hch := h.2
      simp only [List.chain'_cons] at hch
      obtain ⟨a, ha⟩ := List.exists_mem_of_ne_nil _ h0
      obtain ⟨b, hb⟩ := List.exists_mem_of_ne_nil _ h1
      have := hch.1 a ha b hb
      simp [sameGroup, gvalsOf, keysMatch] at this

/-- Claim C6.  Accumulator reuse safety, row API of the stream engine: when the input
consists of the maximal runs `runs` and no collaborator fails on it, pull number `j`
returns a record whose aggregate part (the record without its trailing group-by values)
is the encoded partial results of freshly created contexts updated with exactly the rows
of run `j`, in order. -/
theorem C6_stream_row_fresh_contexts_per_run (P : PureFns Datum Row Ctx Err)
    (cmp : Datum → Datum → Int) (ec : evalContext Datum Row Err) (offs : List Nat)
    (exprs : List (Expression Datum Row Err)) (aggs : List (Aggregation Datum Row Ctx Err))
    (newAggFuncs : List (AggFunc Datum Row PR Err))
    (hcmp : ∀ a b, ec.CompareDatum a b = .ok (cmp a b))
    (runs : List (List (List Bytes))) (hok : RowOk P ec offs exprs aggs runs.flatten)
    (hruns : IsRuns (sameGroup P cmp exprs) (runs.map (List.map P.dec))) (row : Row)
    (j : Nat) (run : List (List Bytes)) (hj : runs[j]? = some run) :
    ∃ rec : List Bytes,
      (streamAggExec.pulls (j + 1) (streamAggExec.new ec aggs exprs offs row newAggFuncs)
        (runs.flatten.map .ok))[j]? = some (.ok (some rec)) ∧
      rec.take (rec.length - exprs.length) = partialsOf P aggs (run.map P.dec) := by
  have hmem : run ∈ runs := List.getElem?_mem hj
  have hrne : run.map P.dec ≠ [] := (hruns.1 _ (List.mem_map.2 ⟨run, hmem, rfl⟩)).1
  by_cases hne : exprs.length = 0
  · have hnil : exprs = [] := List.length_eq_zero.1 hne
    subst hnil
    have hlen := isRuns_no_exprs P cmp _ hruns
    cases runs with
    | nil => simp at hj
    | cons r0 rs =>
      cases rs with
      | cons r1 rs => simp at hlen
      | nil =>
        cases j with
        | succ j => simp at hj
        | zero =>
          simp only [List.getElem?_cons_zero, Option.some.injEq] at hj
          subst hj
          refine ⟨partialsOf P aggs (r0.map P.dec), ?_, by simp⟩
          have hp := stream_pulls_global P ec offs aggs newAggFuncs r0
            (hok.mono (by intro w hw; simpa using hw)) row 1
          simp only [List.flatten_cons, List.flatten_nil, List.append_nil]
          rw [hp]
          simp
  · refine ⟨streamRecord P exprs aggs (run.map P.dec), ?_, ?_⟩
    · rw [stream_pulls_runs P cmp ec offs exprs aggs newAggFuncs hne hcmp runs hok hruns row]
      simp [List.getElem?_map, List.getElem?_range, hj]
    · cases run with
      | nil => simp at hrne
      | cons v vs =>
        simp [streamRecord, length_encsOf]

/-- Witness of C6 on the stored rows of `Demo`: the record of the second run (pull 1). -/
theorem C6_stream_row_fresh_contexts_per_run_witness :
    (∀ a b, Demo.ec.CompareDatum a b = .ok (Demo.cmp a b)) ∧
    RowOk Demo.fns Demo.ec [0, 1] [Demo.col 0] [Demo.count, Demo.sum] Demo.storedRuns.flatten ∧
    IsRuns (sameGroup Demo.fns Demo.cmp [Demo.col 0])
      (Demo.storedRuns.map (List.map Demo.fns.dec)) ∧
    Demo.storedRuns[1]? = some [[[2], [5]], [[2], [6]], [[2], [7]]] ∧
    ∃ rec : List Bytes,
      (streamAggExec.pulls (1 + 1)
        (streamAggExec.new Demo.ec [Demo.count, Demo.sum] [Demo.col 0] [0, 1] ([] : List Nat)
          ([] : List (AggFunc Nat (List Nat) Nat String)))
        (Demo.storedRuns.flatten.map .ok))[1]? = some (.ok (some rec)) ∧
      rec.take (rec.length - [Demo.col 0].length) =
        partialsOf Demo.fns [Demo.count, Demo.sum]
          ([[[2], [5]], [[2], [6]], [[2], [7]]].map Demo.fns.dec) :=
  ⟨fun _ _ => rfl, Demo.rowOk_stored _ _ (by simp) (by simp) _, Demo.isRuns_storedRuns, rfl,
   C6_stream_row_fresh_contexts_per_run Demo.fns Demo.cmp Demo.ec [0, 1] [Demo.col 0]
     [Demo.count, Demo.sum] [] (fun _ _ => rfl) Demo.storedRuns
     (Demo.rowOk_stored _ _ (by simp) (by simp) _) Demo.isRuns_storedRuns [] 1 _ rfl⟩

end StreamRowTheorems

section HashOutput

variable {Datum Row Ctx Err : Type}

theorem recordsOf_map_range (recs : List (List Bytes)) (n : Nat) :
    recordsOf ((List.range n).map (fun i => (.ok recs[i]? : Except (Failure Err) _))) =
      recs.take n := by
  induction n generalizing recs with
  | zero => simp [recordsOf]
  | succ n ih =>
    cases recs with
    | nil =>
      have h := map_range_getElem?_nil (α := List Bytes)
        (fun o => (.ok o : Except (Failure Err) (Option (List Bytes)))) (n + 1)
      rw [h]
      clear h ih
      induction n with
      | zero => simp [recordsOf]
      | succ n ih2 =>
        rw [List.replicate_succ]
        simpa [recordsOf] using ih2
    | cons r rs =>
      rw [map_range_getElem?_cons (fun o => (.ok o : Except (Failure Err) _)), recordsOf, ih]
      simp

theorem length_firstRows_le {α κ : Type} [DecidableEq κ] (key : α → κ) (l : List α) :
    (firstRows key l).length ≤ l.length := by
  induction l with
  | nil => simp [firstRows]
  | cons x xs ih =>
    simp only [firstRows, List.length_cons]
    have := List.length_filter_le (fun r2 => key r2 ≠ key x) (firstRows key xs)
    omega

/-- The records the hash executor returns are `hashRecords` of the decoded input. -/
theorem hashOutput_new (P : PureFns Datum Row Ctx Err) (ec : evalContext Datum Row Err)
    (offs : List Nat) (exprs : List (Expression Datum Row Err))
    (aggs : List (Aggregation Datum Row Ctx Err)) (vs : List (List Bytes))
    (hok : RowOk P ec offs exprs aggs vs) (row : Row) :
    hashOutput (hashAggExec.new ec aggs exprs offs row) (vs.map .ok) =
      hashRecords P exprs aggs (vs.map P.dec) := by
  unfold hashOutput
  rw [pulls_new P ec offs exprs aggs vs hok row, recordsOf_map_range]
  apply List.take_of_length_le
  have := length_firstRows_le (keyOf P exprs) (vs.map P.dec)
  simp only [hashRecords, List.length_map] at this ⊢
  omega

theorem flatten_map_inj (enc : Datum → Bytes) (hsd : SelfDelimiting enc) (l1 l2 : List Datum)
    (hlen : l1.length = l2.length) (h : (l1.map enc).flatten = (l2.map enc).flatten) :
    l1.map enc = l2.map enc := by
  induction l1 generalizing l2 with
  | nil =>
    cases l2 with
    | nil => rfl
    | cons b l2 => simp at hlen
  | cons a l1 ih =>
    cases l2 with
    | nil => simp at hlen
    | cons b l2 =>
      simp only [List.map_cons, List.flatten_cons] at h ⊢
      have hab : enc a = enc b := by
        rcases List.append_eq_append_iff.1 h with ⟨a', h1, _⟩ | ⟨c', h1, _⟩
        · exact hsd a b ⟨a', h1.symm⟩
        · exact (hsd b a ⟨c', h1.symm⟩).symm
      rw [hab] at h
      rw [hab, ih l2 (by simpa using hlen) (List.append_cancel_left h)]

theorem encsOf_eq_of_keyOf_eq (P : PureFns Datum Row Ctx Err)
    (exprs : List (Expression Datum Row Err)) (hsd : SelfDelimiting P.enc) (r1 r2 : Row)
    (h : keyOf P exprs r1 = keyOf P exprs r2) : encsOf P exprs r1 = encsOf P exprs r2 := by
  have := flatten_map_inj P.enc hsd (gvalsOf P exprs r1) (gvalsOf P exprs r2)
    (by simp [length_gvalsOf]) (by simpa [keyOf, map_enc_gvalsOf] using h)
  simpa [map_enc_gvalsOf] using this

theorem drop_hashRecord (P : PureFns Datum Row Ctx Err) (exprs : List (Expression Datum Row Err))
    (aggs : List (Aggregation Datum Row Ctx Err)) (rows : List Row) (r0 : Row) :
    (hashRecord P exprs aggs rows r0).drop ((hashRecord P exprs aggs rows r0).length - exprs.length) =
      encsOf P exprs r0 := by
  simp [hashRecord, length_encsOf]

theorem everyRowInOneRecord_hashRecords (P : PureFns Datum Row Ctx Err)
    (exprs : List (Expression Datum Row Err)) (aggs : List (Aggregation Datum Row Ctx Err))
    (hsd : SelfDelimiting P.enc) (rows : List Row) :
    EveryRowInOneRecord P exprs (hashRecords P exprs aggs rows) rows := by
  intro r hr
  have hk : keyOf P exprs r ∈ (firstRows (keyOf P exprs) rows).map (keyOf P exprs) :=
    (mem_map_firstRows _ _ _).2 (List.mem_map.2 ⟨r, hr, rfl⟩)
  obtain ⟨r0, hr0, hkey⟩ := List.mem_map.1 hk
  obtain ⟨i, hi⟩ := List.mem_iff_getElem?.1 hr0
  refine ⟨i, ⟨hashRecord P exprs aggs rows r0, by simp [hashRecords, List.getElem?_map, hi], ?_⟩, ?_⟩
  · rw [drop_hashRecord]
    exact encsOf_eq_of_keyOf_eq P exprs hsd _ _ hkey
  · rintro i2 ⟨rec, h1, h2⟩
    simp only [hashRecords, List.getElem?_map, Option.map_eq_some'] at h1
    obtain ⟨r2, hr2, rfl⟩ := h1
    rw [drop_hashRecord] at h2
    have hk2 : keyOf P exprs r2 = keyOf P exprs r0 := by
      rw [hkey]
      simp [keyOf, h2]
    have hnd := nodup_map_firstRows (keyOf P exprs) rows
    have hi2lt : i2 < ((firstRows (keyOf P exprs) rows).map (keyOf P exprs)).length := by
      have := (List.getElem?_eq_some_iff.1 hr2).1
      simpa using this
    have hilt : i < ((firstRows (keyOf P exprs) rows).map (keyOf P exprs)).length := by
      have := (List.getElem?_eq_some_iff.1 hi).1
      simpa using this
    have e1 : ((firstRows (keyOf P exprs) rows).map (keyOf P exprs))[i2] = keyOf P exprs r2 := by
      have := (List.getElem?_eq_some_iff.1 hr2).2
      simp [this]
    have e2 : ((firstRows (keyOf P exprs) rows).map (keyOf P exprs))[i] = keyOf P exprs r0 := by
      have := (List.getElem?_eq_some_iff.1 hi).2
      simp [this]
    exact (List.Nodup.getElem_inj_iff hnd).1 (by rw [e1, e2, hk2])

end HashOutput
section C8

variable {Datum Row Ctx Err : Type}

theorem Raw.rowOk_rawStored :
    RowOk Raw.fns Raw.ec [0, 1] [Raw.col 0, Raw.col 1] [Raw.count] Raw.stored := by
  refine ⟨fun v _ => rfl, ?_, fun d => rfl, ?_⟩
  · intro v _ ex h
    simp only [List.mem_cons, List.mem_singleton, List.not_mem_nil, or_false] at h
    rcases h with rfl | rfl <;> rfl
  · intro v _ agg h c
    simp only [List.mem_singleton] at h
    subst h
    rfl

theorem Demo.selfDelimiting : SelfDelimiting Demo.fns.enc := by
  intro a b h
  simpa [Demo.fns] using h

/-- Counterexample to C8 as stated (for every value codec).  With the codec of `Raw`, which
is not self-delimiting, the two stored rows of `Raw.stored` have different lists of
encoded group-by values and the same concatenated key; no collaborator fails, the hash
executor merges them into one group, and the encoded group-by values of the second row
are the GroupKeyRow of no record. -/
theorem C8_counterexample :
    RowOk Raw.fns Raw.ec [0, 1] [Raw.col 0, Raw.col 1] [Raw.count] Raw.stored ∧
    ¬ EveryRowInOneRecord Raw.fns [Raw.col 0, Raw.col 1]
        (hashOutput (hashAggExec.new Raw.ec [Raw.count] [Raw.col 0, Raw.col 1] [0, 1] [])
          (Raw.stored.map .ok))
        (Raw.stored.map Raw.fns.dec) := by
  refine ⟨Raw.rowOk_rawStored, ?_⟩
  have hout : hashOutput (hashAggExec.new Raw.ec [Raw.count] [Raw.col 0, Raw.col 1] [0, 1] [])
      (Raw.stored.map .ok) = [[[2], [1], [2, 3]]] := by rfl
  rw [hout]
  intro h
  obtain ⟨i, ⟨rec, h1, h2⟩, _⟩ := h [[1, 2], [3]] (by decide)
  cases i with
  | zero =>
    simp only [List.getElem?_cons_zero, Option.some.injEq] at h1
    subst h1
    revert h2
    decide
  | succ i => simp at h1

/-- Claim C8, amended.  Hash engine, for a value codec that is self-delimiting: when no
collaborator fails on the input, the list of encoded group-by values of every input row is
the GroupKeyRow (the trailing columns) of exactly one returned record, and two input rows
with the same concatenated key have the same list of encoded group-by values. -/
theorem C8_hash_every_row_in_one_record (P : PureFns Datum Row Ctx Err)
    (ec : evalContext Datum Row Err) (offs : List Nat) (exprs : List (Expression Datum Row Err))
    (aggs : List (Aggregation Datum Row Ctx Err)) (input : List (List Bytes))
    (hok : RowOk P ec offs exprs aggs input) (hsd : SelfDelimiting P.enc) (row : Row) :
    EveryRowInOneRecord P exprs
        (hashOutput (hashAggExec.new ec aggs exprs offs row) (input.map .ok)) (input.map P.dec) ∧
      ∀ v1 ∈ input, ∀ v2 ∈ input, keyOf P exprs (P.dec v1) = keyOf P exprs (P.dec v2) →
        encsOf P exprs (P.dec v1) = encsOf P exprs (P.dec v2) := by
  rw [hashOutput_new P ec offs exprs aggs input hok row]
  exact ⟨everyRowInOneRecord_hashRecords P exprs aggs hsd _,
    fun v1 _ v2 _ h => encsOf_eq_of_keyOf_eq P exprs hsd _ _ h⟩

/-- Witness of the amended C8 on the stored rows of `Demo`. -/
theorem C8_hash_every_row_in_one_record_witness :
    RowOk Demo.fns Demo.ec [0, 1] [Demo.col 0] [Demo.count, Demo.sum] Demo.stored ∧
    SelfDelimiting Demo.fns.enc ∧
    EveryRowInOneRecord Demo.fns [Demo.col 0]
        (hashOutput
          (hashAggExec.new Demo.ec [Demo.count, Demo.sum] [Demo.col 0] [0, 1] ([] : List Nat))
          (Demo.stored.map .ok)) (Demo.stored.map Demo.fns.dec) ∧
      ∀ v1 ∈ Demo.stored, ∀ v2 ∈ Demo.stored,
        keyOf Demo.fns [Demo.col 0] (Demo.fns.dec v1) = keyOf Demo.fns [Demo.col 0] (Demo.fns.dec v2) →
        encsOf Demo.fns [Demo.col 0] (Demo.fns.dec v1) =
          encsOf Demo.fns [Demo.col 0] (Demo.fns.dec v2) :=
  ⟨Demo.rowOk_stored _ _ (by simp) (by simp) _, Demo.selfDelimiting,
   C8_hash_every_row_in_one_record Demo.fns Demo.ec [0, 1] [Demo.col 0] [Demo.count, Demo.sum]
     Demo.stored (Demo.rowOk_stored _ _ (by simp) (by simp) _) Demo.selfDelimiting []⟩

end C8

section C9

variable {Datum Row Ctx Err : Type}

theorem ctxsOf_perm (P : PureFns Datum Row Ctx Err) (aggs : List (Aggregation Datum Row Ctx Err))
    (l1 l2 : List Row) (hp : l1.Perm l2) (hc : OrderInsensitive P aggs l1) :
    ctxsOf P aggs l1 = ctxsOf P aggs l2 := by
  unfold ctxsOf
  apply List.map_congr_left
  intro agg hagg
  exact hp.foldl_eq' (fun x hx y hy z => hc agg hagg x hx y hy z) _

theorem OrderInsensitive.filter {P : PureFns Datum Row Ctx Err}
    {aggs : List (Aggregation Datum Row Ctx Err)} {rows : List Row}
    (h : OrderInsensitive P aggs rows) (p : Row → Bool) :
    OrderInsensitive P aggs (rows.filter p) :=
  fun agg hagg r1 h1 r2 h2 c =>
    h agg hagg r1 (List.mem_filter.1 h1).1 r2 (List.mem_filter.1 h2).1 c

theorem OrderInsensitive.perm {P : PureFns Datum Row Ctx Err}
    {aggs : List (Aggregation Datum Row Ctx Err)} {rows rows2 : List Row}
    (h : OrderInsensitive P aggs rows) (hp : rows2.Perm rows) :
    OrderInsensitive P aggs rows2 :=
  fun agg hagg r1 h1 r2 h2 c => h agg hagg r1 (hp.mem_iff.1 h1) r2 (hp.mem_iff.1 h2) c

theorem hashRecords_subset_of_perm (P : PureFns Datum Row Ctx Err)
    (exprs : List (Expression Datum Row Err)) (aggs : List (Aggregation Datum Row Ctx Err))
    (hsd : SelfDelimiting P.enc) (rows1 rows2 : List Row) (hp : rows1.Perm rows2)
    (hc : OrderInsensitive P aggs rows1) (rec : List Bytes)
    (h : rec ∈ hashRecords P exprs aggs rows1) : rec ∈ hashRecords P exprs aggs rows2 := by
  obtain ⟨r0, hr0, rfl⟩ := List.mem_map.1 h
  have hmem2 : keyOf P exprs r0 ∈ (firstRows (keyOf P exprs) rows2).map (keyOf P exprs) :=
    (mem_map_firstRows _ _ _).2
      (List.mem_map.2 ⟨r0, hp.mem_iff.1 (firstRows_subset _ _ _ hr0), rfl⟩)
  obtain ⟨r2, hr2, hkey⟩ := List.mem_map.1 hmem2
  refine List.mem_map.2 ⟨r2, hr2, ?_⟩
  unfold hashRecord partialsOf
  rw [hkey, encsOf_eq_of_keyOf_eq P exprs hsd _ _ hkey,
    ctxsOf_perm P aggs _ _ (hp.filter _) (hc.filter _)]

theorem sameRecordSet_hashRecords (P : PureFns Datum Row Ctx Err)
    (exprs : List (Expression Datum Row Err)) (aggs : List (Aggregation Datum Row Ctx Err))
    (hsd : SelfDelimiting P.enc) (rows1 rows2 : List Row) (hp : rows1.Perm rows2)
    (hc : OrderInsensitive P aggs rows2) :
    SameRecordSet (hashRecords P exprs aggs rows1) (hashRecords P exprs aggs rows2) :=
  fun rec =>
    ⟨hashRecords_subset_of_perm P exprs aggs hsd rows1 rows2 hp (hc.perm hp) rec,
     hashRecords_subset_of_perm P exprs aggs hsd rows2 rows1 hp.symm hc rec⟩

/-- Counterexample to C9 as stated (for every set of aggregate functions).  With the
aggregate `Demo.last`, which keeps the value of the last row it was updated with, the
two rows of `Demo.pair` give the record `(20, a)` in one order and `(10, a)` in the other;
no collaborator fails. -/
theorem C9_counterexample :
    Demo.pairSwapped.Perm Demo.pair ∧
    RowOk Demo.fns Demo.ec [0, 1] [Demo.col 0] [Demo.last] Demo.pair ∧
    ¬ SameRecordSet
        (hashOutput (hashAggExec.new Demo.ec [Demo.last] [Demo.col 0] [0, 1] ([] : List Nat))
          (Demo.pairSwapped.map .ok))
        (hashOutput (hashAggExec.new Demo.ec [Demo.last] [Demo.col 0] [0, 1] ([] : List Nat))
          (Demo.pair.map .ok)) := by
  refine ⟨List.Perm.swap _ _ _, Demo.rowOk_stored _ _ (by simp) (by simp) _, ?_⟩
  have h1 : hashOutput (hashAggExec.new Demo.ec [Demo.last] [Demo.col 0] [0, 1] ([] : List Nat))
      (Demo.pairSwapped.map .ok) = [[[10], [1]]] := by rfl
  have h2 : hashOutput (hashAggExec.new Demo.ec [Demo.last] [Demo.col 0] [0, 1] ([] : List Nat))
      (Demo.pair.map .ok) = [[[20], [1]]] := by rfl
  rw [h1, h2]
  intro h
  have := (h [[10], [1]]).1 (by simp)
  revert this
  decide

/-- Claim C9, amended.  Order independence of the hash engine, for aggregate functions
whose updates commute on the input rows and a value codec that is self-delimiting: when
no collaborator fails on the input, the hash executor returns the same set of records for
the input and for every permutation of it. -/
theorem C9_hash_order_independent (P : PureFns Datum Row Ctx Err)
    (ec : evalContext Datum Row Err) (offs : List Nat) (exprs : List (Expression Datum Row Err))
    (aggs : List (Aggregation Datum Row Ctx Err)) (input permuted : List (List Bytes))
    (hperm : permuted.Perm input) (hok : RowOk P ec offs exprs aggs input)
    (hcomm : OrderInsensitive P aggs (input.map P.dec)) (hsd : SelfDelimiting P.enc) (row : Row) :
    SameRecordSet
      (hashOutput (hashAggExec.new ec aggs exprs offs row) (permuted.map .ok))
      (hashOutput (hashAggExec.new ec aggs exprs offs row) (input.map .ok)) := by
  rw [hashOutput_new P ec offs exprs aggs input hok row,
    hashOutput_new P ec offs exprs aggs permuted (hok.mono (fun v hv => hperm.mem_iff.1 hv)) row]
  exact sameRecordSet_hashRecords P exprs aggs hsd _ _ (hperm.map _) hcomm

theorem Demo.orderInsensitive_count_sum (rows : List (List Nat)) :
    OrderInsensitive Demo.fns [Demo.count, Demo.sum] rows := by
  intro agg hagg r1 _ r2 _ c
  simp only [List.mem_cons, List.mem_singleton, List.not_mem_nil, or_false] at hagg
  rcases hagg with rfl | rfl
  · rfl
  · simp only [Demo.fns, Demo.sum]
    omega

/-- Witness of the amended C9: the stored rows of `Demo` and their reversal, with `count`
and `sum`. -/
theorem C9_hash_order_independent_witness :
    Demo.stored.reverse.Perm Demo.stored ∧
    RowOk Demo.fns Demo.ec [0, 1] [Demo.col 0] [Demo.count, Demo.sum] Demo.stored ∧
    OrderInsensitive Demo.fns [Demo.count, Demo.sum] (Demo.stored.map Demo.fns.dec) ∧
    SelfDelimiting Demo.fns.enc ∧
    SameRecordSet
      (hashOutput
        (hashAggExec.new Demo.ec [Demo.count, Demo.sum] [Demo.col 0] [0, 1] ([] : List Nat))
        (Demo.stored.reverse.map .ok))
      (hashOutput
        (hashAggExec.new Demo.ec [Demo.count, Demo.sum] [Demo.col 0] [0, 1] ([] : List Nat))
        (Demo.stored.map .ok)) :=
  ⟨List.reverse_perm _, Demo.rowOk_stored _ _ (by simp) (by simp) _,
   Demo.orderInsensitive_count_sum _, Demo.selfDelimiting,
   C9_hash_order_independent Demo.fns Demo.ec [0, 1] [Demo.col 0] [Demo.count, Demo.sum]
     Demo.stored Demo.stored.reverse (List.reverse_perm _)
     (Demo.rowOk_stored _ _ (by simp) (by simp) _) (Demo.orderInsensitive_count_sum _)
     Demo.selfDelimiting []⟩

end C9

section BatchSteps

variable {Datum Row Ctx PR Err : Type}

theorem consumeGroupRowsLoop_ok (Q : PureAggFns Datum Row PR Err)
    (F : List (AggFunc Datum Row PR Err)) (rows : List Row)
    (h : ∀ f ∈ F, ∀ pr, f.UpdatePartialResult rows pr = .ok (Q.upd f rows pr))
    (pre cs : List PR) (hlen : cs.length = F.length) :
    streamAggExec.consumeGroupRowsLoop rows F pre.length (pre ++ cs) =
      (none, pre ++ List.zipWith (fun f pr => Q.upd f rows pr) F cs) := by
  induction F generalizing pre cs with
  | nil =>
    cases cs with
    | nil => simp [streamAggExec.consumeGroupRowsLoop]
    | cons c cs => simp at hlen
  | cons f F ih =>
    cases cs with
    | nil => simp at hlen
    | cons c cs =>
      have h1 := h f (List.mem_cons_self _ _) c
      have h2 := ih (fun a ha => h a (List.mem_cons_of_mem _ ha)) (pre ++ [Q.upd f rows c]) cs
        (by simpa using hlen)
      simp only [List.length_append, List.length_singleton, List.append_assoc,
        List.singleton_append] at h2
      simp only [streamAggExec.consumeGroupRowsLoop, getElem?_length_append, h1,
        set_length_append, h2, List.zipWith_cons_cons]

theorem appendGroupByLoop_ok (ds : List Datum) (i : Nat) (chk : Chunk Datum)
    (h : i + ds.length ≤ chk.numCols) :
    (streamAggExec.appendGroupByLoop ds i chk : Option (Failure Err) × Chunk Datum) =
      (none, { chk with cells := chk.cells ++ ds.enumFrom i }) := by
  induction ds generalizing i chk with
  | nil => simp [streamAggExec.appendGroupByLoop]
  | cons d ds ih =>
    have hi : i < chk.numCols := by simp only [List.length_cons] at h; omega
    have h2 := ih (i + 1) { chk with cells := chk.cells ++ [(i, d)] }
      (by simp only [List.length_cons] at h ⊢; omega)
    simp only [streamAggExec.appendGroupByLoop, Chunk.AppendDatum, hi, if_true, h2,
      List.enumFrom, List.append_assoc, List.singleton_append]

theorem appendFinalLoop_ok (Q : PureAggFns Datum Row PR Err)
    (F : List (AggFunc Datum Row PR Err))
    (h : ∀ f ∈ F, ∀ pr, f.FinalResult pr = .ok (Q.fin f pr))
    (pre cs : List PR) (hlen : cs.length = F.length) (chk : Chunk Datum)
    (hord : ∀ f ∈ F, f.ordinal < chk.numCols) :
    streamAggExec.appendFinalLoop F pre.length (pre ++ cs) chk =
      (none, pre ++ List.zipWith (fun f pr => f.ResetPartialResult pr) F cs,
        { chk with cells := chk.cells ++
            List.zipWith (fun f pr => (f.ordinal, Q.fin f pr)) F cs }) := by
  induction F generalizing pre cs chk with
  | nil =>
    cases cs with
    | nil => simp [streamAggExec.appendFinalLoop]
    | cons c cs => simp at hlen
  | cons f F ih =>
    cases cs with
    | nil => simp at hlen
    | cons c cs =>
      have h1 := h f (List.mem_cons_self _ _) c
      have ho : f.ordinal < chk.numCols := hord f (List.mem_cons_self _ _)
      have h2 := ih (fun a ha => h a (List.mem_cons_of_mem _ ha))
        (pre ++ [f.ResetPartialResult c]) cs (by simpa using hlen)
        { chk with cells := chk.cells ++ [(f.ordinal, Q.fin f c)] }
        (fun a ha => hord a (List.mem_cons_of_mem _ ha))
      simp only [List.length_append, List.length_singleton, List.append_assoc,
        List.singleton_append] at h2
      simp only [streamAggExec.appendFinalLoop, getElem?_length_append, h1,
        set_length_append, Chunk.AppendDatum, ho, if_true, h2, List.zipWith_cons_cons,
        List.append_assoc, List.singleton_append]

theorem zipWith_ordinal_finalsOf (Q : PureAggFns Datum Row PR Err)
    (F : List (AggFunc Datum Row PR Err)) (prs : List PR) :
    List.zipWith (fun f d => (f.ordinal, d)) F (finalsOf Q F prs) =
      List.zipWith (fun f pr => (f.ordinal, Q.fin f pr)) F prs := by
  unfold finalsOf
  induction F generalizing prs with
  | nil => simp
  | cons f F ih =>
    cases prs with
    | nil => simp
    | cons p prs => simp [ih]

theorem consumeGroupRows_batchSt (Q : PureAggFns Datum Row PR Err)
    (ec : evalContext Datum Row Err) (offs : List Nat) (exprs : List (Expression Datum Row Err))
    (aggs : List (Aggregation Datum Row Ctx Err)) (F : List (AggFunc Datum Row PR Err))
    (row : Row) (s : BatchAbs Datum Row PR)
    (hupd : ∀ f ∈ F, ∀ pr, f.UpdatePartialResult s.buf pr = .ok (Q.upd f s.buf pr))
    (hlen : s.prs.length = F.length)
    (child : Option (List Row)) (isE ex : Bool) (iter : List Row) :
    (batchSt ec offs exprs aggs F row s child isE ex iter).consumeGroupRows =
      (none, batchSt ec offs exprs aggs F row
        { s with prs := flushRows Q F s.buf s.prs, buf := [] } child isE ex iter) := by
  by_cases hb : s.buf.length = 0
  · have hnil : s.buf = [] := List.length_eq_zero.1 hb
    simp [streamAggExec.consumeGroupRows, batchSt, flushRows, hnil]
  · have h1 := consumeGroupRowsLoop_ok Q F s.buf hupd [] s.prs hlen
    simp only [List.nil_append, List.length_nil] at h1
    simp [streamAggExec.consumeGroupRows, batchSt, flushRows, hb, h1]

theorem appendResult2Chunk_batchSt (Q : PureAggFns Datum Row PR Err)
    (ec : evalContext Datum Row Err) (offs : List Nat) (exprs : List (Expression Datum Row Err))
    (aggs : List (Aggregation Datum Row Ctx Err)) (F : List (AggFunc Datum Row PR Err))
    (row : Row) (s : BatchAbs Datum Row PR)
    (hfin : ∀ f ∈ F, ∀ pr, f.FinalResult pr = .ok (Q.fin f pr))
    (hlen : s.prs.length = F.length)
    (child : Option (List Row)) (isE ex : Bool) (iter : List Row) (chk : Chunk Datum)
    (hkey : s.curr.length ≤ chk.numCols) (hord : ∀ f ∈ F, f.ordinal < chk.numCols) :
    (batchSt ec offs exprs aggs F row s child isE ex iter).appendResult2Chunk chk =
      (none, batchSt ec offs exprs aggs F row { s with prs := resetAll F s.prs } child isE ex iter,
        appendRecord F chk (s.curr, finalsOf Q F s.prs)) := by
  have h0 : (streamAggExec.appendGroupByLoop s.curr 0 chk : Option (Failure Err) × Chunk Datum) =
      (none, { chk with cells := chk.cells ++ s.curr.enumFrom 0 }) :=
    appendGroupByLoop_ok s.curr 0 chk (by omega)
  have h1 := appendFinalLoop_ok Q F hfin [] s.prs hlen
    { chk with cells := chk.cells ++ s.curr.enumFrom 0 } hord
  simp only [List.nil_append, List.length_nil] at h1
  simp only [streamAggExec.appendResult2Chunk, batchSt, h0, h1, appendRecord,
    recordCells, zipWith_ordinal_finalsOf, resetAll, List.enum, Chunk.SetNumVirtualRows,
    List.append_assoc]

theorem meetNewGroupChunk_batchSt (P : PureFns Datum Row Ctx Err)
    (Q : PureAggFns Datum Row PR Err) (cmp : Datum → Datum → Int)
    (ec : evalContext Datum Row Err) (offs : List Nat) (exprs : List (Expression Datum Row Err))
    (aggs : List (Aggregation Datum Row Ctx Err)) (F : List (AggFunc Datum Row PR Err))
    (row : Row) (s : BatchAbs Datum Row PR)
    (hcmp : ∀ a b, ec.CompareDatum a b = .ok (cmp a b))
    (r : Row) (hev : ∀ ex ∈ exprs, ex.Eval r = .ok (P.ev ex r))
    (hcurr : s.curr.length = 0 ∨ s.curr.length = exprs.length)
    (child : Option (List Row)) (isE ex : Bool) (iter : List Row) :
    (batchSt ec offs exprs aggs F row s child isE ex iter).meetNewGroupChunk r =
      (.ok (absStep P Q cmp exprs F s r).1.isSome,
       batchSt ec offs exprs aggs F row
         { s with tmp := (absStep P Q cmp exprs F s r).2.tmp,
                  curr := (absStep P Q cmp exprs F s r).2.curr } child isE ex iter) := by
  by_cases h0 : exprs.length = 0
  · simp [streamAggExec.meetNewGroupChunk, batchSt, absStep, h0]
  · by_cases hc : s.curr.length = 0
    · have h1 := compareLoop_unmatched ec r P.ev s.curr exprs hev 0 []
      simp only [List.nil_append] at h1
      have h1b : compareLoop ec r s.curr exprs 0 false [] = (.ok false, gvalsOf P exprs r) := h1
      simp [streamAggExec.meetNewGroupChunk, batchSt, absStep, h0, hc, h1b, aliasView]
    · have hlen : s.curr.length = exprs.length := by
        rcases hcurr with h | h
        · exact absurd h hc
        · exact h
      have h1 := compareLoop_matched ec r P.ev cmp hcmp exprs hev [] s.curr hlen []
      simp only [List.nil_append, List.length_nil] at h1
      have h1b : compareLoop ec r s.curr exprs 0 true [] =
          (.ok (keysMatch cmp (gvalsOf P exprs r) s.curr), gvalsOf P exprs r) := h1
      by_cases hm : keysMatch cmp (gvalsOf P exprs r) s.curr = true
      · simp [streamAggExec.meetNewGroupChunk, batchSt, absStep, h0, hc, h1b, aliasView, hm]
      · simp [streamAggExec.meetNewGroupChunk, batchSt, absStep, h0, hc, h1b, aliasView, hm]

end BatchSteps
section BatchRows

variable {Datum Row Ctx PR Err : Type}

theorem length_flushRows (Q : PureAggFns Datum Row PR Err) (F : List (AggFunc Datum Row PR Err))
    (rs : List Row) (prs : List PR) (h : prs.length = F.length) :
    (flushRows Q F rs prs).length = F.length := by
  unfold flushRows
  split
  · exact h
  · simp [h]

theorem length_resetAll (F : List (AggFunc Datum Row PR Err)) (prs : List PR)
    (h : prs.length = F.length) : (resetAll F prs).length = F.length := by
  simp [resetAll, h]

theorem BatchInv.flush {Q : PureAggFns Datum Row PR Err}
    {exprs : List (Expression Datum Row Err)} {F : List (AggFunc Datum Row PR Err)}
    {rows : List Row} {s : BatchAbs Datum Row PR} (h : BatchInv exprs F rows s) :
    BatchInv exprs F rows { s with prs := flushRows Q F s.buf s.prs, buf := [] } :=
  ⟨length_flushRows Q F _ _ h.prs, h.curr, fun _ hr => by simp at hr⟩

theorem BatchInv.step (P : PureFns Datum Row Ctx Err) (Q : PureAggFns Datum Row PR Err)
    (cmp : Datum → Datum → Int) {exprs : List (Expression Datum Row Err)}
    {F : List (AggFunc Datum Row PR Err)} {rows : List Row} {s : BatchAbs Datum Row PR}
    (h : BatchInv exprs F rows s) (r : Row) (hr : r ∈ rows) :
    BatchInv exprs F rows (absStep P Q cmp exprs F s r).2 := by
  have hbuf : ∀ x ∈ s.buf ++ [r], x ∈ rows := by
    intro x hx
    rcases List.mem_append.1 hx with h1 | h1
    · exact h.buf x h1
    · simp only [List.mem_singleton] at h1
      exact h1 ▸ hr
  unfold absStep
  split
  · exact ⟨h.prs, h.curr, hbuf⟩
  · split
    · exact ⟨h.prs, Or.inr (length_gvalsOf P exprs r), hbuf⟩
    · split
      · exact ⟨h.prs, h.curr, hbuf⟩
      · exact ⟨length_resetAll F _ (length_flushRows Q F _ _ h.prs),
          Or.inr (length_gvalsOf P exprs r), fun x hx => by
            simp only [List.mem_singleton] at hx
            exact hx ▸ hr⟩

theorem BatchInv.rows (P : PureFns Datum Row Ctx Err) (Q : PureAggFns Datum Row PR Err)
    (cmp : Datum → Datum → Int) {exprs : List (Expression Datum Row Err)}
    {F : List (AggFunc Datum Row PR Err)} {rows : List Row} {s : BatchAbs Datum Row PR}
    (h : BatchInv exprs F rows s) (it : List Row) (hit : ∀ r ∈ it, r ∈ rows) :
    BatchInv exprs F rows (absRows P Q cmp exprs F s it).2 := by
  induction it generalizing s with
  | nil => exact h
  | cons r rest ih =>
    have h2 := h.step P Q cmp r (hit r (List.mem_cons_self _ _))
    have hrest : ∀ x ∈ rest, x ∈ rows := fun x hx => hit x (List.mem_cons_of_mem _ hx)
    unfold absRows
    cases hs : absStep P Q cmp exprs F s r with
    | mk o s2 =>
      rw [hs] at h2
      cases o with
      | none => exact ih h2 hrest
      | some rec => exact ih h2 hrest

theorem BatchInv.until (P : PureFns Datum Row Ctx Err) (Q : PureAggFns Datum Row PR Err)
    (cmp : Datum → Datum → Int) {exprs : List (Expression Datum Row Err)}
    {F : List (AggFunc Datum Row PR Err)} {rows : List Row} {s : BatchAbs Datum Row PR}
    (h : BatchInv exprs F rows s) (it : List Row) (hit : ∀ r ∈ it, r ∈ rows) :
    BatchInv exprs F rows (absUntil P Q cmp exprs F s it).2 := by
  induction it generalizing s with
  | nil => exact h
  | cons r rest ih =>
    have h2 := h.step P Q cmp r (hit r (List.mem_cons_self _ _))
    have hrest : ∀ x ∈ rest, x ∈ rows := fun x hx => hit x (List.mem_cons_of_mem _ hx)
    unfold absUntil
    cases hs : absStep P Q cmp exprs F s r with
    | mk o s2 =>
      rw [hs] at h2
      cases o with
      | none => exact ih h2 hrest
      | some rec => exact h2

/-- The loop over the rows of the input batch, up to the first group boundary. -/
theorem consumeRows_batchSt (P : PureFns Datum Row Ctx Err)
    (Q : PureAggFns Datum Row PR Err) (cmp : Datum → Datum → Int)
    (ec : evalContext Datum Row Err) (offs : List Nat) (exprs : List (Expression Datum Row Err))
    (aggs : List (Aggregation Datum Row Ctx Err)) (F : List (AggFunc Datum Row PR Err))
    (row : Row) (rows : List Row) (hok : ChunkOk P Q cmp ec exprs F rows)
    (child : Option (List Row)) (isE : Bool) (it : List Row) (hit : ∀ r ∈ it, r ∈ rows)
    (s : BatchAbs Datum Row PR) (hinv : BatchInv exprs F rows s) (iter0 : List Row)
    (chk : Chunk Datum) (hfit : ChunkFits exprs F chk) :
    (batchSt ec offs exprs aggs F row s child isE false iter0).consumeRows chk it =
      match absUntil P Q cmp exprs F s it with
      | (none, s2) => (.ok false, batchSt ec offs exprs aggs F row s2 child isE false [], chk)
      | (some (rec, rest), s2) =>
        (.ok true, batchSt ec offs exprs aggs F row s2 child isE false rest,
          appendRecord F chk rec) := by
  induction it generalizing s iter0 with
  | nil => simp [streamAggExec.consumeRows, absUntil, batchSt]
  | cons r rest ih =>
    have hr := hit r (List.mem_cons_self _ _)
    have hrest : ∀ x ∈ rest, x ∈ rows := fun x hx => hit x (List.mem_cons_of_mem _ hx)
    have hmeet := meetNewGroupChunk_batchSt P Q cmp ec offs exprs aggs F row s hok.compare r
      (hok.eval r hr) hinv.curr child isE false iter0
    have hinv2 := hinv.step P Q cmp r hr
    rw [streamAggExec.consumeRows, hmeet]
    by_cases h0 : exprs.length = 0
    · have hs : absStep P Q cmp exprs F s r = (none, { s with buf := s.buf ++ [r] }) := by
        simp [absStep, h0]
      rw [hs] at hinv2
      have := ih hrest { s with buf := s.buf ++ [r] } hinv2 iter0
      simp only [batchSt] at this
      simp only [hs, absUntil, Option.isSome_none, Bool.false_eq_true, if_false, batchSt, this]
    · by_cases hc : s.curr.length = 0
      · have hs : absStep P Q cmp exprs F s r =
            (none, { s with tmp := gvalsOf P exprs r, curr := gvalsOf P exprs r,
                            buf := s.buf ++ [r] }) := by
          simp [absStep, h0, hc]
        rw [hs] at hinv2
        have := ih hrest _ hinv2 iter0
        simp only [batchSt] at this
        simp only [hs, absUntil, Option.isSome_none, Bool.false_eq_true, if_false, batchSt, this]
      · by_cases hm : keysMatch cmp (gvalsOf P exprs r) s.curr = true
        · have hs : absStep P Q cmp exprs F s r =
              (none, { s with tmp := gvalsOf P exprs r, buf := s.buf ++ [r] }) := by
            simp [absStep, h0, hc, hm]
          rw [hs] at hinv2
          have := ih hrest _ hinv2 iter0
          simp only [batchSt] at this
          simp only [hs, absUntil, Option.isSome_none, Bool.false_eq_true, if_false, batchSt,
            this]
        · have hs : absStep P Q cmp exprs F s r =
              (some (gvalsOf P exprs r, finalsOf Q F (flushRows Q F s.buf s.prs)),
                { tmp := gvalsOf P exprs r, curr := gvalsOf P exprs r,
                  prs := resetAll F (flushRows Q F s.buf s.prs), buf := [r] }) := by
            simp [absStep, h0, hc, hm]
          have hflush := consumeGroupRows_batchSt Q ec offs exprs aggs F row
            { s with tmp := gvalsOf P exprs r, curr := gvalsOf P exprs r }
            (fun f hf pr => hok.update f hf s.buf pr hinv.buf) hinv.prs child isE false iter0
          have happ := appendResult2Chunk_batchSt Q ec offs exprs aggs F row
            { tmp := gvalsOf P exprs r, curr := gvalsOf P exprs r,
              prs := flushRows Q F s.buf s.prs, buf := [] }
            hok.final (length_flushRows Q F _ _ hinv.prs) child isE false iter0 chk
            (by rw [length_gvalsOf]; exact hfit.1) hfit.2
          simp only [batchSt] at hflush happ
          simp only [hs, absUntil, Option.isSome_some, if_true, batchSt, hflush, happ,
            List.nil_append]

end BatchRows

section BatchGroups

variable {Datum Row Ctx PR Err : Type}

theorem absRows_of_absUntil_none (P : PureFns Datum Row Ctx Err)
    (Q : PureAggFns Datum Row PR Err) (cmp : Datum → Datum → Int)
    (exprs : List (Expression Datum Row Err)) (F : List (AggFunc Datum Row PR Err))
    (it : List Row) (s s2 : BatchAbs Datum Row PR)
    (h : absUntil P Q cmp exprs F s it = (none, s2)) :
    absRows P Q cmp exprs F s it = ([], s2) := by
  induction it generalizing s with
  | nil => simpa [absUntil, absRows] using h
  | cons r rest ih =>
    unfold absUntil at h
    unfold absRows
    cases hs : absStep P Q cmp exprs F s r with
    | mk o s3 =>
      rw [hs] at h
      cases o with
      | none => exact ih s3 h
      | some rec => simp at h

theorem absRows_of_absUntil_some (P : PureFns Datum Row Ctx Err)
    (Q : PureAggFns Datum Row PR Err) (cmp : Datum → Datum → Int)
    (exprs : List (Expression Datum Row Err)) (F : List (AggFunc Datum Row PR Err))
    (it : List Row) (s s2 : BatchAbs Datum Row PR) (rec : List Datum × List Datum)
    (rest : List Row) (h : absUntil P Q cmp exprs F s it = (some (rec, rest), s2)) :
    absRows P Q cmp exprs F s it =
      (rec :: (absRows P Q cmp exprs F s2 rest).1, (absRows P Q cmp exprs F s2 rest).2) := by
  induction it generalizing s with
  | nil => simp [absUntil] at h
  | cons r rest2 ih =>
    unfold absUntil at h
    cases hs : absStep P Q cmp exprs F s r with
    | mk o s3 =>
      rw [hs] at h
      cases o with
      | none =>
        simp only [absRows, hs]
        exact ih s3 h
      | some rec2 =>
        simp only [Prod.mk.injEq, Option.some.injEq] at h
        obtain ⟨⟨h1, h2⟩, h3⟩ := h
        subst h1 h2 h3
        simp only [absRows, hs]

theorem absUntil_rest (P : PureFns Datum Row Ctx Err)
    (Q : PureAggFns Datum Row PR Err) (cmp : Datum → Datum → Int)
    (exprs : List (Expression Datum Row Err)) (F : List (AggFunc Datum Row PR Err))
    (it : List Row) (s s2 : BatchAbs Datum Row PR) (rec : List Datum × List Datum)
    (rest : List Row) (h : absUntil P Q cmp exprs F s it = (some (rec, rest), s2)) :
    rest.length + 1 ≤ it.length ∧ ∀ r ∈ rest, r ∈ it := by
  induction it generalizing s with
  | nil => simp [absUntil] at h
  | cons r rest2 ih =>
    unfold absUntil at h
    cases hs : absStep P Q cmp exprs F s r with
    | mk o s3 =>
      rw [hs] at h
      cases o with
      | none =>
        obtain ⟨h1, h2⟩ := ih s3 h
        exact ⟨by simp only [List.length_cons]; omega, fun x hx => List.mem_cons_of_mem _ (h2 x hx)⟩
      | some rec2 =>
        simp only [Prod.mk.injEq, Option.some.injEq] at h
        obtain ⟨⟨_, h2⟩, _⟩ := h
        subst h2
        exact ⟨by simp, fun x hx => List.mem_cons_of_mem _ hx⟩

end BatchGroups

section BatchFetch

variable {Datum Row Ctx PR Err : Type}

/-- `fetchChildIfNecessary` when the source delivers a non-empty batch. -/
theorem fetch_batch (P : PureFns Datum Row Ctx Err)
    (Q : PureAggFns Datum Row PR Err) (cmp : Datum → Datum → Int)
    (ec : evalContext Datum Row Err) (offs : List Nat) (exprs : List (Expression Datum Row Err))
    (aggs : List (Aggregation Datum Row Ctx Err)) (F : List (AggFunc Datum Row PR Err))
    (row : Row) (rows : List Row) (hok : ChunkOk P Q cmp ec exprs F rows)
    (s : BatchAbs Datum Row PR) (hinv : BatchInv exprs F rows s)
    (child : Option (List Row)) (isE : Bool) (r : Row) (b : List Row) (bs : List (List Row))
    (chk : Chunk Datum) :
    (batchSt ec offs exprs aggs F row s child isE false []).fetchChildIfNecessary
        (((r :: b) :: bs).map .ok) chk =
      (none, batchSt ec offs exprs aggs F row
        { s with prs := flushRows Q F s.buf s.prs, buf := [] } (some (r :: b)) false false (r :: b),
        bs.map .ok, chk) := by
  have hflush := consumeGroupRows_batchSt Q ec offs exprs aggs F row s
    (fun f hf pr => hok.update f hf s.buf pr hinv.buf) hinv.prs child isE false []
  simp only [batchSt] at hflush
  simp [streamAggExec.fetchChildIfNecessary, batchSt, hflush]

/-- `fetchChildIfNecessary` when the source is at its end (or delivers an empty batch):
the record of the last group is appended if any row has been read, and the execution is
marked as finished. -/
theorem fetch_end (P : PureFns Datum Row Ctx Err)
    (Q : PureAggFns Datum Row PR Err) (cmp : Datum → Datum → Int)
    (ec : evalContext Datum Row Err) (offs : List Nat) (exprs : List (Expression Datum Row Err))
    (aggs : List (Aggregation Datum Row Ctx Err)) (F : List (AggFunc Datum Row PR Err))
    (row : Row) (rows : List Row) (hok : ChunkOk P Q cmp ec exprs F rows)
    (s : BatchAbs Datum Row PR) (hinv : BatchInv exprs F rows s)
    (child : Option (List Row)) (isE : Bool) (batches : List (List Row))
    (hb : batches = [] ∨ ∃ bs, batches = [] :: bs) (chk : Chunk Datum)
    (hfit : ChunkFits exprs F chk) :
    (batchSt ec offs exprs aggs F row s child isE false []).fetchChildIfNecessary
        (batches.map .ok) chk =
      (none, batchSt ec offs exprs aggs F row
        { s with prs := if isE then flushRows Q F s.buf s.prs
                        else resetAll F (flushRows Q F s.buf s.prs),
                 buf := [] } (some []) isE true [],
        batches.tail.map .ok,
        (absEnd Q F s (!isE)).foldl (appendRecord F) chk) := by
  have hflush := consumeGroupRows_batchSt Q ec offs exprs aggs F row s
    (fun f hf pr => hok.update f hf s.buf pr hinv.buf) hinv.prs child isE false []
  have happ := appendResult2Chunk_batchSt Q ec offs exprs aggs F row
    { s with prs := flushRows Q F s.buf s.prs, buf := [] }
    hok.final (length_flushRows Q F _ _ hinv.prs) (some []) isE false [] chk
    (by
      show s.curr.length ≤ chk.numCols
      rcases hinv.curr with h | h
      · omega
      · rw [h]; exact hfit.1) hfit.2
  simp only [batchSt] at hflush happ
  rcases hb with rfl | ⟨bs, rfl⟩
  · cases isE
    · simp [streamAggExec.fetchChildIfNecessary, batchSt, hflush, happ, absEnd]
    · simp [streamAggExec.fetchChildIfNecessary, batchSt, hflush, absEnd]
  · cases isE
    · simp [streamAggExec.fetchChildIfNecessary, batchSt, hflush, happ, absEnd]
    · simp [streamAggExec.fetchChildIfNecessary, batchSt, hflush, absEnd]

end BatchFetch
section BatchOneGroup

variable {Datum Row Ctx PR Err : Type}

theorem Advances.weaken {P : PureFns Datum Row Ctx Err} {Q : PureAggFns Datum Row PR Err}
    {cmp : Datum → Datum → Int} {ec : evalContext Datum Row Err} {offs : List Nat}
    {exprs : List (Expression Datum Row Err)} {aggs : List (Aggregation Datum Row Ctx Err)}
    {F : List (AggFunc Datum Row PR Err)} {row : Row} {rows : List Row}
    {pending : List (List Datum × List Datum)} {m1 m2 : Nat} {chk : Chunk Datum}
    {res : Option (Failure Err) × streamAggExec Datum Row Ctx PR Err × ChunkSrc Row Err ×
      Chunk Datum}
    (h : Advances P Q cmp ec offs exprs aggs F row rows pending m1 chk res) (hm : m1 ≤ m2) :
    Advances P Q cmp ec offs exprs aggs F row rows pending m2 chk res := by
  obtain ⟨em, s2, c2, isE2, ex2, iter2, b2, h1, h2, h3, h4⟩ := h
  refine ⟨em, s2, c2, isE2, ex2, iter2, b2, h1, h2, h3, ?_⟩
  rcases h4 with h4 | ⟨h4, h5⟩
  · exact Or.inl h4
  · exact Or.inr ⟨h4, by omega⟩

theorem consumeOneGroupLoop_executed (e : streamAggExec Datum Row Ctx PR Err)
    (h : e.executed = true) (fuel : Nat) (src : ChunkSrc Row Err) (chk : Chunk Datum) :
    streamAggExec.consumeOneGroupLoop (fuel + 1) e src chk = (none, e, src, chk) := by
  simp [streamAggExec.consumeOneGroupLoop, h]

theorem absRows_nil (P : PureFns Datum Row Ctx Err) (Q : PureAggFns Datum Row PR Err)
    (cmp : Datum → Datum → Int) (exprs : List (Expression Datum Row Err))
    (F : List (AggFunc Datum Row PR Err)) (s : BatchAbs Datum Row PR) :
    absRows P Q cmp exprs F s [] = ([], s) := rfl

theorem absRun_cons (P : PureFns Datum Row Ctx Err) (Q : PureAggFns Datum Row PR Err)
    (cmp : Datum → Datum → Int) (exprs : List (Expression Datum Row Err))
    (F : List (AggFunc Datum Row PR Err)) (s : BatchAbs Datum Row PR) (seen : Bool)
    (r : Row) (b : List Row) (bs : List (List Row)) :
    absRun P Q cmp exprs F s seen ((r :: b) :: bs) =
      (absRows P Q cmp exprs F { s with prs := flushRows Q F s.buf s.prs, buf := [] } (r :: b)).1 ++
        absRun P Q cmp exprs F
          (absRows P Q cmp exprs F { s with prs := flushRows Q F s.buf s.prs, buf := [] }
            (r :: b)).2 true bs := by
  simp only [absRun]

theorem totalRows_cons (b : List Row) (bs : List (List Row)) :
    totalRows (b :: bs) = b.length + totalRows bs := by
  simp [totalRows]

/-- The loop of `consumeOneGroup`, entered with the current input batch used up. -/
theorem consumeOneGroupLoop_fetch (P : PureFns Datum Row Ctx Err)
    (Q : PureAggFns Datum Row PR Err) (cmp : Datum → Datum → Int)
    (ec : evalContext Datum Row Err) (offs : List Nat) (exprs : List (Expression Datum Row Err))
    (aggs : List (Aggregation Datum Row Ctx Err)) (F : List (AggFunc Datum Row PR Err))
    (row : Row) (rows : List Row) (hok : ChunkOk P Q cmp ec exprs F rows)
    (batches : List (List Row)) :
    ∀ (fuel : Nat) (s : BatchAbs Datum Row PR) (isE : Bool) (c : List Row) (chk : Chunk Datum),
      batches.length + 2 ≤ fuel → BatchWf exprs F rows s isE [] batches →
      ChunkFits exprs F chk →
      Advances P Q cmp ec offs exprs aggs F row rows
        (pendingOf P Q cmp exprs F s isE false [] batches) (totalRows batches) chk
        (streamAggExec.consumeOneGroupLoop fuel
          (batchSt ec offs exprs aggs F row s (some c) isE false []) (batches.map .ok) chk) := by
  have hend : ∀ (batches : List (List Row)) (fuel : Nat) (s : BatchAbs Datum Row PR) (isE : Bool)
      (c : List Row) (chk : Chunk Datum), (batches = [] ∨ ∃ bs, batches = [] :: bs) →
      2 ≤ fuel → BatchWf exprs F rows s isE [] batches → ChunkFits exprs F chk →
      Advances P Q cmp ec offs exprs aggs F row rows
        (pendingOf P Q cmp exprs F s isE false [] batches) (totalRows batches) chk
        (streamAggExec.consumeOneGroupLoop fuel
          (batchSt ec offs exprs aggs F row s (some c) isE false []) (batches.map .ok) chk) := by
    intro batches fuel s isE c chk hb hfuel hwf hfit
    obtain ⟨f, rfl⟩ : ∃ f, fuel = f + 2 := ⟨fuel - 2, by omega⟩
    have hf := fetch_end P Q cmp ec offs exprs aggs F row rows hok s hwf.inv (some c) isE batches
      hb chk hfit
    refine ⟨absEnd Q F s (!isE),
      { s with prs := if isE then flushRows Q F s.buf s.prs
                      else resetAll F (flushRows Q F s.buf s.prs), buf := [] },
      [], isE, true, [], batches.tail, ?_, ?_, ?_, Or.inl rfl⟩
    · have hex : (batchSt ec offs exprs aggs F row s (some c) isE false []).executed = false := rfl
      rw [streamAggExec.consumeOneGroupLoop]
      simp only [hex, Bool.false_eq_true, if_false, hf]
      simp only [batchSt, streamAggExec.consumeRows]
      rw [consumeOneGroupLoop_executed _ rfl]
    · rcases hb with rfl | ⟨bs, rfl⟩ <;> simp [pendingOf, absRows, absRun]
    · refine ⟨⟨?_, hwf.inv.curr, fun _ h => by simp at h⟩, fun _ h => by simp at h,
        fun b hb2 => hwf.batchRows b (List.mem_of_mem_tail hb2), fun h => absurd rfl h⟩
      cases isE
      · exact length_resetAll F _ (length_flushRows Q F _ _ hwf.inv.prs)
      · exact length_flushRows Q F _ _ hwf.inv.prs
  induction batches with
  | nil =>
    intro fuel s isE c chk hfuel hwf hfit
    exact hend [] fuel s isE c chk (Or.inl rfl) (by simpa using hfuel) hwf hfit
  | cons b bs ih =>
    intro fuel s isE c chk hfuel hwf hfit
    cases b with
    | nil => exact hend _ fuel s isE c chk (Or.inr ⟨bs, rfl⟩) (by omega) hwf hfit
    | cons r b =>
      obtain ⟨f, rfl⟩ : ∃ f, fuel = f + 1 := ⟨fuel - 1, by omega⟩
      have hf := fetch_batch P Q cmp ec offs exprs aggs F row rows hok s hwf.inv (some c) isE r b bs
        chk
      have hinv2 : BatchInv exprs F rows { s with prs := flushRows Q F s.buf s.prs, buf := [] } :=
        hwf.inv.flush
      have hit : ∀ x ∈ r :: b, x ∈ rows := hwf.batchRows (r :: b) (List.mem_cons_self _ _)
      have hcr := consumeRows_batchSt P Q cmp ec offs exprs aggs F row rows hok (some (r :: b)) false
        (r :: b) hit _ hinv2 (r :: b) chk hfit
      have hex : (batchSt ec offs exprs aggs F row s (some c) isE false []).executed = false := rfl
      have hiter : (batchSt ec offs exprs aggs F row
          { s with prs := flushRows Q F s.buf s.prs, buf := [] } (some (r :: b)) false false
          (r :: b)).inputIter = r :: b := rfl
      rw [streamAggExec.consumeOneGroupLoop]
      simp only [hex, Bool.false_eq_true, if_false, hf, hiter, hcr]
      cases hu : absUntil P Q cmp exprs F
          { s with prs := flushRows Q F s.buf s.prs, buf := [] } (r :: b) with
      | mk o s2 =>
        have hinv3 : BatchInv exprs F rows s2 := by
          have := hinv2.until P Q cmp (r :: b) hit
          rwa [hu] at this
        cases o with
        | none =>
          have hrec := ih f s2 false (r :: b) chk (by simp only [List.length_cons] at hfuel; omega)
            ⟨hinv3, fun _ h => by simp at h,
              fun b2 hb2 => hwf.batchRows b2 (List.mem_cons_of_mem _ hb2), fun h => absurd rfl h⟩
            hfit
          have hp : pendingOf P Q cmp exprs F s isE false [] ((r :: b) :: bs) =
              pendingOf P Q cmp exprs F s2 false false [] bs := by
            simp only [pendingOf, Bool.false_eq_true, if_false, absRows_nil, absRun_cons,
              absRows_of_absUntil_none P Q cmp exprs F _ _ _ hu, List.nil_append, Bool.not_false]
          rw [hp]
          exact hrec.weaken (by rw [totalRows_cons]; omega)
        | some p =>
          obtain ⟨rec, rest⟩ := p
          have hrest := absUntil_rest P Q cmp exprs F _ _ _ _ _ hu
          refine ⟨[rec], s2, r :: b, false, false, rest, bs, rfl, ?_,
            ⟨hinv3, fun x hx => hit x (hrest.2 x hx),
              fun b2 hb2 => hwf.batchRows b2 (List.mem_cons_of_mem _ hb2), fun _ => rfl⟩,
            Or.inr ⟨by simp, by rw [totalRows_cons]; omega⟩⟩
          simp only [pendingOf, Bool.false_eq_true, if_false, absRows_nil, absRun_cons,
            absRows_of_absUntil_some P Q cmp exprs F _ _ _ _ _ hu, List.nil_append, Bool.not_false,
            List.cons_append]

end BatchOneGroup

section BatchChunks

variable {Datum Row Ctx PR Err : Type}

/-- `consumeOneGroup` makes progress: it appends the next pending record or finishes. -/
theorem consumeOneGroup_advances (P : PureFns Datum Row Ctx Err)
    (Q : PureAggFns Datum Row PR Err) (cmp : Datum → Datum → Int)
    (ec : evalContext Datum Row Err) (offs : List Nat) (exprs : List (Expression Datum Row Err))
    (aggs : List (Aggregation Datum Row Ctx Err)) (F : List (AggFunc Datum Row PR Err))
    (row : Row) (rows : List Row) (hok : ChunkOk P Q cmp ec exprs F rows)
    (s : BatchAbs Datum Row PR) (isE : Bool) (c : List Row) (iter : List Row)
    (batches : List (List Row)) (chk : Chunk Datum)
    (hwf : BatchWf exprs F rows s isE iter batches) (hfit : ChunkFits exprs F chk) :
    Advances P Q cmp ec offs exprs aggs F row rows
      (pendingOf P Q cmp exprs F s isE false iter batches) (iter.length + totalRows batches) chk
      (streamAggExec.consumeOneGroup (batchSt ec offs exprs aggs F row s (some c) isE false iter)
        (batches.map .ok) chk) := by
  unfold streamAggExec.consumeOneGroup
  rw [List.length_map]
  cases iter with
  | nil =>
    exact (consumeOneGroupLoop_fetch P Q cmp ec offs exprs aggs F row rows hok batches _ s isE c chk
      (by omega) hwf hfit).weaken (by simp)
  | cons r it =>
    have hcr := consumeRows_batchSt P Q cmp ec offs exprs aggs F row rows hok (some c) isE
      (r :: it) hwf.iterRows s hwf.inv (r :: it) chk hfit
    have hex : (batchSt ec offs exprs aggs F row s (some c) isE false (r :: it)).executed = false :=
      rfl
    have hfetch : (batchSt ec offs exprs aggs F row s (some c) isE false
        (r :: it)).fetchChildIfNecessary (batches.map .ok) chk =
        (none, batchSt ec offs exprs aggs F row s (some c) isE false (r :: it), batches.map .ok,
          chk) := by
      simp [streamAggExec.fetchChildIfNecessary, batchSt]
    have hiter : (batchSt ec offs exprs aggs F row s (some c) isE false (r :: it)).inputIter =
        r :: it := rfl
    rw [streamAggExec.consumeOneGroupLoop]
    simp only [hex, Bool.false_eq_true, if_false, hfetch, hiter, hcr]
    cases hu : absUntil P Q cmp exprs F s (r :: it) with
    | mk o s2 =>
      have hinv3 : BatchInv exprs F rows s2 := by
        have := hwf.inv.until P Q cmp (r :: it) hwf.iterRows
        rwa [hu] at this
      cases o with
      | none =>
        have hrec := consumeOneGroupLoop_fetch P Q cmp ec offs exprs aggs F row rows hok batches
          (batches.length + 2) s2 isE c chk (le_refl _)
          ⟨hinv3, fun _ h => by simp at h, hwf.batchRows, fun h => absurd rfl h⟩ hfit
        have hp : pendingOf P Q cmp exprs F s isE false (r :: it) batches =
            pendingOf P Q cmp exprs F s2 isE false [] batches := by
          simp only [pendingOf, Bool.false_eq_true, if_false, absRows_nil,
            absRows_of_absUntil_none P Q cmp exprs F _ _ _ hu, List.nil_append]
        rw [hp]
        exact hrec.weaken (by omega)
      | some p =>
        obtain ⟨rec, rest⟩ := p
        have hrest := absUntil_rest P Q cmp exprs F _ _ _ _ _ hu
        refine ⟨[rec], s2, c, isE, false, rest, batches, rfl, ?_,
          ⟨hinv3, fun x hx => hwf.iterRows x (hrest.2 x hx), hwf.batchRows,
            fun _ => hwf.seen (by simp)⟩,
          Or.inr ⟨by simp, by omega⟩⟩
        simp only [pendingOf, Bool.false_eq_true, if_false,
          absRows_of_absUntil_some P Q cmp exprs F _ _ _ _ _ hu, List.cons_append, List.nil_append]

theorem srcRows_map_ok (batches : List (List Row)) :
    streamAggExec.srcRows (batches.map (.ok : List Row → Except Err (List Row))) =
      totalRows batches := by
  induction batches with
  | nil => rfl
  | cons b bs ih => simp [streamAggExec.srcRows, totalRows_cons, ih]

theorem numCols_appendRecord (F : List (AggFunc Datum Row PR Err)) (chk : Chunk Datum)
    (rec : List Datum × List Datum) : (appendRecord F chk rec).numCols = chk.numCols := by
  unfold appendRecord
  split <;> rfl

theorem numCols_foldl_appendRecord (F : List (AggFunc Datum Row PR Err))
    (em : List (List Datum × List Datum)) (chk : Chunk Datum) :
    (em.foldl (appendRecord F) chk).numCols = chk.numCols := by
  induction em generalizing chk with
  | nil => rfl
  | cons rec em ih => rw [List.foldl_cons, ih, numCols_appendRecord]

theorem ChunkFits.foldl {exprs : List (Expression Datum Row Err)}
    {F : List (AggFunc Datum Row PR Err)} {chk : Chunk Datum} (h : ChunkFits exprs F chk)
    (em : List (List Datum × List Datum)) :
    ChunkFits exprs F (em.foldl (appendRecord F) chk) := by
  unfold ChunkFits
  rw [numCols_foldl_appendRecord]
  exact h

theorem cells_foldl_appendRecord (F : List (AggFunc Datum Row PR Err))
    (em : List (List Datum × List Datum)) (chk : Chunk Datum) :
    (em.foldl (appendRecord F) chk).cells = chk.cells ++ em.flatMap (recordCells F) := by
  induction em generalizing chk with
  | nil => simp
  | cons rec em ih =>
    have h1 : (appendRecord F chk rec).cells = chk.cells ++ recordCells F rec := by
      unfold appendRecord
      split <;> rfl
    simp [ih, h1]

/-- The loop of `nextChunk`: it appends pending records in order and does not fail; when
it is entered with the execution unfinished and room in the output batch, it finishes
the execution or appends at least one record. -/
theorem nextChunkLoop_advances (P : PureFns Datum Row Ctx Err)
    (Q : PureAggFns Datum Row PR Err) (cmp : Datum → Datum → Int)
    (ec : evalContext Datum Row Err) (offs : List Nat) (exprs : List (Expression Datum Row Err))
    (aggs : List (Aggregation Datum Row Ctx Err)) (F : List (AggFunc Datum Row PR Err))
    (row : Row) (rows : List Row) (hok : ChunkOk P Q cmp ec exprs F rows) (chunkMaxRows : Nat)
    (fuel : Nat) :
    ∀ (s : BatchAbs Datum Row PR) (isE ex : Bool) (c : List Row) (iter : List Row)
      (batches : List (List Row)) (chk : Chunk Datum),
      BatchWf exprs F rows s isE iter batches → ChunkFits exprs F chk →
      (if ex then 1 else iter.length + totalRows batches + 2) ≤ fuel →
      ∃ (emitted : List (List Datum × List Datum)) (s2 : BatchAbs Datum Row PR) (c2 : List Row)
        (isE2 ex2 : Bool) (iter2 : List Row) (batches2 : List (List Row)),
        streamAggExec.nextChunkLoop chunkMaxRows fuel
            (batchSt ec offs exprs aggs F row s (some c) isE ex iter) (batches.map .ok) chk =
          (none, batchSt ec offs exprs aggs F row s2 (some c2) isE2 ex2 iter2, batches2.map .ok,
            emitted.foldl (appendRecord F) chk) ∧
        pendingOf P Q cmp exprs F s isE ex iter batches =
          emitted ++ pendingOf P Q cmp exprs F s2 isE2 ex2 iter2 batches2 ∧
        BatchWf exprs F rows s2 isE2 iter2 batches2 ∧
        (ex = true → ex2 = true) ∧
        (ex = false → chk.NumRows < chunkMaxRows → ex2 = true ∨ 1 ≤ emitted.length) := by
  induction fuel with
  | zero =>
    intro s isE ex c iter batches chk _ _ hfuel
    cases ex <;> simp at hfuel
  | succ fuel ih =>
    intro s isE ex c iter batches chk hwf hfit hfuel
    by_cases hcond : ex = false ∧ chk.NumRows < chunkMaxRows
    · obtain ⟨hex, hroom⟩ := hcond
      subst hex
      obtain ⟨em1, s1, c1, isE1, ex1, iter1, batches1, h1, h2, h3, h4⟩ :=
        consumeOneGroup_advances P Q cmp ec offs exprs aggs F row rows hok s isE c iter batches chk
          hwf hfit
      have hfuel1 : (if ex1 then 1 else iter1.length + totalRows batches1 + 2) ≤ fuel := by
        simp only [Bool.false_eq_true, if_false] at hfuel
        rcases h4 with h4 | ⟨_, h5⟩
        · simp only [h4, if_true]
          omega
        · cases ex1
          · simp only [Bool.false_eq_true, if_false]
            omega
          · simp only [if_true]
            omega
      obtain ⟨em2, s2, c2, isE2, ex2, iter2, batches2, g1, g2, g3, g4, _⟩ :=
        ih s1 isE1 ex1 c1 iter1 batches1 (em1.foldl (appendRecord F) chk) h3
          (hfit.foldl em1) hfuel1
      refine ⟨em1 ++ em2, s2, c2, isE2, ex2, iter2, batches2, ?_, ?_, g3, fun h => by simp at h,
        ?_⟩
      · have hchild : (batchSt ec offs exprs aggs F row s (some c) isE false iter).childResult.isNone
            = false := rfl
        have hexf : (batchSt ec offs exprs aggs F row s (some c) isE false iter).executed = false :=
          rfl
        have hexe : ({ batchSt ec offs exprs aggs F row s1 (some c1) isE1 ex1 iter1 with
            executed := true } : streamAggExec Datum Row Ctx PR Err) =
            batchSt ec offs exprs aggs F row s1 (some c1) isE1 true iter1 := rfl
        rw [streamAggExec.nextChunkLoop]
        simp only [hexf, Bool.not_false, Bool.true_and, hroom, decide_True, if_true, hchild,
          Bool.false_eq_true, if_false, h1, g1, List.foldl_append]
      · rw [h2, g2, List.append_assoc]
      · intro _ _
        rcases h4 with h4 | ⟨h4, _⟩
        · exact Or.inl (g4 h4)
        · exact Or.inr (by simp only [List.length_append]; omega)
    · refine ⟨[], s, c, isE, ex, iter, batches, ?_, by simp, hwf, fun h => h, ?_⟩
      · have hexf : (batchSt ec offs exprs aggs F row s (some c) isE ex iter).executed = ex := rfl
        rw [streamAggExec.nextChunkLoop]
        cases ex
        · have : ¬ (chk.NumRows < chunkMaxRows) := fun h => hcond ⟨rfl, h⟩
          simp [hexf, this]
        · simp [hexf]
      · intro h1 h2
        exact absurd ⟨h1, h2⟩ hcond

end BatchChunks

section BatchOutput

variable {Datum Row Ctx PR Err : Type}

theorem numRows_reset (chk : Chunk Datum) : chk.Reset.NumRows = 0 := by
  simp [Chunk.Reset, Chunk.NumRows, Chunk.column]

/-- The cells of the output batches of `n` successive calls of `nextChunk` are the cells
of the first pending records; every call appends at least one record until none is left. -/
theorem batchOutput_prefix (P : PureFns Datum Row Ctx Err)
    (Q : PureAggFns Datum Row PR Err) (cmp : Datum → Datum → Int)
    (ec : evalContext Datum Row Err) (offs : List Nat) (exprs : List (Expression Datum Row Err))
    (aggs : List (Aggregation Datum Row Ctx Err)) (F : List (AggFunc Datum Row PR Err))
    (row : Row) (rows : List Row) (hok : ChunkOk P Q cmp ec exprs F rows) (chunkMaxRows : Nat)
    (hmax : 0 < chunkMaxRows) (n : Nat) :
    ∀ (s : BatchAbs Datum Row PR) (isE ex : Bool) (c : List Row) (iter : List Row)
      (batches : List (List Row)) (chk : Chunk Datum),
      BatchWf exprs F rows s isE iter batches → ChunkFits exprs F chk →
      ∃ emitted rest : List (List Datum × List Datum),
        batchOutput chunkMaxRows n (batchSt ec offs exprs aggs F row s (some c) isE ex iter)
            (batches.map .ok) chk = emitted.flatMap (recordCells F) ∧
        (∀ res ∈ streamAggExec.nextChunks chunkMaxRows n
            (batchSt ec offs exprs aggs F row s (some c) isE ex iter) (batches.map .ok) chk,
          res.1 = none) ∧
        pendingOf P Q cmp exprs F s isE ex iter batches = emitted ++ rest ∧
        (rest = [] ∨ n ≤ emitted.length) := by
  induction n with
  | zero =>
    intro s isE ex c iter batches chk _ _
    exact ⟨[], pendingOf P Q cmp exprs F s isE ex iter batches,
      by simp [batchOutput, streamAggExec.nextChunks],
      by simp [streamAggExec.nextChunks], by simp, Or.inr (by simp)⟩
  | succ n ih =>
    intro s isE ex c iter batches chk hwf hfit
    have hfitR : ChunkFits exprs F chk.Reset := hfit
    obtain ⟨em1, s1, c1, isE1, ex1, iter1, batches1, h1, h2, h3, h4, h5⟩ :=
      nextChunkLoop_advances P Q cmp ec offs exprs aggs F row rows hok chunkMaxRows
        (iter.length + totalRows batches + 2) s isE ex c iter batches chk.Reset hwf hfitR
        (by cases ex <;> simp)
    obtain ⟨em2, rest2, g1, g0, g2, g3⟩ :=
      ih s1 isE1 ex1 c1 iter1 batches1 (em1.foldl (appendRecord F) chk.Reset) h3
        (hfitR.foldl em1)
    have hnc : streamAggExec.nextChunk chunkMaxRows
        (batchSt ec offs exprs aggs F row s (some c) isE ex iter) (batches.map .ok) chk =
        (none, batchSt ec offs exprs aggs F row s1 (some c1) isE1 ex1 iter1, batches1.map .ok,
          em1.foldl (appendRecord F) chk.Reset) := by
      unfold streamAggExec.nextChunk
      rw [srcRows_map_ok]
      exact h1
    refine ⟨em1 ++ em2, rest2, ?_, ?_, by rw [h2, g2, List.append_assoc], ?_⟩
    · unfold batchOutput at g1 ⊢
      rw [streamAggExec.nextChunks, hnc]
      have hreset : chk.Reset.cells = [] := rfl
      simp only [List.map_cons, List.flatten_cons, g1, cells_foldl_appendRecord, hreset,
        List.nil_append, List.flatMap_append]
    · rw [streamAggExec.nextChunks, hnc]
      intro res hres
      rcases List.mem_cons.1 hres with rfl | hres
      · rfl
      · exact g0 res hres
    · rcases g3 with g3 | g3
      · exact Or.inl g3
      · have hdone : ex1 = true → rest2 = [] := by
          intro hex1
          have : pendingOf P Q cmp exprs F s1 isE1 ex1 iter1 batches1 = [] := by
            simp [pendingOf, hex1]
          rw [this] at g2
          have := List.append_eq_nil.1 g2.symm
          exact this.2
        cases hex : ex
        · rcases h5 hex (by rw [numRows_reset]; exact hmax) with h6 | h6
          · exact Or.inl (hdone h6)
          · exact Or.inr (by simp only [List.length_append]; omega)
        · exact Or.inl (hdone (h4 hex))

/-- `open` on a fresh executor. -/
theorem open_new (ec : evalContext Datum Row Err) (offs : List Nat)
    (exprs : List (Expression Datum Row Err)) (aggs : List (Aggregation Datum Row Ctx Err))
    (F : List (AggFunc Datum Row PR Err)) (row : Row) :
    (streamAggExec.new ec aggs exprs offs row F).open =
      batchSt ec offs exprs aggs F row (batchInit F) (some []) true false [] := rfl

/-- Batch API from the start: the output batches of enough successive calls of `nextChunk`
hold, concatenated, the cells of all records of the input, and no call fails. -/
theorem batchOutput_open (P : PureFns Datum Row Ctx Err)
    (Q : PureAggFns Datum Row PR Err) (cmp : Datum → Datum → Int)
    (ec : evalContext Datum Row Err) (offs : List Nat) (exprs : List (Expression Datum Row Err))
    (aggs : List (Aggregation Datum Row Ctx Err)) (F : List (AggFunc Datum Row PR Err))
    (row : Row) (batches : List (List Row))
    (hok : ChunkOk P Q cmp ec exprs F batches.flatten) (chunkMaxRows : Nat)
    (hmax : 0 < chunkMaxRows) (chk : Chunk Datum) (hfit : ChunkFits exprs F chk) (n : Nat)
    (hn : (absRun P Q cmp exprs F (batchInit F) false batches).length < n) :
    batchOutput chunkMaxRows n (streamAggExec.new ec aggs exprs offs row F).open
        (batches.map .ok) chk =
      (absRun P Q cmp exprs F (batchInit F) false batches).flatMap (recordCells F) ∧
    ∀ res ∈ streamAggExec.nextChunks chunkMaxRows n
        (streamAggExec.new ec aggs exprs offs row F).open (batches.map .ok) chk, res.1 = none := by
  have hwf : BatchWf exprs F batches.flatten (batchInit F) true [] batches :=
    ⟨⟨by simp [batchInit, allocAll], Or.inl rfl, fun _ h => by simp [batchInit] at h⟩,
      fun _ h => by simp at h, fun b hb r hr => List.mem_flatten.2 ⟨b, hb, hr⟩,
      fun h => absurd rfl h⟩
  obtain ⟨em, rest, h1, h0, h2, h3⟩ := batchOutput_prefix P Q cmp ec offs exprs aggs F row
    batches.flatten hok chunkMaxRows hmax n (batchInit F) true false [] [] batches chk hwf hfit
  have hp : pendingOf P Q cmp exprs F (batchInit F) true false [] batches =
      absRun P Q cmp exprs F (batchInit F) false batches := by
    simp [pendingOf, absRows_nil]
  rw [hp] at h2
  rw [open_new]
  refine ⟨?_, h0⟩
  rw [h1]
  rcases h3 with h3 | h3
  · rw [h2, h3, List.append_nil]
  · exfalso
    have := congrArg List.length h2
    simp only [List.length_append] at this
    omega

theorem clearedChunk_foldl (F : List (AggFunc Datum Row PR Err))
    (em : List (List Datum × List Datum)) (chk : Chunk Datum) :
    clearedChunk (em.foldl (appendRecord F) chk) = clearedChunk chk := by
  unfold clearedChunk
  rw [numCols_foldl_appendRecord]

/-- The output batches of `n` successive calls of `nextChunk`: every call returns the
cleared batch with the next pending records appended, and appends at least one record
until none is left. -/
theorem nextChunks_prefix (P : PureFns Datum Row Ctx Err)
    (Q : PureAggFns Datum Row PR Err) (cmp : Datum → Datum → Int)
    (ec : evalContext Datum Row Err) (offs : List Nat) (exprs : List (Expression Datum Row Err))
    (aggs : List (Aggregation Datum Row Ctx Err)) (F : List (AggFunc Datum Row PR Err))
    (row : Row) (rows : List Row) (hok : ChunkOk P Q cmp ec exprs F rows) (chunkMaxRows : Nat)
    (hmax : 0 < chunkMaxRows) (n : Nat) :
    ∀ (s : BatchAbs Datum Row PR) (isE ex : Bool) (c : List Row) (iter : List Row)
      (batches : List (List Row)) (chk : Chunk Datum),
      BatchWf exprs F rows s isE iter batches → ChunkFits exprs F chk →
      ∃ (groups : List (List (List Datum × List Datum)))
        (rest : List (List Datum × List Datum)),
        streamAggExec.nextChunks chunkMaxRows n
            (batchSt ec offs exprs aggs F row s (some c) isE ex iter) (batches.map .ok) chk =
          groups.map (fun recs => (none, recs.foldl (appendRecord F) (clearedChunk chk))) ∧
        pendingOf P Q cmp exprs F s isE ex iter batches = groups.flatten ++ rest ∧
        (rest = [] ∨ n ≤ groups.flatten.length) := by
  induction n with
  | zero =>
    intro s isE ex c iter batches chk _ _
    exact ⟨[], pendingOf P Q cmp exprs F s isE ex iter batches,
      by simp [streamAggExec.nextChunks], by simp, Or.inr (by simp)⟩
  | succ n ih =>
    intro s isE ex c iter batches chk hwf hfit
    have hfitR : ChunkFits exprs F chk.Reset := hfit
    obtain ⟨em1, s1, c1, isE1, ex1, iter1, batches1, h1, h2, h3, h4, h5⟩ :=
      nextChunkLoop_advances P Q cmp ec offs exprs aggs F row rows hok chunkMaxRows
        (iter.length + totalRows batches + 2) s isE ex c iter batches chk.Reset hwf hfitR
        (by cases ex <;> simp)
    obtain ⟨groups2, rest2, g1, g2, g3⟩ :=
      ih s1 isE1 ex1 c1 iter1 batches1 (em1.foldl (appendRecord F) chk.Reset) h3
        (hfitR.foldl em1)
    have hc : clearedChunk (em1.foldl (appendRecord F) chk.Reset) = clearedChunk chk :=
      clearedChunk_foldl F em1 chk.Reset
    have hR : chk.Reset = clearedChunk chk := rfl
    rw [hc, hR] at g1
    have hnc : streamAggExec.nextChunk chunkMaxRows
        (batchSt ec offs exprs aggs F row s (some c) isE ex iter) (batches.map .ok) chk =
        (none, batchSt ec offs exprs aggs F row s1 (some c1) isE1 ex1 iter1, batches1.map .ok,
          em1.foldl (appendRecord F) (clearedChunk chk)) := by
      unfold streamAggExec.nextChunk
      rw [srcRows_map_ok]
      exact h1
    refine ⟨em1 :: groups2, rest2, ?_, ?_, ?_⟩
    · rw [streamAggExec.nextChunks, hnc]
      simp only [List.map_cons, g1]
    · rw [h2, g2, List.flatten_cons, List.append_assoc]
    · rcases g3 with g3 | g3
      · exact Or.inl g3
      · have hdone : ex1 = true → rest2 = [] := by
          intro hex1
          have : pendingOf P Q cmp exprs F s1 isE1 ex1 iter1 batches1 = [] := by
            simp [pendingOf, hex1]
          rw [this] at g2
          have := List.append_eq_nil.1 g2.symm
          exact this.2
        cases hex : ex
        · rcases h5 hex (by rw [numRows_reset]; exact hmax) with h6 | h6
          · exact Or.inl (hdone h6)
          · exact Or.inr (by simp only [List.flatten_cons, List.length_append]; omega)
        · exact Or.inl (hdone (h4 hex))

/-- Batch API from the start: each of enough successive calls of `nextChunk` succeeds
and returns the cleared batch with records appended, and the records of all calls
together are the records of the input, in order. -/
theorem nextChunks_open (P : PureFns Datum Row Ctx Err)
    (Q : PureAggFns Datum Row PR Err) (cmp : Datum → Datum → Int)
    (ec : evalContext Datum Row Err) (offs : List Nat) (exprs : List (Expression Datum Row Err))
    (aggs : List (Aggregation Datum Row Ctx Err)) (F : List (AggFunc Datum Row PR Err))
    (row : Row) (batches : List (List Row))
    (hok : ChunkOk P Q cmp ec exprs F batches.flatten) (chunkMaxRows : Nat)
    (hmax : 0 < chunkMaxRows) (chk : Chunk Datum) (hfit : ChunkFits exprs F chk) (n : Nat)
    (hn : (absRun P Q cmp exprs F (batchInit F) false batches).length < n) :
    ∃ groups : List (List (List Datum × List Datum)),
      groups.flatten = absRun P Q cmp exprs F (batchInit F) false batches ∧
      streamAggExec.nextChunks chunkMaxRows n (streamAggExec.new ec aggs exprs offs row F).open
          (batches.map .ok) chk =
        groups.map (fun recs => (none, recs.foldl (appendRecord F) (clearedChunk chk))) := by
  have hwf : BatchWf exprs F batches.flatten (batchInit F) true [] batches :=
    ⟨⟨by simp [batchInit, allocAll], Or.inl rfl, fun _ h => by simp [batchInit] at h⟩,
      fun _ h => by simp at h, fun b hb r hr => List.mem_flatten.2 ⟨b, hb, hr⟩,
      fun h => absurd rfl h⟩
  obtain ⟨groups, rest, h1, h2, h3⟩ := nextChunks_prefix P Q cmp ec offs exprs aggs F row
    batches.flatten hok chunkMaxRows hmax n (batchInit F) true false [] [] batches chk hwf hfit
  have hp : pendingOf P Q cmp exprs F (batchInit F) true false [] batches =
      absRun P Q cmp exprs F (batchInit F) false batches := by
    simp [pendingOf, absRows_nil]
  rw [hp] at h2
  rw [open_new]
  refine ⟨groups, ?_, h1⟩
  rcases h3 with h3 | h3
  · rw [h2, h3, List.append_nil]
  · exfalso
    have := congrArg List.length h2
    simp only [List.length_append] at this
    omega

end BatchOutput

section BatchRuns

variable {Datum Row Ctx PR Err : Type}

theorem pendingOf_fetch (P : PureFns Datum Row Ctx Err) (Q : PureAggFns Datum Row PR Err)
    (cmp : Datum → Datum → Int) (exprs : List (Expression Datum Row Err))
    (F : List (AggFunc Datum Row PR Err)) (s : BatchAbs Datum Row PR) (isE : Bool)
    (r : Row) (b : List Row) (bs : List (List Row)) :
    pendingOf P Q cmp exprs F s isE false [] ((r :: b) :: bs) =
      pendingOf P Q cmp exprs F { s with prs := flushRows Q F s.buf s.prs, buf := [] } false false
        (r :: b) bs := by
  simp only [pendingOf, Bool.false_eq_true, if_false, absRows_nil, absRun_cons, List.nil_append,
    Bool.not_false]

theorem pendingOf_end (P : PureFns Datum Row Ctx Err) (Q : PureAggFns Datum Row PR Err)
    (cmp : Datum → Datum → Int) (exprs : List (Expression Datum Row Err))
    (F : List (AggFunc Datum Row PR Err)) (s : BatchAbs Datum Row PR) :
    pendingOf P Q cmp exprs F s false false [] [] =
      [(s.curr, finalsOf Q F (flushRows Q F s.buf s.prs))] := by
  simp [pendingOf, absRows_nil, absRun, absEnd]

theorem pendingOf_row (P : PureFns Datum Row Ctx Err) (Q : PureAggFns Datum Row PR Err)
    (cmp : Datum → Datum → Int) (exprs : List (Expression Datum Row Err))
    (F : List (AggFunc Datum Row PR Err)) (s : BatchAbs Datum Row PR) (isE : Bool)
    (r : Row) (it : List Row) (bs : List (List Row)) :
    pendingOf P Q cmp exprs F s isE false (r :: it) bs =
      match absStep P Q cmp exprs F s r with
      | (none, s2) => pendingOf P Q cmp exprs F s2 isE false it bs
      | (some rec, s2) => rec :: pendingOf P Q cmp exprs F s2 isE false it bs := by
  simp only [pendingOf, Bool.false_eq_true, if_false, absRows]
  cases absStep P Q cmp exprs F s r with
  | mk o s2 =>
    cases o with
    | none => rfl
    | some rec => rfl

theorem flushSegs_cons (Q : PureAggFns Datum Row PR Err) (F : List (AggFunc Datum Row PR Err))
    (seg : List Row) (segs : List (List Row)) (prs : List PR) :
    flushSegs Q F (seg :: segs) prs = flushSegs Q F segs (flushRows Q F seg prs) := rfl

theorem flushSegs_singleton (Q : PureAggFns Datum Row PR Err)
    (F : List (AggFunc Datum Row PR Err)) (seg : List Row) (prs : List PR) :
    flushSegs Q F [seg] prs = flushRows Q F seg prs := rfl

theorem IsRuns.flatten_eq_nil {same : Row → Row → Bool} {runs : List (List Row)}
    (h : IsRuns same runs) (hnil : runs.flatten = []) : runs = [] := by
  cases runs with
  | nil => rfl
  | cons run rest =>
    exfalso
    have := (h.1 run (List.mem_cons_self _ _)).1
    simp only [List.flatten_cons, List.append_eq_nil] at hnil
    exact this hnil.1

/-- The records of the batch API from the middle of a run to the end of a sorted input:
one record for the current run and one for every later run; record `j` holds the final
results of partial results fed with the rows of its run, in segments. -/
theorem pendingOf_runs (P : PureFns Datum Row Ctx Err) (Q : PureAggFns Datum Row PR Err)
    (cmp : Datum → Datum → Int) (exprs : List (Expression Datum Row Err))
    (F : List (AggFunc Datum Row PR Err)) (hne : exprs.length ≠ 0) (N : Nat) :
    ∀ (runs : List (List Row)) (vs : List Row) (s : BatchAbs Datum Row PR) (iter : List Row)
      (batches : List (List Row)),
      iter.length + totalRows batches + batches.length ≤ N →
      iter ++ batches.flatten = vs ++ runs.flatten →
      (∀ b ∈ batches, b ≠ []) →
      s.curr.length = exprs.length →
      (∀ v ∈ vs, keysMatch cmp (gvalsOf P exprs v) s.curr = true) →
      IsRuns (sameGroup P cmp exprs) runs →
      (∀ run2 ∈ runs.head?, ∀ b ∈ run2, keysMatch cmp (gvalsOf P exprs b) s.curr = false) →
      ∃ (segsCur : List (List Row)) (segss : List (List (List Row))),
        segsCur.flatten = s.buf ++ vs ∧ segss.map List.flatten = runs ∧
        (pendingOf P Q cmp exprs F s false false iter batches).map Prod.snd =
          finalsFrom Q F (segsCur :: segss) s.prs := by
  induction N with
  | zero =>
    intro runs vs s iter batches hN hin _ _ _ hruns _
    have hiter : iter = [] := List.length_eq_zero.1 (by omega)
    have hbat : batches = [] := List.length_eq_zero.1 (by omega)
    subst hiter hbat
    have hnil := List.append_eq_nil.1 hin.symm
    have hr : runs = [] := hruns.flatten_eq_nil hnil.2
    refine ⟨[s.buf], [], by simp [hnil.1], by simp [hr], ?_⟩
    simp [pendingOf_end, finalsFrom, flushSegs_singleton]
  | succ N ih =>
    intro runs vs s iter batches hN hin hbne hcurr hvs hruns hnext
    cases iter with
    | nil =>
      cases batches with
      | nil =>
        have hnil := List.append_eq_nil.1 hin.symm
        have hr : runs = [] := hruns.flatten_eq_nil hnil.2
        refine ⟨[s.buf], [], by simp [hnil.1], by simp [hr], ?_⟩
        simp [pendingOf_end, finalsFrom, flushSegs_singleton]
      | cons b bs =>
        cases b with
        | nil => exact absurd rfl (hbne [] (List.mem_cons_self _ _))
        | cons r b =>
          obtain ⟨segsCur, segss, h1, h2, h3⟩ := ih runs vs
            { s with prs := flushRows Q F s.buf s.prs, buf := [] } (r :: b) bs
            (by simp only [List.length_cons, totalRows_cons, List.length_nil] at hN ⊢; omega)
            (by simpa using hin) (fun b2 hb2 => hbne b2 (List.mem_cons_of_mem _ hb2)) hcurr hvs
            hruns hnext
          refine ⟨s.buf :: segsCur, segss, by simp [h1], h2, ?_⟩
          rw [pendingOf_fetch, h3]
          simp [finalsFrom, flushSegs_cons]
    | cons r it =>
      have hc0 : ¬ s.curr.length = 0 := by omega
      cases vs with
      | cons v vs2 =>
        simp only [List.cons_append, List.cons.injEq] at hin
        obtain ⟨hrv, hin2⟩ := hin
        subst hrv
        have hm := hvs r (List.mem_cons_self _ _)
        have hs : absStep P Q cmp exprs F s r =
            (none, { s with tmp := gvalsOf P exprs r, buf := s.buf ++ [r] }) := by
          simp [absStep, hne, hc0, hm]
        obtain ⟨segsCur, segss, h1, h2, h3⟩ := ih runs vs2
          { s with tmp := gvalsOf P exprs r, buf := s.buf ++ [r] } it batches
          (by simp only [List.length_cons] at hN; omega) hin2 hbne hcurr
          (fun v hv => hvs v (List.mem_cons_of_mem _ hv)) hruns hnext
        refine ⟨segsCur, segss, by simpa using h1, h2, ?_⟩
        rw [pendingOf_row, hs]
        exact h3
      | nil =>
        cases runs with
        | nil => simp at hin
        | cons run2 runs2 =>
          obtain ⟨hne2, hall2⟩ := hruns.1 run2 (List.mem_cons_self _ _)
          cases run2 with
          | nil => exact absurd rfl hne2
          | cons v2 vs2 =>
            simp only [List.nil_append, List.flatten_cons, List.cons_append,
              List.cons.injEq] at hin
            obtain ⟨hrv, hin2⟩ := hin
            subst hrv
            have hm := hnext (r :: vs2) (by simp) r (List.mem_cons_self _ _)
            have hs : absStep P Q cmp exprs F s r =
                (some (gvalsOf P exprs r, finalsOf Q F (flushRows Q F s.buf s.prs)),
                  { tmp := gvalsOf P exprs r, curr := gvalsOf P exprs r,
                    prs := resetAll F (flushRows Q F s.buf s.prs), buf := [r] }) := by
              simp [absStep, hne, hc0, hm]
            obtain ⟨segsCur, segss, h1, h2, h3⟩ := ih runs2 vs2
              { tmp := gvalsOf P exprs r, curr := gvalsOf P exprs r,
                prs := resetAll F (flushRows Q F s.buf s.prs), buf := [r] } it batches
              (by simp only [List.length_cons] at hN; omega) hin2 hbne (length_gvalsOf P exprs r)
              (fun v hv => hall2 v (List.mem_cons_of_mem _ hv) r (List.mem_cons_self _ _))
              hruns.rest
              (by
                intro run3 hr3 b hb
                have hch := hruns.2
                cases runs2 with
                | nil => simp at hr3
                | cons r3 rs3 =>
                  simp only [List.head?_cons, Option.mem_def, Option.some.injEq] at hr3
                  subst hr3
                  simp only [List.chain'_cons] at hch
                  exact hch.1 r (List.mem_cons_self _ _) b hb)
            refine ⟨[s.buf], segsCur :: segss, by simp, by simpa using ⟨h1, h2⟩, ?_⟩
            rw [pendingOf_row, hs]
            simp only [List.map_cons, h3, finalsFrom, flushSegs_singleton]

end BatchRuns

section BatchTop

variable {Datum Row Ctx PR Err : Type}

theorem flushSegs_filter (Q : PureAggFns Datum Row PR Err) (F : List (AggFunc Datum Row PR Err))
    (segs : List (List Row)) (prs : List PR) :
    flushSegs Q F (segs.filter (fun seg => !seg.isEmpty)) prs = flushSegs Q F segs prs := by
  induction segs generalizing prs with
  | nil => rfl
  | cons seg segs ih =>
    cases seg with
    | nil => simpa [flushSegs_cons, flushRows] using ih prs
    | cons r seg => simp [flushSegs_cons, ih]

theorem flatten_filter_nonempty {α : Type} (segs : List (List α)) :
    (segs.filter (fun seg => !seg.isEmpty)).flatten = segs.flatten := by
  induction segs with
  | nil => rfl
  | cons seg segs ih =>
    cases seg with
    | nil => simpa using ih
    | cons r seg => simp [ih]

theorem finalsFrom_filter (Q : PureAggFns Datum Row PR Err) (F : List (AggFunc Datum Row PR Err))
    (segss : List (List (List Row))) (prs : List PR) :
    finalsFrom Q F (segss.map (List.filter (fun seg => !seg.isEmpty))) prs =
      finalsFrom Q F segss prs := by
  induction segss generalizing prs with
  | nil => rfl
  | cons segs segss ih => simp [finalsFrom, flushSegs_filter, ih]

theorem length_finalsFrom (Q : PureAggFns Datum Row PR Err) (F : List (AggFunc Datum Row PR Err))
    (segss : List (List (List Row))) (prs : List PR) :
    (finalsFrom Q F segss prs).length = segss.length := by
  induction segss generalizing prs with
  | nil => rfl
  | cons segs segss ih => simp [finalsFrom, ih]

theorem flatten_eq_nil_of_nonempty {α : Type} (batches : List (List α))
    (hb : ∀ b ∈ batches, b ≠ []) (h : batches.flatten = []) : batches = [] := by
  cases batches with
  | nil => rfl
  | cons b bs =>
    exfalso
    simp only [List.flatten_cons, List.append_eq_nil] at h
    exact hb b (List.mem_cons_self _ _) h.1

/-- The records of the batch API on a sorted input with at least one group-by expression:
one record per run, holding the final results of partial results that start allocated
(or reset) and are fed the rows of the run in non-empty segments. -/
theorem absRun_runs (P : PureFns Datum Row Ctx Err) (Q : PureAggFns Datum Row PR Err)
    (cmp : Datum → Datum → Int) (exprs : List (Expression Datum Row Err))
    (F : List (AggFunc Datum Row PR Err)) (hne : exprs.length ≠ 0)
    (runs : List (List Row)) (batches : List (List Row)) (hb : ∀ b ∈ batches, b ≠ [])
    (hsplit : batches.flatten = runs.flatten) (hruns : IsRuns (sameGroup P cmp exprs) runs) :
    ∃ segss : List (List (List Row)),
      segss.map List.flatten = runs ∧ (∀ segs ∈ segss, ∀ seg ∈ segs, seg ≠ []) ∧
      (absRun P Q cmp exprs F (batchInit F) false batches).map Prod.snd =
        finalsFrom Q F segss (allocAll F) := by
  cases runs with
  | nil =>
    have : batches = [] := flatten_eq_nil_of_nonempty batches hb (by simpa using hsplit)
    subst this
    exact ⟨[], rfl, by simp, by simp [absRun, absEnd, finalsFrom]⟩
  | cons run runs2 =>
    obtain ⟨hne1, hall1⟩ := hruns.1 run (List.mem_cons_self _ _)
    cases run with
    | nil => exact absurd rfl hne1
    | cons v1 vs1 =>
      cases batches with
      | nil => simp at hsplit
      | cons b bs =>
        cases b with
        | nil => exact absurd rfl (hb [] (List.mem_cons_self _ _))
        | cons r b =>
          simp only [List.flatten_cons, List.cons_append, List.cons.injEq] at hsplit
          obtain ⟨hrv, hin2⟩ := hsplit
          subst hrv
          have hs : absStep P Q cmp exprs F (batchInit F) r =
              (none, ⟨gvalsOf P exprs r, gvalsOf P exprs r, allocAll F, [r]⟩) := by
            simp [absStep, hne, batchInit]
          obtain ⟨segsCur, segss, h1, h2, h3⟩ := pendingOf_runs P Q cmp exprs F hne
            (b.length + totalRows bs + bs.length) runs2 vs1
            ⟨gvalsOf P exprs r, gvalsOf P exprs r, allocAll F, [r]⟩
            b bs (le_refl _) hin2 (fun b2 hb2 => hb b2 (List.mem_cons_of_mem _ hb2))
            (length_gvalsOf P exprs r)
            (fun v hv => hall1 v (List.mem_cons_of_mem _ hv) r (List.mem_cons_self _ _))
            hruns.rest
            (by
              intro run3 hr3 b3 hb3
              have hch := hruns.2
              cases runs2 with
              | nil => simp at hr3
              | cons r3 rs3 =>
                simp only [List.head?_cons, Option.mem_def, Option.some.injEq] at hr3
                subst hr3
                simp only [List.chain'_cons] at hch
                exact hch.1 r (List.mem_cons_self _ _) b3 hb3)
          have hrun : absRun P Q cmp exprs F (batchInit F) false ((r :: b) :: bs) =
              pendingOf P Q cmp exprs F (batchInit F) false false (r :: b) bs := by
            have := pendingOf_fetch P Q cmp exprs F (batchInit F) true r b bs
            have hinit : (⟨(batchInit F).tmp, (batchInit F).curr,
                flushRows Q F (batchInit F).buf (batchInit F).prs, []⟩ : BatchAbs Datum Row PR) =
                batchInit F := by
              simp [batchInit, flushRows]
            rw [hinit] at this
            rw [← this]
            simp [pendingOf, absRows_nil]
          refine ⟨(segsCur :: segss).map (List.filter (fun seg => !seg.isEmpty)), ?_, ?_, ?_⟩
          · simp only [List.map_map, List.map_cons, List.cons.injEq]
            refine ⟨by simpa [flatten_filter_nonempty] using h1, ?_⟩
            rw [← h2]
            apply List.map_congr_left
            intro segs _
            simp [flatten_filter_nonempty]
          · intro segs hsegs seg hseg
            obtain ⟨segs0, _, rfl⟩ := List.mem_map.1 hsegs
            have := (List.mem_filter.1 hseg).2
            intro hnil
            simp [hnil] at this
          · rw [finalsFrom_filter, hrun, pendingOf_row, hs]
            exact h3

/-- The records of the batch API without group-by expressions, from a state in which
rows have been read: one record, with the final results of the partial results fed the
buffered rows and then every batch. -/
theorem absRun_global (P : PureFns Datum Row Ctx Err) (Q : PureAggFns Datum Row PR Err)
    (cmp : Datum → Datum → Int) (F : List (AggFunc Datum Row PR Err))
    (batches : List (List Row)) (hb : ∀ b ∈ batches, b ≠ []) (s : BatchAbs Datum Row PR) :
    absRun P Q cmp [] F s true batches =
      [(s.curr, finalsOf Q F (flushSegs Q F (s.buf :: batches) s.prs))] := by
  have hrows : ∀ (it : List Row) (s : BatchAbs Datum Row PR),
      absRows P Q cmp [] F s it = ([], { s with buf := s.buf ++ it }) := by
    intro it
    induction it with
    | nil => intro s; simp [absRows]
    | cons r it ih =>
      intro s
      have hs : absStep P Q cmp [] F s r = (none, { s with buf := s.buf ++ [r] }) := by
        simp [absStep]
      simp only [absRows, hs, ih, List.append_assoc, List.singleton_append]
  induction batches generalizing s with
  | nil => simp [absRun, absEnd, flushSegs_singleton]
  | cons b bs ih =>
    cases b with
    | nil => exact absurd rfl (hb [] (List.mem_cons_self _ _))
    | cons r b =>
      rw [absRun_cons, hrows, ih (fun b2 hb2 => hb b2 (List.mem_cons_of_mem _ hb2))]
      simp [flushSegs_cons]

end BatchTop

section BatchTheorems

variable {Datum Row Ctx PR Err : Type}

theorem Demo.chunkOk (exprs : List (Expression Nat (List Nat) String))
    (F : List (AggFunc Nat (List Nat) Nat String))
    (hex : ∀ ex ∈ exprs, ∃ i, ex = Demo.col i)
    (hF : ∀ f ∈ F, f = Demo.countF ∨ f = Demo.sumF) (rows : List (List Nat)) :
    ChunkOk Demo.fns Demo.aggFns Demo.cmp Demo.ec exprs F rows := by
  refine ⟨?_, fun _ _ => rfl, ?_, ?_⟩
  · intro r _ ex h
    obtain ⟨i, rfl⟩ := hex ex h
    rfl
  · intro f h rs pr _
    rcases hF f h with rfl | rfl <;> rfl
  · intro f h pr
    rcases hF f h with rfl | rfl <;> rfl

/-- One round of the loop over the rows of an input batch leaves one group-by value per
group-by expression in `curr`, and a record it appends has one group-by value per
group-by expression. -/
theorem absStep_key (P : PureFns Datum Row Ctx Err) (Q : PureAggFns Datum Row PR Err)
    (cmp : Datum → Datum → Int) (exprs : List (Expression Datum Row Err))
    (F : List (AggFunc Datum Row PR Err)) (s : BatchAbs Datum Row PR)
    (h : s.curr.length = 0 ∨ s.curr.length = exprs.length) (r : Row) :
    (absStep P Q cmp exprs F s r).2.curr.length = exprs.length ∧
    ∀ rec, (absStep P Q cmp exprs F s r).1 = some rec → rec.1.length = exprs.length := by
  unfold absStep
  split
  · rename_i h0
    refine ⟨?_, fun rec hrec => by simp at hrec⟩
    show s.curr.length = exprs.length
    rcases h with h | h
    · rw [h, h0]
    · exact h
  · split
    · exact ⟨length_gvalsOf P exprs r, fun rec hrec => by simp at hrec⟩
    · rename_i h1
      split
      · refine ⟨?_, fun rec hrec => by simp at hrec⟩
        show s.curr.length = exprs.length
        rcases h with h | h
        · exact absurd h h1
        · exact h
      · refine ⟨length_gvalsOf P exprs r, fun rec hrec => ?_⟩
        simp only [Option.some.injEq] at hrec
        rw [← hrec]
        exact length_gvalsOf P exprs r

theorem absRows_key (P : PureFns Datum Row Ctx Err) (Q : PureAggFns Datum Row PR Err)
    (cmp : Datum → Datum → Int) (exprs : List (Expression Datum Row Err))
    (F : List (AggFunc Datum Row PR Err)) (it : List Row) (s : BatchAbs Datum Row PR)
    (h : s.curr.length = 0 ∨ s.curr.length = exprs.length) :
    (∀ rec ∈ (absRows P Q cmp exprs F s it).1, rec.1.length = exprs.length) ∧
    (it ≠ [] ∨ s.curr.length = exprs.length →
      (absRows P Q cmp exprs F s it).2.curr.length = exprs.length) := by
  induction it generalizing s with
  | nil =>
    refine ⟨fun rec hrec => by simp [absRows] at hrec, fun h2 => ?_⟩
    rcases h2 with h2 | h2
    · exact absurd rfl h2
    · exact h2
  | cons r rest ih =>
    obtain ⟨k1, k2⟩ := absStep_key P Q cmp exprs F s h r
    unfold absRows
    cases hs : absStep P Q cmp exprs F s r with
    | mk o s2 =>
      rw [hs] at k1 k2
      obtain ⟨i1, i2⟩ := ih s2 (Or.inr k1)
      cases o with
      | none => exact ⟨i1, fun _ => i2 (Or.inr k1)⟩
      | some rec0 =>
        refine ⟨fun rec hrec => ?_, fun _ => i2 (Or.inr k1)⟩
        rcases List.mem_cons.1 hrec with h3 | h3
        · rw [h3]; exact k2 rec0 rfl
        · exact i1 rec h3

/-- Every record of the batch API has one group-by value per group-by expression. -/
theorem absRun_key (P : PureFns Datum Row Ctx Err) (Q : PureAggFns Datum Row PR Err)
    (cmp : Datum → Datum → Int) (exprs : List (Expression Datum Row Err))
    (F : List (AggFunc Datum Row PR Err)) (batches : List (List Row))
    (s : BatchAbs Datum Row PR) (seen : Bool)
    (h : s.curr.length = 0 ∨ s.curr.length = exprs.length)
    (hseen : seen = true → s.curr.length = exprs.length) :
    ∀ rec ∈ absRun P Q cmp exprs F s seen batches, rec.1.length = exprs.length := by
  have hend : ∀ rec ∈ absEnd Q F s seen, rec.1.length = exprs.length := by
    intro rec hrec
    unfold absEnd at hrec
    cases hs : seen with
    | false => simp [hs] at hrec
    | true =>
      simp only [hs, if_true, List.mem_singleton] at hrec
      rw [hrec]
      exact hseen hs
  induction batches generalizing s seen with
  | nil => simpa only [absRun] using hend
  | cons b bs ih =>
    cases b with
    | nil => simpa only [absRun] using hend
    | cons r b =>
      rw [absRun_cons]
      obtain ⟨k1, k2⟩ := absRows_key P Q cmp exprs F (r :: b)
        { s with prs := flushRows Q F s.buf s.prs, buf := [] } h
      have k3 := k2 (Or.inl (by simp))
      intro rec hrec
      rcases List.mem_append.1 hrec with h3 | h3
      · exact k1 rec h3
      · exact ih _ true (Or.inr k3) (fun _ => k3)
          (by
            intro rec2 hrec2
            unfold absEnd at hrec2
            simp only [if_true, List.mem_singleton] at hrec2
            rw [hrec2]
            exact k3) rec h3

theorem Demo.chunkFits (exprs : List (Expression Nat (List Nat) String))
    (F : List (AggFunc Nat (List Nat) Nat String)) (hex : exprs.length ≤ 3)
    (hF : ∀ f ∈ F, f = Demo.countF ∨ f = Demo.sumF) : ChunkFits exprs F Demo.chunk := by
  refine ⟨hex, fun f h => ?_⟩
  rcases hF f h with rfl | rfl <;> decide

theorem zip_map_fst_snd {α β : Type} (l : List (α × β)) :
    List.zip (l.map Prod.fst) (l.map Prod.snd) = l := by
  induction l with
  | nil => rfl
  | cons x xs ih => simp [ih]

/-- The records of the batch API on a sorted input: one record per run, also without
group-by expressions when there is at least one row. -/
theorem absRun_sorted (P : PureFns Datum Row Ctx Err) (Q : PureAggFns Datum Row PR Err)
    (cmp : Datum → Datum → Int) (exprs : List (Expression Datum Row Err))
    (F : List (AggFunc Datum Row PR Err))
    (runs : List (List Row)) (hsome : 0 < exprs.length ∨ runs ≠ [])
    (batches : List (List Row)) (hb : ∀ b ∈ batches, b ≠ [])
    (hsplit : batches.flatten = runs.flatten) (hruns : IsRuns (sameGroup P cmp exprs) runs) :
    ∃ segss : List (List (List Row)),
      segss.map List.flatten = runs ∧ (∀ segs ∈ segss, ∀ seg ∈ segs, seg ≠ []) ∧
      (absRun P Q cmp exprs F (batchInit F) false batches).map Prod.snd =
        finalsFrom Q F segss (allocAll F) := by
  by_cases hne : exprs.length = 0
  · have hnil : exprs = [] := List.length_eq_zero.1 hne
    subst hnil
    have hr : runs ≠ [] := by
      rcases hsome with h | h
      · simp at h
      · exact h
    have hlen := isRuns_no_exprs P cmp runs hruns
    cases runs with
    | nil => exact absurd rfl hr
    | cons run rest =>
      cases rest with
      | cons r1 rs => simp at hlen
      | nil =>
        have hrne := (hruns.1 run (List.mem_cons_self _ _)).1
        simp only [List.flatten_cons, List.flatten_nil, List.append_nil] at hsplit
        cases batches with
        | nil => exact absurd hsplit.symm hrne
        | cons b bs =>
          cases b with
          | nil => exact absurd rfl (hb [] (List.mem_cons_self _ _))
          | cons r b =>
            refine ⟨[(r :: b) :: bs], by simp [hsplit], ?_, ?_⟩
            · intro segs hsegs seg hseg
              simp only [List.mem_singleton] at hsegs
              subst hsegs
              exact hb seg hseg
            · have hrows : absRows P Q cmp [] F (batchInit F) (r :: b) =
                  ([], ⟨[], [], allocAll F, r :: b⟩) := by
                have hgen : ∀ (it : List Row) (s : BatchAbs Datum Row PR),
                    absRows P Q cmp [] F s it = ([], { s with buf := s.buf ++ it }) := by
                  intro it
                  induction it with
                  | nil => intro s; simp [absRows]
                  | cons r it ih =>
                    intro s
                    have hs : absStep P Q cmp [] F s r = (none, { s with buf := s.buf ++ [r] }) := by
                      simp [absStep]
                    simp only [absRows, hs, ih, List.append_assoc, List.singleton_append]
                rw [hgen]
                simp [batchInit]
              have hinit : (⟨(batchInit F).tmp, (batchInit F).curr,
                  flushRows Q F (batchInit F).buf (batchInit F).prs, []⟩ : BatchAbs Datum Row PR) =
                  batchInit F := by
                simp [batchInit, flushRows]
              rw [absRun_cons, hinit, hrows,
                absRun_global P Q cmp F bs (fun b2 hb2 => hb b2 (List.mem_cons_of_mem _ hb2))]
              simp [finalsFrom, flushSegs_cons]
  · exact absRun_runs P Q cmp exprs F hne runs batches hb hsplit hruns

/-- Claim C7.  Stream engine, batch API, with at least one group-by expression: when the
rows of the maximal runs `runs` are delivered in the non-empty input batches `batches`, no
collaborator fails and the output batch has a column for every group-by value and for the
result of every aggregate function, then more than `k = len(runs)` successive calls of
`nextChunk` all succeed, each returns the cleared output batch with records appended to
it, and the records of all calls together are exactly `k` records in run order.  Record
`j` has one group-by value per group-by expression, and its aggregate values are the
final results of partial results that start allocated (for the first run) or reset (after
the run before) and are fed exactly the rows of run `j`, in order, in one or several
non-empty segments.  The cells of the output batches, concatenated, are the cells of these
records. -/
theorem C7_stream_batch_one_record_per_run (P : PureFns Datum Row Ctx Err)
    (Q : PureAggFns Datum Row PR Err) (cmp : Datum → Datum → Int)
    (ec : evalContext Datum Row Err) (offs : List Nat) (exprs : List (Expression Datum Row Err))
    (aggs : List (Aggregation Datum Row Ctx Err)) (F : List (AggFunc Datum Row PR Err))
    (row : Row) (hne : 0 < exprs.length) (runs : List (List Row))
    (hruns : IsRuns (sameGroup P cmp exprs) runs) (batches : List (List Row))
    (hb : ∀ b ∈ batches, b ≠ []) (hsplit : batches.flatten = runs.flatten)
    (hok : ChunkOk P Q cmp ec exprs F batches.flatten) (chunkMaxRows : Nat)
    (hmax : 0 < chunkMaxRows) (chk : Chunk Datum) (hfit : ChunkFits exprs F chk) (n : Nat)
    (hn : runs.length < n) :
    ∃ (keys : List (List Datum)) (segss : List (List (List Row)))
      (groups : List (List (List Datum × List Datum))),
      keys.length = runs.length ∧ (∀ key ∈ keys, key.length = exprs.length) ∧
      segss.map List.flatten = runs ∧
      (∀ segs ∈ segss, ∀ seg ∈ segs, seg ≠ []) ∧
      groups.flatten = List.zip keys (finalsFrom Q F segss (allocAll F)) ∧
      streamAggExec.nextChunks chunkMaxRows n (streamAggExec.new ec aggs exprs offs row F).open
          (batches.map .ok) chk =
        groups.map (fun recs => (none, recs.foldl (appendRecord F) (clearedChunk chk))) ∧
      batchOutput chunkMaxRows n (streamAggExec.new ec aggs exprs offs row F).open
          (batches.map .ok) chk =
        (List.zip keys (finalsFrom Q F segss (allocAll F))).flatMap (recordCells F) ∧
      ∀ res ∈ streamAggExec.nextChunks chunkMaxRows n
          (streamAggExec.new ec aggs exprs offs row F).open (batches.map .ok) chk,
        res.1 = none := by
  obtain ⟨segss, h1, h2, h3⟩ := absRun_sorted P Q cmp exprs F runs (Or.inl hne) batches hb hsplit
    hruns
  have hlen : (absRun P Q cmp exprs F (batchInit F) false batches).length = runs.length := by
    have := congrArg List.length h3
    rw [List.length_map, length_finalsFrom] at this
    rw [this, ← h1, List.length_map]
  obtain ⟨g1, g2⟩ := batchOutput_open P Q cmp ec offs exprs aggs F row batches hok chunkMaxRows
    hmax chk hfit n (by omega)
  obtain ⟨groups, k1, k2⟩ := nextChunks_open P Q cmp ec offs exprs aggs F row batches hok
    chunkMaxRows hmax chk hfit n (by omega)
  have hzip : List.zip ((absRun P Q cmp exprs F (batchInit F) false batches).map Prod.fst)
      (finalsFrom Q F segss (allocAll F)) =
      absRun P Q cmp exprs F (batchInit F) false batches := by
    rw [← h3, zip_map_fst_snd]
  refine ⟨(absRun P Q cmp exprs F (batchInit F) false batches).map Prod.fst, segss, groups,
    by rw [List.length_map, hlen], ?_, h1, h2, by rw [hzip]; exact k1, k2,
    by rw [hzip]; exact g1, g2⟩
  intro key hkey
  obtain ⟨rec, hrec, rfl⟩ := List.mem_map.1 hkey
  exact absRun_key P Q cmp exprs F batches (batchInit F) false (Or.inl rfl)
    (fun h => by simp at h) rec hrec

theorem Demo.isRuns_rowRuns :
    IsRuns (sameGroup Demo.fns Demo.cmp [Demo.col 0]) Demo.rowRuns := by
  refine ⟨by decide, ?_⟩
  simp only [Demo.rowRuns, List.chain'_cons, List.chain'_singleton, and_true]
  decide

/-- Witness of C7 on the rows of `Demo`, delivered in three batches, with an output batch
of three columns. -/
theorem C7_stream_batch_one_record_per_run_witness :
    0 < [Demo.col 0].length ∧
    IsRuns (sameGroup Demo.fns Demo.cmp [Demo.col 0]) Demo.rowRuns ∧
    (∀ b ∈ Demo.batches, b ≠ []) ∧ Demo.batches.flatten = Demo.rowRuns.flatten ∧
    ChunkOk Demo.fns Demo.aggFns Demo.cmp Demo.ec [Demo.col 0] [Demo.countF, Demo.sumF]
      Demo.batches.flatten ∧
    0 < 1024 ∧ ChunkFits [Demo.col 0] [Demo.countF, Demo.sumF] Demo.chunk ∧
    Demo.rowRuns.length < 4 ∧
    ∃ (keys : List (List Nat)) (segss : List (List (List (List Nat))))
      (groups : List (List (List Nat × List Nat))),
      keys.length = Demo.rowRuns.length ∧ (∀ key ∈ keys, key.length = [Demo.col 0].length) ∧
      segss.map List.flatten = Demo.rowRuns ∧
      (∀ segs ∈ segss, ∀ seg ∈ segs, seg ≠ []) ∧
      groups.flatten = List.zip keys (finalsFrom Demo.aggFns [Demo.countF, Demo.sumF] segss
        (allocAll [Demo.countF, Demo.sumF])) ∧
      streamAggExec.nextChunks 1024 4
          (streamAggExec.new Demo.ec [Demo.count, Demo.sum] [Demo.col 0] [0, 1] ([] : List Nat)
            [Demo.countF, Demo.sumF]).open
          (Demo.batches.map .ok) Demo.chunk =
        groups.map (fun recs =>
          (none, recs.foldl (appendRecord [Demo.countF, Demo.sumF]) (clearedChunk Demo.chunk))) ∧
      batchOutput 1024 4
          (streamAggExec.new Demo.ec [Demo.count, Demo.sum] [Demo.col 0] [0, 1] ([] : List Nat)
            [Demo.countF, Demo.sumF]).open
          (Demo.batches.map .ok) Demo.chunk =
        (List.zip keys (finalsFrom Demo.aggFns [Demo.countF, Demo.sumF] segss
          (allocAll [Demo.countF, Demo.sumF]))).flatMap (recordCells [Demo.countF, Demo.sumF]) ∧
      ∀ res ∈ streamAggExec.nextChunks 1024 4
          (streamAggExec.new Demo.ec [Demo.count, Demo.sum] [Demo.col 0] [0, 1] ([] : List Nat)
            [Demo.countF, Demo.sumF]).open
          (Demo.batches.map .ok) Demo.chunk,
        res.1 = none :=
  ⟨by decide, Demo.isRuns_rowRuns, by decide, by decide,
   Demo.chunkOk _ _ (by simp) (by simp) _, by decide,
   Demo.chunkFits _ _ (by decide) (by simp), by decide,
   C7_stream_batch_one_record_per_run Demo.fns Demo.aggFns Demo.cmp Demo.ec [0, 1] [Demo.col 0]
     [Demo.count, Demo.sum] [Demo.countF, Demo.sumF] [] (by decide) Demo.rowRuns
     Demo.isRuns_rowRuns Demo.batches (by decide) (by decide)
     (Demo.chunkOk _ _ (by simp) (by simp) _) 1024 (by decide) Demo.chunk
     (Demo.chunkFits _ _ (by decide) (by simp)) 4 (by decide)⟩

end BatchTheorems

section GlobalTheorems

variable {Datum Row Ctx PR Err : Type}

/-- Without group-by expressions every row has the empty key, so a non-empty input has
one group, which holds every row. -/
theorem hashRecords_no_exprs (P : PureFns Datum Row Ctx Err)
    (aggs : List (Aggregation Datum Row Ctx Err)) (r : Row) (rs : List Row) :
    hashRecords P [] aggs (r :: rs) = [partialsOf P aggs (r :: rs)] := by
  have hkey : ∀ a : Row, keyOf P [] a = [] := fun a => rfl
  have hfirst : firstRows (keyOf P ([] : List (Expression Datum Row Err))) (r :: rs) = [r] := by
    simp [firstRows, hkey]
  simp [hashRecords, hfirst, hashRecord, hkey, encsOf]

/-- The records of the batch API without group-by expressions on a non-empty input: one
record without group-by values, with the final results of the allocated partial results
fed every batch in order. -/
theorem absRun_global_init (P : PureFns Datum Row Ctx Err) (Q : PureAggFns Datum Row PR Err)
    (cmp : Datum → Datum → Int) (F : List (AggFunc Datum Row PR Err))
    (batches : List (List Row)) (hb : ∀ b ∈ batches, b ≠ []) (hne : batches ≠ []) :
    absRun P Q cmp [] F (batchInit F) false batches =
      [([], finalsOf Q F (flushSegs Q F batches (allocAll F)))] := by
  cases batches with
  | nil => exact absurd rfl hne
  | cons b bs =>
    cases b with
    | nil => exact absurd rfl (hb [] (List.mem_cons_self _ _))
    | cons r b =>
      have hgen : ∀ (it : List Row) (s : BatchAbs Datum Row PR),
          absRows P Q cmp [] F s it = ([], { s with buf := s.buf ++ it }) := by
        intro it
        induction it with
        | nil => intro s; simp [absRows]
        | cons r it ih =>
          intro s
          have hs : absStep P Q cmp [] F s r = (none, { s with buf := s.buf ++ [r] }) := by
            simp [absStep]
          simp only [absRows, hs, ih, List.append_assoc, List.singleton_append]
      have hrows : absRows P Q cmp [] F (batchInit F) (r :: b) =
          ([], ⟨[], [], allocAll F, r :: b⟩) := by
        rw [hgen]
        simp [batchInit]
      have hinit : (⟨(batchInit F).tmp, (batchInit F).curr,
          flushRows Q F (batchInit F).buf (batchInit F).prs, []⟩ : BatchAbs Datum Row PR) =
          batchInit F := by
        simp [batchInit, flushRows]
      rw [absRun_cons, hinit, hrows,
        absRun_global P Q cmp F bs (fun b2 hb2 => hb b2 (List.mem_cons_of_mem _ hb2))]
      simp

/-- Claim C10.  Degenerate global aggregation: with zero group-by expressions and at least
one stored row, when no collaborator fails, (1) the first pull of the hash engine returns
the record of the encoded partial results of fresh contexts updated with all rows in input
order, without trailing group-by values, and every later pull returns "no more data";
(2) the row API of the stream engine does the same; (3) when the output batch has a
column for the result of every aggregate function, two or more calls of `nextChunk` all
succeed, each returns the cleared output batch with records appended to it, and the
records of all calls together are one record: it has no group-by values, and its
aggregate values are the final results of the allocated partial results fed all rows in
input order, batch by batch; the cells of the output batches, concatenated, are the cells
of this record. -/
theorem C10_global_aggregation_one_record (P : PureFns Datum Row Ctx Err)
    (Q : PureAggFns Datum Row PR Err) (cmp : Datum → Datum → Int)
    (ec : evalContext Datum Row Err) (offs : List Nat)
    (aggs : List (Aggregation Datum Row Ctx Err)) (F : List (AggFunc Datum Row PR Err))
    (row : Row) (vs : List (List Bytes)) (hvs : vs ≠ [])
    (hrow : RowOk P ec offs [] aggs vs) (batches : List (List Row))
    (hb : ∀ b ∈ batches, b ≠ []) (hsplit : batches.flatten = vs.map P.dec)
    (hok : ChunkOk P Q cmp ec [] F batches.flatten) (chunkMaxRows : Nat)
    (hmax : 0 < chunkMaxRows) (chk : Chunk Datum)
    (hfit : ChunkFits ([] : List (Expression Datum Row Err)) F chk) (n : Nat) (hn : 2 ≤ n) :
    hashAggExec.pulls n (hashAggExec.new ec aggs [] offs row) (vs.map .ok) =
      (List.range n).map (fun i => .ok ([partialsOf P aggs (vs.map P.dec)][i]?)) ∧
    streamAggExec.pulls n (streamAggExec.new ec aggs [] offs row F) (vs.map .ok) =
      (List.range n).map (fun i => .ok ([partialsOf P aggs (vs.map P.dec)][i]?)) ∧
    (∃ groups : List (List (List Datum × List Datum)),
      groups.flatten = [([], finalsOf Q F (flushSegs Q F batches (allocAll F)))] ∧
      streamAggExec.nextChunks chunkMaxRows n (streamAggExec.new ec aggs [] offs row F).open
          (batches.map .ok) chk =
        groups.map (fun recs => (none, recs.foldl (appendRecord F) (clearedChunk chk)))) ∧
    batchOutput chunkMaxRows n (streamAggExec.new ec aggs [] offs row F).open
        (batches.map .ok) chk =
      recordCells F ([], finalsOf Q F (flushSegs Q F batches (allocAll F))) ∧
    (∀ res ∈ streamAggExec.nextChunks chunkMaxRows n
        (streamAggExec.new ec aggs [] offs row F).open (batches.map .ok) chk, res.1 = none) := by
  have hbne : batches ≠ [] := by
    intro h
    rw [h] at hsplit
    cases vs with
    | nil => exact hvs rfl
    | cons v vs => simp at hsplit
  have habs := absRun_global_init P Q cmp F batches hb hbne
  have hlen : (absRun P Q cmp [] F (batchInit F) false batches).length < n := by
    rw [habs]; simpa using hn
  obtain ⟨g1, g2⟩ := batchOutput_open P Q cmp ec offs [] aggs F row batches hok chunkMaxRows
    hmax chk hfit n hlen
  obtain ⟨groups, k1, k2⟩ := nextChunks_open P Q cmp ec offs [] aggs F row batches hok
    chunkMaxRows hmax chk hfit n hlen
  refine ⟨?_, stream_pulls_global P ec offs aggs F vs hrow row n,
    ⟨groups, by rw [k1, habs], k2⟩, ?_, g2⟩
  · rw [pulls_new P ec offs [] aggs vs hrow row n]
    cases vs with
    | nil => exact absurd rfl hvs
    | cons v vs => rw [List.map_cons, hashRecords_no_exprs]
  · rw [g1, habs]
    simp

/-- Witness of C10 on the stored rows of `Demo`, delivered in three batches, with an
output batch of three columns. -/
theorem C10_global_aggregation_one_record_witness :
    Demo.stored ≠ [] ∧
    RowOk Demo.fns Demo.ec [0, 1] [] [Demo.count, Demo.sum] Demo.stored ∧
    (∀ b ∈ Demo.batches, b ≠ []) ∧ Demo.batches.flatten = Demo.stored.map Demo.fns.dec ∧
    ChunkOk Demo.fns Demo.aggFns Demo.cmp Demo.ec [] [Demo.countF, Demo.sumF]
      Demo.batches.flatten ∧
    0 < 1024 ∧ ChunkFits [] [Demo.countF, Demo.sumF] Demo.chunk ∧ 2 ≤ 3 ∧
    hashAggExec.pulls 3 (hashAggExec.new Demo.ec [Demo.count, Demo.sum] [] [0, 1]
        ([] : List Nat)) (Demo.stored.map .ok) =
      (List.range 3).map (fun i => .ok
        ([partialsOf Demo.fns [Demo.count, Demo.sum] (Demo.stored.map Demo.fns.dec)][i]?)) ∧
    streamAggExec.pulls 3 (streamAggExec.new Demo.ec [Demo.count, Demo.sum] [] [0, 1]
        ([] : List Nat) [Demo.countF, Demo.sumF]) (Demo.stored.map .ok) =
      (List.range 3).map (fun i => .ok
        ([partialsOf Demo.fns [Demo.count, Demo.sum] (Demo.stored.map Demo.fns.dec)][i]?)) ∧
    (∃ groups : List (List (List Nat × List Nat)),
      groups.flatten = [([], finalsOf Demo.aggFns [Demo.countF, Demo.sumF]
        (flushSegs Demo.aggFns [Demo.countF, Demo.sumF] Demo.batches
          (allocAll [Demo.countF, Demo.sumF])))] ∧
      streamAggExec.nextChunks 1024 3 (streamAggExec.new Demo.ec [Demo.count, Demo.sum] []
          [0, 1] ([] : List Nat) [Demo.countF, Demo.sumF]).open (Demo.batches.map .ok)
          Demo.chunk =
        groups.map (fun recs =>
          (none, recs.foldl (appendRecord [Demo.countF, Demo.sumF]) (clearedChunk Demo.chunk)))) ∧
    batchOutput 1024 3 (streamAggExec.new Demo.ec [Demo.count, Demo.sum] [] [0, 1]
        ([] : List Nat) [Demo.countF, Demo.sumF]).open (Demo.batches.map .ok) Demo.chunk =
      recordCells [Demo.countF, Demo.sumF] ([], finalsOf Demo.aggFns [Demo.countF, Demo.sumF]
        (flushSegs Demo.aggFns [Demo.countF, Demo.sumF] Demo.batches
          (allocAll [Demo.countF, Demo.sumF]))) ∧
    (∀ res ∈ streamAggExec.nextChunks 1024 3
        (streamAggExec.new Demo.ec [Demo.count, Demo.sum] [] [0, 1] ([] : List Nat)
          [Demo.countF, Demo.sumF]).open (Demo.batches.map .ok) Demo.chunk, res.1 = none) :=
  ⟨by decide, Demo.rowOk_stored _ _ (by simp) (by simp) _, by decide, by decide,
   Demo.chunkOk _ _ (by simp) (by simp) _, by decide,
   Demo.chunkFits _ _ (by decide) (by simp), by decide,
   C10_global_aggregation_one_record Demo.fns Demo.aggFns Demo.cmp Demo.ec [0, 1]
     [Demo.count, Demo.sum] [Demo.countF, Demo.sumF] [] Demo.stored (by decide)
     (Demo.rowOk_stored _ _ (by simp) (by simp) _) Demo.batches (by decide) (by decide)
     (Demo.chunkOk _ _ (by simp) (by simp) _) 1024 (by decide) Demo.chunk
     (Demo.chunkFits _ _ (by decide) (by simp)) 3 (by decide)⟩

end GlobalTheorems

section EquivalenceTheorems

variable {Datum Row Ctx PR Err : Type}

/-- Counterexample to C5 as stated (including the empty input and no group-by expression).
On the empty input without group-by expressions no collaborator is called; the row API
returns one record (the partial results of fresh contexts) and then "no more data", while
two calls of `nextChunk` succeed and leave their output batches without any row. -/
theorem C5_counterexample :
    streamAggExec.pulls 2
        (streamAggExec.new Demo.ec [Demo.count] [] [0, 1] ([] : List Nat) [Demo.countF]) [] =
      [.ok (some [[0]]), .ok none] ∧
    (streamAggExec.nextChunks 1024 2
        (streamAggExec.new Demo.ec [Demo.count] [] [0, 1] ([] : List Nat) [Demo.countF]).open
        [] Demo.chunk).map (fun res => (res.1.isNone, res.2.cells, res.2.NumRows)) =
      [(true, [], 0), (true, [], 0)] := by
  constructor <;> rfl

/-- The records of the row API on a sorted input: one record per run, also without
group-by expressions when there is at least one row. -/
theorem stream_pulls_sorted (P : PureFns Datum Row Ctx Err) (cmp : Datum → Datum → Int)
    (ec : evalContext Datum Row Err) (offs : List Nat) (exprs : List (Expression Datum Row Err))
    (aggs : List (Aggregation Datum Row Ctx Err)) (F : List (AggFunc Datum Row PR Err))
    (hcmp : ∀ a b, ec.CompareDatum a b = .ok (cmp a b))
    (runs : List (List (List Bytes))) (hsome : 0 < exprs.length ∨ runs ≠ [])
    (hok : RowOk P ec offs exprs aggs runs.flatten)
    (hruns : IsRuns (sameGroup P cmp exprs) (runs.map (List.map P.dec))) (row : Row) (n : Nat) :
    streamAggExec.pulls n (streamAggExec.new ec aggs exprs offs row F) (runs.flatten.map .ok) =
      (List.range n).map (fun i =>
        .ok (((runs.map (List.map P.dec)).map (streamRecord P exprs aggs))[i]?)) := by
  by_cases hne : exprs.length = 0
  · have hnil : exprs = [] := List.length_eq_zero.1 hne
    subst hnil
    have hr : runs ≠ [] := by
      rcases hsome with h | h
      · simp at h
      · exact h
    have hlen := isRuns_no_exprs P cmp _ hruns
    cases runs with
    | nil => exact absurd rfl hr
    | cons run rest =>
      cases rest with
      | cons r1 rs => simp at hlen
      | nil =>
        have hrne := (hruns.1 (run.map P.dec) (by simp)).1
        cases run with
        | nil => simp at hrne
        | cons v vs =>
          have h := stream_pulls_global P ec offs aggs F (v :: vs)
            (by simpa using hok) row n
          simp only [List.flatten_cons, List.flatten_nil, List.append_nil]
          rw [h]
          simp [streamRecord, encsOf]
  · exact stream_pulls_runs P cmp ec offs exprs aggs F hne hcmp runs hok hruns row n

/-- Claim C5, amended.  Stream engine, for every sorted input and every list of group-by
expressions except the empty input without group-by expressions: when the stored rows
consist of the maximal runs `runs`, the same rows are delivered decoded in the non-empty
batches `batches`, no collaborator fails and the output batch has a column for every
group-by value and for the result of every aggregate function, then both APIs report one
record per run, in run order, hence the same number of records.  Pull `j` of the row API
returns the encoded partial results of fresh contexts updated with exactly the rows of
run `j`, followed by the encoded group-by values of the first row of the run, and pulls
from `len(runs)` on return "no more data".  More than `len(runs)` calls of `nextChunk`
all succeed, each returns the cleared output batch with records appended to it, and the
records of all calls together are `len(runs)` records: record `j` has one group-by value
per group-by expression and the final results of allocated or reset partial results fed
exactly the rows of run `j`; the cells of the output batches, concatenated, are the cells
of these records. -/
theorem C5_stream_row_and_batch_one_record_per_run (P : PureFns Datum Row Ctx Err)
    (Q : PureAggFns Datum Row PR Err) (cmp : Datum → Datum → Int)
    (ec : evalContext Datum Row Err) (offs : List Nat) (exprs : List (Expression Datum Row Err))
    (aggs : List (Aggregation Datum Row Ctx Err)) (F : List (AggFunc Datum Row PR Err))
    (row : Row) (runs : List (List (List Bytes))) (hsome : 0 < exprs.length ∨ runs ≠ [])
    (hrow : RowOk P ec offs exprs aggs runs.flatten)
    (hruns : IsRuns (sameGroup P cmp exprs) (runs.map (List.map P.dec)))
    (batches : List (List Row)) (hb : ∀ b ∈ batches, b ≠ [])
    (hsplit : batches.flatten = (runs.map (List.map P.dec)).flatten)
    (hok : ChunkOk P Q cmp ec exprs F batches.flatten) (chunkMaxRows : Nat)
    (hmax : 0 < chunkMaxRows) (chk : Chunk Datum) (hfit : ChunkFits exprs F chk) (n : Nat)
    (hn : runs.length < n) :
    ∃ (keys : List (List Datum)) (segss : List (List (List Row)))
      (groups : List (List (List Datum × List Datum))),
      keys.length = runs.length ∧ (∀ key ∈ keys, key.length = exprs.length) ∧
      segss.map List.flatten = runs.map (List.map P.dec) ∧
      (∀ segs ∈ segss, ∀ seg ∈ segs, seg ≠ []) ∧
      streamAggExec.pulls n (streamAggExec.new ec aggs exprs offs row F)
          (runs.flatten.map .ok) =
        (List.range n).map (fun i =>
          .ok (((runs.map (List.map P.dec)).map (streamRecord P exprs aggs))[i]?)) ∧
      groups.flatten = List.zip keys (finalsFrom Q F segss (allocAll F)) ∧
      streamAggExec.nextChunks chunkMaxRows n (streamAggExec.new ec aggs exprs offs row F).open
          (batches.map .ok) chk =
        groups.map (fun recs => (none, recs.foldl (appendRecord F) (clearedChunk chk))) ∧
      batchOutput chunkMaxRows n (streamAggExec.new ec aggs exprs offs row F).open
          (batches.map .ok) chk =
        (List.zip keys (finalsFrom Q F segss (allocAll F))).flatMap (recordCells F) ∧
      ∀ res ∈ streamAggExec.nextChunks chunkMaxRows n
          (streamAggExec.new ec aggs exprs offs row F).open (batches.map .ok) chk,
        res.1 = none := by
  have hsome2 : 0 < exprs.length ∨ runs.map (List.map P.dec) ≠ [] := by
    rcases hsome with h | h
    · exact Or.inl h
    · exact Or.inr (by simpa using h)
  obtain ⟨segss, h1, h2, h3⟩ := absRun_sorted P Q cmp exprs F (runs.map (List.map P.dec)) hsome2
    batches hb hsplit hruns
  have hlen : (absRun P Q cmp exprs F (batchInit F) false batches).length = runs.length := by
    have := congrArg List.length h3
    rw [List.length_map, length_finalsFrom] at this
    rw [this, ← List.length_map segss List.flatten, h1, List.length_map]
  obtain ⟨g1, g2⟩ := batchOutput_open P Q cmp ec offs exprs aggs F row batches hok chunkMaxRows
    hmax chk hfit n (by omega)
  obtain ⟨groups, k1, k2⟩ := nextChunks_open P Q cmp ec offs exprs aggs F row batches hok
    chunkMaxRows hmax chk hfit n (by omega)
  have hzip : List.zip ((absRun P Q cmp exprs F (batchInit F) false batches).map Prod.fst)
      (finalsFrom Q F segss (allocAll F)) =
      absRun P Q cmp exprs F (batchInit F) false batches := by
    rw [← h3, zip_map_fst_snd]
  refine ⟨(absRun P Q cmp exprs F (batchInit F) false batches).map Prod.fst, segss, groups,
    by rw [List.length_map, hlen], ?_, h1, h2,
    stream_pulls_sorted P cmp ec offs exprs aggs F hok.compare runs hsome hrow hruns row n,
    by rw [hzip]; exact k1, k2, by rw [hzip]; exact g1, g2⟩
  intro key hkey
  obtain ⟨rec, hrec, rfl⟩ := List.mem_map.1 hkey
  exact absRun_key P Q cmp exprs F batches (batchInit F) false (Or.inl rfl)
    (fun h => by simp at h) rec hrec

/-- Witness of the amended C5 on the stored rows of `Demo`, delivered in three batches,
with an output batch of three columns. -/
theorem C5_stream_row_and_batch_one_record_per_run_witness :
    (0 < [Demo.col 0].length ∨ Demo.storedRuns ≠ []) ∧
    RowOk Demo.fns Demo.ec [0, 1] [Demo.col 0] [Demo.count, Demo.sum] Demo.storedRuns.flatten ∧
    IsRuns (sameGroup Demo.fns Demo.cmp [Demo.col 0])
      (Demo.storedRuns.map (List.map Demo.fns.dec)) ∧
    (∀ b ∈ Demo.batches, b ≠ []) ∧
    Demo.batches.flatten = (Demo.storedRuns.map (List.map Demo.fns.dec)).flatten ∧
    ChunkOk Demo.fns Demo.aggFns Demo.cmp Demo.ec [Demo.col 0] [Demo.countF, Demo.sumF]
      Demo.batches.flatten ∧
    0 < 1024 ∧ ChunkFits [Demo.col 0] [Demo.countF, Demo.sumF] Demo.chunk ∧
    Demo.storedRuns.length < 4 ∧
    ∃ (keys : List (List Nat)) (segss : List (List (List (List Nat))))
      (groups : List (List (List Nat × List Nat))),
      keys.length = Demo.storedRuns.length ∧
      (∀ key ∈ keys, key.length = [Demo.col 0].length) ∧
      segss.map List.flatten = Demo.storedRuns.map (List.map Demo.fns.dec) ∧
      (∀ segs ∈ segss, ∀ seg ∈ segs, seg ≠ []) ∧
      streamAggExec.pulls 4
          (streamAggExec.new Demo.ec [Demo.count, Demo.sum] [Demo.col 0] [0, 1] ([] : List Nat)
            [Demo.countF, Demo.sumF])
          (Demo.storedRuns.flatten.map .ok) =
        (List.range 4).map (fun i =>
          .ok (((Demo.storedRuns.map (List.map Demo.fns.dec)).map
            (streamRecord Demo.fns [Demo.col 0] [Demo.count, Demo.sum]))[i]?)) ∧
      groups.flatten = List.zip keys (finalsFrom Demo.aggFns [Demo.countF, Demo.sumF] segss
        (allocAll [Demo.countF, Demo.sumF])) ∧
      streamAggExec.nextChunks 1024 4
          (streamAggExec.new Demo.ec [Demo.count, Demo.sum] [Demo.col 0] [0, 1] ([] : List Nat)
            [Demo.countF, Demo.sumF]).open
          (Demo.batches.map .ok) Demo.chunk =
        groups.map (fun recs =>
          (none, recs.foldl (appendRecord [Demo.countF, Demo.sumF]) (clearedChunk Demo.chunk))) ∧
      batchOutput 1024 4
          (streamAggExec.new Demo.ec [Demo.count, Demo.sum] [Demo.col 0] [0, 1] ([] : List Nat)
            [Demo.countF, Demo.sumF]).open
          (Demo.batches.map .ok) Demo.chunk =
        (List.zip keys (finalsFrom Demo.aggFns [Demo.countF, Demo.sumF] segss
          (allocAll [Demo.countF, Demo.sumF]))).flatMap (recordCells [Demo.countF, Demo.sumF]) ∧
      ∀ res ∈ streamAggExec.nextChunks 1024 4
          (streamAggExec.new Demo.ec [Demo.count, Demo.sum] [Demo.col 0] [0, 1] ([] : List Nat)
            [Demo.countF, Demo.sumF]).open
          (Demo.batches.map .ok) Demo.chunk,
        res.1 = none :=
  ⟨Or.inl (by decide), Demo.rowOk_stored _ _ (by simp) (by simp) _, Demo.isRuns_storedRuns,
   by decide, by decide, Demo.chunkOk _ _ (by simp) (by simp) _, by decide,
   Demo.chunkFits _ _ (by decide) (by simp), by decide,
   C5_stream_row_and_batch_one_record_per_run Demo.fns Demo.aggFns Demo.cmp Demo.ec [0, 1]
     [Demo.col 0] [Demo.count, Demo.sum] [Demo.countF, Demo.sumF] [] Demo.storedRuns
     (Or.inl (by decide)) (Demo.rowOk_stored _ _ (by simp) (by simp) _) Demo.isRuns_storedRuns
     Demo.batches (by decide) (by decide) (Demo.chunkOk _ _ (by simp) (by simp) _) 1024
     (by decide) Demo.chunk (Demo.chunkFits _ _ (by decide) (by simp)) 4 (by decide)⟩

/-- Claim C4, the behaviour of the code.  Batch API on one input batch with the rows keyed
`1, 1, 2` (group by column 0, `count(*)` in column 1): the record appended at the group
boundary, which holds the count 2 of the completed group with key 1, carries the key 2 of
the new group in column 0, while the row API reports the same group with key 1. -/
theorem C4_batch_boundary_record_carries_new_key :
    batchOutput 1024 2
        (streamAggExec.new Demo.ec [Demo.count] [Demo.col 0] [0, 1] ([] : List Nat)
          [Demo.countF]).open
        [.ok [[1, 10], [1, 20], [2, 5]]] Demo.chunk =
      [(0, 2), (1, 2), (0, 2), (1, 1)] ∧
    streamAggExec.pulls 3
        (streamAggExec.new Demo.ec [Demo.count] [Demo.col 0] [0, 1] ([] : List Nat)
          [Demo.countF])
        ([[[1], [10]], [[1], [20]], [[2], [5]]].map .ok) =
      [.ok (some [[2], [1]]), .ok (some [[1], [2]]), .ok none] := by
  constructor <;> rfl

end EquivalenceTheorems

section GroupKey

variable {Datum Row Ctx PR Err : Type}

theorem getGroupKeyLoop_keyOk (ec : evalContext Datum Row Err) (row : Row)
    (exprs : List (Expression Datum Row Err)) (vals : List Bytes)
    (h : KeyOk ec row exprs vals) (acc : List Bytes) :
    hashAggExec.getGroupKeyLoop ec row exprs acc = .ok (acc ++ vals) := by
  unfold KeyOk at h
  induction h generalizing acc with
  | nil => simp [hashAggExec.getGroupKeyLoop]
  | cons hhead _ ih =>
    obtain ⟨d, h1, h2⟩ := hhead
    simp [hashAggExec.getGroupKeyLoop, h1, h2, ih]

theorem getGroupKeyLoop_keyFails (ec : evalContext Datum Row Err) (row : Row)
    (exprs : List (Expression Datum Row Err)) (err : Err)
    (h : KeyFails ec row exprs err) (acc : List Bytes) :
    hashAggExec.getGroupKeyLoop ec row exprs acc = .error (.err err) := by
  obtain ⟨pre, ex, post, vals, rfl, hpre, hbad⟩ := h
  unfold KeyOk at hpre
  induction hpre generalizing acc with
  | nil =>
    rcases hbad with h | ⟨d, h1, h2⟩
    · simp [hashAggExec.getGroupKeyLoop, h]
    · simp [hashAggExec.getGroupKeyLoop, h1, h2]
  | cons hhead _ ih =>
    obtain ⟨d, h1, h2⟩ := hhead
    simp [hashAggExec.getGroupKeyLoop, h1, h2, ih]

theorem KeyOk.length_eq {ec : evalContext Datum Row Err} {row : Row}
    {exprs : List (Expression Datum Row Err)} {vals : List Bytes}
    (h : KeyOk ec row exprs vals) : vals.length = exprs.length :=
  (List.Forall₂.length_eq h).symm

theorem KeyFails.ne_nil {ec : evalContext Datum Row Err} {row : Row}
    {exprs : List (Expression Datum Row Err)} {err : Err}
    (h : KeyFails ec row exprs err) : exprs.length ≠ 0 := by
  obtain ⟨pre, ex, post, vals, rfl, _, _⟩ := h
  simp

/-- `getGroupKey` when every evaluation and encoding succeeds. -/
theorem getGroupKey_keyOk (e : hashAggExec Datum Row Ctx Err) (vals : List Bytes)
    (h : KeyOk e.evalCtx e.row e.groupByExprs vals) :
    e.getGroupKey = .ok (vals.flatten, vals) := by
  unfold hashAggExec.getGroupKey
  split
  · rename_i h0
    have hv : vals = [] := List.length_eq_zero.1 (by rw [h.length_eq, h0])
    subst hv
    rfl
  · rw [getGroupKeyLoop_keyOk e.evalCtx e.row e.groupByExprs vals h []]
    simp [foldl_append_eq_flatten]

/-- `getGroupKey` when an evaluation or an encoding fails. -/
theorem getGroupKey_keyFails (e : hashAggExec Datum Row Ctx Err) (err : Err)
    (h : KeyFails e.evalCtx e.row e.groupByExprs err) :
    e.getGroupKey = .error (.err err) := by
  unfold hashAggExec.getGroupKey
  rw [if_neg h.ne_nil, getGroupKeyLoop_keyFails e.evalCtx e.row e.groupByExprs err h []]

/-- Claim C18.  `getGroupKey`, for every state of the hash executor: (1) when every
group-by expression evaluates on the row and every value is encoded, with `vals` the list
of the encoded values in expression order, it returns `vals`, which has one entry per
expression, and the key that is the concatenation of `vals` in order; (2) with zero
group-by expressions it returns an empty key and an empty list; (3) when the first failing
call is an evaluation or an encoding that fails with `err`, it returns the error `err`,
with no key and no list. -/
theorem C18_getGroupKey_contract (e : hashAggExec Datum Row Ctx Err) :
    (∀ vals, KeyOk e.evalCtx e.row e.groupByExprs vals →
      e.getGroupKey = .ok (vals.flatten, vals) ∧ vals.length = e.groupByExprs.length) ∧
    (e.groupByExprs = [] → e.getGroupKey = .ok ([], [])) ∧
    (∀ err, KeyFails e.evalCtx e.row e.groupByExprs err →
      e.getGroupKey = .error (.err err)) := by
  refine ⟨fun vals h => ⟨getGroupKey_keyOk e vals h, h.length_eq⟩, ?_,
    fun err h => getGroupKey_keyFails e err h⟩
  intro h
  simp [hashAggExec.getGroupKey, h]

/-- Witness of C18: the row `(7, 9)` grouped by its two columns; no group-by expression;
the row grouped by column 0 and by an expression that fails. -/
theorem C18_getGroupKey_contract_witness :
    ((hashAggExec.new Demo.ec [Demo.count] [Demo.col 0, Demo.col 1] [0, 1]
        [7, 9]).getGroupKey = .ok ([[7], [9]].flatten, [[7], [9]]) ∧
      [[7], [9]].length = [Demo.col 0, Demo.col 1].length) ∧
    (hashAggExec.new Demo.ec [Demo.count] [] [0, 1] [7, 9]).getGroupKey = .ok ([], []) ∧
    (hashAggExec.new Demo.ec [Demo.count] [Demo.col 0, Demo.failing] [0, 1]
        [7, 9]).getGroupKey = .error (.err "eval") :=
  ⟨(C18_getGroupKey_contract
      (hashAggExec.new Demo.ec [Demo.count] [Demo.col 0, Demo.col 1] [0, 1] [7, 9])).1
      [[7], [9]]
      (List.Forall₂.cons ⟨7, rfl, rfl⟩ (List.Forall₂.cons ⟨9, rfl, rfl⟩ List.Forall₂.nil)),
   (C18_getGroupKey_contract (hashAggExec.new Demo.ec [Demo.count] [] [0, 1] [7, 9])).2.1 rfl,
   (C18_getGroupKey_contract
      (hashAggExec.new Demo.ec [Demo.count] [Demo.col 0, Demo.failing] [0, 1] [7, 9])).2.2
      "eval"
      ⟨[Demo.col 0], Demo.failing, [], [[7]], rfl,
        List.Forall₂.cons ⟨7, rfl, rfl⟩ List.Forall₂.nil, Or.inl rfl⟩⟩

end GroupKey

section EmptySource

variable {Datum Row Ctx PR Err : Type}

/-- The hash executor with no group registered, on a source at its end: every pull
returns "no more data". -/
theorem hash_pulls_no_groups (n : Nat) (e : hashAggExec Datum Row Ctx Err)
    (h : e.groups = []) :
    hashAggExec.pulls n e [] = List.replicate n (.ok none) := by
  induction n generalizing e with
  | zero => rfl
  | succ n ih =>
    have hnext : ∃ e2, e.Next [] = (.ok none, e2, []) ∧ e2.groups = [] := by
      unfold hashAggExec.Next
      by_cases hex : e.executed = true <;> by_cases hm : e.aggCtxsMap.isNone = true <;>
        simp [hex, hm, hashAggExec.fetchAll, hashAggExec.nextGroup, h]
    obtain ⟨e2, h2, h3⟩ := hnext
    rw [hashAggExec.pulls, h2]
    simp only [List.replicate_succ]
    rw [ih e2 h3]

/-- Claim C12.  Hash engine on an empty source: for every list of group-by expressions,
the empty one included, and every list of aggregate functions, every pull returns "no more
data"; no record is ever returned. -/
theorem C12_hash_empty_source_no_record (ec : evalContext Datum Row Err)
    (aggs : List (Aggregation Datum Row Ctx Err)) (exprs : List (Expression Datum Row Err))
    (offs : List Nat) (row : Row) (n : Nat) :
    hashAggExec.pulls n (hashAggExec.new ec aggs exprs offs row) [] =
      List.replicate n (.ok none) :=
  hash_pulls_no_groups n _ rfl

/-- Claim C11.  Stream engine, row API, on an empty source.  With at least one group-by
expression every pull returns "no more data".  With zero group-by expressions, when the
codec encodes every value, the first pull returns one record, the encoded partial results
of the freshly created contexts without any group-by value, and every later pull returns
"no more data". -/
theorem C11_stream_row_empty_source (P : PureFns Datum Row Ctx Err)
    (ec : evalContext Datum Row Err) (offs : List Nat) (exprs : List (Expression Datum Row Err))
    (aggs : List (Aggregation Datum Row Ctx Err)) (newAggFuncs : List (AggFunc Datum Row PR Err))
    (row : Row) (n : Nat) :
    (0 < exprs.length →
      streamAggExec.pulls n (streamAggExec.new ec aggs exprs offs row newAggFuncs) [] =
        List.replicate n (.ok none)) ∧
    (exprs = [] → (∀ d, ec.EncodeValue d = .ok (P.enc d)) →
      streamAggExec.pulls (n + 1) (streamAggExec.new ec aggs exprs offs row newAggFuncs) [] =
        .ok (some (partialsOf P aggs [])) :: List.replicate n (.ok none)) := by
  constructor
  · intro hpos
    cases n with
    | zero => rfl
    | succ n =>
      simp only [streamAggExec.pulls, streamAggExec.Next, streamAggExec.new,
        streamAggExec.nextLoop, Bool.false_eq_true, if_false, Bool.not_false, Bool.true_and,
        gt_iff_lt, hpos, decide_True, if_true, List.replicate_succ]
      rw [stream_pulls_executed _ rfl]
  · intro hex henc
    subst hex
    have h := stream_pulls_global P ec offs aggs newAggFuncs []
      ⟨fun _ hv => by simp at hv, fun _ hv => by simp at hv, henc, fun _ hv => by simp at hv⟩
      row (n + 1)
    simp only [List.map_nil] at h
    rw [h, map_range_getElem?_cons, map_range_getElem?_nil]

/-- Witness of C11 on the instance `Demo`, with four and with three pulls. -/
theorem C11_stream_row_empty_source_witness :
    streamAggExec.pulls 4
        (streamAggExec.new Demo.ec [Demo.count, Demo.sum] [Demo.col 0] [0, 1] ([] : List Nat)
          ([] : List (AggFunc Nat (List Nat) Nat String))) [] =
      List.replicate 4 (.ok none) ∧
    streamAggExec.pulls (3 + 1)
        (streamAggExec.new Demo.ec [Demo.count, Demo.sum] [] [0, 1] ([] : List Nat)
          ([] : List (AggFunc Nat (List Nat) Nat String))) [] =
      .ok (some (partialsOf Demo.fns [Demo.count, Demo.sum] [])) :: List.replicate 3 (.ok none) :=
  ⟨(C11_stream_row_empty_source Demo.fns Demo.ec [0, 1] [Demo.col 0] [Demo.count, Demo.sum] []
      [] 4).1 (by decide),
   (C11_stream_row_empty_source Demo.fns Demo.ec [0, 1] [] [Demo.count, Demo.sum] []
      [] 3).2 rfl (fun _ => rfl)⟩

/-- Claim C14.  Stream engine, row API, on unsorted input: the stored rows of
`Demo.unsorted` have the keys `a, b, a`, that is two distinct keys; grouped by column 0
with `count(*)`, the pulls return three records (count 1 with key `a`, count 1 with key
`b`, count 1 with key `a`) and then "no more data". -/
theorem C14_stream_unsorted_more_records_than_keys :
    ((Demo.unsorted.map (fun v => keyOf Demo.fns [Demo.col 0] (Demo.fns.dec v))).dedup).length
      = 2 ∧
    streamAggExec.pulls 4
        (streamAggExec.new Demo.ec [Demo.count] [Demo.col 0] [0, 1] ([] : List Nat)
          ([] : List (AggFunc Nat (List Nat) Nat String)))
        (Demo.unsorted.map .ok) =
      [.ok (some [[1], [1]]), .ok (some [[1], [2]]), .ok (some [[1], [1]]), .ok none] := by
  constructor
  · decide
  · rfl

end EmptySource

section HashInvariant

variable {Datum Row Ctx PR Err : Type}

theorem encodeResults_isErr (ec : evalContext Datum Row Err) (ds : List Datum)
    (value : List Bytes) (f : Failure Err) (h : encodeResults ec ds value = .error f) :
    f.isErr = true := by
  induction ds generalizing value with
  | nil => simp [encodeResults] at h
  | cons d ds ih =>
    simp only [encodeResults] at h
    split at h
    · cases h; rfl
    · exact ih _ h

theorem getGroupKeyLoop_isErr (ec : evalContext Datum Row Err) (r : Row)
    (exprs : List (Expression Datum Row Err)) (acc : List Bytes) (f : Failure Err)
    (h : hashAggExec.getGroupKeyLoop ec r exprs acc = .error f) : f.isErr = true := by
  induction exprs generalizing acc with
  | nil => simp [hashAggExec.getGroupKeyLoop] at h
  | cons ex exprs ih =>
    simp only [hashAggExec.getGroupKeyLoop] at h
    split at h
    · cases h; rfl
    · split at h
      · cases h; rfl
      · exact ih _ h

theorem getGroupKey_isErr (e : hashAggExec Datum Row Ctx Err) (f : Failure Err)
    (h : e.getGroupKey = .error f) : f.isErr = true := by
  unfold hashAggExec.getGroupKey at h
  split at h
  · cases h
  · split at h
    · rename_i f2 hl
      cases h
      exact getGroupKeyLoop_isErr _ _ _ _ _ hl
    · cases h

/-- The update loop on enough contexts: the number of contexts stays, and a failure is an
error of `Update`. -/
theorem updateLoop_inv (row : Row) (aggs : List (Aggregation Datum Row Ctx Err)) (i : Nat)
    (aggCtxs : List Ctx) (hlen : i + aggs.length ≤ aggCtxs.length) :
    (updateLoop row aggs i aggCtxs).2.length = aggCtxs.length ∧
    ∀ f, (updateLoop row aggs i aggCtxs).1 = some f → f.isErr = true := by
  induction aggs generalizing i aggCtxs with
  | nil => simp [updateLoop]
  | cons agg aggs ih =>
    have hi : i < aggCtxs.length := by simp at hlen; omega
    simp only [updateLoop, List.getElem?_eq_getElem hi]
    cases hu : agg.Update aggCtxs[i] row with
    | error err =>
      refine ⟨rfl, ?_⟩
      intro f hf
      cases hf
      rfl
    | ok c2 =>
      have h2 := ih (i + 1) (aggCtxs.set i c2) (by simp at hlen ⊢; omega)
      simpa using h2

theorem partialsLoop_isErr (ec : evalContext Datum Row Err) (aggCtxs : List Ctx)
    (aggs : List (Aggregation Datum Row Ctx Err)) (i : Nat) (value : List Bytes)
    (hlen : i + aggs.length ≤ aggCtxs.length) (f : Failure Err)
    (h : hashAggExec.partialsLoop ec aggCtxs aggs i value = .error f) : f.isErr = true := by
  induction aggs generalizing i value with
  | nil => simp [hashAggExec.partialsLoop] at h
  | cons agg aggs ih =>
    have hi : i < aggCtxs.length := by simp at hlen; omega
    simp only [hashAggExec.partialsLoop, List.getElem?_eq_getElem hi] at h
    split at h
    · rename_i f2 he
      cases h
      exact encodeResults_isErr _ _ _ _ he
    · exact ih (i + 1) _ (by simp at hlen ⊢; omega) h

theorem HashInv.of_eq {e e2 : hashAggExec Datum Row Ctx Err} (h : HashInv e)
    (h1 : e2.groups = e.groups) (h2 : e2.groupKeys = e.groupKeys)
    (h3 : e2.groupKeyRows = e.groupKeyRows) (h4 : e2.aggCtxsMap = e.aggCtxsMap)
    (h5 : e2.aggExprs = e.aggExprs) (h6 : e2.currGroupIdx = e.currGroupIdx) : HashInv e2 :=
  ⟨by rw [h1, h2]; exact h.keysLen, by rw [h1, h3]; exact h.rowsLen, by rw [h2]; exact h.nodup,
   by rw [h1, h2]; exact h.members, by rw [h1, h4]; exact h.entry, by rw [h4, h5]; exact h.size,
   by rw [h1, h4]; exact h.noMap, by rw [h2, h6]; exact h.cursor⟩

theorem hashInv_new (ec : evalContext Datum Row Err)
    (aggs : List (Aggregation Datum Row Ctx Err)) (exprs : List (Expression Datum Row Err))
    (offs : List Nat) (row : Row) : HashInv (hashAggExec.new ec aggs exprs offs row) :=
  ⟨rfl, rfl, List.nodup_nil, fun _ => Iff.rfl, fun _ _ k hk => by simp [hashAggExec.new] at hk,
   fun _ hm => by simp [hashAggExec.new] at hm, fun _ => rfl, Nat.le_refl _⟩

end HashInvariant

section HashInvariantSteps

variable {Datum Row Ctx PR Err : Type}

/-- The invariant after the contexts `aggCtxs2` of the key `gk` have been stored, the key
having been registered if it was not. -/
theorem HashInv.store {e : hashAggExec Datum Row Ctx Err} (h : HashInv e)
    (m : Bytes → Option (List Ctx)) (hm : e.aggCtxsMap = some m) (gk : Bytes)
    (gkr : List Bytes) (row : Row) (aggCtxs2 : List Ctx)
    (hlen : aggCtxs2.length = e.aggExprs.length) (m2 : Bytes → Option (List Ctx))
    (hm2 : ∀ k, k ≠ gk → m2 k = m k) :
    HashInv
      { e with
        row := row
        groups := if gk ∈ e.groups then e.groups else e.groups ++ [gk]
        groupKeys := if gk ∈ e.groups then e.groupKeys else e.groupKeys ++ [gk]
        groupKeyRows := if gk ∈ e.groups then e.groupKeyRows else e.groupKeyRows ++ [gkr]
        aggCtxsMap := some (fun k => if k = gk then some aggCtxs2 else m2 k) } := by
  by_cases hmem : gk ∈ e.groups
  · simp only [hmem, if_true]
    refine ⟨h.keysLen, h.rowsLen, h.nodup, h.members, ?_, ?_, fun hn => by simp at hn, h.cursor⟩
    · intro m3 h3 k hk
      simp only [Option.some.injEq] at h3
      subst h3
      by_cases hkg : k = gk
      · exact ⟨aggCtxs2, by simp [hkg]⟩
      · obtain ⟨c, hc⟩ := h.entry m hm k hk
        exact ⟨c, by simp [hkg, hm2 k hkg, hc]⟩
    · intro m3 h3 k c hc
      simp only [Option.some.injEq] at h3
      subst h3
      by_cases hkg : k = gk
      · simp only [hkg, if_true, Option.some.injEq] at hc
        rw [← hc]; exact hlen
      · simp only [hkg, if_false, hm2 k hkg] at hc
        exact h.size m hm k c hc
  · simp only [hmem, if_false]
    have hnk : gk ∉ e.groupKeys := fun hk => hmem ((h.members gk).1 hk)
    refine ⟨by simp [h.keysLen], by simp [h.rowsLen], ?_, ?_, ?_, ?_, fun hn => by simp at hn,
      ?_⟩
    · exact List.Nodup.append h.nodup (List.nodup_singleton gk) (by
        intro a ha hb
        simp only [List.mem_singleton] at hb
        subst hb
        exact hnk ha)
    · intro k
      simp only [List.mem_append, List.mem_singleton, h.members k]
    · intro m3 h3 k hk
      simp only [Option.some.injEq] at h3
      subst h3
      by_cases hkg : k = gk
      · exact ⟨aggCtxs2, by simp [hkg]⟩
      · have hk2 : k ∈ e.groups := by
          rcases List.mem_append.1 hk with h1 | h1
          · exact h1
          · exact absurd (List.mem_singleton.1 h1) hkg
        obtain ⟨c, hc⟩ := h.entry m hm k hk2
        exact ⟨c, by simp [hkg, hm2 k hkg, hc]⟩
    · intro m3 h3 k c hc
      simp only [Option.some.injEq] at h3
      subst h3
      by_cases hkg : k = gk
      · simp only [hkg, if_true, Option.some.injEq] at hc
        rw [← hc]; exact hlen
      · simp only [hkg, if_false, hm2 k hkg] at hc
        exact h.size m hm k c hc
    · have := h.cursor
      simp only [List.length_append, List.length_singleton]
      omega

/-- `getContexts` on an allocated map: it hands out one context per aggregate function and
changes at most the entry of the key. -/
theorem getContexts_inv (e : hashAggExec Datum Row Ctx Err) (m : Bytes → Option (List Ctx))
    (hm : e.aggCtxsMap = some m) (gk : Bytes)
    (hsize : ∀ c, m gk = some c → c.length = e.aggExprs.length) :
    ∃ (aggCtxs : List Ctx) (m2 : Bytes → Option (List Ctx)),
      e.getContexts gk = (.ok aggCtxs, { e with aggCtxsMap := some m2 }) ∧
      aggCtxs.length = e.aggExprs.length ∧ (∀ k, k ≠ gk → m2 k = m k) ∧
      m2 gk = some aggCtxs ∧ (m gk = some aggCtxs → m2 = m) := by
  cases hmg : m gk with
  | some aggCtxs =>
    refine ⟨aggCtxs, m, ?_, hsize aggCtxs hmg, fun _ _ => rfl, hmg, fun _ => rfl⟩
    simp only [hashAggExec.getContexts, hm, hmg]
    rw [← hm]
  | none =>
    refine ⟨e.aggExprs.map (fun agg => agg.CreateContext),
      fun k => if k = gk then some (e.aggExprs.map (fun agg => agg.CreateContext)) else m k,
      ?_, by simp, fun k hk => by simp [hk], by simp, fun h => by simp at h⟩
    simp only [hashAggExec.getContexts, hm, hmg]

/-- What `aggregate` keeps or establishes, whatever the collaborators do: the invariant, an
allocated map, the parameters of the executor, `executed` and the cursor; and a failure of
`aggregate` is an error of a collaborator. -/
theorem aggregate_inv (e : hashAggExec Datum Row Ctx Err) (h : HashInv e)
    (m : Bytes → Option (List Ctx)) (hm : e.aggCtxsMap = some m) (v : List Bytes) :
    HashInv (e.aggregate v).2 ∧ (e.aggregate v).2.aggCtxsMap.isSome = true ∧
    (e.aggregate v).2.executed = e.executed ∧
    (e.aggregate v).2.currGroupIdx = e.currGroupIdx ∧
    (e.aggregate v).2.evalCtx = e.evalCtx ∧ (e.aggregate v).2.aggExprs = e.aggExprs ∧
    (e.aggregate v).2.groupByExprs = e.groupByExprs ∧
    (e.aggregate v).2.relatedColOffsets = e.relatedColOffsets ∧
    ∀ f, (e.aggregate v).1 = some f → f.isErr = true := by
  unfold hashAggExec.aggregate
  cases hd : e.evalCtx.decodeRelatedColumnVals e.relatedColOffsets v with
  | error err =>
    refine ⟨h, by simp [hm], rfl, rfl, rfl, rfl, rfl, rfl, ?_⟩
    intro f hf
    cases hf
    rfl
  | ok row =>
    simp only
    cases hk : hashAggExec.getGroupKey { e with row := row } with
    | error f =>
      refine ⟨h.of_eq rfl rfl rfl rfl rfl rfl, by simp [hm], rfl, rfl, rfl, rfl, rfl, rfl, ?_⟩
      intro f2 hf
      cases hf
      exact getGroupKey_isErr _ _ hk
    | ok res =>
      obtain ⟨gk, gkr⟩ := res
      simp only
      by_cases hmem : gk ∈ e.groups
      · simp only [hmem, if_true]
        obtain ⟨aggCtxs, m2, hget, hlen, hm2, _, _⟩ :=
          getContexts_inv { e with row := row } m hm gk (fun c hc => h.size m hm gk c hc)
        have hlen2 : aggCtxs.length = e.aggExprs.length := hlen
        rw [hget]
        have hu := updateLoop_inv row e.aggExprs 0 aggCtxs (by omega)
        have hst := h.store m hm gk gkr row (updateLoop row e.aggExprs 0 aggCtxs).2
          (by rw [hu.1, hlen2]) m2 hm2
        exact ⟨hst.of_eq (by simp [hmem]) (by simp [hmem]) (by simp [hmem]) rfl rfl rfl,
          rfl, rfl, rfl, rfl, rfl, rfl, rfl, hu.2⟩
      · simp only [hmem, if_false]
        obtain ⟨aggCtxs, m2, hget, hlen, hm2, _, _⟩ :=
          getContexts_inv
            { e with row := row, groups := e.groups ++ [gk], groupKeys := e.groupKeys ++ [gk],
                     groupKeyRows := e.groupKeyRows ++ [gkr] }
            m hm gk (fun c hc => h.size m hm gk c hc)
        have hlen2 : aggCtxs.length = e.aggExprs.length := hlen
        rw [hget]
        have hu := updateLoop_inv row e.aggExprs 0 aggCtxs (by omega)
        have hst := h.store m hm gk gkr row (updateLoop row e.aggExprs 0 aggCtxs).2
          (by rw [hu.1, hlen2]) m2 hm2
        exact ⟨hst.of_eq (by simp [hmem]) (by simp [hmem]) (by simp [hmem]) rfl rfl rfl,
          rfl, rfl, rfl, rfl, rfl, rfl, rfl, hu.2⟩

end HashInvariantSteps

section HashInvariantNext

variable {Datum Row Ctx PR Err : Type}

/-- Each round of the loop of `Next` that `fetchAll` stands for is one call of `innerNext`:
an error ends the loop with the error, `false` ends it, `true` starts the next round. -/
theorem fetchAll_eq_innerNext (e : hashAggExec Datum Row Ctx Err) (src : RowSrc Err) :
    e.fetchAll src =
      match e.innerNext src with
      | (.error f, e2, rest) => (some f, e2, rest)
      | (.ok false, e2, rest) => (none, e2, rest)
      | (.ok true, e2, rest) => hashAggExec.fetchAll e2 rest := by
  cases src with
  | nil => rfl
  | cons item rest =>
    cases item with
    | error err => rfl
    | ok values =>
      simp only [hashAggExec.fetchAll, hashAggExec.innerNext]
      cases h : e.aggregate values with
      | mk res e2 =>
        cases res <;> rfl

/-- What the reading loop of `Next` keeps or establishes, whatever the source and the
collaborators do. -/
theorem fetchAll_inv (src : RowSrc Err) (e : hashAggExec Datum Row Ctx Err) (h : HashInv e)
    (hm : e.aggCtxsMap.isSome = true) :
    HashInv (e.fetchAll src).2.1 ∧ (e.fetchAll src).2.1.aggCtxsMap.isSome = true ∧
    (e.fetchAll src).2.1.executed = e.executed ∧
    (e.fetchAll src).2.1.currGroupIdx = e.currGroupIdx ∧
    (e.fetchAll src).2.1.evalCtx = e.evalCtx ∧ (e.fetchAll src).2.1.aggExprs = e.aggExprs ∧
    (e.fetchAll src).2.1.groupByExprs = e.groupByExprs ∧
    (e.fetchAll src).2.1.relatedColOffsets = e.relatedColOffsets ∧
    ∀ f, (e.fetchAll src).1 = some f → f.isErr = true := by
  induction src generalizing e with
  | nil => exact ⟨h, hm, rfl, rfl, rfl, rfl, rfl, rfl, fun f hf => by cases hf⟩
  | cons item rest ih =>
    cases item with
    | error err =>
      exact ⟨h, hm, rfl, rfl, rfl, rfl, rfl, rfl, fun f hf => by cases hf; rfl⟩
    | ok values =>
      obtain ⟨m, hm2⟩ := Option.isSome_iff_exists.1 hm
      obtain ⟨a1, a2, a3, a4, a5, a6, a7, a8, a9⟩ := aggregate_inv e h m hm2 values
      simp only [hashAggExec.fetchAll]
      cases hr : e.aggregate values with
      | mk res e2 =>
        rw [hr] at a1 a2 a3 a4 a5 a6 a7 a8 a9
        cases res with
        | some f => exact ⟨a1, a2, a3, a4, a5, a6, a7, a8, fun f2 hf => by cases hf; exact a9 f rfl⟩
        | none =>
          obtain ⟨b1, b2, b3, b4, b5, b6, b7, b8, b9⟩ := ih e2 a1 a2
          exact ⟨b1, b2, b3.trans a3, b4.trans a4, b5.trans a5, b6.trans a6, b7.trans a7,
            b8.trans a8, b9⟩

/-- The draining half of `Next` on a state that satisfies the invariant: no index is out
of range, the contexts of the group at the cursor are found in the map, which stays as it
is, and a failure is an error of the codec. -/
theorem nextGroup_inv (e : hashAggExec Datum Row Ctx Err) (h : HashInv e)
    (m : Bytes → Option (List Ctx)) (hm : e.aggCtxsMap = some m) (src : RowSrc Err) :
    HashInv (e.nextGroup src).2.1 ∧ (e.nextGroup src).2.1.aggCtxsMap = some m ∧
    (e.nextGroup src).2.2 = src ∧
    ∀ f, (e.nextGroup src).1 = .error f → f.isErr = true := by
  unfold hashAggExec.nextGroup
  by_cases hidx : e.currGroupIdx ≥ e.groups.length
  · simp only [hidx, if_true]
    exact ⟨h, hm, trivial, fun f hf => by cases hf⟩
  · have hlt : e.currGroupIdx < e.groupKeys.length := by rw [h.keysLen]; omega
    have hlt2 : e.currGroupIdx < e.groupKeyRows.length := by rw [h.rowsLen]; omega
    have hmem : e.groupKeys[e.currGroupIdx] ∈ e.groups :=
      (h.members _).1 (List.getElem_mem hlt)
    obtain ⟨aggCtxs, hctx⟩ := h.entry m hm _ hmem
    have hget : e.getContexts e.groupKeys[e.currGroupIdx] = (.ok aggCtxs, e) := by
      simp only [hashAggExec.getContexts, hm, hctx]
    simp only [hidx, if_false, List.getElem?_eq_getElem hlt, hget]
    cases hp : hashAggExec.partialsLoop e.evalCtx aggCtxs e.aggExprs 0 [] with
    | error f =>
      refine ⟨h, hm, rfl, ?_⟩
      intro f2 hf
      cases hf
      exact partialsLoop_isErr _ _ _ _ _ (by rw [h.size m hm _ _ hctx]; omega) _ hp
    | ok value =>
      simp only [List.getElem?_eq_getElem hlt2]
      refine ⟨⟨h.keysLen, h.rowsLen, h.nodup, h.members, h.entry, h.size, h.noMap, hlt⟩, hm,
        trivial, fun f hf => by cases hf⟩

/-- Every call of `Next` keeps the invariant, and a failure of `Next` is an error of the
source or of a collaborator. -/
theorem Next_inv (e : hashAggExec Datum Row Ctx Err) (h : HashInv e) (src : RowSrc Err) :
    HashInv (e.Next src).2.1 ∧ ∀ f, (e.Next src).1 = .error f → f.isErr = true := by
  have h1 : ∃ e1 : hashAggExec Datum Row Ctx Err, HashInv e1 ∧ e1.aggCtxsMap.isSome = true ∧
      e.Next src =
        if !e1.executed then
          match e1.fetchAll src with
          | (some f, e2, src2) => (.error f, e2, src2)
          | (none, e2, src2) => hashAggExec.nextGroup { e2 with executed := true } src2
        else e1.nextGroup src := by
    cases hmap : e.aggCtxsMap with
    | none =>
      refine ⟨{ e with count := e.count + 1, aggCtxsMap := some (fun _ => none) }, ?_, rfl, ?_⟩
      · refine ⟨h.keysLen, h.rowsLen, h.nodup, h.members, ?_, ?_, fun hn => by simp at hn,
          h.cursor⟩
        · intro m2 _ k hk
          rw [h.noMap hmap] at hk
          simp at hk
        · intro m2 h2 k c hc
          simp only [Option.some.injEq] at h2
          subst h2
          simp at hc
      · simp [hashAggExec.Next, hmap]
    | some m =>
      refine ⟨{ e with count := e.count + 1 }, h.of_eq rfl rfl rfl rfl rfl rfl, by simp [hmap],
        ?_⟩
      simp [hashAggExec.Next, hmap]
  obtain ⟨e1, hinv, hsome, hnext⟩ := h1
  rw [hnext]
  by_cases hex : e1.executed = true
  · obtain ⟨m, hm⟩ := Option.isSome_iff_exists.1 hsome
    simp only [hex, Bool.not_true, Bool.false_eq_true, if_false]
    obtain ⟨g1, _, _, g4⟩ := nextGroup_inv e1 hinv m hm src
    exact ⟨g1, g4⟩
  · simp only [hex, Bool.not_false, if_true]
    obtain ⟨a1, a2, _, _, _, _, _, _, a9⟩ := fetchAll_inv src e1 hinv hsome
    cases hr : e1.fetchAll src with
    | mk res rest =>
      obtain ⟨e2, src2⟩ := rest
      rw [hr] at a1 a2 a9
      cases res with
      | some f => exact ⟨a1, fun f2 hf => by cases hf; exact a9 f rfl⟩
      | none =>
        obtain ⟨m, hm⟩ := Option.isSome_iff_exists.1 a2
        simp only
        obtain ⟨g1, _, _, g4⟩ := nextGroup_inv { e2 with executed := true }
          (a1.of_eq rfl rfl rfl rfl rfl rfl) m hm src2
        exact ⟨g1, g4⟩

theorem after_inv (n : Nat) (e : hashAggExec Datum Row Ctx Err) (h : HashInv e)
    (src : RowSrc Err) : HashInv (hashAggExec.after n e src).1 := by
  induction n generalizing e src with
  | zero => exact h
  | succ n ih => exact ih _ (Next_inv e h src).1 _

end HashInvariantNext

section HashInvariantTheorem

variable {Datum Row Ctx PR Err : Type}

/-- Claim C19.  State invariant `HashInv` of the hash engine (`groupKeys` and
`groupKeyRows` as long as `groups`; `groupKeys` without duplicates and with exactly the
members of `groups`; an entry in `aggCtxsMap` for every registered key, with one context
per aggregate function; the cursor at most `len(groupKeys)`).  The initial state satisfies
it, and so does the state after any number of pulls from the initial state, whatever the
source and the collaborators return.  From every state that satisfies it: `aggregate`
(which `Next` calls once the map is allocated) and `Next` keep it, also when they return
an error; a failure of either is an error of the source or of a collaborator, never an
index out of range or a write to a nil map; and the draining half of `Next` leaves the
map as it is, so it creates no context. -/
theorem C19_hash_state_invariant (ec : evalContext Datum Row Err)
    (aggs : List (Aggregation Datum Row Ctx Err)) (exprs : List (Expression Datum Row Err))
    (offs : List Nat) (row : Row) :
    HashInv (hashAggExec.new ec aggs exprs offs row) ∧
    (∀ (n : Nat) (src : RowSrc Err),
      HashInv (hashAggExec.after n (hashAggExec.new ec aggs exprs offs row) src).1) ∧
    ∀ e : hashAggExec Datum Row Ctx Err, HashInv e →
      (∀ v, e.aggCtxsMap.isSome = true →
        HashInv (e.aggregate v).2 ∧ ∀ f, (e.aggregate v).1 = some f → f.isErr = true) ∧
      (∀ src, HashInv (e.Next src).2.1 ∧ ∀ f, (e.Next src).1 = .error f → f.isErr = true) ∧
      (∀ src m, e.aggCtxsMap = some m →
        (e.nextGroup src).2.1.aggCtxsMap = some m ∧
        ∀ f, (e.nextGroup src).1 = .error f → f.isErr = true) := by
  refine ⟨hashInv_new ec aggs exprs offs row,
    fun n src => after_inv n _ (hashInv_new ec aggs exprs offs row) src, ?_⟩
  intro e h
  refine ⟨?_, fun src => Next_inv e h src, ?_⟩
  · intro v hm
    obtain ⟨m, hm2⟩ := Option.isSome_iff_exists.1 hm
    obtain ⟨a1, _, _, _, _, _, _, _, a9⟩ := aggregate_inv e h m hm2 v
    exact ⟨a1, a9⟩
  · intro src m hm
    obtain ⟨_, g2, _, g4⟩ := nextGroup_inv e h m hm src
    exact ⟨g2, g4⟩

/-- Witness of C19 on the instance `Demo`: the first pull on the stored rows, and
`aggregate` on a stored row in the state that a pull on an empty source leaves. -/
theorem C19_hash_state_invariant_witness :
    (HashInv ((hashAggExec.new Demo.ec [Demo.count] [Demo.col 0] [0, 1] ([] : List Nat)).Next
        (Demo.stored.map .ok)).2.1 ∧
      ∀ f, ((hashAggExec.new Demo.ec [Demo.count] [Demo.col 0] [0, 1] ([] : List Nat)).Next
        (Demo.stored.map .ok)).1 = .error f → f.isErr = true) ∧
    ((hashAggExec.after 1 (hashAggExec.new Demo.ec [Demo.count] [Demo.col 0] [0, 1]
        ([] : List Nat)) []).1.aggCtxsMap.isSome = true ∧
      HashInv ((hashAggExec.after 1 (hashAggExec.new Demo.ec [Demo.count] [Demo.col 0] [0, 1]
        ([] : List Nat)) []).1.aggregate [[1], [10]]).2) :=
  ⟨((C19_hash_state_invariant Demo.ec [Demo.count] [Demo.col 0] [0, 1] ([] : List Nat)).2.2 _
      (hashInv_new _ _ _ _ _)).2.1 (Demo.stored.map .ok),
   rfl,
   (((C19_hash_state_invariant Demo.ec [Demo.count] [Demo.col 0] [0, 1] ([] : List Nat)).2.2 _
      (after_inv 1 _ (hashInv_new _ _ _ _ _) [])).1 [[1], [10]] rfl).1⟩

end HashInvariantTheorem

section BatchGeneral

variable {Datum Row Ctx PR Err : Type}

/-- The comparison loop adds one value per expression to `tmpGroupByRow`, and it has no
fuel to run out of. -/
theorem compareLoop_spec (ec : evalContext Datum Row Err) (r : Row) (other : List Datum)
    (exprs : List (Expression Datum Row Err)) (i : Nat) (matched : Bool) (tmp : List Datum) :
    (∀ b, (compareLoop ec r other exprs i matched tmp).1 = .ok b →
      (compareLoop ec r other exprs i matched tmp).2.length = tmp.length + exprs.length) ∧
    (compareLoop ec r other exprs i matched tmp).1 ≠ .error .outOfFuel := by
  induction exprs generalizing i matched tmp with
  | nil => simp [compareLoop]
  | cons ex exprs ih =>
    simp only [compareLoop]
    cases hev : ex.Eval r with
    | error err => simp
    | ok d =>
      simp only
      cases matched with
      | false =>
        have h := ih (i + 1) false (tmp ++ [d])
        simp only [List.length_append, List.length_singleton, List.length_cons, List.length_nil] at h ⊢
        simp only [Bool.false_eq_true, if_false]
        exact ⟨fun b hb => by rw [h.1 b hb]; omega, h.2⟩
      | true =>
        simp only [if_true]
        cases ho : other[i]? with
        | none => simp
        | some d2 =>
          simp only
          cases hc : ec.CompareDatum d d2 with
          | error err => simp
          | ok c =>
            have h := ih (i + 1) (c == 0) (tmp ++ [d])
            simp only [List.length_append, List.length_singleton, List.length_cons, List.length_nil] at h ⊢
            exact ⟨fun b hb => by rw [h.1 b hb]; omega, h.2⟩

/-- `meetNewGroupChunk` in any state: it leaves the fields below as they are, it finds a
new group only if there are group-by expressions, and then `currGroupByRow` holds one
value per expression. -/
theorem meetNewGroupChunk_spec (e : streamAggExec Datum Row Ctx PR Err) (row : Row) :
    (e.meetNewGroupChunk row).2.groupByExprs = e.groupByExprs ∧
    (e.meetNewGroupChunk row).2.newAggFuncs = e.newAggFuncs ∧
    (e.meetNewGroupChunk row).2.executed = e.executed ∧
    ((e.meetNewGroupChunk row).1 = .ok true →
      e.groupByExprs.length ≠ 0 ∧
      (e.meetNewGroupChunk row).2.currGroupByRow.length = e.groupByExprs.length) ∧
    (e.meetNewGroupChunk row).1 ≠ .error .outOfFuel := by
  unfold streamAggExec.meetNewGroupChunk
  by_cases h0 : e.groupByExprs.length = 0
  · simp [h0]
  · simp only [h0, if_false]
    have hs := compareLoop_spec e.evalCtx row e.currGroupByRow e.groupByExprs 0
      (!decide (e.currGroupByRow.length = 0)) []
    cases hc : compareLoop e.evalCtx row e.currGroupByRow e.groupByExprs 0
        (!decide (e.currGroupByRow.length = 0)) [] with
    | mk res tmp =>
      rw [hc] at hs
      cases res with
      | error f =>
        have h2 : f ≠ Failure.outOfFuel := fun h => hs.2 (by rw [h])
        simpa using h2
      | ok matched =>
        have hlen := hs.1 matched rfl
        simp only [List.length_nil, Nat.zero_add] at hlen
        cases matched with
        | true => simp
        | false => simp [h0, hlen]

theorem consumeGroupRowsLoop_noFuel (rows : List Row) (F : List (AggFunc Datum Row PR Err))
    (i : Nat) (prs : List PR) :
    (streamAggExec.consumeGroupRowsLoop rows F i prs).1 ≠ some .outOfFuel := by
  induction F generalizing i prs with
  | nil => simp [streamAggExec.consumeGroupRowsLoop]
  | cons f F ih =>
    simp only [streamAggExec.consumeGroupRowsLoop]
    cases prs[i]? with
    | none => simp
    | some pr =>
      simp only
      cases f.UpdatePartialResult rows pr with
      | error err => simp
      | ok pr2 => exact ih _ _

/-- `consumeGroupRows` in any state. -/
theorem consumeGroupRows_spec (e : streamAggExec Datum Row Ctx PR Err) :
    e.consumeGroupRows.2.groupByExprs = e.groupByExprs ∧
    e.consumeGroupRows.2.newAggFuncs = e.newAggFuncs ∧
    e.consumeGroupRows.2.executed = e.executed ∧
    e.consumeGroupRows.2.currGroupByRow = e.currGroupByRow ∧
    e.consumeGroupRows.2.isChildReturnEmpty = e.isChildReturnEmpty ∧
    e.consumeGroupRows.2.inputIter = e.inputIter ∧
    e.consumeGroupRows.1 ≠ some .outOfFuel := by
  unfold streamAggExec.consumeGroupRows
  by_cases h0 : e.groupRows.length = 0
  · simp [h0]
  · simp only [h0, if_false]
    have hf := consumeGroupRowsLoop_noFuel e.groupRows e.newAggFuncs 0 e.partialResults
    cases hc : streamAggExec.consumeGroupRowsLoop e.groupRows e.newAggFuncs 0 e.partialResults with
    | mk res prs =>
      rw [hc] at hf
      cases res with
      | none => exact ⟨rfl, rfl, rfl, rfl, rfl, rfl, by simp⟩
      | some f => exact ⟨rfl, rfl, rfl, rfl, rfl, rfl, hf⟩

/-- The loop over the aggregate functions in `appendResult2Chunk`, in any state: it
appends the final results of the first aggregate functions, of all of them if it does not
fail. -/
theorem appendFinalLoop_spec (F : List (AggFunc Datum Row PR Err)) (i : Nat) (prs : List PR)
    (chk : Chunk Datum) :
    ∃ ds : List Datum, ds.length ≤ F.length ∧
      (streamAggExec.appendFinalLoop F i prs chk).2.2 =
        { chk with cells := chk.cells ++ List.zipWith (fun f d => (f.ordinal, d)) F ds } ∧
      (streamAggExec.appendFinalLoop F i prs chk).1 ≠ some .outOfFuel ∧
      (F = [] → (streamAggExec.appendFinalLoop F i prs chk).1 = none) := by
  induction F generalizing i prs chk with
  | nil => exact ⟨[], by simp, by simp [streamAggExec.appendFinalLoop], by
      simp [streamAggExec.appendFinalLoop], fun _ => rfl⟩
  | cons f F ih =>
    simp only [streamAggExec.appendFinalLoop]
    cases prs[i]? with
    | none => exact ⟨[], by simp, by simp, by simp, fun h => by cases h⟩
    | some pr =>
      simp only
      cases f.FinalResult pr with
      | error err => exact ⟨[], by simp, by simp, by simp, fun h => by cases h⟩
      | ok d =>
        simp only [Chunk.AppendDatum]
        by_cases ho : f.ordinal < chk.numCols
        · simp only [ho, if_true]
          obtain ⟨ds, h1, h2, h3, _⟩ := ih (i + 1) (prs.set i (f.ResetPartialResult pr))
            { chk with cells := chk.cells ++ [(f.ordinal, d)] }
          refine ⟨d :: ds, by simpa using h1, ?_, h3, fun h => by cases h⟩
          rw [h2]
          simp
        · simp only [ho, if_false]
          exact ⟨[], by simp, by simp, by simp, fun h => by cases h⟩

/-- The loop over the group-by values in `appendResult2Chunk`, for any values and any
output batch: it appends the first values, and all of them if it does not fail; the batch
then has a column for each. -/
theorem appendGroupByLoop_spec (ds : List Datum) (i : Nat) (chk : Chunk Datum) :
    ∃ pre : List Datum, pre.length ≤ ds.length ∧
      (streamAggExec.appendGroupByLoop ds i chk : Option (Failure Err) × Chunk Datum).2 =
        { chk with cells := chk.cells ++ pre.enumFrom i } ∧
      (streamAggExec.appendGroupByLoop ds i chk : Option (Failure Err) × Chunk Datum).1 ≠
        some .outOfFuel ∧
      ((streamAggExec.appendGroupByLoop ds i chk : Option (Failure Err) × Chunk Datum).1 = none →
        pre = ds ∧ (ds ≠ [] → i < chk.numCols)) := by
  induction ds generalizing i chk with
  | nil =>
    exact ⟨[], by simp, by simp [streamAggExec.appendGroupByLoop],
      by simp [streamAggExec.appendGroupByLoop], fun _ => ⟨rfl, fun h => absurd rfl h⟩⟩
  | cons d ds ih =>
    simp only [streamAggExec.appendGroupByLoop, Chunk.AppendDatum]
    by_cases hi : i < chk.numCols
    · simp only [hi, if_true]
      obtain ⟨pre, h1, h2, h3, h4⟩ :=
        ih (i + 1) ({ chk with cells := chk.cells ++ [(i, d)] } : Chunk Datum)
      refine ⟨d :: pre, by simpa using h1, ?_, h3, ?_⟩
      · rw [h2]
        simp [List.enumFrom]
      · intro hn
        refine ⟨by rw [(h4 hn).1], fun _ => ?_⟩
        first
          | exact hi
          | trivial
    · simp only [hi, if_false]
      exact ⟨[], by simp, by simp, by simp, fun h => by simp at h⟩

/-- `appendResult2Chunk` in any state: it appends at most one record, and if it does not
fail the record has the group-by values `currGroupByRow`, for which the batch has
columns. -/
theorem appendResult2Chunk_spec (e : streamAggExec Datum Row Ctx PR Err) (chk : Chunk Datum) :
    (e.appendResult2Chunk chk).2.1.groupByExprs = e.groupByExprs ∧
    (e.appendResult2Chunk chk).2.1.newAggFuncs = e.newAggFuncs ∧
    (e.appendResult2Chunk chk).2.1.executed = e.executed ∧
    (e.appendResult2Chunk chk).2.1.inputIter = e.inputIter ∧
    AtMostOneRecord e.newAggFuncs chk (e.appendResult2Chunk chk).2.2 ∧
    ((e.appendResult2Chunk chk).1 = none →
      (e.currGroupByRow ≠ [] → chk.numCols ≠ 0) ∧
      ∃ ds : List Datum, ds.length ≤ e.newAggFuncs.length ∧
        (e.appendResult2Chunk chk).2.2 =
          appendRecord e.newAggFuncs chk (e.currGroupByRow, ds)) ∧
    (e.appendResult2Chunk chk).1 ≠ some .outOfFuel := by
  obtain ⟨pre, p1, p2, p3, p4⟩ := @appendGroupByLoop_spec Datum Err e.currGroupByRow 0 chk
  simp only [streamAggExec.appendResult2Chunk]
  cases hg : (streamAggExec.appendGroupByLoop e.currGroupByRow 0 chk :
      Option (Failure Err) × Chunk Datum) with
  | mk res0 chk1 =>
    rw [hg] at p2 p3 p4
    have p2b : chk1 = { chk with cells := chk.cells ++ pre.enumFrom 0 } := p2
    cases res0 with
    | some f =>
      refine ⟨rfl, rfl, rfl, rfl, ?_, fun h => by simp at h, p3⟩
      cases pre with
      | nil =>
        left
        show chk1 = chk
        rw [p2b]
        simp
      | cons k ks =>
        right
        refine ⟨k :: ks, [], by simp, ?_⟩
        show chk1 = appendRecord e.newAggFuncs chk (k :: ks, [])
        rw [p2b]
        simp [appendRecord, recordCells, List.enum]
    | none =>
      obtain ⟨hpre, hcol⟩ := p4 rfl
      subst hpre
      obtain ⟨ds, h1, h2, h3, h4⟩ := appendFinalLoop_spec e.newAggFuncs 0 e.partialResults chk1
      simp only
      cases hc : streamAggExec.appendFinalLoop e.newAggFuncs 0 e.partialResults chk1 with
      | mk res rest =>
        obtain ⟨prs, chk2⟩ := rest
        rw [hc] at h2 h3 h4
        have h2b : chk2 = { chk1 with
            cells := chk1.cells ++ List.zipWith (fun f d => (f.ordinal, d)) e.newAggFuncs ds } :=
          h2
        cases res with
        | some f =>
          have hF : e.newAggFuncs ≠ [] := fun h => by cases h4 h
          have hF2 : e.currGroupByRow.length + e.newAggFuncs.length ≠ 0 := by
            cases hl : e.newAggFuncs with
            | nil => exact absurd hl hF
            | cons a l => simp
          refine ⟨rfl, rfl, rfl, rfl, Or.inr ⟨e.currGroupByRow, ds, h1, ?_⟩,
            fun h => by simp at h, h3⟩
          show chk2 = appendRecord e.newAggFuncs chk (e.currGroupByRow, ds)
          rw [h2b, p2b]
          simp only [appendRecord, hF2, if_false, recordCells, List.enum, List.append_assoc]
        | none =>
          have hrec : (if e.currGroupByRow.length + e.newAggFuncs.length = 0 then
                chk2.SetNumVirtualRows (chk2.NumRows + 1) else chk2) =
              appendRecord e.newAggFuncs chk (e.currGroupByRow, ds) := by
            rw [h2b, p2b]
            simp only [appendRecord, recordCells, List.enum, List.append_assoc,
              Chunk.SetNumVirtualRows]
          refine ⟨rfl, rfl, rfl, rfl, Or.inr ⟨e.currGroupByRow, ds, h1, hrec⟩,
            fun _ => ⟨fun hne => ?_, ds, h1, hrec⟩, by simp⟩
          have := hcol hne
          omega

end BatchGeneral

section BatchGeneralRows

variable {Datum Row Ctx PR Err : Type}

/-- The loop over the rows of the input batch in `consumeOneGroup`, in any state and
whatever the collaborators return: run to the end of the batch it leaves the output batch
as it is; left at a group boundary it has appended one record, with one group-by value
per group-by expression, to an output batch that has columns, and has taken at least one
row off the batch; in every case it appends at most one record. -/
theorem consumeRows_spec (rows : List Row) (e : streamAggExec Datum Row Ctx PR Err)
    (chk : Chunk Datum) :
    (e.consumeRows chk rows).2.1.groupByExprs = e.groupByExprs ∧
    (e.consumeRows chk rows).2.1.newAggFuncs = e.newAggFuncs ∧
    (e.consumeRows chk rows).2.1.executed = e.executed ∧
    (e.consumeRows chk rows).1 ≠ .error .outOfFuel ∧
    ((e.consumeRows chk rows).1 = .ok false →
      (e.consumeRows chk rows).2.2 = chk ∧ (e.consumeRows chk rows).2.1.inputIter = []) ∧
    ((e.consumeRows chk rows).1 = .ok true →
      e.groupByExprs.length ≠ 0 ∧ (e.consumeRows chk rows).2.1.inputIter.length < rows.length ∧
      chk.numCols ≠ 0 ∧
      ∃ key ds : List Datum, key.length = e.groupByExprs.length ∧
        ds.length ≤ e.newAggFuncs.length ∧
        (e.consumeRows chk rows).2.2 = appendRecord e.newAggFuncs chk (key, ds)) ∧
    AtMostOneRecord e.newAggFuncs chk (e.consumeRows chk rows).2.2 := by
  induction rows generalizing e chk with
  | nil =>
    have hres : e.consumeRows chk [] = (.ok false, { e with inputIter := [] }, chk) := rfl
    rw [hres]
    exact ⟨rfl, rfl, rfl, fun h => by simp at h, fun _ => ⟨rfl, rfl⟩, fun h => by simp at h,
      Or.inl rfl⟩
  | cons r rest ih =>
    obtain ⟨m1, m2, m3, m4, m5⟩ := meetNewGroupChunk_spec e r
    cases hm : e.meetNewGroupChunk r with
    | mk res1 e1 =>
      rw [hm] at m1 m2 m3 m4 m5
      cases res1 with
      | error f =>
        have hres : e.consumeRows chk (r :: rest) =
            (.error f, { e1 with inputIter := r :: rest }, chk) := by
          simp only [streamAggExec.consumeRows, hm]
        rw [hres]
        exact ⟨m1, m2, m3, m5, fun h => by simp at h, fun h => by simp at h, Or.inl rfl⟩
      | ok b =>
        cases b with
        | false =>
          have hres : e.consumeRows chk (r :: rest) =
              streamAggExec.consumeRows { e1 with groupRows := e1.groupRows ++ [r] } chk rest := by
            simp only [streamAggExec.consumeRows, hm, Bool.false_eq_true, if_false]
          rw [hres]
          obtain ⟨i1, i2, i3, i4, i5, i6, i7⟩ := ih { e1 with groupRows := e1.groupRows ++ [r] } chk
          refine ⟨i1.trans m1, i2.trans m2, i3.trans m3, i4, i5, ?_, ?_⟩
          · intro h
            obtain ⟨j1, j2, jc, key, ds, j3, j4, j5⟩ := i6 h
            refine ⟨?_, ?_, jc, key, ds, ?_, ?_, ?_⟩
            · rw [← m1]; exact j1
            · simp only [List.length_cons]; omega
            · rw [← m1]; exact j3
            · rw [← m2]; exact j4
            · rw [← m2]; exact j5
          · have h7 : AtMostOneRecord e1.newAggFuncs chk
                (streamAggExec.consumeRows { e1 with groupRows := e1.groupRows ++ [r] } chk rest).2.2 :=
              i7
            rw [← m2]
            exact h7
        | true =>
          obtain ⟨k1, k2⟩ := m4 rfl
          obtain ⟨g1, g2, g3, g4, _, _, g7⟩ := consumeGroupRows_spec e1
          cases hg : e1.consumeGroupRows with
          | mk res2 e2 =>
            rw [hg] at g1 g2 g3 g4 g7
            cases res2 with
            | some f =>
              have hres : e.consumeRows chk (r :: rest) =
                  (.error f, { e2 with inputIter := r :: rest }, chk) := by
                simp only [streamAggExec.consumeRows, hm, hg, if_true]
              rw [hres]
              exact ⟨g1.trans m1, g2.trans m2, g3.trans m3, fun h => g7 (by simpa using h),
                fun h => by simp at h, fun h => by simp at h, Or.inl rfl⟩
            | none =>
              obtain ⟨a1, a2, a3, _, aone, asucc, a7⟩ := appendResult2Chunk_spec e2 chk
              have hkey : e2.currGroupByRow.length = e.groupByExprs.length := by
                have h4 : e2.currGroupByRow = e1.currGroupByRow := g4
                rw [h4]; exact k2
              have hF : e2.newAggFuncs = e.newAggFuncs := g2.trans m2
              rw [hF] at aone asucc
              cases ha : e2.appendResult2Chunk chk with
              | mk res3 rest3 =>
                obtain ⟨e3, chk3⟩ := rest3
                rw [ha] at a1 a2 a3 aone asucc a7
                cases res3 with
                | some f =>
                  have hres : e.consumeRows chk (r :: rest) =
                      (.error f, { e3 with inputIter := r :: rest }, chk3) := by
                    simp only [streamAggExec.consumeRows, hm, hg, ha, if_true]
                  rw [hres]
                  exact ⟨(a1.trans g1).trans m1, (a2.trans g2).trans m2, (a3.trans g3).trans m3,
                    fun h => a7 (by simpa using h), fun h => by simp at h, fun h => by simp at h,
                    aone⟩
                | none =>
                  have hres : e.consumeRows chk (r :: rest) =
                      (.ok true, { e3 with groupRows := e3.groupRows ++ [r], inputIter := rest },
                        chk3) := by
                    simp only [streamAggExec.consumeRows, hm, hg, ha, if_true]
                  rw [hres]
                  obtain ⟨acol, ds, a5, a6⟩ := asucc rfl
                  have hne : e2.currGroupByRow ≠ [] := by
                    intro h
                    rw [h] at hkey
                    exact k1 hkey.symm
                  exact ⟨(a1.trans g1).trans m1, (a2.trans g2).trans m2, (a3.trans g3).trans m3,
                    fun h => by simp at h, fun h => by simp at h,
                    fun _ => ⟨k1, by simp, acol hne, e2.currGroupByRow, ds, hkey, a5, a6⟩,
                    aone⟩

end BatchGeneralRows

section BatchGeneralFetch

variable {Datum Row Ctx PR Err : Type}

/-- `fetchChildIfNecessary` in any state and whatever the source and the collaborators
return.  With rows left in the input batch it does nothing.  Else it fails, or it finds
the input at its end (it then marks the execution as finished and appends at most one
record), or it pulls a non-empty batch and leaves the output batch as it is. -/
theorem fetchChildIfNecessary_spec (e : streamAggExec Datum Row Ctx PR Err)
    (src : ChunkSrc Row Err) (chk : Chunk Datum) :
    (e.fetchChildIfNecessary src chk).2.1.groupByExprs = e.groupByExprs ∧
    (e.fetchChildIfNecessary src chk).2.1.newAggFuncs = e.newAggFuncs ∧
    (e.fetchChildIfNecessary src chk).1 ≠ some .outOfFuel ∧
    (e.inputIter ≠ [] → e.fetchChildIfNecessary src chk = (none, e, src, chk)) ∧
    (e.inputIter = [] →
      ((e.fetchChildIfNecessary src chk).1 ≠ none ∧
        AtMostOneRecord e.newAggFuncs chk (e.fetchChildIfNecessary src chk).2.2.2) ∨
      ((e.fetchChildIfNecessary src chk).1 = none ∧
        (e.fetchChildIfNecessary src chk).2.1.executed = true ∧
        (e.fetchChildIfNecessary src chk).2.1.inputIter = [] ∧
        AtMostOneRecord e.newAggFuncs chk (e.fetchChildIfNecessary src chk).2.2.2) ∨
      ((e.fetchChildIfNecessary src chk).1 = none ∧
        (e.fetchChildIfNecessary src chk).2.1.executed = e.executed ∧
        (e.fetchChildIfNecessary src chk).2.2.2 = chk ∧
        ∃ (b : List Row) (rest : ChunkSrc Row Err), src = .ok b :: rest ∧ b ≠ [] ∧
          (e.fetchChildIfNecessary src chk).2.1.inputIter = b ∧
          (e.fetchChildIfNecessary src chk).2.2.1 = rest)) := by
  cases hi : e.inputIter with
  | cons x xs =>
    have hres : e.fetchChildIfNecessary src chk = (none, e, src, chk) := by
      simp only [streamAggExec.fetchChildIfNecessary, hi]
    rw [hres]
    exact ⟨rfl, rfl, fun h => by simp at h, fun _ => rfl, fun h => by simp at h⟩
  | nil =>
    obtain ⟨g1, g2, g3, _, g5, g6, g7⟩ := consumeGroupRows_spec e
    cases hg : e.consumeGroupRows with
    | mk res1 e1 =>
      rw [hg] at g1 g2 g3 g5 g6 g7
      have hi1 : e1.inputIter = [] := by
        have : e1.inputIter = e.inputIter := g6
        rw [this, hi]
      cases res1 with
      | some f =>
        have hres : e.fetchChildIfNecessary src chk = (some f, e1, src, chk) := by
          simp only [streamAggExec.fetchChildIfNecessary, hi, hg]
        rw [hres]
        exact ⟨g1, g2, g7, fun h => absurd rfl h, fun _ => Or.inl ⟨by simp, Or.inl rfl⟩⟩
      | none =>
        -- the input is found at its end
        obtain ⟨e2, he2⟩ : ∃ e2 : streamAggExec Datum Row Ctx PR Err,
            e2 = { e1 with childResult := some [] } := ⟨_, rfl⟩
        have h2a : e2.groupByExprs = e1.groupByExprs := by rw [he2]
        have h2b : e2.newAggFuncs = e1.newAggFuncs := by rw [he2]
        have h2c : e2.inputIter = [] := by rw [he2]; exact hi1
        have h2d : e2.currGroupByRow = e1.currGroupByRow := by rw [he2]
        have hend : ∀ rest : ChunkSrc Row Err,
            (∀ b, src ≠ .ok b :: rest ∨ b = []) → src.tail = rest →
            (∀ err r2, src ≠ .error err :: r2) →
            e.fetchChildIfNecessary src chk =
              (match (if !e2.isChildReturnEmpty then e2.appendResult2Chunk chk
                else (none, e2, chk)) with
               | (err, e3, chk2) => (err, { e3 with executed := true }, rest, chk2)) := by
          intro rest hb htail herr
          subst he2
          cases src with
          | nil =>
            simp only [List.tail_nil] at htail
            subst htail
            simp only [streamAggExec.fetchChildIfNecessary, hi, hg, List.length_nil, if_true,
              List.tail_nil]
          | cons item r2 =>
            cases item with
            | error err => exact absurd rfl (herr err r2)
            | ok b =>
              simp only [List.tail_cons] at htail
              subst htail
              rcases hb b with h | h
              · exact absurd rfl h
              · subst h
                simp only [streamAggExec.fetchChildIfNecessary, hi, hg, List.length_nil, if_true,
                  List.tail_cons]
        have hendSpec : ∀ rest : ChunkSrc Row Err,
            e.fetchChildIfNecessary src chk =
              (match (if !e2.isChildReturnEmpty then e2.appendResult2Chunk chk
                else (none, e2, chk)) with
               | (err, e3, chk2) => (err, { e3 with executed := true }, rest, chk2)) →
            (e.fetchChildIfNecessary src chk).2.1.groupByExprs = e.groupByExprs ∧
            (e.fetchChildIfNecessary src chk).2.1.newAggFuncs = e.newAggFuncs ∧
            (e.fetchChildIfNecessary src chk).1 ≠ some .outOfFuel ∧
            (([] : List Row) ≠ [] → e.fetchChildIfNecessary src chk = (none, e, src, chk)) ∧
            (([] : List Row) = [] →
              ((e.fetchChildIfNecessary src chk).1 ≠ none ∧
                AtMostOneRecord e.newAggFuncs chk (e.fetchChildIfNecessary src chk).2.2.2) ∨
              ((e.fetchChildIfNecessary src chk).1 = none ∧
                (e.fetchChildIfNecessary src chk).2.1.executed = true ∧
                (e.fetchChildIfNecessary src chk).2.1.inputIter = [] ∧
                AtMostOneRecord e.newAggFuncs chk (e.fetchChildIfNecessary src chk).2.2.2) ∨
              ((e.fetchChildIfNecessary src chk).1 = none ∧
                (e.fetchChildIfNecessary src chk).2.1.executed = e.executed ∧
                (e.fetchChildIfNecessary src chk).2.2.2 = chk ∧
                ∃ (b : List Row) (rest : ChunkSrc Row Err), src = .ok b :: rest ∧ b ≠ [] ∧
                  (e.fetchChildIfNecessary src chk).2.1.inputIter = b ∧
                  (e.fetchChildIfNecessary src chk).2.2.1 = rest)) := by
          intro rest hres
          cases hE : e2.isChildReturnEmpty with
          | true =>
            have hres2 : e.fetchChildIfNecessary src chk =
                (none, { e2 with executed := true }, rest, chk) := by
              rw [hres]
              simp only [hE, Bool.not_true, Bool.false_eq_true, if_false]
            rw [hres2]
            exact ⟨h2a.trans g1, h2b.trans g2, fun h => by simp at h, fun h => absurd rfl h,
              fun _ => Or.inr (Or.inl ⟨rfl, rfl, h2c, Or.inl rfl⟩)⟩
          | false =>
            obtain ⟨a1, a2, _, a4, aone, _, a7⟩ := appendResult2Chunk_spec e2 chk
            cases ha : e2.appendResult2Chunk chk with
            | mk res3 rest3 =>
              obtain ⟨e3, chk3⟩ := rest3
              rw [ha] at a1 a2 a4 aone a7
              have hres2 : e.fetchChildIfNecessary src chk =
                  (res3, { e3 with executed := true }, rest, chk3) := by
                rw [hres]
                simp only [hE, Bool.not_false, if_true, ha]
              rw [hres2]
              have hF : e2.newAggFuncs = e.newAggFuncs := h2b.trans g2
              have hone : AtMostOneRecord e.newAggFuncs chk chk3 := by
                rw [← hF]; exact aone
              cases res3 with
              | some f =>
                exact ⟨(a1.trans h2a).trans g1, (a2.trans h2b).trans g2, a7,
                  fun h => absurd rfl h, fun _ => Or.inl ⟨by simp, hone⟩⟩
              | none =>
                exact ⟨(a1.trans h2a).trans g1, (a2.trans h2b).trans g2, fun h => by simp at h,
                  fun h => absurd rfl h,
                  fun _ => Or.inr (Or.inl ⟨rfl, rfl, a4.trans h2c, hone⟩)⟩
        cases src with
        | nil => exact hendSpec [] (hend [] (fun b => Or.inl (by simp)) rfl (by simp))
        | cons item rest =>
          cases item with
          | error err =>
            have hres : e.fetchChildIfNecessary (.error err :: rest) chk =
                (some (.err err), e1, rest, chk) := by
              simp only [streamAggExec.fetchChildIfNecessary, hi, hg]
            rw [hres]
            exact ⟨g1, g2, fun h => by simp at h, fun h => absurd rfl h,
              fun _ => Or.inl ⟨by simp, Or.inl rfl⟩⟩
          | ok b =>
            cases b with
            | nil =>
              exact hendSpec rest (hend rest (fun b => by
                by_cases hb : b = []
                · exact Or.inr hb
                · exact Or.inl (fun h => hb (by injection h with h1; injection h1 with h2; exact h2.symm)))
                rfl (by simp))
            | cons x xs =>
              have hres : e.fetchChildIfNecessary (.ok (x :: xs) :: rest) chk =
                  (none, { e1 with childResult := some (x :: xs), isChildReturnEmpty := false,
                                   inputIter := x :: xs }, rest, chk) := by
                simp [streamAggExec.fetchChildIfNecessary, hi, hg]
              rw [hres]
              exact ⟨g1, g2, fun h => by simp at h, fun h => absurd rfl h,
                fun _ => Or.inr (Or.inr ⟨rfl, g3, rfl, x :: xs, rest, rfl, by simp, rfl, rfl⟩)⟩

end BatchGeneralFetch

section BatchGeneralGroup

variable {Datum Row Ctx PR Err : Type}

theorem StepSpec.of_le {e e1 : streamAggExec Datum Row Ctx PR Err} {src src1 : ChunkSrc Row Err}
    {chk : Chunk Datum}
    {res : Option (Failure Err) × streamAggExec Datum Row Ctx PR Err × ChunkSrc Row Err ×
      Chunk Datum}
    (h : StepSpec e1 src1 chk res) (h1 : e1.groupByExprs = e.groupByExprs)
    (h2 : e1.newAggFuncs = e.newAggFuncs)
    (h3 : e1.inputIter.length + streamAggExec.srcRows src1 ≤
      e.inputIter.length + streamAggExec.srcRows src) : StepSpec e src chk res := by
  obtain ⟨a1, a2, a3, a4, a5⟩ := h
  refine ⟨a1.trans h1, a2.trans h2, a3, by rw [← h2]; exact a4, ?_⟩
  intro hn hex
  obtain ⟨b1, b2, bc, key, ds, b3, b4, b5⟩ := a5 hn hex
  refine ⟨by rw [← h1]; exact b1, by omega, bc, key, ds, by rw [← h1]; exact b3,
    by rw [← h2]; exact b4, by rw [← h2]; exact b5⟩

/-- The rounds of the loop of `consumeOneGroup` from the loop over the rows of the input
batch on, given what the remaining rounds guarantee. -/
theorem consumeOneGroupLoop_body (fuel : Nat) (e1 : streamAggExec Datum Row Ctx PR Err)
    (src1 : ChunkSrc Row Err) (chk1 : Chunk Datum) (hex : e1.executed = false)
    (ih : ∀ (e2 : streamAggExec Datum Row Ctx PR Err), e2.inputIter = [] →
      e2.executed = false →
      StepSpec e2 src1 chk1 (streamAggExec.consumeOneGroupLoop fuel e2 src1 chk1)) :
    StepSpec e1 src1 chk1
      (match e1.consumeRows chk1 e1.inputIter with
       | (.error f, e2, chk2) => (some f, e2, src1, chk2)
       | (.ok true, e2, chk2) => (none, e2, src1, chk2)
       | (.ok false, e2, chk2) => streamAggExec.consumeOneGroupLoop fuel e2 src1 chk2) := by
  obtain ⟨c1, c2, c3, c4, c5, c6, c7⟩ := consumeRows_spec e1.inputIter e1 chk1
  cases hc : e1.consumeRows chk1 e1.inputIter with
  | mk res2 rest2 =>
    obtain ⟨e2, chk2⟩ := rest2
    rw [hc] at c1 c2 c3 c4 c5 c6 c7
    cases res2 with
    | error f =>
      exact ⟨c1, c2, fun h => c4 (by simpa using h), c7, fun h => by simp at h⟩
    | ok b =>
      cases b with
      | true =>
        obtain ⟨k1, k2, kc, key, ds, k3, k4, k5⟩ := c6 rfl
        refine ⟨c1, c2, fun h => by simp at h, c7, fun _ _ => ⟨k1, ?_, kc, key, ds, k3, k4, k5⟩⟩
        have : e2.inputIter.length < e1.inputIter.length := k2
        show e2.inputIter.length + streamAggExec.srcRows src1 <
          e1.inputIter.length + streamAggExec.srcRows src1
        omega
      | false =>
        obtain ⟨k1, k2⟩ := c5 rfl
        have k1b : chk2 = chk1 := k1
        have k2b : e2.inputIter = [] := k2
        have k3 : e2.executed = false := by
          have : e2.executed = e1.executed := c3
          rw [this, hex]
        subst k1b
        have h := ih e2 k2b k3
        exact h.of_le c1 c2 (by rw [k2b]; simp)

/-- Every call of `consumeOneGroup`, in any state and whatever the source and the
collaborators return, satisfies `StepSpec`, given enough fuel: one round for a batch that
is not used up, one per batch of the source, and two more. -/
theorem consumeOneGroupLoop_spec (fuel : Nat) (e : streamAggExec Datum Row Ctx PR Err)
    (src : ChunkSrc Row Err) (chk : Chunk Datum)
    (hfuel : (e.executed = true ∧ 1 ≤ fuel) ∨ src.length + 2 + min e.inputIter.length 1 ≤ fuel) :
    StepSpec e src chk (streamAggExec.consumeOneGroupLoop fuel e src chk) := by
  induction fuel generalizing e src chk with
  | zero =>
    rcases hfuel with ⟨_, h⟩ | h <;> omega
  | succ fuel ih =>
    by_cases hex : e.executed = true
    · rw [consumeOneGroupLoop_executed e hex]
      exact ⟨rfl, rfl, fun h => by simp at h, Or.inl rfl,
        fun _ h => by rw [hex] at h; cases h⟩
    · have hex2 : e.executed = false := by simpa using hex
      have hfuel2 : src.length + 2 + min e.inputIter.length 1 ≤ fuel + 1 := by
        rcases hfuel with ⟨h, _⟩ | h
        · exact absurd h hex
        · exact h
      obtain ⟨f1, f2, f3, f4, f5⟩ := fetchChildIfNecessary_spec e src chk
      have hloop : streamAggExec.consumeOneGroupLoop (fuel + 1) e src chk =
          match e.fetchChildIfNecessary src chk with
          | (some f, e1, src1, chk1) => (some f, e1, src1, chk1)
          | (none, e1, src1, chk1) =>
            match e1.consumeRows chk1 e1.inputIter with
            | (.error f, e2, chk2) => (some f, e2, src1, chk2)
            | (.ok true, e2, chk2) => (none, e2, src1, chk2)
            | (.ok false, e2, chk2) => streamAggExec.consumeOneGroupLoop fuel e2 src1 chk2 := by
        rw [streamAggExec.consumeOneGroupLoop]
        simp only [hex2, Bool.false_eq_true, if_false]
      rw [hloop]
      by_cases hi : e.inputIter = []
      · rcases f5 hi with ⟨g1, g2⟩ | ⟨g1, g2, g3, g4⟩ | ⟨g1, g2, g3, b, rest, g4, g5, g6, g7⟩
        · -- the fetch fails
          cases hf : e.fetchChildIfNecessary src chk with
          | mk r1 rest1 =>
            obtain ⟨e1, src1, chk1⟩ := rest1
            rw [hf] at f1 f2 f3 g1 g2
            cases r1 with
            | none => exact absurd rfl g1
            | some f => exact ⟨f1, f2, f3, g2, fun h => by simp at h⟩
        · -- the input is at its end
          cases hf : e.fetchChildIfNecessary src chk with
          | mk r1 rest1 =>
            obtain ⟨e1, src1, chk1⟩ := rest1
            rw [hf] at f1 f2 f3 g1 g2 g3 g4
            have g1b : r1 = none := g1
            have g2b : e1.executed = true := g2
            have g3b : e1.inputIter = [] := g3
            subst g1b
            have hrows : e1.consumeRows chk1 e1.inputIter =
                (.ok false, { e1 with inputIter := [] }, chk1) := by
              rw [g3b]; rfl
            obtain ⟨fuel2, rfl⟩ : ∃ k, fuel = k + 1 := ⟨fuel - 1, by omega⟩
            simp only [hrows]
            rw [consumeOneGroupLoop_executed { e1 with inputIter := [] } g2b]
            exact ⟨f1, f2, fun h => by simp at h, g4, fun _ h => by
              have : e1.executed = false := h
              rw [g2b] at this; cases this⟩
        · -- a batch is pulled
          cases hf : e.fetchChildIfNecessary src chk with
          | mk r1 rest1 =>
            obtain ⟨e1, src1, chk1⟩ := rest1
            rw [hf] at f1 f2 f3 g1 g2 g3 g6 g7
            have g1b : r1 = none := g1
            have g2b : e1.executed = e.executed := g2
            have g3b : chk1 = chk := g3
            have g6b : e1.inputIter = b := g6
            have g7b : src1 = rest := g7
            subst g1b g3b g7b g4
            have hbody := consumeOneGroupLoop_body fuel e1 src1 chk1 (by rw [g2b, hex2])
              (fun e2 h2 h3 => ih e2 src1 chk1 (Or.inr (by
                rw [h2]
                simp only [List.length_cons, List.length_nil, Nat.zero_min] at hfuel2 ⊢
                omega)))
            exact hbody.of_le f1 f2 (by
              rw [g6b, hi]
              simp [streamAggExec.srcRows])
      · have hf := f4 hi
        rw [hf]
        have hmin : min e.inputIter.length 1 = 1 := by
          cases h : e.inputIter with
          | nil => exact absurd h hi
          | cons x xs => simp
        exact consumeOneGroupLoop_body fuel e src chk hex2
          (fun e2 h2 h3 => ih e2 src chk (Or.inr (by
            rw [h2]
            simp only [List.length_nil, Nat.zero_min]
            omega)))

/-- The model's fuel for `consumeOneGroup` is enough in every state. -/
theorem consumeOneGroup_fuel (e : streamAggExec Datum Row Ctx PR Err) (src : ChunkSrc Row Err)
    (chk : Chunk Datum) : (e.consumeOneGroup src chk).1 ≠ some .outOfFuel :=
  (consumeOneGroupLoop_spec (src.length + 3) e src chk (Or.inr (by omega))).2.2.1

theorem consumeOneGroup_spec (e : streamAggExec Datum Row Ctx PR Err) (src : ChunkSrc Row Err)
    (chk : Chunk Datum) : StepSpec e src chk (e.consumeOneGroup src chk) :=
  consumeOneGroupLoop_spec (src.length + 3) e src chk (Or.inr (by omega))

end BatchGeneralGroup

section BatchGeneralChunk

variable {Datum Row Ctx PR Err : Type}

/-- A record with at least one group-by value adds a row to a batch that has columns. -/
theorem numRows_appendRecord_key (F : List (AggFunc Datum Row PR Err)) (chk : Chunk Datum)
    (key ds : List Datum) (hk : key.length ≠ 0) (hc : chk.numCols ≠ 0) :
    chk.NumRows + 1 ≤ (appendRecord F chk (key, ds)).NumRows := by
  cases key with
  | nil => simp at hk
  | cons k ks =>
    have hrec : appendRecord F chk (k :: ks, ds) =
        { chk with cells := chk.cells ++ recordCells F (k :: ks, ds) } := by
      unfold appendRecord
      rw [if_neg (by simp)]
    rw [hrec]
    simp only [Chunk.NumRows, hc, if_false, Chunk.column, recordCells, List.enum, List.enumFrom,
      List.filter_append, List.map_append, List.length_append, List.length_map,
      List.cons_append, List.filter_cons, decide_True, if_true, List.length_cons]
    omega

/-- The loop of `nextChunk`, in any state and whatever the source and the collaborators
return, given enough fuel (the rows left to read plus two rounds): the fuel does not run
out; the output batch gets records appended, none if the execution is finished, and no
more records than fit below `chunkMaxRows`. -/
theorem nextChunkLoop_spec (chunkMaxRows fuel : Nat) (e : streamAggExec Datum Row Ctx PR Err)
    (src : ChunkSrc Row Err) (chk : Chunk Datum)
    (hfuel : (e.executed = true ∧ 1 ≤ fuel) ∨
      e.inputIter.length + streamAggExec.srcRows src + 2 ≤ fuel) :
    (streamAggExec.nextChunkLoop chunkMaxRows fuel e src chk).1 ≠ some .outOfFuel ∧
    ∃ recs : List (List Datum × List Datum),
      (streamAggExec.nextChunkLoop chunkMaxRows fuel e src chk).2.2.2 =
        recs.foldl (appendRecord e.newAggFuncs) chk ∧
      (∀ rec ∈ recs, rec.2.length ≤ e.newAggFuncs.length) ∧
      (e.executed = true → recs = []) ∧
      (recs = [] ∨ recs.length + chk.NumRows ≤ chunkMaxRows) := by
  induction fuel generalizing e src chk with
  | zero => rcases hfuel with ⟨_, h⟩ | h <;> omega
  | succ fuel ih =>
    by_cases hcond : (!e.executed && decide (chk.NumRows < chunkMaxRows)) = true
    · have hex : e.executed = false := by
        cases h : e.executed with
        | true => simp [h] at hcond
        | false => rfl
      have hexn : ¬ e.executed = true := by simp [hex]
      have hrows : chk.NumRows < chunkMaxRows := by simpa [hex] using hcond
      have hfuel2 : e.inputIter.length + streamAggExec.srcRows src + 2 ≤ fuel + 1 := by
        rcases hfuel with ⟨h, _⟩ | h
        · rw [hex] at h; cases h
        · exact h
      obtain ⟨e1, he1, h1a, h1b, h1c⟩ : ∃ e1 : streamAggExec Datum Row Ctx PR Err,
          e1 = (if e.childResult.isNone then
              { e with childResult := some [], isChildReturnEmpty := true, inputIter := [] }
            else e) ∧
          e1.groupByExprs = e.groupByExprs ∧ e1.newAggFuncs = e.newAggFuncs ∧
          e1.inputIter.length ≤ e.inputIter.length := by
        refine ⟨_, rfl, ?_, ?_, ?_⟩ <;> split <;> simp
      have hloop : streamAggExec.nextChunkLoop chunkMaxRows (fuel + 1) e src chk =
          match e1.consumeOneGroup src chk with
          | (some f, e2, src2, chk2) => (some f, { e2 with executed := true }, src2, chk2)
          | (none, e2, src2, chk2) => streamAggExec.nextChunkLoop chunkMaxRows fuel e2 src2 chk2 := by
        rw [streamAggExec.nextChunkLoop, he1]
        simp only [hcond, if_true]
      rw [hloop]
      obtain ⟨s1, s2, s3, s4, s5⟩ := consumeOneGroup_spec e1 src chk
      cases hs : e1.consumeOneGroup src chk with
      | mk r rest =>
        obtain ⟨e2, src2, chk2⟩ := rest
        rw [hs] at s1 s2 s3 s4 s5
        have s1b : e2.groupByExprs = e.groupByExprs := s1.trans h1a
        have s2b : e2.newAggFuncs = e.newAggFuncs := s2.trans h1b
        have s4b : AtMostOneRecord e.newAggFuncs chk chk2 := by rw [← h1b]; exact s4
        cases r with
        | some f =>
          refine ⟨s3, ?_⟩
          rcases s4b with h | ⟨key, ds, h1, h2⟩
          · exact ⟨[], by simpa using h, by simp, fun h => absurd h hexn, Or.inl rfl⟩
          · exact ⟨[(key, ds)], by simpa using h2, by simpa using h1,
              fun h => absurd h hexn, Or.inr (by simp; omega)⟩
        | none =>
          by_cases hex2 : e2.executed = true
          · obtain ⟨i1, recs, i2, i3, i4, _⟩ := ih e2 src2 chk2 (Or.inl ⟨hex2, by omega⟩)
            have hnil := i4 hex2
            subst hnil
            refine ⟨i1, ?_⟩
            simp only [List.foldl_nil] at i2
            have i2b : (match ((none : Option (Failure Err)), e2, src2, chk2) with
                | (some f, e2, src2, chk2) => (some f, { e2 with executed := true }, src2, chk2)
                | (none, e2, src2, chk2) =>
                  streamAggExec.nextChunkLoop chunkMaxRows fuel e2 src2 chk2).2.2.2 = chk2 := i2
            rcases s4b with h | ⟨key, ds, h1, h2⟩
            · exact ⟨[], by rw [i2b]; simpa using h, by simp, fun h => absurd h hexn,
                Or.inl rfl⟩
            · exact ⟨[(key, ds)], by rw [i2b]; simpa using h2, by simpa using h1,
                fun h => absurd h hexn, Or.inr (by simp; omega)⟩
          · have hex3 : e2.executed = false := by simpa using hex2
            obtain ⟨k1, k2, hcols, key, ds, k3, k4, k5⟩ := s5 rfl hex3
            have k2b : e2.inputIter.length + streamAggExec.srcRows src2 <
                e1.inputIter.length + streamAggExec.srcRows src := k2
            have k5b : chk2 = appendRecord e.newAggFuncs chk (key, ds) := by
              rw [← h1b]; exact k5
            obtain ⟨i1, recs, i2, i3, _, i5⟩ := ih e2 src2 chk2 (Or.inr (by omega))
            have i2b : (match ((none : Option (Failure Err)), e2, src2, chk2) with
                | (some f, e2, src2, chk2) => (some f, { e2 with executed := true }, src2, chk2)
                | (none, e2, src2, chk2) =>
                  streamAggExec.nextChunkLoop chunkMaxRows fuel e2 src2 chk2).2.2.2 =
                List.foldl (appendRecord e2.newAggFuncs) chk2 recs := i2
            refine ⟨i1, (key, ds) :: recs, ?_, ?_, fun h => absurd h hexn, ?_⟩
            · rw [i2b, s2b, k5b]
              rfl
            · intro rec hrec
              rcases List.mem_cons.1 hrec with h | h
              · subst h
                rw [← h1b]; exact k4
              · rw [← s2b]; exact i3 rec h
            · have hgrow : chk.NumRows + 1 ≤ chk2.NumRows := by
                rw [k5b]
                exact numRows_appendRecord_key e.newAggFuncs chk key ds (by rw [k3]; exact k1)
                  hcols
              right
              rcases i5 with h | h
              · subst h
                simp only [List.length_cons, List.length_nil]
                omega
              · simp only [List.length_cons]
                omega
    · have hloop : streamAggExec.nextChunkLoop chunkMaxRows (fuel + 1) e src chk =
          (none, e, src, chk) := by
        rw [streamAggExec.nextChunkLoop]
        simp only [hcond, Bool.false_eq_true, if_false]
      rw [hloop]
      exact ⟨fun h => by simp at h, [], rfl, by simp, fun _ => rfl, Or.inl rfl⟩

/-- The model's fuel for `nextChunk` is enough in every state. -/
theorem nextChunk_fuel (chunkMaxRows : Nat) (e : streamAggExec Datum Row Ctx PR Err)
    (src : ChunkSrc Row Err) (chk : Chunk Datum) :
    (e.nextChunk chunkMaxRows src chk).1 ≠ some .outOfFuel :=
  (nextChunkLoop_spec chunkMaxRows _ e src chk.Reset (Or.inr (Nat.le_refl _))).1

end BatchGeneralChunk

section BatchBoundTheorem

variable {Datum Row Ctx PR Err : Type}

/-- Claim C16.  Stream engine, batch API, for every state of the engine, every source,
every output batch and every `chunkMaxRows`, whatever the collaborators return.
(1) The output batch that `nextChunk` returns is the cleared batch (the columns of the
batch handed in, no cell, no virtual row) with records appended to it, so its cells are
the cells of these records and nothing of its former contents is left; the number of
records appended is at most `chunkMaxRows`.  (2) One call of `consumeOneGroup` appends at
most one record.  (3) The loops of the model have enough fuel, so these are the results
of the code. -/
theorem C16_nextChunk_clears_and_bounds (chunkMaxRows : Nat)
    (e : streamAggExec Datum Row Ctx PR Err) (src : ChunkSrc Row Err) (chk : Chunk Datum) :
    (∃ recs : List (List Datum × List Datum),
      (e.nextChunk chunkMaxRows src chk).2.2.2 =
        recs.foldl (appendRecord e.newAggFuncs) (clearedChunk chk) ∧
      (e.nextChunk chunkMaxRows src chk).2.2.2.cells =
        recs.flatMap (recordCells e.newAggFuncs) ∧
      (∀ rec ∈ recs, rec.2.length ≤ e.newAggFuncs.length) ∧
      recs.length ≤ chunkMaxRows) ∧
    AtMostOneRecord e.newAggFuncs chk (e.consumeOneGroup src chk).2.2.2 ∧
    (e.nextChunk chunkMaxRows src chk).1 ≠ some .outOfFuel ∧
    (e.consumeOneGroup src chk).1 ≠ some .outOfFuel := by
  obtain ⟨_, recs, h2, h3, _, h5⟩ := nextChunkLoop_spec chunkMaxRows
    (e.inputIter.length + streamAggExec.srcRows src + 2) e src chk.Reset (Or.inr (Nat.le_refl _))
  have h2b : (e.nextChunk chunkMaxRows src chk).2.2.2 =
      recs.foldl (appendRecord e.newAggFuncs) (clearedChunk chk) := h2
  refine ⟨⟨recs, h2b, ?_, h3, ?_⟩, (consumeOneGroup_spec e src chk).2.2.2.1,
    nextChunk_fuel chunkMaxRows e src chk, consumeOneGroup_fuel e src chk⟩
  · rw [h2b, cells_foldl_appendRecord]
    rfl
  · rcases h5 with h | h
    · subst h
      simp
    · rw [numRows_reset] at h
      omega

/-- Witness of C16: the batch API on the rows of `Demo` in three batches, with
`chunkMaxRows = 2` and an output batch with three columns. -/
theorem C16_nextChunk_clears_and_bounds_witness :
    ∃ recs : List (List Nat × List Nat),
      ((streamAggExec.new Demo.ec [Demo.count] [Demo.col 0] [0, 1] ([] : List Nat)
          [Demo.countF]).open.nextChunk 2 (Demo.batches.map .ok) Demo.chunk).2.2.2 =
        recs.foldl (appendRecord [Demo.countF]) (clearedChunk Demo.chunk) ∧
      recs.length ≤ 2 := by
  obtain ⟨recs, h1, _, _, h3⟩ := (C16_nextChunk_clears_and_bounds 2
    (streamAggExec.new Demo.ec [Demo.count] [Demo.col 0] [0, 1] ([] : List Nat)
      [Demo.countF]).open (Demo.batches.map .ok) Demo.chunk).1
  exact ⟨recs, h1, h3⟩

end BatchBoundTheorem

section BatchEnd

variable {Datum Row Ctx PR Err : Type}

/-- The records of the batch API are the records appended at group boundaries, followed
by the record of the last group if a row has been read. -/
theorem absRun_eq_absBatches (P : PureFns Datum Row Ctx Err) (Q : PureAggFns Datum Row PR Err)
    (cmp : Datum → Datum → Int) (exprs : List (Expression Datum Row Err))
    (F : List (AggFunc Datum Row PR Err)) (batches : List (List Row))
    (hb : ∀ b ∈ batches, b ≠ []) (s : BatchAbs Datum Row PR) (seen : Bool) :
    absRun P Q cmp exprs F s seen batches =
      (absBatches P Q cmp exprs F s batches).1 ++
        absEnd Q F (absBatches P Q cmp exprs F s batches).2 (seen || !batches.isEmpty) := by
  induction batches generalizing s seen with
  | nil => simp [absRun, absBatches]
  | cons b bs ih =>
    cases b with
    | nil => exact absurd rfl (hb [] (List.mem_cons_self _ _))
    | cons r b =>
      rw [absRun_cons, ih (fun b2 hb2 => hb b2 (List.mem_cons_of_mem _ hb2))]
      simp [absBatches, absEnd]

/-- A call of `nextChunk` once the execution is finished: the output batch is cleared and
nothing else happens. -/
theorem nextChunk_executed (chunkMaxRows : Nat) (e : streamAggExec Datum Row Ctx PR Err)
    (h : e.executed = true) (src : ChunkSrc Row Err) (chk : Chunk Datum) :
    e.nextChunk chunkMaxRows src chk = (none, e, src, chk.Reset) := by
  unfold streamAggExec.nextChunk
  rw [streamAggExec.nextChunkLoop]
  simp [h]

/-- The first call of `nextChunk` after `open` when the source delivers no row. -/
theorem nextChunk_open_empty (chunkMaxRows : Nat) (hmax : 0 < chunkMaxRows)
    (ec : evalContext Datum Row Err) (offs : List Nat) (exprs : List (Expression Datum Row Err))
    (aggs : List (Aggregation Datum Row Ctx Err)) (F : List (AggFunc Datum Row PR Err))
    (row : Row) (src : ChunkSrc Row Err) (hsrc : FirstBatchEmpty src) (chk : Chunk Datum) :
    (streamAggExec.new ec aggs exprs offs row F).open.nextChunk chunkMaxRows src chk =
      (none, batchSt ec offs exprs aggs F row (batchInit F) (some []) true true [], src.tail,
        chk.Reset) := by
  have hrows : chk.Reset.NumRows < chunkMaxRows := by rw [numRows_reset]; exact hmax
  have hstep : (batchSt ec offs exprs aggs F row (batchInit F) (some []) true false
      []).fetchChildIfNecessary src chk.Reset =
      (none, batchSt ec offs exprs aggs F row (batchInit F) (some []) true true [], src.tail,
        chk.Reset) := by
    rcases hsrc with rfl | ⟨rest, rfl⟩ <;>
      simp [streamAggExec.fetchChildIfNecessary, streamAggExec.consumeGroupRows, batchSt,
        batchInit]
  have hgroup : (batchSt ec offs exprs aggs F row (batchInit F) (some []) true false
      []).consumeOneGroup src chk.Reset =
      (none, batchSt ec offs exprs aggs F row (batchInit F) (some []) true true [], src.tail,
        chk.Reset) := by
    unfold streamAggExec.consumeOneGroup
    rw [streamAggExec.consumeOneGroupLoop]
    have hex : (batchSt ec offs exprs aggs F row (batchInit F) (some []) true false
      []).executed = false := rfl
    simp only [hex, Bool.false_eq_true, if_false, hstep]
    simp only [batchSt, streamAggExec.consumeRows]
    rw [consumeOneGroupLoop_executed _ rfl]
  rw [open_new]
  unfold streamAggExec.nextChunk
  rw [streamAggExec.nextChunkLoop]
  have hex : (batchSt ec offs exprs aggs F row (batchInit F) (some []) true false
      []).executed = false := rfl
  have hchild : (batchSt ec offs exprs aggs F row (batchInit F) (some []) true false
      []).childResult.isNone = false := rfl
  simp only [hex, Bool.not_false, Bool.true_and, hrows, decide_True, if_true, hchild,
    Bool.false_eq_true, if_false, hgroup]
  rw [streamAggExec.nextChunkLoop]
  simp [batchSt]

end BatchEnd

section BatchEndTheorem

variable {Datum Row Ctx PR Err : Type}

/-- Claim C13.  Stream engine, batch API, at input exhaustion, with a positive
`chunkMaxRows`.  (1) When the source delivers the non-empty batches `batches`, no
collaborator fails and the output batch has a column for every group-by value and for the
result of every aggregate function, enough calls of `nextChunk` all succeed, each returns
the cleared output batch with records appended to it, and the records of all calls
together are the records appended at group boundaries, followed by the record of the last
group (its group-by values and the final results of its partial results after its
buffered rows have been fed) if `batches` is not empty, and by nothing if it is; the
cells of the output batches, concatenated, are the cells of these records.  (2) When the
first input batch is empty, for every list of group-by expressions and of aggregate
functions, the first call returns without failure, leaves the cleared output batch empty
and marks the execution as finished.  (3) Once the execution is finished, every call
returns the cleared output batch, leaves the state as it is and does not pull the
source. -/
theorem C13_batch_input_exhaustion (P : PureFns Datum Row Ctx Err)
    (Q : PureAggFns Datum Row PR Err) (cmp : Datum → Datum → Int)
    (ec : evalContext Datum Row Err) (offs : List Nat) (exprs : List (Expression Datum Row Err))
    (aggs : List (Aggregation Datum Row Ctx Err)) (F : List (AggFunc Datum Row PR Err))
    (row : Row) (chunkMaxRows : Nat) (hmax : 0 < chunkMaxRows) (chk : Chunk Datum) :
    (∀ (batches : List (List Row)) (n : Nat), (∀ b ∈ batches, b ≠ []) →
      ChunkOk P Q cmp ec exprs F batches.flatten → ChunkFits exprs F chk →
      (absBatches P Q cmp exprs F (batchInit F) batches).1.length + 1 < n →
      batchOutput chunkMaxRows n (streamAggExec.new ec aggs exprs offs row F).open
          (batches.map .ok) chk =
        (absBatches P Q cmp exprs F (batchInit F) batches).1.flatMap (recordCells F) ++
          (if batches.isEmpty then []
           else recordCells F
             ((absBatches P Q cmp exprs F (batchInit F) batches).2.curr,
              finalsOf Q F (flushRows Q F (absBatches P Q cmp exprs F (batchInit F) batches).2.buf
                (absBatches P Q cmp exprs F (batchInit F) batches).2.prs))) ∧
      (∀ res ∈ streamAggExec.nextChunks chunkMaxRows n
          (streamAggExec.new ec aggs exprs offs row F).open (batches.map .ok) chk,
        res.1 = none) ∧
      ∃ groups : List (List (List Datum × List Datum)),
        groups.flatten =
          (absBatches P Q cmp exprs F (batchInit F) batches).1 ++
            (if batches.isEmpty then []
             else [((absBatches P Q cmp exprs F (batchInit F) batches).2.curr,
               finalsOf Q F (flushRows Q F (absBatches P Q cmp exprs F (batchInit F) batches).2.buf
                 (absBatches P Q cmp exprs F (batchInit F) batches).2.prs))]) ∧
        streamAggExec.nextChunks chunkMaxRows n
            (streamAggExec.new ec aggs exprs offs row F).open (batches.map .ok) chk =
          groups.map (fun recs => (none, recs.foldl (appendRecord F) (clearedChunk chk)))) ∧
    (∀ src : ChunkSrc Row Err, FirstBatchEmpty src →
      ∃ e2, (streamAggExec.new ec aggs exprs offs row F).open.nextChunk chunkMaxRows src chk =
          (none, e2, src.tail, chk.Reset) ∧ e2.executed = true ∧ chk.Reset.cells = []) ∧
    (∀ (e : streamAggExec Datum Row Ctx PR Err) (src : ChunkSrc Row Err), e.executed = true →
      e.nextChunk chunkMaxRows src chk = (none, e, src, chk.Reset)) := by
  refine ⟨?_, ?_, fun e src h => nextChunk_executed chunkMaxRows e h src chk⟩
  · intro batches n hb hok hfit hn
    have hrun := absRun_eq_absBatches P Q cmp exprs F batches hb (batchInit F) false
    have hlen : (absRun P Q cmp exprs F (batchInit F) false batches).length < n := by
      rw [hrun, List.length_append]
      have : (absEnd Q F (absBatches P Q cmp exprs F (batchInit F) batches).2
          (false || !batches.isEmpty)).length ≤ 1 := by
        unfold absEnd
        split <;> simp
      omega
    obtain ⟨g1, g2⟩ := batchOutput_open P Q cmp ec offs exprs aggs F row batches hok chunkMaxRows
      hmax chk hfit n hlen
    obtain ⟨groups, k1, k2⟩ := nextChunks_open P Q cmp ec offs exprs aggs F row batches hok
      chunkMaxRows hmax chk hfit n hlen
    refine ⟨?_, g2, groups, ?_, k2⟩
    · rw [g1, hrun, List.flatMap_append]
      congr 1
      cases batches with
      | nil => simp [absEnd]
      | cons b bs => simp [absEnd]
    · rw [k1, hrun]
      congr 1
      cases batches with
      | nil => simp [absEnd]
      | cons b bs => simp [absEnd]
  · intro src hsrc
    exact ⟨_, nextChunk_open_empty chunkMaxRows hmax ec offs exprs aggs F row src hsrc chk, rfl,
      rfl⟩

theorem Demo.nonempty_batches : ∀ b ∈ Demo.batches, b ≠ [] := by decide

/-- Witness of C13 on the instance `Demo`, with an output batch of three columns: the
rows in three batches, and the empty source. -/
theorem C13_batch_input_exhaustion_witness :
    (batchOutput 1024 4
        (streamAggExec.new Demo.ec [Demo.count] [Demo.col 0] [0, 1] ([] : List Nat)
          [Demo.countF]).open (Demo.batches.map .ok) Demo.chunk =
      (absBatches Demo.fns Demo.aggFns Demo.cmp [Demo.col 0] [Demo.countF]
          (batchInit [Demo.countF]) Demo.batches).1.flatMap (recordCells [Demo.countF]) ++
        (if Demo.batches.isEmpty then []
         else recordCells [Demo.countF]
           ((absBatches Demo.fns Demo.aggFns Demo.cmp [Demo.col 0] [Demo.countF]
              (batchInit [Demo.countF]) Demo.batches).2.curr,
            finalsOf Demo.aggFns [Demo.countF]
              (flushRows Demo.aggFns [Demo.countF]
                (absBatches Demo.fns Demo.aggFns Demo.cmp [Demo.col 0] [Demo.countF]
                  (batchInit [Demo.countF]) Demo.batches).2.buf
                (absBatches Demo.fns Demo.aggFns Demo.cmp [Demo.col 0] [Demo.countF]
                  (batchInit [Demo.countF]) Demo.batches).2.prs)))) ∧
    (∃ e2, (streamAggExec.new Demo.ec [Demo.count] [Demo.col 0] [0, 1] ([] : List Nat)
        [Demo.countF]).open.nextChunk 1024 [] Demo.chunk =
      (none, e2, ([] : ChunkSrc (List Nat) String).tail, Demo.chunk.Reset) ∧
      e2.executed = true ∧ Demo.chunk.Reset.cells = []) :=
  ⟨((C13_batch_input_exhaustion Demo.fns Demo.aggFns Demo.cmp Demo.ec [0, 1] [Demo.col 0]
      [Demo.count] [Demo.countF] [] 1024 (by decide) Demo.chunk).1 Demo.batches 4
      Demo.nonempty_batches (Demo.chunkOk _ _ (by simp) (by simp) _)
      (Demo.chunkFits _ _ (by decide) (by simp)) (by decide)).1,
   (C13_batch_input_exhaustion Demo.fns Demo.aggFns Demo.cmp Demo.ec [0, 1] [Demo.col 0]
      [Demo.count] [Demo.countF] [] 1024 (by decide) Demo.chunk).2.1 [] (Or.inl rfl)⟩

end BatchEndTheorem

section VirtualRows

variable {Datum Row Ctx PR Err : Type}

/-- Without group-by expressions no row starts a new group: the loop over the rows of the
input batch buffers them all. -/
theorem consumeRows_no_exprs (ec : evalContext Datum Row Err) (offs : List Nat)
    (aggs : List (Aggregation Datum Row Ctx Err)) (F : List (AggFunc Datum Row PR Err))
    (row : Row) (child : Option (List Row)) (isE : Bool) (it : List Row)
    (s : BatchAbs Datum Row PR) (iter0 : List Row) (chk : Chunk Datum) :
    (batchSt ec offs [] aggs F row s child isE false iter0).consumeRows chk it =
      (.ok false, batchSt ec offs [] aggs F row { s with buf := s.buf ++ it } child isE false [],
        chk) := by
  induction it generalizing s iter0 with
  | nil => simp [streamAggExec.consumeRows, batchSt]
  | cons r it ih =>
    have hm : (batchSt ec offs [] aggs F row s child isE false iter0).meetNewGroupChunk r =
        (.ok false, batchSt ec offs [] aggs F row s child isE false iter0) := by
      simp [streamAggExec.meetNewGroupChunk, batchSt]
    have h2 := ih { s with buf := s.buf ++ [r] } iter0
    simp only [batchSt] at hm h2
    simp only [streamAggExec.consumeRows, batchSt, hm, Bool.false_eq_true, if_false, h2,
      List.append_assoc, List.singleton_append]

/-- Without aggregate functions `consumeGroupRows` only empties the buffer. -/
theorem consumeGroupRows_no_funcs (ec : evalContext Datum Row Err) (offs : List Nat)
    (exprs : List (Expression Datum Row Err)) (aggs : List (Aggregation Datum Row Ctx Err))
    (row : Row) (child : Option (List Row)) (isE ex : Bool) (s : BatchAbs Datum Row PR)
    (iter : List Row) :
    (batchSt ec offs exprs aggs ([] : List (AggFunc Datum Row PR Err)) row s child isE ex
        iter).consumeGroupRows =
      (none, batchSt ec offs exprs aggs [] row { s with buf := [] } child isE ex iter) := by
  by_cases hb : s.buf.length = 0
  · have hnil : s.buf = [] := List.length_eq_zero.1 hb
    simp [streamAggExec.consumeGroupRows, batchSt, hnil]
  · simp [streamAggExec.consumeGroupRows, batchSt, hb, streamAggExec.consumeGroupRowsLoop]

/-- Without group-by expressions and aggregate functions, with nothing left in the
current input batch: one call of the loop of `consumeOneGroup` reads the whole input and
appends one record without cells if a row has been read. -/
theorem consumeOneGroupLoop_plain (ec : evalContext Datum Row Err) (offs : List Nat)
    (aggs : List (Aggregation Datum Row Ctx Err)) (row : Row) (batches : List (List Row))
    (hb : ∀ b ∈ batches, b ≠ []) :
    ∀ (fuel : Nat) (s : BatchAbs Datum Row PR) (isE : Bool) (c : List Row) (chk : Chunk Datum),
      batches.length + 2 ≤ fuel → s.curr.length ≤ chk.numCols →
      streamAggExec.consumeOneGroupLoop fuel
          (batchSt ec offs [] aggs ([] : List (AggFunc Datum Row PR Err)) row s (some c) isE false
            []) (batches.map .ok) chk =
        (none, batchSt ec offs [] aggs [] row { s with buf := [] } (some [])
            (isE && batches.isEmpty) true [], [],
          if (isE && batches.isEmpty) = true then chk
          else appendRecord ([] : List (AggFunc Datum Row PR Err)) chk (s.curr, [])) := by
  induction batches with
  | nil =>
    intro fuel s isE c chk hfuel hcurr
    obtain ⟨f, rfl⟩ : ∃ f, fuel = f + 2 := ⟨fuel - 2, by simp at hfuel; omega⟩
    have hflush := consumeGroupRows_no_funcs ec offs [] aggs row (some c) isE false s
      ([] : List Row)
    have hex : (batchSt ec offs [] aggs ([] : List (AggFunc Datum Row PR Err)) row s (some c) isE
        false []).executed = false := rfl
    rw [streamAggExec.consumeOneGroupLoop]
    simp only [hex, Bool.false_eq_true, if_false]
    cases isE with
    | true =>
      have hf : (batchSt ec offs [] aggs ([] : List (AggFunc Datum Row PR Err)) row s (some c)
          true false []).fetchChildIfNecessary ([] : ChunkSrc Row Err) chk =
          (none, batchSt ec offs [] aggs [] row { s with buf := [] } (some []) true true [], [],
            chk) := by
        simp only [batchSt] at hflush
        simp [streamAggExec.fetchChildIfNecessary, batchSt, hflush]
      simp only [List.map_nil, hf]
      simp only [batchSt, streamAggExec.consumeRows]
      rw [consumeOneGroupLoop_executed _ rfl]
      simp
    | false =>
      have hf : (batchSt ec offs [] aggs ([] : List (AggFunc Datum Row PR Err)) row s (some c)
          false false []).fetchChildIfNecessary ([] : ChunkSrc Row Err) chk =
          (none, batchSt ec offs [] aggs [] row { s with buf := [] } (some []) false true [], [],
            appendRecord ([] : List (AggFunc Datum Row PR Err)) chk (s.curr, [])) := by
        have h0 : (streamAggExec.appendGroupByLoop s.curr 0 chk :
            Option (Failure Err) × Chunk Datum) =
            (none, { chk with cells := chk.cells ++ s.curr.enumFrom 0 }) :=
          appendGroupByLoop_ok s.curr 0 chk (by omega)
        simp only [batchSt] at hflush
        simp [streamAggExec.fetchChildIfNecessary, batchSt, hflush,
          streamAggExec.appendResult2Chunk, streamAggExec.appendFinalLoop, h0,
          appendRecord, recordCells, List.enum, Chunk.SetNumVirtualRows]
      simp only [List.map_nil, hf]
      simp only [batchSt, streamAggExec.consumeRows]
      rw [consumeOneGroupLoop_executed _ rfl]
      simp
  | cons b bs ih =>
    intro fuel s isE c chk hfuel hcurr
    cases b with
    | nil => exact absurd rfl (hb [] (List.mem_cons_self _ _))
    | cons r b =>
      obtain ⟨f, rfl⟩ : ∃ f, fuel = f + 1 := ⟨fuel - 1, by omega⟩
      have hflush := consumeGroupRows_no_funcs ec offs [] aggs row (some c) isE false s
        ([] : List Row)
      have hex : (batchSt ec offs [] aggs ([] : List (AggFunc Datum Row PR Err)) row s (some c)
          isE false []).executed = false := rfl
      have hf : (batchSt ec offs [] aggs ([] : List (AggFunc Datum Row PR Err)) row s (some c)
          isE false []).fetchChildIfNecessary (((r :: b) :: bs).map .ok) chk =
          (none, batchSt ec offs [] aggs [] row { s with buf := [] } (some (r :: b)) false false
            (r :: b), bs.map .ok, chk) := by
        simp only [batchSt] at hflush
        simp [streamAggExec.fetchChildIfNecessary, batchSt, hflush]
      have hiter : (batchSt ec offs [] aggs ([] : List (AggFunc Datum Row PR Err)) row
          { s with buf := [] } (some (r :: b)) false false (r :: b)).inputIter = r :: b := rfl
      have hrows := consumeRows_no_exprs ec offs aggs ([] : List (AggFunc Datum Row PR Err)) row
        (some (r :: b)) false (r :: b) { s with buf := [] } (r :: b) chk
      rw [streamAggExec.consumeOneGroupLoop]
      simp only [hex, Bool.false_eq_true, if_false, hf, hiter, hrows]
      have h2 := ih (fun b2 hb2 => hb b2 (List.mem_cons_of_mem _ hb2)) f
        { s with buf := [] ++ (r :: b) } false (r :: b) chk
        (by simp only [List.length_cons] at hfuel; omega) hcurr
      rw [h2]
      simp

end VirtualRows

section VirtualRowsTheorem

variable {Datum Row Ctx PR Err : Type}

/-- Calls of `nextChunk` once the execution is finished: each returns the cleared output
batch. -/
theorem nextChunks_executed (chunkMaxRows : Nat) (n : Nat)
    (e : streamAggExec Datum Row Ctx PR Err) (h : e.executed = true) (src : ChunkSrc Row Err)
    (chk : Chunk Datum) :
    streamAggExec.nextChunks chunkMaxRows n e src chk = List.replicate n (none, chk.Reset) := by
  induction n generalizing chk with
  | zero => rfl
  | succ n ih =>
    rw [streamAggExec.nextChunks, nextChunk_executed chunkMaxRows e h src chk]
    simp only [List.replicate_succ]
    rw [ih chk.Reset]
    rfl

/-- The first call of `nextChunk` after `open`, without group-by expressions and
aggregate functions, on an input with at least one row. -/
theorem nextChunk_open_plain (chunkMaxRows : Nat) (hmax : 0 < chunkMaxRows)
    (ec : evalContext Datum Row Err) (offs : List Nat)
    (aggs : List (Aggregation Datum Row Ctx Err)) (row : Row) (batches : List (List Row))
    (hb : ∀ b ∈ batches, b ≠ []) (hne : batches ≠ []) (chk : Chunk Datum) :
    (streamAggExec.new ec aggs [] offs row ([] : List (AggFunc Datum Row PR Err))).open.nextChunk
        chunkMaxRows (batches.map .ok) chk =
      (none, batchSt ec offs [] aggs [] row (batchInit ([] : List (AggFunc Datum Row PR Err)))
          (some []) false true [], [],
        { chk with cells := [], numVirtualRows := 1 }) := by
  have hrows : chk.Reset.NumRows < chunkMaxRows := by rw [numRows_reset]; exact hmax
  have hempty : batches.isEmpty = false := by
    cases batches with
    | nil => exact absurd rfl hne
    | cons b bs => rfl
  have hgroup : (batchSt ec offs [] aggs ([] : List (AggFunc Datum Row PR Err)) row
      (batchInit ([] : List (AggFunc Datum Row PR Err))) (some []) true false []).consumeOneGroup (batches.map .ok) chk.Reset =
      (none, batchSt ec offs [] aggs [] row (batchInit ([] : List (AggFunc Datum Row PR Err)))
          (some []) false true [], [],
        { chk with cells := [], numVirtualRows := 1 }) := by
    unfold streamAggExec.consumeOneGroup
    rw [consumeOneGroupLoop_plain ec offs aggs row batches hb _ _ _ _ _
      (by rw [List.length_map]; omega) (Nat.zero_le _)]
    simp only [hempty, Bool.and_false, Bool.false_eq_true, if_false]
    have hrec : appendRecord ([] : List (AggFunc Datum Row PR Err)) chk.Reset
        ((batchInit ([] : List (AggFunc Datum Row PR Err))).curr, []) =
        { chk with cells := [], numVirtualRows := 1 } := by
      by_cases hc : chk.numCols = 0 <;>
        simp [appendRecord, batchInit, recordCells, Chunk.Reset, Chunk.NumRows, Chunk.column, hc]
    rw [hrec]
    rfl
  rw [open_new]
  unfold streamAggExec.nextChunk
  rw [streamAggExec.nextChunkLoop]
  have hex : (batchSt ec offs [] aggs ([] : List (AggFunc Datum Row PR Err)) row
      (batchInit ([] : List (AggFunc Datum Row PR Err))) (some []) true false []).executed = false := rfl
  have hchild : (batchSt ec offs [] aggs ([] : List (AggFunc Datum Row PR Err)) row
      (batchInit ([] : List (AggFunc Datum Row PR Err))) (some []) true false []).childResult.isNone = false := rfl
  simp only [hex, Bool.not_false, Bool.true_and, hrows, decide_True, if_true, hchild,
    Bool.false_eq_true, if_false, hgroup]
  rw [streamAggExec.nextChunkLoop]
  simp [batchSt]

/-- Claim C17.  Stream engine, batch API, with zero group-by expressions and zero
aggregate functions, for every input with at least one row (delivered in non-empty
batches) and a positive `chunkMaxRows`: no call of `nextChunk` fails; the first call meets
the end of the input and returns the output batch without any cell and with the virtual
row count 1; every later call returns the cleared output batch, without cells and with
the virtual row count 0.  So one virtual row is emitted in total and no column value. -/
theorem C17_batch_virtual_row (ec : evalContext Datum Row Err) (offs : List Nat)
    (aggs : List (Aggregation Datum Row Ctx Err)) (row : Row) (batches : List (List Row))
    (hb : ∀ b ∈ batches, b ≠ []) (hne : batches ≠ []) (chunkMaxRows : Nat)
    (hmax : 0 < chunkMaxRows) (chk : Chunk Datum) (n : Nat) :
    streamAggExec.nextChunks chunkMaxRows (n + 1)
        (streamAggExec.new ec aggs [] offs row ([] : List (AggFunc Datum Row PR Err))).open
        (batches.map .ok) chk =
      (none, { chk with cells := [], numVirtualRows := 1 }) ::
        List.replicate n (none, { chk with cells := [], numVirtualRows := 0 }) := by
  rw [streamAggExec.nextChunks,
    nextChunk_open_plain chunkMaxRows hmax ec offs aggs row batches hb hne chk]
  simp only
  rw [nextChunks_executed chunkMaxRows n _ rfl]
  rfl

/-- Witness of C17 on the rows of `Demo` in three batches, with an output batch without
columns. -/
theorem C17_batch_virtual_row_witness :
    (∀ b ∈ Demo.batches, b ≠ []) ∧ Demo.batches ≠ [] ∧ 0 < 1024 ∧
    streamAggExec.nextChunks 1024 (2 + 1)
        (streamAggExec.new Demo.ec [Demo.count] [] [0, 1] ([] : List Nat)
          ([] : List (AggFunc Nat (List Nat) Nat String))).open
        (Demo.batches.map .ok) { numCols := 0, cells := [], numVirtualRows := 0 } =
      (none, { numCols := 0, cells := [], numVirtualRows := 1 }) ::
        List.replicate 2 (none, { numCols := 0, cells := [], numVirtualRows := 0 }) :=
  ⟨Demo.nonempty_batches, by decide, by decide,
   C17_batch_virtual_row Demo.ec [0, 1] [Demo.count] [] Demo.batches Demo.nonempty_batches
     (by decide) 1024 (by decide) { numCols := 0, cells := [], numVirtualRows := 0 } 2⟩

end VirtualRowsTheorem

section UpdateLemmas

variable {Datum Row Ctx Err : Type}

end UpdateLemmas

section EncodeFailures

variable {Datum Row Ctx PR Err : Type}

end EncodeFailures

section HashFailures

variable {Datum Row Ctx PR Err : Type}

end HashFailures

section StreamFailureLemmas

variable {Datum Row Ctx PR Err : Type}

end StreamFailureLemmas

section StreamFailureSteps

variable {Datum Row Ctx PR Err : Type}

end StreamFailureSteps

section StreamFailureLoop

variable {Datum Row Ctx PR Err : Type}

end StreamFailureLoop

section ErrorPropagationTheorem

variable {Datum Row Ctx PR Err : Type}

end ErrorPropagationTheorem

namespace Demo

end Demo

section ErrorPropagationWitness

end ErrorPropagationWitness

end tikv
